import Mathlib

/-!
# yu-stream-editor: chart payload codec, code-fence renderer and stream assembler

Shallow embedding of `src/Editor.js`.  JavaScript strings are sequences of
UTF-16 code units (`JStr`).  The platform functions the editor calls
(`btoa`, `atob`, `escape`, `unescape`, `encodeURIComponent`,
`decodeURIComponent`, `JSON.parse`, `JSON.stringify`, `String.prototype.trim`)
are written out following ECMA-262 / the HTML standard; a function that can
throw returns `Option`, `none` standing for the exception.
-/

namespace YuStreamEditor

/-! ## Strings -/

/-- JavaScript string: the list of its UTF-16 code units. -/
abbrev JStr := List Nat

/-- UTF16EncodeCodePoint of ECMA-262: one code unit in the BMP, a surrogate pair above. -/
def utf16EncodeCodePoint (cp : Nat) : JStr :=
  if cp < 65536 then [cp]
  else [55296 + (cp - 65536) / 1024, 56320 + (cp - 65536) % 1024]

/-- Code units of a string literal of this file. -/
def js (s : String) : JStr :=
  s.toList.flatMap (fun c => utf16EncodeCodePoint c.toNat)

/-- Code unit in D800..DBFF. -/
def isHighSurrogate (c : Nat) : Bool := decide (55296 ≤ c) && decide (c ≤ 56319)

/-- Code unit in DC00..DFFF. -/
def isLowSurrogate (c : Nat) : Bool := decide (56320 ≤ c) && decide (c ≤ 57343)

/-- A string a JavaScript engine can hold: every code unit is below 2^16. -/
def isJStr (s : JStr) : Bool := s.all (fun c => decide (c < 65536))

/-- No unpaired surrogate: every high surrogate is followed by a low one and
every low surrogate follows a high one. -/
def isWellFormedUnicode : JStr → Bool
  | [] => true
  | c :: tail =>
    if isHighSurrogate c then
      match tail with
      | d :: rest => isLowSurrogate d && isWellFormedUnicode rest
      | [] => false
    else if isLowSurrogate c then false
    else isWellFormedUnicode tail

/-- WhiteSpace and LineTerminator code units of ECMA-262 (what `trim` strips). -/
def isTrimSpace (c : Nat) : Bool :=
  decide (c = 9) || decide (c = 10) || decide (c = 11) || decide (c = 12) || decide (c = 13) ||
  decide (c = 32) || decide (c = 160) || decide (c = 5760) ||
  (decide (8192 ≤ c) && decide (c ≤ 8202)) ||
  decide (c = 8232) || decide (c = 8233) || decide (c = 8239) || decide (c = 8287) ||
  decide (c = 12288) || decide (c = 65279)

/-- Strip leading white space. -/
def trimStart : JStr → JStr
  | [] => []
  | c :: tail => if isTrimSpace c then trimStart tail else c :: tail

/-- Strip trailing white space. -/
def trimEnd (s : JStr) : JStr := (trimStart s.reverse).reverse

/-- The method `String.prototype.trim`. -/
def trim (s : JStr) : JStr := trimEnd (trimStart s)

/-- What the editor needs from the JavaScript platform beyond the functions
written out below: two tables of the engine that the source does not contain. -/
structure Platform where
  /-- Unicode lower-casing of a string that has a code unit outside ASCII. -/
  lowerUnicode : JStr → JStr
  /-- What `JSON.stringify` prints for the double nearest to a number literal
  that is not a safe integer literal: Number::toString of it, or `null` when
  it is not finite; its characters are ASCII. -/
  numberText : JStr → List (Fin 128)

/-- Lower-casing of an ASCII code unit. -/
def lowerAscii (c : Nat) : Nat := if 65 ≤ c ∧ c ≤ 90 then c + 32 else c

/-- The method `String.prototype.toLowerCase`: `A`..`Z` go to `a`..`z` in an
ASCII string; a string with other code units is mapped by the platform. -/
def toLowerCase (P : Platform) (s : JStr) : JStr :=
  if s.all (fun c => decide (c < 128)) then s.map lowerAscii else P.lowerUnicode s

/-! ## Hexadecimal digits and UTF-8 -/

/-- Upper-case hexadecimal digit of a value below 16. -/
def hexUpper (n : Nat) : Nat := if n < 10 then 48 + n else 55 + n

/-- Lower-case hexadecimal digit of a value below 16. -/
def hexLower (n : Nat) : Nat := if n < 10 then 48 + n else 87 + n

/-- Value of a hexadecimal digit, either case. -/
def hexVal (c : Nat) : Option Nat :=
  if 48 ≤ c ∧ c ≤ 57 then some (c - 48)
  else if 65 ≤ c ∧ c ≤ 70 then some (c - 55)
  else if 97 ≤ c ∧ c ≤ 102 then some (c - 87)
  else none

/-- UTF-8 octets of a code point. -/
def utf8Octets (cp : Nat) : List Nat :=
  if cp < 128 then [cp]
  else if cp < 2048 then [192 + cp / 64, 128 + cp % 64]
  else if cp < 65536 then [224 + cp / 4096, 128 + cp / 64 % 64, 128 + cp % 64]
  else [240 + cp / 262144, 128 + cp / 4096 % 64, 128 + cp / 64 % 64, 128 + cp % 64]

/-- The code point a well-formed UTF-8 octet sequence stands for: shortest
form only, no surrogate, at most 10FFFF; `none` for anything else. -/
def utf8DecodeCodePoint : List Nat → Option Nat
  | [b0] => if b0 < 128 then some b0 else none
  | [b0, b1] =>
    if 194 ≤ b0 ∧ b0 ≤ 223 ∧ 128 ≤ b1 ∧ b1 ≤ 191 then some ((b0 - 192) * 64 + (b1 - 128))
    else none
  | [b0, b1, b2] =>
    if 224 ≤ b0 ∧ b0 ≤ 239 ∧ 128 ≤ b1 ∧ b1 ≤ 191 ∧ 128 ≤ b2 ∧ b2 ≤ 191 then
      let cp := (b0 - 224) * 4096 + (b1 - 128) * 64 + (b2 - 128)
      if 2048 ≤ cp ∧ ¬ (55296 ≤ cp ∧ cp ≤ 57343) then some cp else none
    else none
  | [b0, b1, b2, b3] =>
    if 240 ≤ b0 ∧ b0 ≤ 247 ∧ 128 ≤ b1 ∧ b1 ≤ 191 ∧ 128 ≤ b2 ∧ b2 ≤ 191 ∧ 128 ≤ b3 ∧ b3 ≤ 191 then
      let cp := (b0 - 240) * 262144 + (b1 - 128) * 4096 + (b2 - 128) * 64 + (b3 - 128)
      if 65536 ≤ cp ∧ cp ≤ 1114111 then some cp else none
    else none
  | _ => none

/-! ## Percent escapes: `encodeURIComponent`, `unescape`, `escape`, `decodeURIComponent` -/

/-- Digits and ASCII letters. -/
def isAlnum (c : Nat) : Bool :=
  (decide (48 ≤ c) && decide (c ≤ 57)) || (decide (65 ≤ c) && decide (c ≤ 90)) ||
  (decide (97 ≤ c) && decide (c ≤ 122))

/-- The set uriUnescaped: letters, digits and the marks `- _ . ! ~ * ' ( )`. -/
def uriUnescaped (c : Nat) : Bool :=
  isAlnum c || decide (c = 45) || decide (c = 95) || decide (c = 46) || decide (c = 33) ||
  decide (c = 126) || decide (c = 42) || decide (c = 39) || decide (c = 40) || decide (c = 41)

/-- The characters `escape` leaves alone: letters, digits and `@ * _ + - . /`. -/
def escapeUnescaped (c : Nat) : Bool :=
  isAlnum c || decide (c = 64) || decide (c = 42) || decide (c = 95) || decide (c = 43) ||
  decide (c = 45) || decide (c = 46) || decide (c = 47)

/-- The three code units `%XX` of one octet. -/
def pctOctet (b : Nat) : JStr := [37, hexUpper (b / 16), hexUpper (b % 16)]

/-- The function `encodeURIComponent`: unescaped characters are copied, every
other code point is written as the `%XX` escapes of its UTF-8 octets; an
unpaired surrogate raises URIError (`none`). -/
def encodeURIComponent : JStr → Option JStr
  | [] => some []
  | c :: tail =>
    if uriUnescaped c then (encodeURIComponent tail).map (fun r => c :: r)
    else if isHighSurrogate c then
      match tail with
      | d :: rest =>
        if isLowSurrogate d then
          (encodeURIComponent rest).map (fun r =>
            (utf8Octets ((c - 55296) * 1024 + (d - 56320) + 65536)).flatMap pctOctet ++ r)
        else none
      | [] => none
    else if isLowSurrogate c then none
    else (encodeURIComponent tail).map (fun r => (utf8Octets c).flatMap pctOctet ++ r)

/-- One step of `unescape` at a `%`: given what follows the `%`, the code unit
denoted by `uXXXX` or `XX` and the number of code units the escape takes after
the `%`; `none` when no escape starts here. -/
def unescapeAt : JStr → Option (Nat × Nat)
  | u :: h1 :: h2 :: h3 :: h4 :: _ =>
    if u = 117 then
      match hexVal h1, hexVal h2, hexVal h3, hexVal h4 with
      | some a, some b, some c, some d => some (a * 4096 + b * 256 + c * 16 + d, 5)
      | _, _, _, _ => none
    else
      match hexVal u, hexVal h1 with
      | some a, some b => some (a * 16 + b, 2)
      | _, _ => none
  | h1 :: h2 :: _ =>
    match hexVal h1, hexVal h2 with
    | some a, some b => some (a * 16 + b, 2)
    | _, _ => none
  | _ => none

/-- The loop of `unescape`; `skip` code units are still to be passed over
(the spec's `k + optionalAdvance`). -/
def unescapeLoop : Nat → JStr → JStr
  | _, [] => []
  | skip + 1, _ :: tail => unescapeLoop skip tail
  | 0, c :: tail =>
    if c = 37 then
      match unescapeAt tail with
      | some (v, adv) => v :: unescapeLoop adv tail
      | none => 37 :: unescapeLoop 0 tail
    else c :: unescapeLoop 0 tail

/-- The function `unescape`: `%uXXXX` and `%XX` with hexadecimal digits are
replaced by the code unit they denote, everything else is copied. -/
def unescape (s : JStr) : JStr := unescapeLoop 0 s

/-- The function `escape`, one code unit. -/
def escapeUnit (c : Nat) : JStr :=
  if escapeUnescaped c then [c]
  else if c < 256 then pctOctet c
  else [37, 117, hexUpper (c / 4096), hexUpper (c / 256 % 16), hexUpper (c / 16 % 16),
        hexUpper (c % 16)]

/-- The function `escape`. -/
def escape (s : JStr) : JStr := s.flatMap escapeUnit

/-- Read `%XX` at the head of a string: the octet and what follows. -/
def readPctOctet : JStr → Option (Nat × JStr)
  | p :: h1 :: h2 :: rest =>
    if p = 37 then
      match hexVal h1, hexVal h2 with
      | some a, some b => some (a * 16 + b, rest)
      | _, _ => none
    else none
  | _ => none

/-- Read `n` escapes `%XX` in a row. -/
def readPctOctets : Nat → JStr → Option (List Nat × JStr)
  | 0, s => some ([], s)
  | n + 1, s =>
    match readPctOctet s with
    | none => none
    | some (b, rest) =>
      match readPctOctets n rest with
      | none => none
      | some (bs, rest2) => some (b :: bs, rest2)

/-- Number of octets a UTF-8 lead octet announces (its leading one bits). -/
def leadingOnes (b : Nat) : Nat :=
  if b < 128 then 0 else if b < 192 then 1 else if b < 224 then 2 else if b < 240 then 3
  else if b < 248 then 4 else 5

/-- One step of Decode (ECMA-262) at a `%`, with an empty reserved set: given
what follows the `%`, the decoded code units and the number of code units the
escape sequence takes after the `%`; `none` is URIError. -/
def decodeEscapeAt : JStr → Option (JStr × Nat)
  | h1 :: h2 :: rest =>
    match hexVal h1, hexVal h2 with
    | some a, some b =>
      if leadingOnes (a * 16 + b) = 0 then some ([a * 16 + b], 2)
      else if leadingOnes (a * 16 + b) = 1 ∨ 4 < leadingOnes (a * 16 + b) then none
      else
        match readPctOctets (leadingOnes (a * 16 + b) - 1) rest with
        | none => none
        | some (bs, _) =>
          match utf8DecodeCodePoint ((a * 16 + b) :: bs) with
          | none => none
          | some cp =>
            some (utf16EncodeCodePoint cp, 2 + 3 * (leadingOnes (a * 16 + b) - 1))
    | _, _ => none
  | _ => none

/-- The loop of Decode; `skip` code units of the current escape sequence are
still to be passed over. -/
def decodeURIComponentLoop : Nat → JStr → Option JStr
  | _, [] => some []
  | skip + 1, _ :: tail => decodeURIComponentLoop skip tail
  | 0, c :: tail =>
    if c = 37 then
      match decodeEscapeAt tail with
      | none => none
      | some (s, adv) => (decodeURIComponentLoop adv tail).map (fun r => s ++ r)
    else (decodeURIComponentLoop 0 tail).map (fun r => c :: r)

/-- The function `decodeURIComponent`; malformed input raises URIError (`none`). -/
def decodeURIComponent (s : JStr) : Option JStr := decodeURIComponentLoop 0 s

/-! ## Base64: `btoa` and `atob` -/

/-- Character of a base64 digit below 64. -/
def b64Char (n : Nat) : Nat :=
  if n < 26 then 65 + n
  else if n < 52 then 71 + n
  else if n < 62 then n - 4
  else if n = 62 then 43
  else 47

/-- Value of a base64 character. -/
def b64Val (c : Nat) : Option Nat :=
  if 65 ≤ c ∧ c ≤ 90 then some (c - 65)
  else if 97 ≤ c ∧ c ≤ 122 then some (c - 71)
  else if 48 ≤ c ∧ c ≤ 57 then some (c + 4)
  else if c = 43 then some 62
  else if c = 47 then some 63
  else none

/-- Base64 of a list of octets, padded with `=`. -/
def base64Encode : List Nat → JStr
  | [] => []
  | [a] => [b64Char (a / 4), b64Char (a % 4 * 16), 61, 61]
  | [a, b] => [b64Char (a / 4), b64Char (a % 4 * 16 + b / 16), b64Char (b % 16 * 4), 61]
  | a :: b :: c :: rest =>
    b64Char (a / 4) :: b64Char (a % 4 * 16 + b / 16) :: b64Char (b % 16 * 4 + c / 64) ::
      b64Char (c % 64) :: base64Encode rest

/-- The function `btoa`: a code unit above 255 raises InvalidCharacterError. -/
def btoa (s : JStr) : Option JStr :=
  if s.all (fun c => decide (c < 256)) then some (base64Encode s) else none

/-- ASCII whitespace of the HTML standard. -/
def isAsciiWhitespace (c : Nat) : Bool :=
  decide (c = 9) || decide (c = 10) || decide (c = 12) || decide (c = 13) || decide (c = 32)

/-- Drop one or two `=` from the end of a string. -/
def stripPadding (s : JStr) : JStr :=
  if s.getLast? = some 61 then
    if s.dropLast.getLast? = some 61 then s.dropLast.dropLast else s.dropLast
  else s

/-- Octets of a run of base64 digits: 24 bits per four digits, a rest of
two or three digits gives one or two octets. -/
def base64DecodeDigits : List Nat → List Nat
  | a :: b :: c :: d :: rest =>
    (a * 4 + b / 16) :: (b % 16 * 16 + c / 4) :: (c % 4 * 64 + d) :: base64DecodeDigits rest
  | [a, b, c] => [a * 4 + b / 16, b % 16 * 16 + c / 4]
  | [a, b] => [a * 4 + b / 16]
  | _ => []

/-- The function `atob` (forgiving-base64 decode of the HTML standard):
ASCII whitespace is removed, padding is dropped when the length is a
multiple of four, a length of 1 modulo 4 or a character outside the
alphabet raises InvalidCharacterError (`none`). -/
def atob (s : JStr) : Option JStr :=
  let data := s.filter (fun c => !isAsciiWhitespace c)
  let data := if data.length % 4 = 0 then stripPadding data else data
  if data.length % 4 = 1 then none
  else if data.all (fun c => (b64Val c).isSome) then
    some (base64DecodeDigits (data.map (fun c => (b64Val c).getD 0)))
  else none

/-! ## JSON values, `JSON.stringify`, `JSON.parse` -/

/-- JSON value.  `num` is a safe integer (magnitude at most 2^53); `numLit`
is any other number, kept as the literal it was read from.  An object is the
list of its properties in property order. -/
inductive Json where
  | null
  | bool (b : Bool)
  | num (n : Int)
  | numLit (lit : JStr)
  | str (s : JStr)
  | arr (xs : List Json)
  | obj (kvs : List (JStr × Json))

/-- Decimal digit code unit. -/
def isDigit (c : Nat) : Bool := decide (48 ≤ c) && decide (c ≤ 57)

/-- Decimal digits of a natural number, most significant first, put before `acc`. -/
def decDigitsAux : Nat → Nat → JStr → JStr
  | 0, _, acc => acc
  | fuel + 1, n, acc =>
    if n < 10 then (48 + n) :: acc else decDigitsAux fuel (n / 10) ((48 + n % 10) :: acc)

/-- Decimal digits of a natural number. -/
def decDigits (n : Nat) : JStr := decDigitsAux (n + 1) n []

/-- Number::toString of an integer. -/
def intText (n : Int) : JStr :=
  if n < 0 then 45 :: decDigits n.natAbs else decDigits n.natAbs

/-- The escape `\uXXXX` with lower-case digits (UnicodeEscape). -/
def unicodeEscape (c : Nat) : JStr :=
  [92, 117, hexLower (c / 4096), hexLower (c / 256 % 16), hexLower (c / 16 % 16),
   hexLower (c % 16)]

/-- Whether a string starts with a low surrogate. -/
def startsWithLow : JStr → Bool
  | d :: _ => isLowSurrogate d
  | [] => false

/-- The loop of QuoteJSONString over the code points of a string; `paired`
says that the code unit at the head is the low half of a pair whose high half
was just copied. -/
def quoteJSONLoop : Bool → JStr → JStr
  | _, [] => []
  | true, c :: tail => c :: quoteJSONLoop false tail
  | false, c :: tail =>
    if c = 8 then 92 :: 98 :: quoteJSONLoop false tail
    else if c = 9 then 92 :: 116 :: quoteJSONLoop false tail
    else if c = 10 then 92 :: 110 :: quoteJSONLoop false tail
    else if c = 12 then 92 :: 102 :: quoteJSONLoop false tail
    else if c = 13 then 92 :: 114 :: quoteJSONLoop false tail
    else if c = 34 then 92 :: 34 :: quoteJSONLoop false tail
    else if c = 92 then 92 :: 92 :: quoteJSONLoop false tail
    else if c < 32 then unicodeEscape c ++ quoteJSONLoop false tail
    else if isHighSurrogate c then
      if startsWithLow tail then c :: quoteJSONLoop true tail
      else unicodeEscape c ++ quoteJSONLoop false tail
    else if isLowSurrogate c then unicodeEscape c ++ quoteJSONLoop false tail
    else c :: quoteJSONLoop false tail

/-- QuoteJSONString of ECMA-262 (well-formed `JSON.stringify`). -/
def quoteJSONString (s : JStr) : JStr := 34 :: quoteJSONLoop false s ++ [34]

mutual
/-- The function `JSON.stringify` with one argument, on a JSON value. -/
def stringify (P : Platform) : Json → JStr
  | .null => [110, 117, 108, 108]
  | .bool true => [116, 114, 117, 101]
  | .bool false => [102, 97, 108, 115, 101]
  | .num n => intText n
  | .numLit lit => (P.numberText lit).map (fun d => d.val)
  | .str s => quoteJSONString s
  | .arr [] => [91, 93]
  | .arr (x :: xs) => 91 :: (stringify P x ++ stringifyElems P xs)
  | .obj [] => [123, 125]
  | .obj ((k, v) :: kvs) =>
    123 :: (quoteJSONString k ++ 58 :: (stringify P v ++ stringifyMembers P kvs))
/-- The elements of an array after the first, each after a comma, and the closing bracket. -/
def stringifyElems (P : Platform) : List Json → JStr
  | [] => [93]
  | x :: xs => 44 :: (stringify P x ++ stringifyElems P xs)
/-- The members of an object after the first, each after a comma, and the closing brace. -/
def stringifyMembers (P : Platform) : List (JStr × Json) → JStr
  | [] => [125]
  | (k, v) :: kvs =>
    44 :: (quoteJSONString k ++ 58 :: (stringify P v ++ stringifyMembers P kvs))
end

/-- Value of a run of decimal digits, continuing from `acc`. -/
def digitsValue : Nat → JStr → Nat
  | acc, [] => acc
  | acc, c :: tail => digitsValue (acc * 10 + (c - 48)) tail

/-- The key of an array-index property (a canonical decimal string with value
at most 2^32 - 2): its value. -/
def arrayIndex (k : JStr) : Option Nat :=
  if k.all isDigit ∧ k ≠ [] ∧ (k.head? ≠ some 48 ∨ k.length = 1) ∧
      digitsValue 0 k ≤ 4294967294 then
    some (digitsValue 0 k)
  else none

/-- Put a new array-index property at its place among the properties: after
the array indices below it. -/
def insertIndexed (i : Nat) (k : JStr) (v : Json) : List (JStr × Json) → List (JStr × Json)
  | [] => [(k, v)]
  | kv :: rest =>
    match arrayIndex kv.1 with
    | some j => if j < i then kv :: insertIndexed i k v rest else (k, v) :: kv :: rest
    | none => (k, v) :: kv :: rest

/-- CreateDataProperty on an ordinary object: an existing key keeps its place
and takes the new value; a new array index goes among the array indices in
ascending order; any other new key goes last. -/
def objSet (o : List (JStr × Json)) (k : JStr) (v : Json) : List (JStr × Json) :=
  if o.any (fun kv => decide (kv.1 = k)) then
    o.map (fun kv => if kv.1 = k then (k, v) else kv)
  else
    match arrayIndex k with
    | some i => insertIndexed i k v o
    | none => o ++ [(k, v)]

/-- Drop leading JSON white space (tab, line feed, carriage return, space). -/
def skipWs : JStr → JStr
  | [] => []
  | c :: tail => if c = 9 ∨ c = 10 ∨ c = 13 ∨ c = 32 then skipWs tail else c :: tail

/-- Remove a given prefix. -/
def dropPrefix : JStr → JStr → Option JStr
  | [], s => some s
  | _ :: _, [] => none
  | p :: ps, c :: tail => if p = c then dropPrefix ps tail else none

/-- One escape of a JSON string: given what follows the backslash, the code
unit denoted and the number of code units the escape takes after the
backslash; `none` for an invalid escape. -/
def jsonEscapeAt : JStr → Option (Nat × Nat)
  | [] => none
  | e :: rest =>
    if e = 117 then
      match rest with
      | h1 :: h2 :: h3 :: h4 :: _ =>
        match hexVal h1, hexVal h2, hexVal h3, hexVal h4 with
        | some a, some b, some c, some d => some (a * 4096 + b * 256 + c * 16 + d, 5)
        | _, _, _, _ => none
      | _ => none
    else if e = 34 then some (34, 1)
    else if e = 92 then some (92, 1)
    else if e = 47 then some (47, 1)
    else if e = 98 then some (8, 1)
    else if e = 102 then some (12, 1)
    else if e = 110 then some (10, 1)
    else if e = 114 then some (13, 1)
    else if e = 116 then some (9, 1)
    else none

/-- The loop over the characters of a JSON string; `skip` code units of the
current escape are still to be passed over. -/
def parseStringLoop : Nat → JStr → Option (JStr × JStr)
  | _, [] => none
  | skip + 1, _ :: tail => parseStringLoop skip tail
  | 0, c :: tail =>
    if c = 34 then some ([], tail)
    else if c = 92 then
      match jsonEscapeAt tail with
      | none => none
      | some (u, adv) => (parseStringLoop adv tail).map (fun r => (u :: r.1, r.2))
    else if c < 32 then none
    else (parseStringLoop 0 tail).map (fun r => (c :: r.1, r.2))

/-- The characters of a JSON string after its opening quote, up to the closing
quote: the string denoted and what follows. -/
def parseStringChars (s : JStr) : Option (JStr × JStr) := parseStringLoop 0 s

/-- The longest run of decimal digits at the head of a string, and the rest. -/
def takeDigits : JStr → JStr × JStr
  | [] => ([], [])
  | c :: tail =>
    if isDigit c then ((takeDigits tail).1.cons c, (takeDigits tail).2) else ([], c :: tail)

/-- The integer part of a JSON number: `0`, or a run of digits not starting
with `0`. -/
def parseIntPart (s : JStr) : Option (JStr × JStr) :=
  if (takeDigits s).1 = [] then none
  else if (takeDigits s).1.head? = some 48 ∧ (takeDigits s).1.length ≠ 1 then none
  else some (takeDigits s)

/-- The optional fraction of a JSON number: `.` and at least one digit. -/
def parseFraction : JStr → Option (JStr × JStr)
  | [] => some ([], [])
  | c :: tail =>
    if c = 46 then
      if (takeDigits tail).1 = [] then none else some (46 :: (takeDigits tail).1, (takeDigits tail).2)
    else some ([], c :: tail)

/-- The optional exponent of a JSON number: `e` or `E`, an optional sign and
at least one digit. -/
def parseExponent : JStr → Option (JStr × JStr)
  | [] => some ([], [])
  | c :: tail =>
    if c = 101 ∨ c = 69 then
      match tail with
      | sgn :: tail2 =>
        if sgn = 43 ∨ sgn = 45 then
          if (takeDigits tail2).1 = [] then none
          else some (c :: sgn :: (takeDigits tail2).1, (takeDigits tail2).2)
        else if (takeDigits tail).1 = [] then none
        else some (c :: (takeDigits tail).1, (takeDigits tail).2)
      | [] => none
    else some ([], c :: tail)

/-- A JSON number.  A literal without fraction and exponent whose value is at
most 2^53 is the integer it denotes; any other literal is kept as `numLit`. -/
def parseNumber (s : JStr) : Option (Json × JStr) :=
  let neg : Bool := decide (s.head? = some 45)
  let s1 := if neg then s.tail else s
  match parseIntPart s1 with
  | none => none
  | some (ds, s2) =>
    match parseFraction s2 with
    | none => none
    | some (fr, s3) =>
      match parseExponent s3 with
      | none => none
      | some (ex, s4) =>
        if fr = [] ∧ ex = [] ∧ digitsValue 0 ds ≤ 9007199254740992 then
          some (Json.num (if neg then - (digitsValue 0 ds : Int) else (digitsValue 0 ds : Int)), s4)
        else some (Json.numLit ((if neg then [45] else []) ++ ds ++ fr ++ ex), s4)

mutual
/-- One JSON value at the head of a string (white space already skipped):
the value and what follows.  `fuel` bounds the recursion depth. -/
def parseValue : Nat → JStr → Option (Json × JStr)
  | 0, _ => none
  | _, [] => none
  | fuel + 1, c :: tail =>
    if c = 110 then (dropPrefix [117, 108, 108] tail).map (fun r => (Json.null, r))
    else if c = 116 then (dropPrefix [114, 117, 101] tail).map (fun r => (Json.bool true, r))
    else if c = 102 then
      (dropPrefix [97, 108, 115, 101] tail).map (fun r => (Json.bool false, r))
    else if c = 34 then (parseStringChars tail).map (fun r => (Json.str r.1, r.2))
    else if c = 91 then
      match skipWs tail with
      | [] => none
      | d :: rest =>
        if d = 93 then some (Json.arr [], rest)
        else
          match parseValue fuel (d :: rest) with
          | none => none
          | some (v, r) => (parseElements fuel r).map (fun q => (Json.arr (v :: q.1), q.2))
    else if c = 123 then
      match skipWs tail with
      | [] => none
      | d :: rest =>
        if d = 125 then some (Json.obj [], rest)
        else (parseMembers fuel [] (44 :: d :: rest)).map (fun q => (Json.obj q.1, q.2))
    else parseNumber (c :: tail)
/-- The rest of an array after an element: `]`, or `,` and one more element. -/
def parseElements : Nat → JStr → Option (List Json × JStr)
  | 0, _ => none
  | fuel + 1, s =>
    match skipWs s with
    | [] => none
    | c :: tail =>
      if c = 93 then some ([], tail)
      else if c = 44 then
        match parseValue fuel (skipWs tail) with
        | none => none
        | some (v, r) => (parseElements fuel r).map (fun q => (v :: q.1, q.2))
      else none
/-- The rest of an object after a member: `}`, or `,` and one more member,
which is set on the object built so far. -/
def parseMembers : Nat → List (JStr × Json) → JStr → Option (List (JStr × Json) × JStr)
  | 0, _, _ => none
  | fuel + 1, acc, s =>
    match skipWs s with
    | [] => none
    | c :: tail =>
      if c = 125 then some (acc, tail)
      else if c = 44 then
        match skipWs tail with
        | [] => none
        | q :: tail2 =>
          if q = 34 then
            match parseStringChars tail2 with
            | none => none
            | some (k, r) =>
              match skipWs r with
              | [] => none
              | colon :: r2 =>
                if colon = 58 then
                  match parseValue fuel (skipWs r2) with
                  | none => none
                  | some (v, r3) => parseMembers fuel (objSet acc k v) r3
                else none
          else none
      else none
end

/-- The function `JSON.parse` on a string: one value between optional white
space; anything else raises SyntaxError (`none`). -/
def jsonParse (s : JStr) : Option Json :=
  match parseValue (2 * s.length + 2) (skipWs s) with
  | none => none
  | some (v, rest) => if skipWs rest = [] then some v else none

mutual
/-- The function `JSON.stringify(value, null, 2)`: `indent` is the current
indentation, the gap is two spaces. -/
def stringifyPretty (P : Platform) (indent : JStr) : Json → JStr
  | .null => [110, 117, 108, 108]
  | .bool true => [116, 114, 117, 101]
  | .bool false => [102, 97, 108, 115, 101]
  | .num n => intText n
  | .numLit lit => (P.numberText lit).map (fun d => d.val)
  | .str s => quoteJSONString s
  | .arr [] => [91, 93]
  | .arr (x :: xs) =>
    91 :: 10 :: (indent ++ [32, 32] ++ stringifyPretty P (indent ++ [32, 32]) x ++
      prettyElems P indent xs)
  | .obj [] => [123, 125]
  | .obj ((k, v) :: kvs) =>
    123 :: 10 :: (indent ++ [32, 32] ++ quoteJSONString k ++ [58, 32] ++
      stringifyPretty P (indent ++ [32, 32]) v ++ prettyMembers P indent kvs)
/-- Further array elements, one per line, and the closing bracket on its own line. -/
def prettyElems (P : Platform) (indent : JStr) : List Json → JStr
  | [] => 10 :: (indent ++ [93])
  | x :: xs =>
    44 :: 10 :: (indent ++ [32, 32] ++ stringifyPretty P (indent ++ [32, 32]) x ++
      prettyElems P indent xs)
/-- Further object members, one per line, and the closing brace on its own line. -/
def prettyMembers (P : Platform) (indent : JStr) : List (JStr × Json) → JStr
  | [] => 10 :: (indent ++ [125])
  | (k, v) :: kvs =>
    44 :: 10 :: (indent ++ [32, 32] ++ quoteJSONString k ++ [58, 32] ++
      stringifyPretty P (indent ++ [32, 32]) v ++ prettyMembers P indent kvs)
end

/-! ## The chart payload carrier -/

/-- The carrier of a configuration, as the renderer builds it:
`btoa(unescape(encodeURIComponent(JSON.stringify(option))))`. -/
def encodeCarrier (P : Platform) (option : Json) : Option JStr :=
  match encodeURIComponent (stringify P option) with
  | none => none
  | some e => btoa (unescape e)

/-- The text in a carrier: `decodeURIComponent(escape(atob(optBase64)))`. -/
def decodeCarrierText (optBase64 : JStr) : Option JStr :=
  match atob optBase64 with
  | none => none
  | some bin => decodeURIComponent (escape bin)

/-- The decoder of `_mountEchartsInElement`:
`JSON.parse(decodeURIComponent(escape(atob(optBase64))))`. -/
def decodeCarrier (optBase64 : JStr) : Option Json :=
  match decodeCarrierText optBase64 with
  | none => none
  | some optStr => jsonParse optStr

/-! ## The code-fence renderer (`marked.use({ renderer: { code } })`) -/

/-- The method `String.prototype.replace` with a global one-character pattern. -/
def replaceAll (c : Nat) (by_ : JStr) (s : JStr) : JStr :=
  s.flatMap (fun x => if x = c then by_ else [x])

/-- Text escaping used by the renderer and by the serializer:
`.replace(/&/g, '&amp;').replace(/</g, '&lt;').replace(/>/g, '&gt;')`. -/
def escapeText (s : JStr) : JStr :=
  replaceAll 62 (js "&gt;") (replaceAll 60 (js "&lt;") (replaceAll 38 (js "&amp;") s))

/-- The options the renderer reads from `this.options`; a field holds any
JavaScript value, `none` standing for `undefined`. -/
structure ParseOptions where
  chartEnabled : Option Json
  chartRenderAsChart : Option Json

/-- The test `v === false`. -/
def strictlyFalse : Option Json → Bool
  | some (Json.bool false) => true
  | _ => false

/-- The markup of a pending chart (streaming): a read-only code block that
carries the payload in `data-echarts-option`. -/
def pendingTemplate (optionBase64 escapedCode : JStr) : JStr :=
  js "<pre class=\"yu-stream-editor-echarts-pending\" contenteditable=\"false\" data-echarts-option=\"" ++
    optionBase64 ++ js "\"><code>" ++ escapedCode ++ js "</code></pre>"

/-- The markup of a live chart: the wrap, a hidden data span and the container. -/
def liveTemplate (optionBase64 : JStr) : JStr :=
  js "<div class=\"yu-stream-editor-echarts-wrap\" contenteditable=\"false\" data-echarts-option=\"" ++
    optionBase64 ++
    js "\"><span class=\"yu-stream-editor-echarts-data\" style=\"display:none !important\" data-echarts-option=\"" ++
    optionBase64 ++
    js "\" aria-hidden=\"true\"></span><div class=\"yu-stream-editor-echarts-container\" style=\"width:100%;height:300px\"></div></div>"

/-- The renderer `code(code, infostring, escaped)`.  The result `none` is the
JavaScript value `false`: the library falls back to its own code block. -/
def code (P : Platform) (options : ParseOptions) (code : JStr) (infostring : Option JStr) :
    Option JStr :=
  if strictlyFalse options.chartEnabled then none
  else
    if toLowerCase P (trim (infostring.getD [])) = js "echarts" ∨
        toLowerCase P (trim (infostring.getD [])) = js "chart" then
      match jsonParse (trim code) with
      | none => none
      | some option =>
        match encodeCarrier P option with
        | none => none
        | some optionBase64 =>
          if strictlyFalse options.chartRenderAsChart then
            some (pendingTemplate optionBase64 (escapeText (stringifyPretty P [] option)))
          else some (liveTemplate optionBase64)
    else none

/-! ## The document tree -/

/-- What a rendering surface gives when asked for a snapshot (`getDataURL`
of a chart instance, `toDataURL` of a canvas); `none` when the call throws. -/
structure Surface where
  dataURL : Option JStr

/-- DOM node.  `tag` is the lower-case element name.  `surface` is the
property `_echartsInstance` of a chart wrap, and the pixel surface of a
`canvas` element. -/
inductive Node where
  | text (data : JStr)
  | element (tag : JStr) (attrs : List (JStr × JStr)) (children : List Node)
      (surface : Option Surface)
  | other

/-- The method `getAttribute` on an attribute list. -/
def attrLookup (name : JStr) : List (JStr × JStr) → Option JStr
  | [] => none
  | a :: rest => if a.1 = name then some a.2 else attrLookup name rest

/-- The method `getAttribute`; `none` is `null`. -/
def Node.getAttribute (name : JStr) : Node → Option JStr
  | .element _ attrs _ _ => attrLookup name attrs
  | _ => none

/-- Split a string on ASCII whitespace; `cur` is the token being read, reversed. -/
def splitTokens : JStr → JStr → List JStr
  | cur, [] => if cur = [] then [] else [cur.reverse]
  | cur, c :: tail =>
    if isAsciiWhitespace c then
      if cur = [] then splitTokens [] tail else cur.reverse :: splitTokens [] tail
    else splitTokens (c :: cur) tail

/-- The test `classList.contains(cls)`. -/
def Node.hasClass (cls : JStr) (n : Node) : Bool :=
  match n.getAttribute (js "class") with
  | none => false
  | some v => (splitTokens [] v).contains cls

/-- Whether a node is an element with the given lower-case name. -/
def Node.hasTag (t : JStr) : Node → Bool
  | .element tag _ _ _ => decide (tag = t)
  | _ => false

mutual
/-- The first element among the descendants of a node, in document order,
that satisfies `p` (`querySelector` below the node). -/
def Node.findDescendant (p : Node → Bool) : Node → Option Node
  | .element _ _ children _ => Node.findInList p children
  | _ => none
/-- The first element satisfying `p` in a list of nodes and their descendants. -/
def Node.findInList (p : Node → Bool) : List Node → Option Node
  | [] => none
  | n :: rest =>
    match n with
    | .element tag attrs children surface =>
      if p (.element tag attrs children surface) then some (.element tag attrs children surface)
      else
        match Node.findDescendant p (.element tag attrs children surface) with
        | some r => some r
        | none => Node.findInList p rest
    | _ => Node.findInList p rest
end

/-- Class of a live chart wrap. -/
def wrapClass : JStr := js "yu-stream-editor-echarts-wrap"

/-- Class of a pending chart block. -/
def pendingClass : JStr := js "yu-stream-editor-echarts-pending"

/-- Class of the hidden span that repeats the carrier. -/
def dataClass : JStr := js "yu-stream-editor-echarts-data"

/-- Class of the element the chart is drawn into. -/
def containerClass : JStr := js "yu-stream-editor-echarts-container"

/-- Name of the attribute that holds the carrier. -/
def optionAttr : JStr := js "data-echarts-option"

/-- The snapshot of a node that has a rendering surface; a call that throws,
and a node without a surface, give the empty string. -/
def Node.dataURL : Node → JStr
  | .element _ _ _ (some s) => s.dataURL.getD []
  | _ => []

/-- The method `_getChartDataUrl(wrap)`: the snapshot of the chart instance
when the wrap has one, else of the first `canvas` under the chart container,
else the empty string. -/
def getChartDataUrl (wrap : Node) : JStr :=
  match wrap with
  | .element _ _ _ (some chart) => chart.dataURL.getD []
  | _ =>
    match Node.findDescendant (Node.hasClass containerClass) wrap with
    | none => []
    | some container =>
      match Node.findDescendant (Node.hasTag (js "canvas")) container with
      | none => []
      | some canvas => canvas.dataURL

/-- Attribute escaping of the serializer: `&`, then `"`, then `<`, then `>`. -/
def escapeAttr (s : JStr) : JStr :=
  replaceAll 62 (js "&gt;") (replaceAll 60 (js "&lt;")
    (replaceAll 34 (js "&quot;") (replaceAll 38 (js "&amp;") s)))

/-- The attributes of an opening tag, each as ` name="value"`. -/
def serializeAttrs : List (JStr × JStr) → JStr
  | [] => []
  | a :: rest => 32 :: (a.1 ++ 61 :: 34 :: (escapeAttr a.2 ++ 34 :: serializeAttrs rest))

/-- Element names that never have a closing tag. -/
def voidTags : List JStr :=
  [js "area", js "base", js "br", js "col", js "embed", js "hr", js "img", js "input",
   js "link", js "meta", js "param", js "source", js "track", js "wbr"]

/-- The test `isChartWrap` of the serializer: the wrap class, or a chart
container among the element children together with a carrier attribute or a
data span below. -/
def isChartWrap (el : Node) : Bool :=
  match el with
  | .element _ _ children _ =>
    el.hasClass wrapClass ||
      (children.any (fun c => c.hasClass containerClass) &&
        ((match el.getAttribute optionAttr with
          | some v => !v.isEmpty
          | none => false) ||
         (Node.findDescendant (Node.hasClass dataClass) el).isSome))
  | _ => false

/-- What the serializer puts in place of a chart wrap. -/
def chartImage (el : Node) : JStr :=
  if getChartDataUrl el = [] then js "<p>[图表未渲染]</p>"
  else
    js "<img src=\"" ++ replaceAll 34 (js "&quot;") (getChartDataUrl el) ++
      js "\" alt=\"图表\" class=\"yu-stream-editor-echarts-export-img\">"

mutual
/-- The method `_serializeEditorHtmlWithChartsAsImages(node)`. -/
def serialize : Node → JStr
  | .text data => escapeText data
  | .other => []
  | .element tag attrs children surface =>
    if isChartWrap (.element tag attrs children surface) then
      chartImage (.element tag attrs children surface)
    else if voidTags.contains tag then 60 :: (tag ++ serializeAttrs attrs ++ [62])
    else
      60 :: (tag ++ serializeAttrs attrs ++ [62] ++ serializeChildren children ++
        (60 :: 47 :: tag) ++ [62])
/-- The serializations of the child nodes, in order. -/
def serializeChildren : List Node → JStr
  | [] => []
  | n :: rest => serialize n ++ serializeChildren rest
end

/-! ## The export rule `echartsPending` of the Markdown exporter -/

/-- The rule's `filter`: a `pre` element with the pending class. -/
def echartsPendingFilter (node : Node) : Bool :=
  node.hasTag (js "pre") && node.hasClass pendingClass

/-- The rule's `replacement`: the carrier text in a fence, or nothing when
the attribute is missing, empty or does not decode. -/
def echartsPendingReplacement (node : Node) : JStr :=
  match node.getAttribute optionAttr with
  | none => []
  | some optBase64 =>
    if optBase64 = [] then []
    else
      match decodeCarrierText optBase64 with
      | none => []
      | some opt => js "\n\n```echarts\n" ++ opt ++ js "\n```\n\n"

/-! ## The host: libraries and browser the editor runs against -/

/-- The parts of the environment that are not in the source: the Markdown
library, the HTML parser of the browser, the chart engine and the style
serializer. -/
structure Host where
  /-- The tables of the JavaScript engine. -/
  platform : Platform
  /-- The call `marked.parse(text)` with the given code renderer installed;
  `none` when it throws. -/
  markedParse : (JStr → Option JStr → Option JStr) → JStr → Option JStr
  /-- The nodes that assigning a string to `innerHTML` creates. -/
  parseFragment : JStr → List Node
  /-- The calls `echarts.init(chartEl)` and `chart.setOption(option)` on a
  container: the container afterwards, and the instance when neither call
  throws. -/
  echartsInit : Node → Json → Node × Option Surface
  /-- The `style` attribute that assigning a string to `style.cssText` leaves. -/
  cssText : JStr → JStr

/-- Assigning a string to `innerHTML`: the empty string leaves no child. -/
def setInnerHTML (H : Host) (html : JStr) : List Node :=
  if html = [] then [] else H.parseFragment html

/-! ## Mounting charts (`_mountEchartsInElement`) -/

mutual
/-- Paths (child indices from the root list) of the elements that satisfy
`p`, in document order: the result of `querySelectorAll`. -/
def Node.pathsBelow (p : Node → Bool) : Node → List (List Nat)
  | .element _ _ children _ => Node.pathsInList p 0 children
  | _ => []
/-- Paths of the matching elements in a list of siblings that starts at index `i`. -/
def Node.pathsInList (p : Node → Bool) (i : Nat) : List Node → List (List Nat)
  | [] => []
  | n :: rest =>
    (if p n then [[i]] else []) ++
      (Node.pathsBelow p n).map (fun q => i :: q) ++ Node.pathsInList p (i + 1) rest
end

/-- Apply `f` to the node at index `i` of a list. -/
def modifyAt (f : Node → Node) : Nat → List Node → List Node
  | _, [] => []
  | 0, n :: rest => f n :: rest
  | i + 1, n :: rest => n :: modifyAt f i rest

/-- Apply `g` to the child list of an element. -/
def Node.mapChildren (g : List Node → List Node) : Node → Node
  | .element tag attrs children surface => .element tag attrs (g children) surface
  | n => n

/-- Apply `f` to the node at a path. -/
def updateAt (f : Node → Node) : List Nat → List Node → List Node
  | [], ns => ns
  | [i], ns => modifyAt f i ns
  | i :: j :: q, ns => modifyAt (Node.mapChildren (updateAt f (j :: q))) i ns

/-- The child list of an element. -/
def Node.children : Node → List Node
  | .element _ _ children _ => children
  | _ => []

/-- The node at a path. -/
def getAt : List Nat → List Node → Option Node
  | [], _ => none
  | [i], ns => ns.get? i
  | i :: j :: q, ns =>
    match ns.get? i with
    | none => none
    | some n => getAt (j :: q) n.children

/-- The carrier `mountOne` reads: the wrap's own attribute, or when that is
missing or empty the attribute of the data span below the wrap. -/
def carrierOf (wrap : Node) : Option JStr :=
  let ofSpan : Option JStr :=
    match Node.findDescendant (Node.hasClass dataClass) wrap with
    | none => none
    | some span => span.getAttribute optionAttr
  match wrap.getAttribute optionAttr with
  | none => ofSpan
  | some v => if v = [] then ofSpan else some v

/-- The body of `mountOne` for one wrap: decode the carrier, find the
container, run the engine and keep the instance on the wrap.  A missing or
undecodable carrier and a missing container leave the wrap as it is. -/
def mountWrap (H : Host) (wrap : Node) : Node :=
  match wrap with
  | .element tag attrs children surface =>
    match carrierOf wrap with
    | none => wrap
    | some optBase64 =>
      if optBase64 = [] then wrap
      else
        match decodeCarrier optBase64 with
        | none => wrap
        | some option =>
          match (Node.pathsBelow (Node.hasClass containerClass) wrap).head? with
          | none => wrap
          | some q =>
            match getAt q children with
            | none => wrap
            | some chartEl =>
              .element tag attrs (updateAt (fun _ => (H.echartsInit chartEl option).1) q children)
                (match (H.echartsInit chartEl option).2 with
                 | some chart => some chart
                 | none => surface)
  | _ => wrap

/-! ## The editor -/

/-- A pending `requestAnimationFrame` callback of `_mountEchartsInElement`:
the tree it was started on (by the number of wholesale replacements before
it), the wraps collected then (paths in document order), and the index to
mount next. -/
structure MountTick where
  gen : Nat
  wraps : List (List Nat)
  index : Nat

/-- State of a `YuStreamEditor`.  `content` is the child list of the editing
surface `this.editor`; `gen` counts the assignments to its `innerHTML`;
`ticks` is the queue of pending animation-frame callbacks, oldest first.
Hooks are not modelled (no hook is configured). -/
structure Editor where
  hasEditor : Bool
  chartEnabled : Bool
  placeholder : JStr
  isReadonly : Bool
  streamBuffer : JStr
  content : List Node
  gen : Nat
  ticks : List MountTick

/-- The options of the constructor that matter here.  `chartEnabled` and
`mode` hold any JavaScript value (`none` is `undefined`); `readonly` is the
truthiness of `options.readonly`. -/
structure EditorOptions where
  hasContainer : Bool
  chartEnabled : Option Json
  mode : Option Json
  readonly : Bool
  placeholder : JStr

/-- The parser options an editor sets on `marked.defaults` before a parse. -/
def Editor.parseOptions (e : Editor) (chartRenderAsChart : Bool) : ParseOptions :=
  { chartEnabled := some (Json.bool e.chartEnabled),
    chartRenderAsChart := some (Json.bool chartRenderAsChart) }

/-- The function `mountOne(index)` followed by `scheduleNext(index + 1)`.
A tick whose tree has been replaced works on nodes that are no longer in the
document: the content is not touched. -/
def mountOne (H : Host) (e : Editor) (t : MountTick) : Editor :=
  if t.wraps.length ≤ t.index then e
  else
    let e1 : Editor :=
      if t.gen = e.gen then
        { e with content := updateAt (mountWrap H) (t.wraps.getD t.index []) e.content }
      else e
    if t.index + 1 < t.wraps.length then
      { e1 with ticks := e1.ticks ++ [{ t with index := t.index + 1 }] }
    else e1

/-- The method `_mountEchartsInElement(this.editor)`: collect the wraps and
mount the first one at once. -/
def mountEchartsInElement (H : Host) (e : Editor) : Editor :=
  if e.hasEditor then
    mountOne H e
      { gen := e.gen, wraps := Node.pathsInList (Node.hasClass wrapClass) 0 e.content, index := 0 }
  else e

/-- One step of the animation-frame queue: the oldest pending callback runs.
A frame of the browser runs, in this order, the callbacks that were pending
when it began; it is one step while a single mount job is outstanding, and
one step for each outstanding job otherwise. -/
def runTick (H : Host) (e : Editor) : Editor :=
  match e.ticks with
  | [] => e
  | t :: rest => mountOne H { e with ticks := rest } t

/-- The element `_replacePendingChartsWithCharts` creates for a carrier. -/
def promotedWrap (H : Host) (optBase64 : JStr) : Node :=
  .element (js "div")
    [(js "class", wrapClass), (js "contenteditable", js "false"), (optionAttr, optBase64)]
    [.element (js "span")
       [(js "class", dataClass), (js "style", H.cssText (js "display:none !important")),
        (js "aria-hidden", js "true"), (optionAttr, optBase64)] [] none,
     .element (js "div")
       [(js "class", containerClass), (js "style", H.cssText (js "width:100%;height:300px"))]
       [] none]
    none

mutual
/-- The method `_replacePendingChartsWithCharts` on one node: an element with
the pending class and a non-empty carrier is replaced by a new wrap. -/
def promote (H : Host) : Node → Node
  | .element tag attrs children surface =>
    if Node.hasClass pendingClass (.element tag attrs children surface) then
      match attrLookup optionAttr attrs with
      | some v =>
        if v = [] then .element tag attrs (promoteList H children) surface
        else promotedWrap H v
      | none => .element tag attrs (promoteList H children) surface
    else .element tag attrs (promoteList H children) surface
  | n => n
/-- The method `_replacePendingChartsWithCharts` on a list of siblings. -/
def promoteList (H : Host) : List Node → List Node
  | [] => []
  | n :: rest => promote H n :: promoteList H rest
end

/-- Remove duplicates from a token list, keeping first occurrences. -/
def dedupTokens : List JStr → List JStr
  | [] => []
  | t :: rest => t :: (dedupTokens rest).filter (fun u => decide (u ≠ t))

/-- Tokens joined by single spaces. -/
def joinTokens : List JStr → JStr
  | [] => []
  | [t] => t
  | t :: u :: rest => t ++ 32 :: joinTokens (u :: rest)

/-- The call `classList.remove(cls)` on an attribute list. -/
def classListRemove (cls : JStr) : List (JStr × JStr) → List (JStr × JStr)
  | [] => []
  | a :: rest =>
    if a.1 = js "class" then
      (a.1, joinTokens ((dedupTokens (splitTokens [] a.2)).filter (fun u => decide (u ≠ cls)))) :: rest
    else a :: classListRemove cls rest

mutual
/-- What `_hideAllToolbars` does to the content: `is-selected` is removed
from the class list of every `table`. -/
def clearTableSelection : Node → Node
  | .element tag attrs children surface =>
    .element tag (if tag = js "table" then classListRemove (js "is-selected") attrs else attrs)
      (clearTableSelectionList children) surface
  | n => n
/-- The same on a list of siblings. -/
def clearTableSelectionList : List Node → List Node
  | [] => []
  | n :: rest => clearTableSelection n :: clearTableSelectionList rest
end

/-- The constructor, for the part of the state modelled here. -/
def construct (o : EditorOptions) : Editor :=
  { hasEditor := o.hasContainer,
    chartEnabled := !strictlyFalse o.chartEnabled,
    placeholder := o.placeholder,
    isReadonly :=
      match o.mode with
      | none => o.readonly
      | some (Json.str m) => decide (m = js "readonly")
      | some _ => false,
    streamBuffer := [],
    content := [],
    gen := 0,
    ticks := [] }

/-- The method `appendStreamChunk(chunk)`; the argument is any JavaScript value. -/
def appendStreamChunk (H : Host) (e : Editor) (chunk : Option Json) : Editor :=
  match chunk with
  | some (Json.str s) =>
    if e.hasEditor then
      match H.markedParse (code H.platform (e.parseOptions (!e.isReadonly)))
          (e.streamBuffer ++ s) with
      | none => { e with streamBuffer := e.streamBuffer ++ s }
      | some html =>
        if e.isReadonly then
          { e with streamBuffer := e.streamBuffer ++ s,
                   content := setInnerHTML H html, gen := e.gen + 1 }
        else
          mountEchartsInElement H
            { e with streamBuffer := e.streamBuffer ++ s,
                     content := setInnerHTML H html, gen := e.gen + 1 }
    else e
  | _ => e

/-- The method `resetStream()`. -/
def resetStream (e : Editor) : Editor := { e with streamBuffer := [] }

/-- The method `getStreamBuffer()`. -/
def getStreamBuffer (e : Editor) : JStr := e.streamBuffer

/-- The method `clear()`. -/
def clear (e : Editor) : Editor :=
  if e.hasEditor then { e with content := [], gen := e.gen + 1, streamBuffer := [] }
  else { e with streamBuffer := [] }

/-- The method `setHtml(html)`; the argument is any JavaScript value. -/
def setHtml (H : Host) (e : Editor) (html : Option Json) : Editor :=
  if e.hasEditor then
    match html with
    | some (Json.str s) => { e with content := setInnerHTML H s, gen := e.gen + 1 }
    | _ => { e with content := [], gen := e.gen + 1 }
  else e

/-- The method `setMarkdown(md)`; the argument is any JavaScript value. -/
def setMarkdown (H : Host) (e : Editor) (md : Option Json) : Editor :=
  match md with
  | some (Json.str s) =>
    if e.hasEditor then
      match H.markedParse (code H.platform (e.parseOptions true)) s with
      | none => { e with content := setInnerHTML H s, gen := e.gen + 1 }
      | some html =>
        mountEchartsInElement H { e with content := setInnerHTML H html, gen := e.gen + 1 }
    else e
  | _ => e

/-- The method `setReadonly(readonly)`, the argument already turned into a boolean. -/
def setReadonly (H : Host) (e : Editor) (readonly : Bool) : Editor :=
  if readonly then
    { e with isReadonly := true, content := clearTableSelectionList e.content }
  else
    mountEchartsInElement H { e with isReadonly := false, content := promoteList H e.content }

/-- The method `setMode(mode)`; the argument is any JavaScript value. -/
def setMode (H : Host) (e : Editor) (mode : Option Json) : Editor :=
  match mode with
  | some (Json.str m) => setReadonly H e (decide (m = js "readonly"))
  | _ => setReadonly H e false

/-- The method `toggleReadonly()`. -/
def toggleReadonly (H : Host) (e : Editor) : Editor := setReadonly H e (!e.isReadonly)

/-- The editing surface as a node: the element `_createEditorWrap` builds,
with the current content as its children. -/
def Editor.surfaceNode (e : Editor) : Node :=
  .element (js "div")
    [(js "class", js "yu-stream-editor-editor"),
     (js "contenteditable", if e.isReadonly then js "false" else js "true"),
     (js "data-placeholder", e.placeholder)]
    e.content none

/-- The method `getHtml()`. -/
def getHtml (e : Editor) : JStr :=
  if e.hasEditor then serialize e.surfaceNode else []

/-- The method `getMarkdown()`.  `turndown` is the call
`turndownService.turndown(html)` of the HTML-to-Markdown library with one
extra rule given by its filter and replacement; it is `none` when it throws. -/
def getMarkdown (turndown : (Node → Bool) → (Node → JStr) → JStr → Option JStr)
    (e : Editor) : JStr :=
  if e.hasEditor then
    match turndown echartsPendingFilter echartsPendingReplacement (serialize e.surfaceNode) with
    | none => []
    | some md => trim md
  else []

/-! ## Operation sequences -/

/-- A call of a public method. -/
inductive Op where
  | appendStreamChunk (chunk : Option Json)
  | resetStream
  | clear
  | setMarkdown (md : Option Json)
  | setHtml (html : Option Json)
  | setReadonly (readonly : Bool)
  | getHtml
  | getMarkdown
  | frame

/-- The state after one call (`frame` is one step of the animation-frame
queue, see `runTick`). -/
def applyOp (H : Host) (e : Editor) : Op → Editor
  | Op.appendStreamChunk chunk => appendStreamChunk H e chunk
  | Op.resetStream => resetStream e
  | Op.clear => clear e
  | Op.setMarkdown md => setMarkdown H e md
  | Op.setHtml html => setHtml H e html
  | Op.setReadonly r => setReadonly H e r
  | Op.getHtml => e
  | Op.getMarkdown => e
  | Op.frame => runTick H e

/-- The state after a sequence of calls. -/
def runOps (H : Host) : Editor → List Op → Editor
  | e, [] => e
  | e, op :: rest => runOps H (applyOp H e op) rest

/-- What one call does to the list of string chunks appended since the most
recent `resetStream` or `clear`. -/
def chunkStep (acc : List JStr) : Op → List JStr
  | Op.appendStreamChunk (some (Json.str s)) => acc ++ [s]
  | Op.resetStream => []
  | Op.clear => []
  | _ => acc

/-- The string chunks appended since the most recent `resetStream` or
`clear`, in call order; `acc` holds those appended before the calls. -/
def chunksSinceReset (acc : List JStr) (ops : List Op) : List JStr :=
  ops.foldl chunkStep acc

/-- One `appendStreamChunk` call per code unit of a string. -/
def appendEachUnit (H : Host) : Editor → JStr → Editor
  | e, [] => e
  | e, c :: rest => appendEachUnit H (appendStreamChunk H e (some (Json.str [c]))) rest

/-! ## Reference values for the statements -/

mutual
/-- Recursion depth that `parseValue` needs to read back the text of a value. -/
def Json.parseFuel : Json → Nat
  | .null => 1
  | .bool _ => 1
  | .num _ => 1
  | .numLit _ => 1
  | .str _ => 1
  | .arr [] => 1
  | .arr (x :: xs) => 1 + Json.parseFuel x + Json.parseFuelElems xs
  | .obj kvs => 1 + Json.parseFuelMembers kvs
/-- Recursion depth that `parseElements` needs for the rest of an array. -/
def Json.parseFuelElems : List Json → Nat
  | [] => 1
  | x :: xs => 1 + Json.parseFuel x + Json.parseFuelElems xs
/-- Recursion depth that `parseMembers` needs for the rest of an object. -/
def Json.parseFuelMembers : List (JStr × Json) → Nat
  | [] => 1
  | (_, v) :: kvs => 1 + Json.parseFuel v + Json.parseFuelMembers kvs
end

/-- A text that is empty or starts with `,`, `]` or `}`: what can follow a
value inside the output of `JSON.stringify`. -/
def startsWithDelimiter : JStr → Bool
  | [] => true
  | c :: _ => decide (c = 44) || decide (c = 93) || decide (c = 125)

/-- UTF-8 octets of a string without unpaired surrogates. -/
def utf8Encode : JStr → List Nat
  | [] => []
  | c :: tail =>
    if isHighSurrogate c then
      match tail with
      | d :: rest => utf8Octets ((c - 55296) * 1024 + (d - 56320) + 65536) ++ utf8Encode rest
      | [] => utf8Octets c
    else utf8Octets c ++ utf8Encode tail

/-- Whether key `a` may stand directly before key `b` in property order: an
array index before a larger array index or before any other key, and no other
key before an array index. -/
def keyOrderOk (a b : JStr) : Bool :=
  match arrayIndex a, arrayIndex b with
  | some i, some j => decide (i < j)
  | some _, none => true
  | none, some _ => false
  | none, none => true

/-- Keys of an object in property order: the array indices first, strictly
ascending, then the other keys; no key twice. -/
def propertyOrdered : List (JStr × Json) → Bool
  | [] => true
  | [_] => true
  | a :: b :: rest =>
    keyOrderOk a.1 b.1 && !(b :: rest).any (fun kv => decide (kv.1 = a.1)) &&
      propertyOrdered (b :: rest)

mutual
/-- A JSON value as a JavaScript program holds it: strings and keys are
sequences of 16-bit code units, numbers are safe integers, the keys of
every object are distinct and in property order. -/
def Json.isValue : Json → Bool
  | .null => true
  | .bool _ => true
  | .num n => decide (n.natAbs ≤ 9007199254740992)
  | .numLit _ => false
  | .str s => isJStr s
  | .arr xs => Json.isValueList xs
  | .obj kvs => propertyOrdered kvs && Json.isValueMembers kvs
/-- Every element is a value. -/
def Json.isValueList : List Json → Bool
  | [] => true
  | x :: xs => Json.isValue x && Json.isValueList xs
/-- Every key is a string and every member a value. -/
def Json.isValueMembers : List (JStr × Json) → Bool
  | [] => true
  | (k, v) :: kvs => isJStr k && Json.isValue v && Json.isValueMembers kvs
end

mutual
/-- Every string and key in a JSON tree is a sequence of 16-bit code units. -/
def Json.unitsOk : Json → Bool
  | .null => true
  | .bool _ => true
  | .num _ => true
  | .numLit _ => true
  | .str s => isJStr s
  | .arr xs => Json.unitsOkList xs
  | .obj kvs => Json.unitsOkMembers kvs
/-- The same for a list of elements. -/
def Json.unitsOkList : List Json → Bool
  | [] => true
  | x :: xs => Json.unitsOk x && Json.unitsOkList xs
/-- The same for a list of members. -/
def Json.unitsOkMembers : List (JStr × Json) → Bool
  | [] => true
  | (k, v) :: kvs => isJStr k && Json.unitsOk v && Json.unitsOkMembers kvs
end

/-- The node the HTML parser builds from `liveTemplate`. -/
def liveWrapNode (optionBase64 : JStr) : Node :=
  .element (js "div")
    [(js "class", wrapClass), (js "contenteditable", js "false"), (optionAttr, optionBase64)]
    [.element (js "span")
       [(js "class", dataClass), (js "style", js "display:none !important"),
        (optionAttr, optionBase64), (js "aria-hidden", js "true")] [] none,
     .element (js "div")
       [(js "class", containerClass), (js "style", js "width:100%;height:300px")] [] none]
    none

/-- The node the HTML parser builds from `pendingTemplate`, `codeText` being
the text shown in the code block. -/
def pendingNode (optionBase64 codeText : JStr) : Node :=
  .element (js "pre")
    [(js "class", pendingClass), (js "contenteditable", js "false"), (optionAttr, optionBase64)]
    [.element (js "code") [] [.text codeText] none]
    none

/-! ## A reference host for worked examples -/

/-- Undo `escapeText`: the entities `&lt;`, `&gt;` and `&amp;`; `skip` code
units of the current entity are still to be passed over. -/
def unescapeEntities : Nat → JStr → JStr
  | _, [] => []
  | skip + 1, _ :: tail => unescapeEntities skip tail
  | 0, c :: tail =>
    if c = 38 then
      if (dropPrefix (js "lt;") tail).isSome then 60 :: unescapeEntities 3 tail
      else if (dropPrefix (js "gt;") tail).isSome then 62 :: unescapeEntities 3 tail
      else if (dropPrefix (js "amp;") tail).isSome then 38 :: unescapeEntities 4 tail
      else 38 :: unescapeEntities 0 tail
    else c :: unescapeEntities 0 tail

/-- Remove a given suffix. -/
def dropSuffix (suffix s : JStr) : Option JStr :=
  (dropPrefix suffix.reverse s.reverse).map List.reverse

/-- A text that is one fenced code block: its info string and its body. -/
def splitFence (text : JStr) : Option (JStr × JStr) :=
  match dropPrefix (js "```") text with
  | none => none
  | some rest =>
    match dropSuffix (js "\n```") ((rest.dropWhile (fun c => decide (c ≠ 10))).drop 1),
          dropSuffix (js "\n```\n") ((rest.dropWhile (fun c => decide (c ≠ 10))).drop 1) with
    | some body, _ => some (rest.takeWhile (fun c => decide (c ≠ 10)), body)
    | none, some body => some (rest.takeWhile (fun c => decide (c ≠ 10)), body)
    | none, none => none

/-- The Markdown library of the reference host.  It is exact on the texts the
examples use: the empty text, one fenced code block without info string or
taken by the renderer, and one line of plain text. -/
def refMarkedParse (hook : JStr → Option JStr → Option JStr) (text : JStr) : Option JStr :=
  if text = [] then some []
  else
    match splitFence text with
    | some (info, body) =>
      match hook body (some (trim info)) with
      | some html => some html
      | none => some (js "<pre><code>" ++ escapeText body ++ js "\n</code></pre>\n")
    | none => some (js "<p>" ++ escapeText text ++ js "</p>\n")

/-- The carrier and the rest of a chart template after its opening part. -/
def splitCarrier (opening html : JStr) : Option (JStr × JStr) :=
  match dropPrefix opening html with
  | none => none
  | some rest =>
    some (rest.takeWhile (fun c => decide (c ≠ 34)), rest.dropWhile (fun c => decide (c ≠ 34)))

/-- The HTML parser of the reference host.  It is exact on the markup the
examples use: the two chart templates, one paragraph of text and text without
tags; other markup gives one opaque node. -/
def refParseFragment (html : JStr) : List Node :=
  match splitCarrier (js "<div class=\"yu-stream-editor-echarts-wrap\" contenteditable=\"false\" data-echarts-option=\"") html with
  | some (c, _) => if html = liveTemplate c then [liveWrapNode c] else [Node.other]
  | none =>
    match splitCarrier (js "<pre class=\"yu-stream-editor-echarts-pending\" contenteditable=\"false\" data-echarts-option=\"") html with
    | some (c, rest) =>
      match dropPrefix (js "\"><code>") rest with
      | none => [Node.other]
      | some inner =>
        match dropSuffix (js "</code></pre>") inner with
        | none => [Node.other]
        | some escapedCode =>
          if escapedCode.contains 60 then [Node.other]
          else [pendingNode c (unescapeEntities 0 escapedCode)]
    | none =>
      match dropPrefix (js "<p>") html with
      | some rest =>
        match dropSuffix (js "</p>\n") rest with
        | some t =>
          if t.contains 60 then [Node.other]
          else [Node.element (js "p") [] [Node.text (unescapeEntities 0 t)] none, Node.text [10]]
        | none => [Node.other]
      | none => if html.contains 60 then [Node.other] else [Node.text (unescapeEntities 0 html)]

/-- The snapshot every chart of the reference host gives. -/
def refSnapshot : JStr := js "data:image/png;base64,iVBORw0KGgo="

/-- The chart engine of the reference host: it puts a canvas into the
container and returns an instance; both give `refSnapshot`. -/
def refEchartsInit (chartEl : Node) (_option : Json) : Node × Option Surface :=
  match chartEl with
  | .element tag attrs _ surface =>
    (.element tag attrs
       [.element (js "div") [] [.element (js "canvas") [] [] (some { dataURL := some refSnapshot })]
          none] surface,
     some { dataURL := some refSnapshot })
  | n => (n, none)

/-- The style serializer of the reference host, on the two declarations the
editor assigns. -/
def refCssText (s : JStr) : JStr :=
  if s = js "display:none !important" then js "display: none !important;"
  else if s = js "width:100%;height:300px" then js "width: 100%; height: 300px;"
  else s

/-- Number::toString of the number with the significant decimal digits `ds`
(not empty, no zero at either end) of which `n` stand before the decimal
point; `n` may be negative or larger than the number of digits. -/
def numberToStringDigits (ds : JStr) (n : Int) : JStr :=
  if (ds.length : Int) ≤ n ∧ n ≤ 21 then ds ++ List.replicate (n - ds.length).toNat 48
  else if 0 < n ∧ n ≤ 21 then ds.take n.toNat ++ 46 :: ds.drop n.toNat
  else if -6 < n ∧ n ≤ 0 then 48 :: 46 :: (List.replicate (-n).toNat 48 ++ ds)
  else
    (match ds with
     | d :: e :: rest => d :: 46 :: e :: rest
     | other => other) ++
      101 :: (if 0 ≤ n - 1 then 43 :: decDigits (n - 1).toNat else 45 :: decDigits (1 - n).toNat)

/-- The parts of a JSON number literal: whether it has a minus sign, the
digits of its integer part, the digits of its fraction and its exponent. -/
def splitNumberLiteral (lit : JStr) : Option (Bool × JStr × JStr × Int) :=
  match parseIntPart (if lit.head? = some 45 then lit.tail else lit) with
  | none => none
  | some (ip, s2) =>
    match parseFraction s2 with
    | none => none
    | some (fr, s3) =>
      match parseExponent s3 with
      | none => none
      | some (ex, s4) =>
        if s4 = [] then
          some (decide (lit.head? = some 45), ip, fr.drop 1,
            if (ex.drop 1).head? = some 45 then - (digitsValue 0 (ex.drop 2) : Int)
            else if (ex.drop 1).head? = some 43 then (digitsValue 0 (ex.drop 2) : Int)
            else (digitsValue 0 (ex.drop 1) : Int))
        else none

/-- What `JSON.stringify` prints for the double nearest to a number literal.
With `n` the number of digits before the decimal point once the exponent is
applied and leading zeros are gone (the value is below `10^n` and not below
`10^(n-1)`): a value of zero, or with `n` at most -324, is the double zero,
printed `0`; with `n` at least 310 the double is infinite, printed `null`; a
literal of at most 15 significant digits with `n` from -300 to 300 is printed
by Number::toString with these digits.  Any other literal is returned as
written, which is not always what an engine prints. -/
def refNumberText (lit : JStr) : JStr :=
  match splitNumberLiteral lit with
  | none => lit
  | some (neg, ip, fp, ex) =>
    if ((ip ++ fp).dropWhile (fun c => decide (c = 48))) = [] then [48]
    else if (ip.length : Int) + ex -
        (((ip ++ fp).takeWhile (fun c => decide (c = 48))).length : Int) ≤ -324 then [48]
    else if (310 : Int) ≤ (ip.length : Int) + ex -
        (((ip ++ fp).takeWhile (fun c => decide (c = 48))).length : Int) then js "null"
    else if
        ((((ip ++ fp).dropWhile (fun c => decide (c = 48))).reverse.dropWhile
          (fun c => decide (c = 48))).length ≤ 15) ∧
        (-300 : Int) ≤ (ip.length : Int) + ex -
          (((ip ++ fp).takeWhile (fun c => decide (c = 48))).length : Int) ∧
        (ip.length : Int) + ex -
          (((ip ++ fp).takeWhile (fun c => decide (c = 48))).length : Int) ≤ 300 then
      (if neg then [45] else []) ++
        numberToStringDigits
          ((((ip ++ fp).dropWhile (fun c => decide (c = 48))).reverse.dropWhile
            (fun c => decide (c = 48))).reverse)
          ((ip.length : Int) + ex -
            (((ip ++ fp).takeWhile (fun c => decide (c = 48))).length : Int))
    else lit

/-- The tables of the reference platform: strings outside ASCII have no case
mapping; a number literal is printed as `refNumberText` has it. -/
def refPlatform : Platform :=
  { lowerUnicode := fun s => s,
    numberText := fun lit =>
      (refNumberText lit).filterMap (fun c => if h : c < 128 then some ⟨c, h⟩ else none) }

/-- The reference host. -/
def refHost : Host :=
  { platform := refPlatform,
    markedParse := refMarkedParse,
    parseFragment := refParseFragment,
    echartsInit := refEchartsInit,
    cssText := refCssText }

/-- A freshly constructed editor in edit mode on a page with a container. -/
def freshEditor : Editor :=
  construct { hasContainer := true, chartEnabled := none, mode := none, readonly := false,
              placeholder := js "在此输入或粘贴内容，也可使用工具栏格式化选中文字、修改表格样式。" }

/-- The base64 digits (values below 64) of a list of octets, without padding. -/
def base64Digits : List Nat → List Nat
  | [] => []
  | [a] => [a / 4, a % 4 * 16]
  | [a, b] => [a / 4, a % 4 * 16 + b / 16, b % 16 * 4]
  | a :: b :: c :: rest =>
    a / 4 :: (a % 4 * 16 + b / 16) :: (b % 16 * 4 + c / 64) :: c % 64 :: base64Digits rest


/-- The content after the synchronous part of `_mountEchartsInElement`: the
first chart wrap in document order, if there is one, has gone through
`mountOne`. -/
def mountFirstWrap (H : Host) (content : List Node) : List Node :=
  updateAt (mountWrap H) ((Node.pathsInList (Node.hasClass wrapClass) 0 content).getD 0 []) content

/-- The opening tag of the editing surface in the output of `getHtml`. -/
def surfaceOpenTag (e : Editor) : JStr :=
  60 :: (js "div" ++
    serializeAttrs
      [(js "class", js "yu-stream-editor-editor"),
       (js "contenteditable", if e.isReadonly then js "false" else js "true"),
       (js "data-placeholder", e.placeholder)] ++ [62])

/-! ## Example values -/

/-- A document that is one chart fence. -/
def chartOnlyBufferA : JStr := js "```chart\n\x7b\"a\":1\x7d\n```"

/-- Another document that is one chart fence, with another configuration. -/
def chartOnlyBufferB : JStr := js "```chart\n\x7b\"a\":2\x7d\n```"

/-- A mounted editor in edit mode with an empty stream buffer that shows the text `x`. -/
def editorWithText : Editor := setHtml refHost freshEditor (some (Json.str (js "x")))

/-- A mounted editor in read-only (streaming) mode. -/
def streamingEditor : Editor := setReadonly refHost freshEditor true

/-- The markup of the pending chart of `chartOnlyBufferA`. -/
def pendingMarkupA : JStr :=
  pendingTemplate (js "eyJhIjoxfQ==") (js "\x7b\n  \"a\": 1\n\x7d")

/-- A session: streaming with a non-string chunk in between, a full
replacement, a new stream, exports and mode changes. -/
def exampleSession : List Op :=
  [Op.appendStreamChunk (some (Json.str (js "# Ti"))),
   Op.appendStreamChunk (some (Json.num 7)),
   Op.appendStreamChunk none,
   Op.setMarkdown (some (Json.str (js "other"))),
   Op.resetStream,
   Op.setReadonly true,
   Op.appendStreamChunk (some (Json.str (js "```chart\n"))),
   Op.getHtml,
   Op.appendStreamChunk (some (Json.str (js "\x7b\"a\":1\x7d\n```"))),
   Op.setHtml (some (Json.str (js "y"))),
   Op.getMarkdown,
   Op.setReadonly false,
   Op.frame]

/-- A chart configuration with text outside ASCII and outside the BMP,
negative and nested values. -/
def exampleConfig : Json :=
  Json.obj
    [(js "title", Json.str (js "图表 😀 \"é\"\n")),
     (js "series", Json.arr [Json.num 1, Json.num (-20), Json.bool true, Json.null, Json.obj []])]

/-- The carrier of `exampleConfig`. -/
def exampleCarrier : JStr := base64Encode (utf8Encode (stringify refPlatform exampleConfig))

/-- The body of a chart fence. -/
def exampleBody : JStr := js " \x7b\"series\": [1, 2], \"name\": \"销量\"\x7d\n"

/-- The value of `exampleBody`. -/
def exampleBodyValue : Json :=
  Json.obj [(js "series", Json.arr [Json.num 1, Json.num 2]), (js "name", Json.str (js "销量"))]

/-- The malformed chart body of the specification. -/
def malformedBody : JStr := js "\x7b invalid json "

/-! ## Reading serialized markup back -/

/-- A character of the base64 alphabet `A-Z`, `a-z`, `0-9`, `+`, `/`, or the
padding sign `=`. -/
def isBase64Char (c : Nat) : Bool :=
  decide ((65 ≤ c ∧ c ≤ 90) ∨ (97 ≤ c ∧ c ≤ 122) ∨ (48 ≤ c ∧ c ≤ 57) ∨ c = 43 ∨ c = 47 ∨ c = 61)

/-- Character references as an HTML parser decodes them, for the four
references the serializer writes (`&lt;`, `&gt;`, `&amp;`, `&quot;`); an `&`
that starts none of them stands for itself.  `skip` code units of the
current reference are still to be passed over. -/
def decodeCharRefs : Nat → JStr → JStr
  | _, [] => []
  | skip + 1, _ :: tail => decodeCharRefs skip tail
  | 0, c :: tail =>
    if c = 38 then
      if (dropPrefix (js "lt;") tail).isSome then 60 :: decodeCharRefs 3 tail
      else if (dropPrefix (js "gt;") tail).isSome then 62 :: decodeCharRefs 3 tail
      else if (dropPrefix (js "amp;") tail).isSome then 38 :: decodeCharRefs 4 tail
      else if (dropPrefix (js "quot;") tail).isSome then 34 :: decodeCharRefs 5 tail
      else 38 :: decodeCharRefs 0 tail
    else c :: decodeCharRefs 0 tail

/-- The value an HTML parser reads for a double-quoted attribute, given the
markup after the opening quote: the text up to the next quote, with its
character references decoded. -/
def readQuotedValue (markup : JStr) : JStr :=
  decodeCharRefs 0 (markup.takeWhile (fun c => decide (c ≠ 34)))

/-! ## Mode calls and the helpers they call -/

/-- A pending chart block that `_replacePendingChartsWithCharts` replaces: an
element with the pending class whose carrier attribute is there and not empty. -/
def isPromotable (n : Node) : Bool :=
  n.hasClass pendingClass &&
    (match n.getAttribute optionAttr with
     | some v => !v.isEmpty
     | none => false)

/-- A call `setReadonly` makes to one of its two helpers. -/
inductive ModeStep where
  /-- The call `this._replacePendingChartsWithCharts()`. -/
  | replacePendingCharts
  /-- The call `this._mountEchartsInElement(this.editor)`. -/
  | mountEcharts
  deriving DecidableEq

/-- The method `setReadonly(readonly)` on an editor and a log, each call to
`_replacePendingChartsWithCharts` and `_mountEchartsInElement` being written
to the log. -/
def setReadonlyLogged (H : Host) (s : Editor × List ModeStep) (readonly : Bool) :
    Editor × List ModeStep :=
  if readonly then
    ({ s.1 with isReadonly := true, content := clearTableSelectionList s.1.content }, s.2)
  else
    (mountEchartsInElement H
        { s.1 with isReadonly := false, content := promoteList H s.1.content },
      s.2 ++ [ModeStep.replacePendingCharts, ModeStep.mountEcharts])

/-- A call of one of the three methods that set the mode. -/
inductive ModeCall where
  | setReadonly (readonly : Bool)
  | setMode (mode : Option Json)
  | toggleReadonly

/-- The state after a mode call. -/
def applyModeCall (H : Host) (e : Editor) : ModeCall → Editor
  | ModeCall.setReadonly r => setReadonly H e r
  | ModeCall.setMode mode => setMode H e mode
  | ModeCall.toggleReadonly => toggleReadonly H e

/-- The state and the log after a mode call. -/
def applyModeCallLogged (H : Host) (s : Editor × List ModeStep) :
    ModeCall → Editor × List ModeStep
  | ModeCall.setReadonly r => setReadonlyLogged H s r
  | ModeCall.setMode (some (Json.str m)) => setReadonlyLogged H s (decide (m = js "readonly"))
  | ModeCall.setMode _ => setReadonlyLogged H s false
  | ModeCall.toggleReadonly => setReadonlyLogged H s (!s.1.isReadonly)

/-- The state after a sequence of mode calls. -/
def runModeCalls (H : Host) : Editor → List ModeCall → Editor
  | e, [] => e
  | e, c :: rest => runModeCalls H (applyModeCall H e c) rest

/-- The state and the log after a sequence of mode calls. -/
def runModeCallsLogged (H : Host) :
    Editor × List ModeStep → List ModeCall → Editor × List ModeStep
  | s, [] => s
  | s, c :: rest => runModeCallsLogged H (applyModeCallLogged H s c) rest

/-- The number of calls in a sequence that take the editor from read-only
mode to edit mode. -/
def transitionsToEdit (H : Host) : Editor → List ModeCall → Nat
  | _, [] => 0
  | e, c :: rest =>
    (if e.isReadonly && !(applyModeCall H e c).isReadonly then 1 else 0) +
      transitionsToEdit H (applyModeCall H e c) rest

/-- The number of calls in a sequence after which the editor is in edit
mode, whatever the mode was before the call. -/
def callsLeavingEditable (H : Host) : Editor → List ModeCall → Nat
  | _, [] => 0
  | e, c :: rest =>
    (if (applyModeCall H e c).isReadonly then 0 else 1) +
      callsLeavingEditable H (applyModeCall H e c) rest

/-! ## Mounting, frame by frame -/

/-- The property `_echartsInstance` of a node. -/
def Node.surface : Node → Option Surface
  | .element _ _ _ surface => surface
  | _ => none

/-- What `mountOne` hands to the chart engine for a wrap: the path of the
container below the wrap, the container and the decoded configuration;
`none` when `mountOne` returns before the call `echarts.init` (carrier
missing or empty, carrier not decodable, no container). -/
def mountTarget (wrap : Node) : Option (List Nat × Node × Json) :=
  match wrap with
  | .element _ _ children _ =>
    match carrierOf wrap with
    | none => none
    | some optBase64 =>
      if optBase64 = [] then none
      else
        match decodeCarrier optBase64 with
        | none => none
        | some option =>
          match (Node.pathsBelow (Node.hasClass containerClass) wrap).head? with
          | none => none
          | some q =>
            match getAt q children with
            | none => none
            | some chartEl => some (q, chartEl, option)
  | _ => none

/-- Whether `mountOne` gets a configuration out of the carrier of a wrap:
the carrier is there, is not empty, and `atob`, `decodeURIComponent` and
`JSON.parse` all return. -/
def decodable (wrap : Node) : Bool :=
  match carrierOf wrap with
  | none => false
  | some optBase64 => !optBase64.isEmpty && (decodeCarrier optBase64).isSome

/-- A live chart node before it is mounted: an element with the wrap class
that has no other wrap below it, has a chart container below it and has no
chart instance. -/
def isUnmountedLiveChart (w : Node) : Bool :=
  w.hasClass wrapClass && (Node.pathsBelow (Node.hasClass wrapClass) w).isEmpty &&
    !(Node.pathsBelow (Node.hasClass containerClass) w).isEmpty && w.surface.isNone

/-- The state after a number of steps of the animation-frame queue: after
this number of animation frames, while a single mount job is outstanding. -/
def runFrames (H : Host) : Nat → Editor → Editor
  | 0, e => e
  | k + 1, e => runTick H (runFrames H k e)

/-- The content after the wraps of indices `0` to `k - 1` went through
`mountOne`, in this order. -/
def mountedUpTo (H : Host) (wraps : List (List Nat)) (content : List Node) : Nat → List Node
  | 0 => content
  | k + 1 => updateAt (mountWrap H) (wraps.getD k []) (mountedUpTo H wraps content k)

/-- What the callback `mountOne(index)` of a tick does to the tree its wraps
were collected from, whether or not this tree is still the content of the
editor. -/
def mountOneOn (H : Host) (tree : List Node) (t : MountTick) : List Node :=
  if t.wraps.length ≤ t.index then tree
  else updateAt (mountWrap H) (t.wraps.getD t.index []) tree

/-! ## More example values -/

/-- The carrier of the configuration with `a` equal to 1. -/
def carrierA : JStr := js "eyJhIjoxfQ=="

/-- The carrier of the configuration with `a` equal to 2. -/
def carrierB : JStr := js "eyJhIjoyfQ=="

/-- A document with two chart fences. -/
def twoChartsText : JStr := chartOnlyBufferA ++ js "\n\n" ++ chartOnlyBufferB

/-- The markup of one fenced code block: what the renderer returns, or the
code block of the library when the renderer returns `false`. -/
def refCodeBlock (hook : JStr → Option JStr → Option JStr) (info body : JStr) : JStr :=
  match hook body (some info) with
  | some html => html
  | none => js "<pre><code class=\"language-" ++ info ++ js "\">" ++ escapeText body ++
      js "\n</code></pre>\n"

/-- The reference host, with a Markdown library and an HTML parser that also
know the document `twoChartsText` and the markup of its two live charts. -/
def twoChartsHost : Host :=
  { refHost with
    markedParse := fun hook text =>
      if text = twoChartsText then
        some (refCodeBlock hook (js "chart") (js "\x7b\"a\":1\x7d") ++
          refCodeBlock hook (js "chart") (js "\x7b\"a\":2\x7d"))
      else refMarkedParse hook text,
    parseFragment := fun html =>
      if html = liveTemplate carrierA ++ liveTemplate carrierB then
        [liveWrapNode carrierA, liveWrapNode carrierB]
      else refParseFragment html }

/-- An editor that shows the two charts of `twoChartsText`: the first is
mounted, the second waits for the next animation frame. -/
def twoChartsEditor : Editor :=
  setMarkdown twoChartsHost freshEditor (some (Json.str twoChartsText))

/-- The editor `twoChartsEditor` after its document was replaced before the
next animation frame. -/
def replacedEditor : Editor :=
  setMarkdown twoChartsHost twoChartsEditor (some (Json.str (js "other")))

/-- A live chart wrap with a chart instance whose snapshot is `url` (`none`
when the call throws), the canvas below its container giving `refSnapshot`. -/
def wrapWithInstance (url : Option JStr) : Node :=
  .element (js "div")
    [(js "class", wrapClass), (js "contenteditable", js "false"), (optionAttr, carrierA)]
    [.element (js "span")
       [(js "class", dataClass), (js "style", js "display:none !important"),
        (optionAttr, carrierA), (js "aria-hidden", js "true")] [] none,
     .element (js "div")
       [(js "class", containerClass), (js "style", js "width:100%;height:300px")]
       [.element (js "div") []
          [.element (js "canvas") [] [] (some { dataURL := some refSnapshot })] none]
       none]
    (some { dataURL := url })

/-- A pending-class block without a carrier attribute. -/
def pendingWithoutCarrier : Node :=
  .element (js "pre") [(js "class", pendingClass), (js "contenteditable", js "false")]
    [.element (js "code") [] [.text (js "x")] none] none

/-- An `img` element with the class of a chart wrap. -/
def voidChartWrap : Node :=
  .element (js "img") [(js "class", wrapClass), (js "src", js "a.png")] [] none

/-- The array `wraps` that `_mountEchartsInElement(this.editor)` collects:
the chart wraps of the content, in the order of `querySelectorAll`. -/
def wrapsOf (e : Editor) : List (List Nat) :=
  Node.pathsInList (Node.hasClass wrapClass) 0 e.content

/-- Document order on paths: a node comes before the nodes below it and
before everything below or at a later sibling of it or of one of its
ancestors. -/
def precedes : List Nat → List Nat → Bool
  | [], [] => false
  | [], _ :: _ => true
  | _ :: _, [] => false
  | a :: p, b :: q => decide (a < b) || (decide (a = b) && precedes p q)

/-- An editor that shows three live charts before any of them is mounted:
one whose carrier is not base64, one with the carrier `carrierA`, and one
whose carrier is the base64 of an octet sequence that is not UTF-8. -/
def mixedChartsEditor : Editor :=
  { freshEditor with
    content := [liveWrapNode (js "%%%"), liveWrapNode carrierA, liveWrapNode (js "/w==")],
    gen := 1 }

/-! ## Snapshots that throw -/

/-- Whether the snapshot call that `_getChartDataUrl` makes for a wrap
throws: `getDataURL` of the chart instance when the wrap has one, else
`toDataURL` of the first canvas below the chart container. -/
def snapshotThrows (wrap : Node) : Bool :=
  match wrap with
  | .element _ _ _ (some chart) => chart.dataURL.isNone
  | _ =>
    match Node.findDescendant (Node.hasClass containerClass) wrap with
    | none => false
    | some container =>
      match Node.findDescendant (Node.hasTag (js "canvas")) container with
      | none => false
      | some canvas =>
        match canvas.surface with
        | some s => s.dataURL.isNone
        | none => false

/-- A live chart wrap without chart instance whose canvas throws on `toDataURL`. -/
def wrapWithThrowingCanvas : Node :=
  .element (js "div")
    [(js "class", wrapClass), (js "contenteditable", js "false"), (optionAttr, carrierA)]
    [.element (js "span")
       [(js "class", dataClass), (js "style", js "display:none !important"),
        (optionAttr, carrierA), (js "aria-hidden", js "true")] [] none,
     .element (js "div")
       [(js "class", containerClass), (js "style", js "width:100%;height:300px")]
       [.element (js "canvas") [] [] (some { dataURL := none })]
       none]
    none

/-! ## The method `insertTable` -/

/-- The loop `for (let c = 0; c < n; c++) html += piece`. -/
def appendTimes : Nat → JStr → JStr → JStr
  | 0, _, html => html
  | n + 1, piece, html => appendTimes n piece (html ++ piece)

/-- The loop `for (let r = 1; r < rows; r++)` of `insertTable`, with `n` rows
still to write: each pass writes `<tr>`, the cells and `</tr>`. -/
def appendRows : Nat → Nat → JStr → JStr
  | 0, _, html => html
  | n + 1, cols, html =>
    appendRows n cols (appendTimes cols (js "<td></td>") (html ++ js "<tr>") ++ js "</tr>")

/-- The string `html` that `insertTable(rows, cols)` hands to `insertHTML`,
for natural numbers `rows` and `cols`. -/
def insertTableHtml (rows cols : Nat) : JStr :=
  appendRows (rows - 1) cols
      (appendTimes cols (js "<th></th>") (js "<table><thead><tr>") ++ js "</tr></thead><tbody>") ++
    js "</tbody></table>"

/-- An element without attributes. -/
def plainElement (tag : JStr) (children : List Node) : Node := .element tag [] children none

/-- A table of `rows` rows of `cols` empty cells: a header row of `th` cells
in `thead`, the other rows of `td` cells in `tbody`. -/
def tableOf (rows cols : Nat) : Node :=
  plainElement (js "table")
    [plainElement (js "thead")
       [plainElement (js "tr") (List.replicate cols (plainElement (js "th") []))],
     plainElement (js "tbody")
       (List.replicate (rows - 1)
         (plainElement (js "tr") (List.replicate cols (plainElement (js "td") []))))]

/-- The rows of a table: the `tr` elements in its sections. -/
def tableRows (table : Node) : List Node :=
  table.children.flatMap (fun section_ => section_.children.filter (Node.hasTag (js "tr")))

/-- The cells of a row: its `th` and `td` elements. -/
def rowCells (row : Node) : List Node :=
  row.children.filter (fun c => c.hasTag (js "th") || c.hasTag (js "td"))

/-! ## The function `rgbToHex` -/

/-- The part `\s*(\d+)\s*` of the pattern, then the character `close`: the
digits matched and what follows `close`. -/
def matchComponent (close : Nat) (s : JStr) : Option (JStr × JStr) :=
  if (takeDigits (trimStart s)).1 = [] then none
  else
    match trimStart (takeDigits (trimStart s)).2 with
    | c :: rest => if c = close then some ((takeDigits (trimStart s)).1, rest) else none
    | [] => none

/-- The call `rgb.match(/^rgb\s*\(\s*(\d+)\s*,\s*(\d+)\s*,\s*(\d+)\s*\)$/)`:
the three groups, or `none` (`null`) without a match. -/
def matchRgb (rgb : JStr) : Option (JStr × JStr × JStr) :=
  match dropPrefix (js "rgb") rgb with
  | none => none
  | some s0 =>
    match trimStart s0 with
    | c :: s1 =>
      if c = 40 then
        match matchComponent 44 s1 with
        | none => none
        | some (r, s2) =>
          match matchComponent 44 s2 with
          | none => none
          | some (g, s3) =>
            match matchComponent 41 s3 with
            | none => none
            | some (b, s4) => if s4 = [] then some (r, g, b) else none
      else none
    | [] => none

/-- Hexadecimal digits of a natural number, most significant first, put before `acc`. -/
def hexDigitsAux : Nat → Nat → JStr → JStr
  | 0, _, acc => acc
  | fuel + 1, n, acc =>
    if n < 16 then hexLower n :: acc else hexDigitsAux fuel (n / 16) (hexLower (n % 16) :: acc)

/-- The call `n.toString(16)` on a natural number. -/
def hexDigits (n : Nat) : JStr := hexDigitsAux (n + 1) n []

/-- The call `s.padStart(2, '0')`. -/
def padStart2 (s : JStr) : JStr :=
  if s.length < 2 then List.replicate (2 - s.length) 48 ++ s else s

/-- The helper `hex` of `rgbToHex` on a run of digits:
`parseInt(n, 10).toString(16).padStart(2, '0')`.  A run whose value is above
2^53 is rounded by the engine first; `bigHex` is what it prints then. -/
def hexComponent (bigHex : JStr → JStr) (n : JStr) : JStr :=
  padStart2 (if digitsValue 0 n ≤ 9007199254740992 then hexDigits (digitsValue 0 n) else bigHex n)

/-- The function `rgbToHex(rgb)` on a string; `none` is `null`. -/
def rgbToHex (bigHex : JStr → JStr) (rgb : JStr) : Option JStr :=
  if rgb = [] ∨ rgb.head? = some 35 then some rgb
  else
    match matchRgb rgb with
    | none => none
    | some (r, g, b) =>
      some (35 :: (hexComponent bigHex r ++ hexComponent bigHex g ++ hexComponent bigHex b))

/-- The text `rgb(r, g, b)` with white space `w0` to `w6` at the places where
the pattern allows it. -/
def rgbText (w0 w1 r w2 w3 g w4 w5 b w6 : JStr) : JStr :=
  js "rgb" ++ w0 ++ 40 :: (w1 ++ r ++ w2 ++ 44 :: (w3 ++ g ++ w4 ++ 44 :: (w5 ++ b ++ w6 ++ [41])))

/-! ## Trees up to attribute order -/

mutual
/-- Whether two trees are equal up to the order of the attributes of each element. -/
def equalUpToAttrOrder : Node → Node → Bool
  | .text a, .text b => decide (a = b)
  | .other, .other => true
  | .element t1 a1 c1 s1, .element t2 a2 c2 s2 =>
    decide (t1 = t2) && decide (a1.Perm a2) && equalListUpToAttrOrder c1 c2 &&
      decide (s1.map (fun s => s.dataURL) = s2.map (fun s => s.dataURL))
  | _, _ => false
/-- The same for two lists of siblings. -/
def equalListUpToAttrOrder : List Node → List Node → Bool
  | [], [] => true
  | a :: as, b :: bs => equalUpToAttrOrder a b && equalListUpToAttrOrder as bs
  | _, _ => false
end

/-- The attributes of an element with the value of `style` in the form the
style serializer writes it. -/
def restyleAttrs (H : Host) : List (JStr × JStr) → List (JStr × JStr)
  | [] => []
  | a :: rest =>
    (if a.1 = js "style" then (a.1, H.cssText a.2) else a) :: restyleAttrs H rest

mutual
/-- A tree with every `style` attribute in the form the style serializer
writes it. -/
def restyle (H : Host) : Node → Node
  | .element tag attrs children surface =>
    .element tag (restyleAttrs H attrs) (restyleList H children) surface
  | n => n
/-- The same for a list of siblings. -/
def restyleList (H : Host) : List Node → List Node
  | [] => []
  | n :: rest => restyle H n :: restyleList H rest
end

/-- The value of an attribute of the node at a path. -/
def attributeAt (path : List Nat) (name : JStr) (tree : List Node) : Option JStr :=
  match getAt path tree with
  | none => none
  | some n => n.getAttribute name

/-! ## More carriers -/

/-- The carrier of the text `not json`, which is no JSON text. -/
def carrierNotJson : JStr := js "bm90IGpzb24="

/-- A pending chart block with the carrier `carrierNotJson`. -/
def pendingNotJson : Node := pendingNode carrierNotJson (js "not json")

/-- The reference host with a Markdown library that throws on a text that
holds the character U+0000. -/
def throwingHost : Host :=
  { refHost with
    markedParse := fun hook text => if text.contains 0 then none else refMarkedParse hook text }

/-- An editor in edit mode that has received the chunk `hi` from a stream. -/
def streamedEditor : Editor :=
  appendStreamChunk throwingHost freshEditor (some (Json.str (js "hi")))

/-! ## Number literals in a value -/

mutual
/-- Every number literal kept in a value satisfies `Q`. -/
def Json.numLitsAll (Q : JStr → Prop) : Json → Prop
  | .null => True
  | .bool _ => True
  | .num _ => True
  | .numLit lit => Q lit
  | .str _ => True
  | .arr xs => Json.numLitsAllList Q xs
  | .obj kvs => Json.numLitsAllMembers Q kvs
/-- The same for a list of elements. -/
def Json.numLitsAllList (Q : JStr → Prop) : List Json → Prop
  | [] => True
  | x :: xs => Json.numLitsAll Q x ∧ Json.numLitsAllList Q xs
/-- The same for a list of members. -/
def Json.numLitsAllMembers (Q : JStr → Prop) : List (JStr × Json) → Prop
  | [] => True
  | (_, v) :: kvs => Json.numLitsAll Q v ∧ Json.numLitsAllMembers Q kvs
end

/-! ## Values as `JSON.parse` returns them -/

mutual
/-- A JSON value as `JSON.parse` returns it: strings and keys are sequences
of 16-bit code units, a number kept as an integer has a magnitude of at most
2^53, and the keys of every object are distinct and in property order; a
number literal may be any. -/
def Json.isParsed : Json → Bool
  | .null => true
  | .bool _ => true
  | .num n => decide (n.natAbs ≤ 9007199254740992)
  | .numLit _ => true
  | .str s => isJStr s
  | .arr xs => Json.isParsedList xs
  | .obj kvs => propertyOrdered kvs && Json.isParsedMembers kvs
/-- The same for a list of elements. -/
def Json.isParsedList : List Json → Bool
  | [] => true
  | x :: xs => Json.isParsed x && Json.isParsedList xs
/-- The same for a list of members. -/
def Json.isParsedMembers : List (JStr × Json) → Bool
  | [] => true
  | (k, v) :: kvs => isJStr k && Json.isParsed v && Json.isParsedMembers kvs
end

/-- What the platform prints for a number literal reads back: the text holds
no white space and no control character, and `JSON.parse` reads it, whatever
follows it inside a JSON text, as a value that is printed as the same text. -/
def numberReadsBack (P : Platform) (lit : JStr) : Prop :=
  (∀ c ∈ stringify P (Json.numLit lit), 32 < c) ∧
  ∃ v, stringify P v = stringify P (Json.numLit lit) ∧
    ∀ (fuel : Nat) (rest : JStr), startsWithDelimiter rest = true →
      parseValue (fuel + 1) (stringify P (Json.numLit lit) ++ rest) = some (v, rest)

/-- The body of a chart fence with numbers that are no integers and with a
key that stands twice. -/
def fractionBody : JStr :=
  js " \x7b\"b\": [1.50, -2e3], \"10\": \"x\", \"2\": null, \"10\": 7\x7d\n"

/-- The value of `fractionBody`. -/
def fractionBodyValue : Json :=
  Json.obj [(js "2", Json.null), (js "10", Json.num 7),
    (js "b", Json.arr [Json.numLit (js "1.50"), Json.numLit (js "-2e3")])]

/-! ## The same value, up to the spelling of numbers -/

/-- A number: an integer or a number literal. -/
def Json.isNumber : Json → Bool
  | .num _ => true
  | .numLit _ => true
  | _ => false

/-- What the platform prints for a number literal is the text of a number: it
starts with a digit or a minus sign (the number is finite, so `JSON.stringify`
does not print `null`). -/
def printsAsNumber (P : Platform) (lit : JStr) : Prop :=
  ∃ c t, stringify P (Json.numLit lit) = c :: t ∧ (c = 45 ∨ isDigit c = true)

/-- What the platform prints for a number literal is the text of a number
that reads back. -/
def numberReadsBackAsNumber (P : Platform) (lit : JStr) : Prop :=
  numberReadsBack P lit ∧ printsAsNumber P lit

mutual
/-- The second value is the first one, read again: `null`, booleans,
integers, strings and keys are equal, arrays and objects have the same
entries in the same order, and in place of a number literal stands a number
that the platform prints as the same text (the same double). -/
def Json.sameValue (P : Platform) : Json → Json → Prop
  | .null, y => y = .null
  | .bool b, y => y = .bool b
  | .num n, y => y = .num n
  | .numLit lit, y => y.isNumber = true ∧ stringify P y = stringify P (.numLit lit)
  | .str s, y => y = .str s
  | .arr xs, y => ∃ ys, y = .arr ys ∧ Json.sameValueList P xs ys
  | .obj kvs, y => ∃ ms, y = .obj ms ∧ Json.sameValueMembers P kvs ms
/-- The same for two lists of elements. -/
def Json.sameValueList (P : Platform) : List Json → List Json → Prop
  | [], ys => ys = []
  | x :: xs, ys => ∃ y rest, ys = y :: rest ∧ Json.sameValue P x y ∧ Json.sameValueList P xs rest
/-- The same for two lists of members. -/
def Json.sameValueMembers (P : Platform) :
    List (JStr × Json) → List (JStr × Json) → Prop
  | [], ms => ms = []
  | (k, v) :: kvs, ms =>
    ∃ w rest, ms = (k, w) :: rest ∧ Json.sameValue P v w ∧ Json.sameValueMembers P kvs rest
end

/-- The body of a chart fence with a number that is no integer. -/
def opacityBody : JStr := js "\x7b\"opacity\": 0.50, \"size\": 12\x7d"

/-- The value of `opacityBody`. -/
def opacityBodyValue : Json :=
  Json.obj [(js "opacity", Json.numLit (js "0.50")), (js "size", Json.num 12)]

/-- The body of a chart fence with a number beyond the range of doubles. -/
def overflowBody : JStr := js "\x7b\"a\":1e999\x7d"

/-- The value of `overflowBody`: the number is the literal `1e999`, which
stands for an infinite double. -/
def overflowBodyValue : Json := Json.obj [(js "a", Json.numLit (js "1e999"))]

/-- The carrier of the text with `a` equal to `null`. -/
def carrierNull : JStr := js "eyJhIjpudWxsfQ=="

/-! ## Info strings that name a chart -/

/-- Whether a string is a given word of lower-case ASCII letters up to the
case of each letter: every character is the letter of the word at its place
or the capital of it. -/
def isCaseVariant : JStr → JStr → Bool
  | [], [] => true
  | w :: word, c :: s => (decide (c = w) || decide (c + 32 = w)) && isCaseVariant word s
  | _, _ => false

/-- The code units that are white space around an info string: WhiteSpace
and LineTerminator of ECMA-262 (tab, line feed, vertical tab, form feed,
carriage return, space, no-break space, the space separators of Unicode, line
and paragraph separator, byte order mark). -/
def whiteSpaceUnits : List Nat :=
  [9, 10, 11, 12, 13, 32, 160, 5760, 8192, 8193, 8194, 8195, 8196, 8197, 8198, 8199, 8200,
   8201, 8202, 8232, 8233, 8239, 8287, 12288, 65279]

/-- An info string that names a chart: the word `chart` or `echarts` in any
case, with any white space before and after it. -/
def isChartInfo (s : JStr) : Prop :=
  ∃ w1 core w2, s = w1 ++ core ++ w2 ∧
    (∀ c ∈ w1, c ∈ whiteSpaceUnits) ∧ (∀ c ∈ w2, c ∈ whiteSpaceUnits) ∧
    (isCaseVariant (js "chart") core = true ∨ isCaseVariant (js "echarts") core = true)

/-! ## The serializer as a run over the page -/

/-- The chart engine while the serializer runs.  A snapshot call
(`getDataURL` of a chart instance, `toDataURL` of a canvas) is answered in a
state of the engine: the data URL, or `none` when the call throws, and the
state of the engine after the call. -/
structure Engine (W : Type) where
  snapshot : W → Surface → Option JStr × W

/-- The state a call of `getHtml` runs in: the editor and the chart engine. -/
structure Page (W : Type) where
  editor : Editor
  engine : W

/-- The method `_getChartDataUrl(wrap)` as a run: the snapshot call goes to
the engine, which may change its state; the result is the data URL, or the
empty string when the call throws or there is nothing to call. -/
def getChartDataUrlRun {W : Type} (E : Engine W) (wrap : Node) (p : Page W) : JStr × Page W :=
  match wrap with
  | .element _ _ _ (some chart) =>
    ((E.snapshot p.engine chart).1.getD [], { p with engine := (E.snapshot p.engine chart).2 })
  | _ =>
    match Node.findDescendant (Node.hasClass containerClass) wrap with
    | none => ([], p)
    | some container =>
      match Node.findDescendant (Node.hasTag (js "canvas")) container with
      | none => ([], p)
      | some canvas =>
        match canvas with
        | .element _ _ _ (some s) =>
          ((E.snapshot p.engine s).1.getD [], { p with engine := (E.snapshot p.engine s).2 })
        | _ => ([], p)

/-- What the serializer puts in place of a chart wrap, as a run: one call of
`_getChartDataUrl`. -/
def chartImageRun {W : Type} (E : Engine W) (el : Node) (p : Page W) : JStr × Page W :=
  match getChartDataUrlRun E el p with
  | (dataUrl, p1) =>
    (if dataUrl = [] then js "<p>[图表未渲染]</p>"
     else
       js "<img src=\"" ++ replaceAll 34 (js "&quot;") dataUrl ++
         js "\" alt=\"图表\" class=\"yu-stream-editor-echarts-export-img\">",
     p1)

mutual
/-- The method `_serializeEditorHtmlWithChartsAsImages(node)` as a run: the
string it returns and the page after the call. -/
def serializeRun {W : Type} (E : Engine W) : Node → Page W → JStr × Page W
  | .text data, p => (escapeText data, p)
  | .other, p => ([], p)
  | .element tag attrs children surface, p =>
    if isChartWrap (.element tag attrs children surface) then
      chartImageRun E (.element tag attrs children surface) p
    else if voidTags.contains tag then (60 :: (tag ++ serializeAttrs attrs ++ [62]), p)
    else
      (60 :: (tag ++ serializeAttrs attrs ++ [62] ++ (serializeChildrenRun E children p).1 ++
          (60 :: 47 :: tag) ++ [62]),
        (serializeChildrenRun E children p).2)
/-- The loop over the child nodes, as a run: each child is serialized on the
page the child before it left. -/
def serializeChildrenRun {W : Type} (E : Engine W) : List Node → Page W → JStr × Page W
  | [], p => ([], p)
  | n :: rest, p =>
    ((serializeRun E n p).1 ++ (serializeChildrenRun E rest (serializeRun E n p).2).1,
      (serializeChildrenRun E rest (serializeRun E n p).2).2)
end

/-- The method `getHtml()` as a run: the string it returns and the page after
the call. -/
def getHtmlRun {W : Type} (E : Engine W) (p : Page W) : JStr × Page W :=
  if p.editor.hasEditor then serializeRun E p.editor.surfaceNode p else ([], p)

/-- An engine that answers every snapshot call with the data URL the surface
holds and counts the calls. -/
def countingEngine : Engine Nat :=
  { snapshot := fun w s => (s.dataURL, w + 1) }

/-- An engine whose first snapshot call gives the data URL the surface holds
and whose later calls throw. -/
def failingEngine : Engine Nat :=
  { snapshot := fun w s => (if w = 0 then s.dataURL else none, w + 1) }

/-- An editor in edit mode that shows one mounted chart and, before it, a
paragraph of text. -/
def chartAndTextEditor : Editor :=
  { freshEditor with
    content :=
      [Node.element (js "p") [] [Node.text (js "a<b")] none,
       mountWrap refHost (liveWrapNode carrierA)],
    gen := 1 }

/-! ## The image rule of the Markdown exporter -/

/-- A character of a data URL as a canvas gives it: a letter, a digit or one
of `:`, `;`, `,`, `/`, `+`, `=`. -/
def isDataUrlChar (c : Nat) : Bool :=
  isAlnum c || decide (c = 58) || decide (c = 59) || decide (c = 44) || decide (c = 47) ||
  decide (c = 43) || decide (c = 61)

/-- The markup `getHtml` returns for an editor that shows one chart with the
snapshot `url` and nothing else. -/
def chartOnlyMarkup (e : Editor) (url : JStr) : JStr :=
  surfaceOpenTag e ++
    (js "<img src=\"" ++ url ++
      js "\" alt=\"图表\" class=\"yu-stream-editor-echarts-export-img\">") ++
    js "</div>"

/-- The image rule of the Markdown exporter (Turndown), on the markup of one
chart image: a `div` that holds nothing but an `img` with the source `url`
and the alternative text `图表` is written as `![图表](url)`. -/
def followsImageRule (turndown : (Node → Bool) → (Node → JStr) → JStr → Option JStr) : Prop :=
  ∀ (e : Editor) (url : JStr), url ≠ [] → url.all isDataUrlChar = true →
    turndown echartsPendingFilter echartsPendingReplacement (chartOnlyMarkup e url)
      = some (js "![图表](" ++ url ++ js ")")

/-- The exporter of the reference host.  It is exact on the markup of one
chart image in a `div`; it gives back any other markup as it is. -/
def refTurndown (_filter : Node → Bool) (_replacement : Node → JStr) (html : JStr) :
    Option JStr :=
  match dropPrefix (js "<div") html with
  | none => some html
  | some rest =>
    match dropPrefix (js "<img src=\"") ((rest.dropWhile (fun c => decide (c ≠ 62))).drop 1) with
    | none => some html
    | some r2 =>
      if r2.dropWhile (fun c => decide (c ≠ 34))
          = js "\" alt=\"图表\" class=\"yu-stream-editor-echarts-export-img\"></div>" then
        some (js "![图表](" ++ r2.takeWhile (fun c => decide (c ≠ 34)) ++ js ")")
      else some html
/-! # Theorems -/

/-! ## Base64 -/

theorem b64Val_b64Char (n : Nat) (h : n < 64) : b64Val (b64Char n) = some n := by
  unfold b64Char b64Val
  split_ifs <;> first | omega | (simp; done) | (simp; omega)

theorem b64Char_ne_pad (n : Nat) : b64Char n ≠ 61 := by
  unfold b64Char
  split_ifs <;> omega

theorem b64Char_not_whitespace (n : Nat) : isAsciiWhitespace (b64Char n) = false := by
  unfold b64Char isAsciiWhitespace
  split_ifs <;> first | (simp; done) | (simp; omega)

theorem stripPadding_cons (p a b : Nat) (q : List Nat) :
    stripPadding (p :: a :: b :: q) = p :: stripPadding (a :: b :: q) := by
  unfold stripPadding
  simp only [List.getLast?_cons_cons, List.dropLast_cons₂]
  split_ifs <;> rfl

theorem base64Encode_eq_nil (bs : List Nat) : base64Encode bs = [] ↔ bs = [] := by
  constructor
  · intro h
    match bs, h with
    | [], _ => rfl
    | [_], h => simp [base64Encode] at h
    | [_, _], h => simp [base64Encode] at h
    | _ :: _ :: _ :: _, h => simp [base64Encode] at h
  · intro h; subst h; rfl

theorem base64Encode_length (bs : List Nat) : (base64Encode bs).length % 4 = 0 := by
  induction bs using base64Encode.induct with
  | case1 => rfl
  | case2 a => simp [base64Encode]
  | case3 a b => simp [base64Encode]
  | case4 a b c rest ih => simp only [base64Encode, List.length_cons]; omega

theorem base64Encode_no_whitespace (bs : List Nat) :
    (base64Encode bs).filter (fun c => !isAsciiWhitespace c) = base64Encode bs := by
  induction bs using base64Encode.induct with
  | case1 => rfl
  | case2 a =>
    have h61 : isAsciiWhitespace 61 = false := by decide
    simp only [base64Encode, List.filter_cons, b64Char_not_whitespace, h61, Bool.not_false,
      ite_true, List.filter_nil]
  | case3 a b =>
    have h61 : isAsciiWhitespace 61 = false := by decide
    simp only [base64Encode, List.filter_cons, b64Char_not_whitespace, h61, Bool.not_false,
      ite_true, List.filter_nil]
  | case4 a b c rest ih =>
    simp only [base64Encode, List.filter_cons, b64Char_not_whitespace, Bool.not_false, ite_true, ih]

theorem stripPadding_base64Encode (bs : List Nat) :
    stripPadding (base64Encode bs) = (base64Digits bs).map b64Char := by
  induction bs using base64Encode.induct with
  | case1 => rfl
  | case2 a => simp [base64Encode, base64Digits, stripPadding, b64Char_ne_pad]
  | case3 a b => simp [base64Encode, base64Digits, stripPadding, b64Char_ne_pad]
  | case4 a b c rest ih =>
    simp only [base64Encode, base64Digits, List.map_cons]
    rw [← ih]
    match h : base64Encode rest with
    | [] => simp [stripPadding, b64Char_ne_pad]
    | [x] =>
      have := base64Encode_length rest
      rw [h] at this; simp at this
    | x :: y :: q =>
      rw [stripPadding_cons, stripPadding_cons, stripPadding_cons, stripPadding_cons]

theorem base64Digits_length (bs : List Nat) : (base64Digits bs).length % 4 ≠ 1 := by
  induction bs using base64Digits.induct with
  | case1 => decide
  | case2 a => simp [base64Digits]
  | case3 a b => simp [base64Digits]
  | case4 a b c rest ih => simp only [base64Digits, List.length_cons]; omega

theorem base64Digits_lt (bs : List Nat) (h : ∀ b ∈ bs, b < 256) : ∀ d ∈ base64Digits bs, d < 64 := by
  induction bs using base64Digits.induct with
  | case1 => intro d hd; simp [base64Digits] at hd
  | case2 a =>
    intro d hd
    have ha := h a (by simp)
    simp [base64Digits] at hd
    omega
  | case3 a b =>
    intro d hd
    have ha := h a (by simp)
    have hb := h b (by simp)
    simp [base64Digits] at hd
    omega
  | case4 a b c rest ih =>
    intro d hd
    have ha := h a (by simp)
    have hb := h b (by simp)
    have hc := h c (by simp)
    simp only [base64Digits, List.mem_cons] at hd
    rcases hd with hd | hd | hd | hd | hd
    · omega
    · omega
    · omega
    · omega
    · exact ih (fun x hx => h x (by simp [hx])) d hd

theorem base64DecodeDigits_base64Digits (bs : List Nat) (h : ∀ b ∈ bs, b < 256) :
    base64DecodeDigits (base64Digits bs) = bs := by
  induction bs using base64Digits.induct with
  | case1 => rfl
  | case2 a =>
    have ha := h a (by simp)
    simp only [base64Digits, base64DecodeDigits]
    congr 1; omega
  | case3 a b =>
    have ha := h a (by simp)
    have hb := h b (by simp)
    simp only [base64Digits, base64DecodeDigits]
    congr 1
    · omega
    · congr 1; omega
  | case4 a b c rest ih =>
    have ha := h a (by simp)
    have hb := h b (by simp)
    have hc := h c (by simp)
    simp only [base64Digits, base64DecodeDigits]
    rw [ih (fun x hx => h x (by simp [hx]))]
    congr 1
    · omega
    · congr 1
      · omega
      · congr 1; omega

/-- Base64 round trip: `atob` undoes `btoa` on every binary string. -/
theorem atob_base64Encode (bs : List Nat) (h : ∀ b ∈ bs, b < 256) :
    atob (base64Encode bs) = some bs := by
  have hlen := base64Encode_length bs
  have hd := base64Digits_lt bs h
  unfold atob
  simp only [base64Encode_no_whitespace, hlen, if_true, stripPadding_base64Encode,
    List.length_map]
  rw [if_neg (base64Digits_length bs)]
  have hall : ((base64Digits bs).map b64Char).all (fun c => (b64Val c).isSome) = true := by
    simp only [List.all_eq_true, List.mem_map]
    rintro c ⟨d, hdm, rfl⟩
    rw [b64Val_b64Char d (hd d hdm)]; rfl
  rw [if_pos hall]
  congr 1
  have hmap : ((base64Digits bs).map b64Char).map (fun c => (b64Val c).getD 0) = base64Digits bs := by
    rw [List.map_map]
    conv => rhs; rw [← List.map_id (base64Digits bs)]
    apply List.map_congr_left
    intro d hdm
    simp [b64Val_b64Char d (hd d hdm)]
  rw [hmap]
  exact base64DecodeDigits_base64Digits bs h

theorem btoa_eq (s : JStr) (h : ∀ b ∈ s, b < 256) : btoa s = some (base64Encode s) := by
  unfold btoa
  rw [if_pos]
  simp only [List.all_eq_true, decide_eq_true_eq]
  exact h


/-! ## Percent escapes and UTF-8 -/

theorem hexVal_hexUpper (n : Nat) (h : n < 16) : hexVal (hexUpper n) = some n := by
  unfold hexUpper hexVal
  split_ifs <;> first | omega | simp

theorem hexVal_hexLower (n : Nat) (h : n < 16) : hexVal (hexLower n) = some n := by
  unfold hexLower hexVal
  split_ifs <;> first | omega | simp

theorem hexUpper_ne_u (n : Nat) : hexUpper n ≠ 117 ∨ 16 ≤ n := by
  unfold hexUpper
  split_ifs <;> omega

theorem unescapeAt_pct (x y : Nat) (hx : x < 16) (hy : y < 16) (rest : JStr) :
    unescapeAt (hexUpper x :: hexUpper y :: rest) = some (x * 16 + y, 2) := by
  have hu : hexUpper x ≠ 117 := by
    rcases hexUpper_ne_u x with h | h
    · exact h
    · omega
  rcases rest with _ | ⟨a, _ | ⟨b, _ | ⟨c, r⟩⟩⟩ <;>
    simp [unescapeAt, hexVal_hexUpper, hu, hx, hy]

theorem unescapeLoop_pct (b : Nat) (hb : b < 256) (rest : JStr) :
    unescapeLoop 0 (pctOctet b ++ rest) = b :: unescapeLoop 0 rest := by
  have h1 : b / 16 < 16 := by omega
  have h2 : b % 16 < 16 := by omega
  have h3 : b / 16 * 16 + b % 16 = b := by omega
  simp [pctOctet, unescapeLoop, unescapeAt_pct _ _ h1 h2, h3]

theorem unescapeLoop_pcts (bs : List Nat) (hb : ∀ b ∈ bs, b < 256) (rest : JStr) :
    unescapeLoop 0 (bs.flatMap pctOctet ++ rest) = bs ++ unescapeLoop 0 rest := by
  induction bs with
  | nil => rfl
  | cons b bs ih =>
    simp only [List.flatMap_cons, List.append_assoc, List.cons_append]
    rw [unescapeLoop_pct b (hb b (by simp)), ih (fun x hx => hb x (by simp [hx]))]

theorem unescapeLoop_plain (c : Nat) (hc : c ≠ 37) (rest : JStr) :
    unescapeLoop 0 (c :: rest) = c :: unescapeLoop 0 rest := by
  simp [unescapeLoop, hc]

theorem utf8Octets_lt (cp : Nat) (h : cp < 1114112) : ∀ b ∈ utf8Octets cp, b < 256 := by
  intro b hb
  unfold utf8Octets at hb
  split_ifs at hb <;> simp at hb <;> omega

theorem uriUnescaped_ascii (c : Nat) (h : uriUnescaped c = true) : c < 128 ∧ c ≠ 37 := by
  simp [uriUnescaped, isAlnum] at h
  omega

/-- The idiom `unescape(encodeURIComponent(s))` gives the UTF-8 octets of a
string without unpaired surrogates; it does not throw. -/
theorem unescape_encodeURIComponent : ∀ (s : JStr), isJStr s = true →
    isWellFormedUnicode s = true →
    ∃ e, encodeURIComponent s = some e ∧ unescapeLoop 0 e = utf8Encode s ∧
      ∀ b ∈ utf8Encode s, b < 256
  | [], _, _ => ⟨[], rfl, rfl, by simp [utf8Encode]⟩
  | [c], hj, hw => by
    have hc : c < 65536 := by simpa [isJStr] using hj
    have hns : isHighSurrogate c = false ∧ isLowSurrogate c = false := by
      simp only [isWellFormedUnicode] at hw
      split_ifs at hw <;> simp_all
    have hb := utf8Octets_lt c (by omega)
    by_cases hu : uriUnescaped c = true
    · have ha := uriUnescaped_ascii c hu
      refine ⟨[c], by simp [encodeURIComponent, hu], ?_, ?_⟩
      · simp [unescapeLoop, ha.2, utf8Encode, hns.1, utf8Octets, ha.1]
      · simpa [utf8Encode, hns.1] using hb
    · refine ⟨(utf8Octets c).flatMap pctOctet, by simp [encodeURIComponent, hu, hns.1, hns.2], ?_, ?_⟩
      · have := unescapeLoop_pcts (utf8Octets c) hb []
        simp only [List.append_nil] at this
        rw [this]; simp [utf8Encode, hns.1, unescapeLoop]
      · simpa [utf8Encode, hns.1] using hb
  | c :: d :: rest, hj, hw => by
    have hc : c < 65536 := by
      simp [isJStr] at hj; exact hj.1
    have hjt : isJStr (d :: rest) = true := by
      simp [isJStr] at hj ⊢; exact hj.2
    by_cases hh : isHighSurrogate c = true
    · -- surrogate pair
      have hl : isLowSurrogate d = true ∧ isWellFormedUnicode rest = true := by
        simpa [isWellFormedUnicode, hh] using hw
      have hjr : isJStr rest = true := by
        simp [isJStr] at hjt ⊢; exact hjt.2
      obtain ⟨e, he, hu2, hlt⟩ := unescape_encodeURIComponent rest hjr hl.2
      have hnu : uriUnescaped c = false := by
        cases h : uriUnescaped c
        · rfl
        · have := uriUnescaped_ascii c h
          simp [isHighSurrogate] at hh; omega
      have hcp : (c - 55296) * 1024 + (d - 56320) + 65536 < 1114112 := by
        simp [isHighSurrogate] at hh
        have := hl.1
        simp [isLowSurrogate] at this
        omega
      have hb := utf8Octets_lt _ hcp
      refine ⟨(utf8Octets ((c - 55296) * 1024 + (d - 56320) + 65536)).flatMap pctOctet ++ e,
        by simp [encodeURIComponent, hnu, hh, hl.1, he], ?_, ?_⟩
      · rw [unescapeLoop_pcts _ hb, hu2]; simp [utf8Encode, hh]
      · intro b hbm
        simp only [utf8Encode, hh, if_true, List.mem_append] at hbm
        rcases hbm with h | h
        · exact hb b h
        · exact hlt b h
    · have hh' : isHighSurrogate c = false := by simpa using hh
      have hns : isLowSurrogate c = false ∧ isWellFormedUnicode (d :: rest) = true := by
        simp only [isWellFormedUnicode, hh'] at hw
        split_ifs at hw <;> simp_all
      obtain ⟨e, he, hu2, hlt⟩ := unescape_encodeURIComponent (d :: rest) hjt hns.2
      have hb := utf8Octets_lt c (by omega)
      by_cases hu : uriUnescaped c = true
      · have ha := uriUnescaped_ascii c hu
        refine ⟨c :: e, by simp [encodeURIComponent, hu, he], ?_, ?_⟩
        · rw [unescapeLoop_plain c ha.2, hu2]; simp [utf8Encode, hh', utf8Octets, ha.1]
        · intro b hbm
          have hbm2 : b ∈ utf8Octets c ∨ b ∈ utf8Encode (d :: rest) := by
            simpa [utf8Encode, hh'] using hbm
          rcases hbm2 with h | h
          · exact hb b h
          · exact hlt b h
      · refine ⟨(utf8Octets c).flatMap pctOctet ++ e,
          by simp [encodeURIComponent, hu, hh', hns.1, he], ?_, ?_⟩
        · rw [unescapeLoop_pcts _ hb, hu2]; simp [utf8Encode, hh']
        · intro b hbm
          have hbm2 : b ∈ utf8Octets c ∨ b ∈ utf8Encode (d :: rest) := by
            simpa [utf8Encode, hh'] using hbm
          rcases hbm2 with h | h
          · exact hb b h
          · exact hlt b h


/-! ## `decodeURIComponent(escape(.))` decodes UTF-8 -/

theorem readPctOctet_pct (b : Nat) (hb : b < 256) (rest : JStr) :
    readPctOctet (pctOctet b ++ rest) = some (b, rest) := by
  have h1 : b / 16 < 16 := by omega
  have h2 : b % 16 < 16 := by omega
  have h3 : b / 16 * 16 + b % 16 = b := by omega
  simp [pctOctet, readPctOctet, hexVal_hexUpper _ h1, hexVal_hexUpper _ h2, h3]

theorem readPctOctets_pcts (bs : List Nat) (hb : ∀ b ∈ bs, b < 256) (rest : JStr) :
    readPctOctets bs.length (bs.flatMap pctOctet ++ rest) = some (bs, rest) := by
  induction bs with
  | nil => rfl
  | cons b bs ih =>
    simp only [List.length_cons, List.flatMap_cons, List.append_assoc, readPctOctets]
    rw [readPctOctet_pct b (hb b (by simp))]
    simp only [ih (fun x hx => hb x (by simp [hx]))]

theorem pcts_length (bs : List Nat) : (bs.flatMap pctOctet).length = 3 * bs.length := by
  induction bs with
  | nil => rfl
  | cons b bs ih => simp [List.flatMap_cons, pctOctet, ih]; omega

theorem decodeURIComponentLoop_skip (xs rest : JStr) :
    decodeURIComponentLoop xs.length (xs ++ rest) = decodeURIComponentLoop 0 rest := by
  induction xs with
  | nil => rfl
  | cons x xs ih => simpa [decodeURIComponentLoop] using ih

theorem escape_append (a b : JStr) : escape (a ++ b) = escape a ++ escape b := by
  simp [escape]

theorem escapeUnit_high (b : Nat) (h1 : 128 ≤ b) (h2 : b < 256) : escapeUnit b = pctOctet b := by
  have : escapeUnescaped b = false := by
    simp [escapeUnescaped, isAlnum]; omega
  simp [escapeUnit, this, h2]

theorem escape_high (bs : List Nat) (h : ∀ b ∈ bs, 128 ≤ b ∧ b < 256) :
    escape bs = bs.flatMap pctOctet := by
  induction bs with
  | nil => rfl
  | cons b bs ih =>
    have hb := h b (by simp)
    have ih2 := ih (fun x hx => h x (by simp [hx]))
    simp only [escape, List.flatMap_cons] at ih2 ⊢
    rw [escapeUnit_high b hb.1 hb.2, ih2]

/-- One `%XX` escape of an ASCII octet decodes to that octet. -/
theorem decodeLoop_ascii_pct (b : Nat) (hb : b < 128) (rest : JStr) :
    decodeURIComponentLoop 0 (pctOctet b ++ rest) =
      (decodeURIComponentLoop 0 rest).map (fun r => b :: r) := by
  have h1 : b / 16 < 16 := by omega
  have h2 : b % 16 < 16 := by omega
  have h3 : b / 16 * 16 + b % 16 = b := by omega
  have hl : leadingOnes b = 0 := by simp [leadingOnes, hb]
  simp [pctOctet, decodeURIComponentLoop, decodeEscapeAt, hexVal_hexUpper _ h1,
    hexVal_hexUpper _ h2, h3, hl]

/-- A lead octet followed by its continuation octets, all as `%XX`, decodes
to the code point of the sequence. -/
theorem decodeLoop_multi (b0 : Nat) (bs : List Nat) (cp : Nat) (rest : JStr)
    (hb0 : b0 < 256) (hbs : ∀ b ∈ bs, b < 256)
    (hl : leadingOnes b0 = bs.length + 1) (hn : 1 ≤ bs.length ∧ bs.length ≤ 3)
    (hd : utf8DecodeCodePoint (b0 :: bs) = some cp) :
    decodeURIComponentLoop 0 (pctOctet b0 ++ (bs.flatMap pctOctet ++ rest)) =
      (decodeURIComponentLoop 0 rest).map (fun r => utf16EncodeCodePoint cp ++ r) := by
  have h1 : b0 / 16 < 16 := by omega
  have h2 : b0 % 16 < 16 := by omega
  have h3 : b0 / 16 * 16 + b0 % 16 = b0 := by omega
  have hat : decodeEscapeAt (hexUpper (b0 / 16) :: hexUpper (b0 % 16) ::
      (bs.flatMap pctOctet ++ rest)) = some (utf16EncodeCodePoint cp, 2 + 3 * bs.length) := by
    have hne0 : ¬ (bs.length + 1 = 0) := by omega
    have hne1 : ¬ (bs.length + 1 = 1 ∨ 4 < bs.length + 1) := by omega
    simp only [decodeEscapeAt, hexVal_hexUpper _ h1, hexVal_hexUpper _ h2, h3, hl, hne0, hne1,
      if_false, Nat.add_sub_cancel, readPctOctets_pcts bs hbs rest, hd]
  have hskip := decodeURIComponentLoop_skip
    (hexUpper (b0 / 16) :: hexUpper (b0 % 16) :: bs.flatMap pctOctet) rest
  have hlen : (hexUpper (b0 / 16) :: hexUpper (b0 % 16) :: bs.flatMap pctOctet).length
      = 2 + 3 * bs.length := by
    simp only [List.length_cons, pcts_length]; omega
  rw [hlen] at hskip
  simp only [List.cons_append] at hskip
  show decodeURIComponentLoop 0 (37 :: hexUpper (b0 / 16) :: hexUpper (b0 % 16) ::
      (bs.flatMap pctOctet ++ rest)) = _
  simp only [decodeURIComponentLoop, if_true, hat, hskip]

theorem utf8Decode_utf8Octets (cp : Nat) (h : cp < 1114112)
    (hs : ¬ (55296 ≤ cp ∧ cp ≤ 57343)) : utf8DecodeCodePoint (utf8Octets cp) = some cp := by
  unfold utf8Octets
  split_ifs with h1 h2 h3
  · simp only [utf8DecodeCodePoint]
    rw [if_pos h1]
  · simp only [utf8DecodeCodePoint]
    rw [if_pos (by omega)]
    exact congrArg some (by omega)
  · simp only [utf8DecodeCodePoint]
    rw [if_pos (by omega)]
    rw [if_pos (by omega)]
    exact congrArg some (by omega)
  · simp only [utf8DecodeCodePoint]
    rw [if_pos (by omega)]
    rw [if_pos (by omega)]
    exact congrArg some (by omega)

/-- The escapes of the UTF-8 octets of one code point decode to its UTF-16 form. -/
theorem decodeLoop_codePoint (cp : Nat) (h : cp < 1114112)
    (hs : ¬ (55296 ≤ cp ∧ cp ≤ 57343)) (rest : JStr) :
    decodeURIComponentLoop 0 (escape (utf8Octets cp) ++ rest) =
      (decodeURIComponentLoop 0 rest).map (fun r => utf16EncodeCodePoint cp ++ r) := by
  have hdec := utf8Decode_utf8Octets cp h hs
  by_cases h1 : cp < 128
  · have ho : utf8Octets cp = [cp] := by simp [utf8Octets, h1]
    have h16 : utf16EncodeCodePoint cp = [cp] := by
      simp [utf16EncodeCodePoint]; omega
    rw [ho, h16]
    by_cases hu : escapeUnescaped cp = true
    · have hne : cp ≠ 37 := by
        simp [escapeUnescaped, isAlnum] at hu; omega
      simp [escape, escapeUnit, hu, decodeURIComponentLoop, hne]
    · have : escape [cp] = pctOctet cp := by
        simp [escape, escapeUnit, hu]; omega
      rw [this, decodeLoop_ascii_pct cp h1]
      simp
  · unfold utf8Octets at hdec ⊢
    split_ifs at hdec ⊢ with h2 h3
    · rw [escape_high _ (by intro b hb; simp at hb; omega)]
      simp only [List.flatMap_cons, List.flatMap_nil, List.append_nil, List.append_assoc]
      have := decodeLoop_multi (192 + cp / 64) [128 + cp % 64] cp rest (by omega)
        (by intro b hb; simp at hb; omega) (by simp only [List.length_cons, List.length_nil]; unfold leadingOnes; split_ifs <;> omega) (by simp) hdec
      simpa using this
    · rw [escape_high _ (by intro b hb; simp at hb; omega)]
      simp only [List.flatMap_cons, List.flatMap_nil, List.append_nil, List.append_assoc]
      have := decodeLoop_multi (224 + cp / 4096) [128 + cp / 64 % 64, 128 + cp % 64] cp rest
        (by omega) (by intro b hb; simp at hb; omega) (by simp only [List.length_cons, List.length_nil]; unfold leadingOnes; split_ifs <;> omega) (by simp) hdec
      simpa using this
    · rw [escape_high _ (by intro b hb; simp at hb; omega)]
      simp only [List.flatMap_cons, List.flatMap_nil, List.append_nil, List.append_assoc]
      have := decodeLoop_multi (240 + cp / 262144)
        [128 + cp / 4096 % 64, 128 + cp / 64 % 64, 128 + cp % 64] cp rest
        (by omega) (by intro b hb; simp at hb; omega) (by simp only [List.length_cons, List.length_nil]; unfold leadingOnes; split_ifs <;> omega) (by simp) hdec
      simpa using this

/-- The idiom `decodeURIComponent(escape(bytes))` on the UTF-8 octets of a
string without unpaired surrogates gives the string back. -/
theorem decodeURIComponent_escape_utf8 : ∀ (s : JStr), isJStr s = true →
    isWellFormedUnicode s = true →
    decodeURIComponentLoop 0 (escape (utf8Encode s)) = some s
  | [], _, _ => rfl
  | [c], hj, hw => by
    have hc : c < 65536 := by simpa [isJStr] using hj
    have hns : isHighSurrogate c = false ∧ isLowSurrogate c = false := by
      simp only [isWellFormedUnicode] at hw
      split_ifs at hw <;> simp_all
    have hs : ¬ (55296 ≤ c ∧ c ≤ 57343) := by
      have := hns.1; have := hns.2
      simp [isHighSurrogate, isLowSurrogate] at *
      omega
    have := decodeLoop_codePoint c (by omega) hs []
    simp only [List.append_nil] at this
    simp only [utf8Encode, hns.1, Bool.false_eq_true, if_false, List.append_nil]
    rw [this]
    simp [decodeURIComponentLoop, utf16EncodeCodePoint, hc]
  | c :: d :: rest, hj, hw => by
    have hc : c < 65536 := by
      simp [isJStr] at hj; exact hj.1
    have hjt : isJStr (d :: rest) = true := by
      simp [isJStr] at hj ⊢; exact hj.2
    by_cases hh : isHighSurrogate c = true
    · have hl : isLowSurrogate d = true ∧ isWellFormedUnicode rest = true := by
        simpa [isWellFormedUnicode, hh] using hw
      have hjr : isJStr rest = true := by
        simp [isJStr] at hjt ⊢; exact hjt.2
      have ih := decodeURIComponent_escape_utf8 rest hjr hl.2
      have hcr : 55296 ≤ c ∧ c ≤ 56319 := by simpa [isHighSurrogate] using hh
      have hdr : 56320 ≤ d ∧ d ≤ 57343 := by simpa [isLowSurrogate] using hl.1
      have h16 : utf16EncodeCodePoint ((c - 55296) * 1024 + (d - 56320) + 65536) = [c, d] := by
        unfold utf16EncodeCodePoint
        rw [if_neg (by omega)]
        have e1 : 55296 + ((c - 55296) * 1024 + (d - 56320) + 65536 - 65536) / 1024 = c := by
          omega
        have e2 : 56320 + ((c - 55296) * 1024 + (d - 56320) + 65536 - 65536) % 1024 = d := by
          omega
        rw [e1, e2]
      simp only [utf8Encode, hh, if_true, escape_append]
      rw [decodeLoop_codePoint _ (by omega) (by omega), ih, h16]
      rfl
    · have hh' : isHighSurrogate c = false := by simpa using hh
      have hns : isLowSurrogate c = false ∧ isWellFormedUnicode (d :: rest) = true := by
        simp only [isWellFormedUnicode, hh'] at hw
        split_ifs at hw <;> simp_all
      have ih := decodeURIComponent_escape_utf8 (d :: rest) hjt hns.2
      have hs : ¬ (55296 ≤ c ∧ c ≤ 57343) := by
        have := hns.1
        simp [isHighSurrogate, isLowSurrogate] at *
        omega
      have h16 : utf16EncodeCodePoint c = [c] := by
        simp [utf16EncodeCodePoint, hc]
      simp only [utf8Encode, hh', Bool.false_eq_true, if_false, escape_append]
      rw [decodeLoop_codePoint c (by omega) hs, ih, h16]
      rfl


/-! ## JSON strings: `JSON.parse` reads back what QuoteJSONString writes -/

theorem parseStringLoop_skip (xs rest : JStr) :
    parseStringLoop xs.length (xs ++ rest) = parseStringLoop 0 rest := by
  induction xs with
  | nil => rfl
  | cons x xs ih => exact ih

theorem parseStringLoop_cons (c : Nat) (tail : JStr) :
    parseStringLoop 0 (c :: tail) =
      if c = 34 then some ([], tail)
      else if c = 92 then
        match jsonEscapeAt tail with
        | none => none
        | some (u, adv) => (parseStringLoop adv tail).map (fun r => (u :: r.1, r.2))
      else if c < 32 then none
      else (parseStringLoop 0 tail).map (fun r => (c :: r.1, r.2)) := rfl

theorem jsonEscapeAt_unicode (c : Nat) (hc : c < 65536) (tail : JStr) :
    jsonEscapeAt (117 :: hexLower (c / 4096) :: hexLower (c / 256 % 16) ::
      hexLower (c / 16 % 16) :: hexLower (c % 16) :: tail) = some (c, 5) := by
  have h1 : c / 4096 < 16 := by omega
  have h2 : c / 256 % 16 < 16 := by omega
  have h3 : c / 16 % 16 < 16 := by omega
  have h4 : c % 16 < 16 := by omega
  have h5 : c / 4096 * 4096 + c / 256 % 16 * 256 + c / 16 % 16 * 16 + c % 16 = c := by omega
  simp only [jsonEscapeAt, if_true, hexVal_hexLower _ h1, hexVal_hexLower _ h2,
    hexVal_hexLower _ h3, hexVal_hexLower _ h4, h5]

theorem parseStringChars_unicodeEscape (c : Nat) (hc : c < 65536) (tail : JStr) :
    parseStringLoop 0 (unicodeEscape c ++ tail) =
      (parseStringLoop 0 tail).map (fun r => (c :: r.1, r.2)) := by
  have hs := parseStringLoop_skip [117, hexLower (c / 4096), hexLower (c / 256 % 16),
    hexLower (c / 16 % 16), hexLower (c % 16)] tail
  show parseStringLoop 0 (92 :: 117 :: hexLower (c / 4096) :: hexLower (c / 256 % 16) ::
      hexLower (c / 16 % 16) :: hexLower (c % 16) :: tail) = _
  rw [parseStringLoop_cons, if_neg (by decide), if_pos rfl, jsonEscapeAt_unicode c hc]
  simp only
  exact congrArg _ hs

theorem parseStringChars_literal (c : Nat) (h1 : 32 ≤ c) (h2 : c ≠ 34) (h3 : c ≠ 92)
    (tail : JStr) :
    parseStringLoop 0 (c :: tail) = (parseStringLoop 0 tail).map (fun r => (c :: r.1, r.2)) := by
  rw [parseStringLoop_cons, if_neg h2, if_neg h3, if_neg (by omega)]

theorem parseStringChars_close (rest : JStr) : parseStringLoop 0 (34 :: rest) = some ([], rest) := by
  rw [parseStringLoop_cons, if_pos rfl]

theorem parseStringChars_esc_b (tail : JStr) :
    parseStringLoop 0 (92 :: 98 :: tail) = (parseStringLoop 0 tail).map (fun r => (8 :: r.1, r.2)) :=
  rfl

theorem parseStringChars_esc_t (tail : JStr) :
    parseStringLoop 0 (92 :: 116 :: tail) = (parseStringLoop 0 tail).map (fun r => (9 :: r.1, r.2)) :=
  rfl

theorem parseStringChars_esc_n (tail : JStr) :
    parseStringLoop 0 (92 :: 110 :: tail) =
      (parseStringLoop 0 tail).map (fun r => (10 :: r.1, r.2)) :=
  rfl

theorem parseStringChars_esc_f (tail : JStr) :
    parseStringLoop 0 (92 :: 102 :: tail) =
      (parseStringLoop 0 tail).map (fun r => (12 :: r.1, r.2)) :=
  rfl

theorem parseStringChars_esc_r (tail : JStr) :
    parseStringLoop 0 (92 :: 114 :: tail) =
      (parseStringLoop 0 tail).map (fun r => (13 :: r.1, r.2)) :=
  rfl

theorem parseStringChars_esc_quote (tail : JStr) :
    parseStringLoop 0 (92 :: 34 :: tail) =
      (parseStringLoop 0 tail).map (fun r => (34 :: r.1, r.2)) :=
  rfl

theorem parseStringChars_esc_backslash (tail : JStr) :
    parseStringLoop 0 (92 :: 92 :: tail) =
      (parseStringLoop 0 tail).map (fun r => (92 :: r.1, r.2)) :=
  rfl

theorem quoteJSONLoop_nil (paired : Bool) : quoteJSONLoop paired [] = [] := by
  cases paired <;> rfl

theorem quoteJSONLoop_true_cons (c : Nat) (tail : JStr) :
    quoteJSONLoop true (c :: tail) = c :: quoteJSONLoop false tail := rfl

theorem quoteJSONLoop_false_cons (c : Nat) (tail : JStr) :
    quoteJSONLoop false (c :: tail) =
      if c = 8 then 92 :: 98 :: quoteJSONLoop false tail
      else if c = 9 then 92 :: 116 :: quoteJSONLoop false tail
      else if c = 10 then 92 :: 110 :: quoteJSONLoop false tail
      else if c = 12 then 92 :: 102 :: quoteJSONLoop false tail
      else if c = 13 then 92 :: 114 :: quoteJSONLoop false tail
      else if c = 34 then 92 :: 34 :: quoteJSONLoop false tail
      else if c = 92 then 92 :: 92 :: quoteJSONLoop false tail
      else if c < 32 then unicodeEscape c ++ quoteJSONLoop false tail
      else if isHighSurrogate c then
        if startsWithLow tail then c :: quoteJSONLoop true tail
        else unicodeEscape c ++ quoteJSONLoop false tail
      else if isLowSurrogate c then unicodeEscape c ++ quoteJSONLoop false tail
      else c :: quoteJSONLoop false tail := rfl

theorem parseStringChars_quoteJSONLoop : ∀ (s : JStr) (paired : Bool) (rest : JStr),
    (paired = true → startsWithLow s = true) →
    parseStringLoop 0 (quoteJSONLoop paired s ++ 34 :: rest) = some (s, rest)
  | [], paired, rest, _ => by
    rw [quoteJSONLoop_nil, List.nil_append, parseStringChars_close]
  | c :: tail, true, rest, h => by
    have hl : 56320 ≤ c ∧ c ≤ 57343 := by
      simpa [startsWithLow, isLowSurrogate] using h rfl
    rw [quoteJSONLoop_true_cons, List.cons_append,
      parseStringChars_literal c (by omega) (by omega) (by omega),
      parseStringChars_quoteJSONLoop tail false rest (by simp)]
    rfl
  | c :: tail, false, rest, _ => by
    have ih := parseStringChars_quoteJSONLoop tail false rest (by simp)
    rw [quoteJSONLoop_false_cons]
    by_cases h8 : c = 8
    · rw [if_pos h8]; subst h8
      rw [List.cons_append, List.cons_append, parseStringChars_esc_b, ih]; rfl
    rw [if_neg h8]
    by_cases h9 : c = 9
    · rw [if_pos h9]; subst h9
      rw [List.cons_append, List.cons_append, parseStringChars_esc_t, ih]; rfl
    rw [if_neg h9]
    by_cases h10 : c = 10
    · rw [if_pos h10]; subst h10
      rw [List.cons_append, List.cons_append, parseStringChars_esc_n, ih]; rfl
    rw [if_neg h10]
    by_cases h12 : c = 12
    · rw [if_pos h12]; subst h12
      rw [List.cons_append, List.cons_append, parseStringChars_esc_f, ih]; rfl
    rw [if_neg h12]
    by_cases h13 : c = 13
    · rw [if_pos h13]; subst h13
      rw [List.cons_append, List.cons_append, parseStringChars_esc_r, ih]; rfl
    rw [if_neg h13]
    by_cases h34 : c = 34
    · rw [if_pos h34]; subst h34
      rw [List.cons_append, List.cons_append, parseStringChars_esc_quote, ih]; rfl
    rw [if_neg h34]
    by_cases h92 : c = 92
    · rw [if_pos h92]; subst h92
      rw [List.cons_append, List.cons_append, parseStringChars_esc_backslash, ih]; rfl
    rw [if_neg h92]
    by_cases h32 : c < 32
    · rw [if_pos h32, List.append_assoc, parseStringChars_unicodeEscape c (by omega), ih]; rfl
    rw [if_neg h32]
    by_cases hh : isHighSurrogate c = true
    · have hr : 55296 ≤ c ∧ c ≤ 56319 := by simpa [isHighSurrogate] using hh
      rw [if_pos hh]
      by_cases hs : startsWithLow tail = true
      · rw [if_pos hs, List.cons_append,
          parseStringChars_literal c (by omega) (by omega) (by omega),
          parseStringChars_quoteJSONLoop tail true rest (fun _ => hs)]
        rfl
      · rw [if_neg hs, List.append_assoc, parseStringChars_unicodeEscape c (by omega), ih]; rfl
    rw [if_neg hh]
    by_cases hl : isLowSurrogate c = true
    · have hr : 56320 ≤ c ∧ c ≤ 57343 := by simpa [isLowSurrogate] using hl
      rw [if_pos hl, List.append_assoc, parseStringChars_unicodeEscape c (by omega), ih]; rfl
    rw [if_neg hl, List.cons_append, parseStringChars_literal c (by omega) h34 h92, ih]; rfl

/-- A quoted string is read back as the string it quotes. -/
theorem parseStringChars_quote (s rest : JStr) :
    parseStringChars (quoteJSONLoop false s ++ 34 :: rest) = some (s, rest) :=
  parseStringChars_quoteJSONLoop s false rest (by simp)

/-! ## JSON numbers -/

theorem decDigitsAux_append (fuel n : Nat) (acc : JStr) :
    decDigitsAux fuel n acc = decDigitsAux fuel n [] ++ acc := by
  induction fuel generalizing n acc with
  | zero => simp [decDigitsAux]
  | succ f ih =>
    simp only [decDigitsAux]
    split_ifs
    · simp
    · rw [ih (n / 10) ((48 + n % 10) :: acc), ih (n / 10) [48 + n % 10]]
      simp

theorem decDigitsAux_fuel (fuel n : Nat) (h : n < fuel) (acc : JStr) :
    decDigitsAux fuel n acc = decDigitsAux (n + 1) n acc := by
  induction fuel using Nat.strong_induction_on generalizing n acc with
  | _ fuel ih =>
    match fuel, h with
    | f + 1, h =>
      simp only [decDigitsAux]
      split_ifs with h10
      · rfl
      · rw [ih f (by omega) (n / 10) (by omega), ih n (by omega) (n / 10) (by omega)]

theorem decDigits_lt_ten (n : Nat) (h : n < 10) : decDigits n = [48 + n] := by
  simp [decDigits, decDigitsAux, h]

theorem decDigits_step (n : Nat) (h : 10 ≤ n) :
    decDigits n = decDigits (n / 10) ++ [48 + n % 10] := by
  have h10 : ¬ n < 10 := by omega
  rw [decDigits, decDigitsAux, if_neg h10, decDigitsAux_append,
    decDigitsAux_fuel n (n / 10) (by omega)]
  rfl

theorem digitsValue_nil (acc : Nat) : digitsValue acc [] = acc := rfl

theorem digitsValue_cons (acc c : Nat) (tail : JStr) :
    digitsValue acc (c :: tail) = digitsValue (acc * 10 + (c - 48)) tail := rfl

theorem digitsValue_append (acc : Nat) (a b : JStr) :
    digitsValue acc (a ++ b) = digitsValue (digitsValue acc a) b := by
  induction a generalizing acc with
  | nil => rfl
  | cons c a ih => rw [List.cons_append, digitsValue_cons, digitsValue_cons, ih]

theorem decDigits_spec (n : Nat) :
    digitsValue 0 (decDigits n) = n ∧ (decDigits n).all isDigit = true ∧ decDigits n ≠ [] ∧
      ((decDigits n).head? ≠ some 48 ∨ (decDigits n).length = 1) := by
  induction n using Nat.strong_induction_on with
  | _ n ih =>
    by_cases h : n < 10
    · rw [decDigits_lt_ten n h]
      refine ⟨?_, ?_, List.cons_ne_nil _ _, Or.inr rfl⟩
      · show 0 * 10 + (48 + n - 48) = n
        omega
      · have : isDigit (48 + n) = true := by
          simp only [isDigit, Bool.and_eq_true, decide_eq_true_eq]; omega
        simp only [List.all_cons, this, List.all_nil, Bool.and_self]
    · have h10 : 10 ≤ n := by omega
      obtain ⟨i1, i2, i3, i4⟩ := ih (n / 10) (by omega)
      rw [decDigits_step n h10]
      refine ⟨?_, ?_, by simp, ?_⟩
      · rw [digitsValue_append, i1]
        show n / 10 * 10 + (48 + n % 10 - 48) = n
        omega
      · have : isDigit (48 + n % 10) = true := by
          simp only [isDigit, Bool.and_eq_true, decide_eq_true_eq]; omega
        simp only [List.all_append, i2, Bool.true_and, List.all_cons, this, List.all_nil,
          Bool.and_self]
      · left
        rcases i4 with i4 | i4
        · cases hd : decDigits (n / 10) with
          | nil => exact absurd hd i3
          | cons a t => rw [hd] at i4; simpa using i4
        · cases hd : decDigits (n / 10) with
          | nil => exact absurd hd i3
          | cons a t =>
            rw [hd] at i4 i1
            have ht : t = [] := by simpa using i4
            subst ht
            rw [digitsValue_cons, digitsValue_nil] at i1
            simp only [List.cons_append, List.head?_cons]
            intro hc
            have : a = 48 := by simpa using hc
            omega

theorem takeDigits_append (ds rest : JStr) (hd : ds.all isDigit = true)
    (hr : ∀ c, rest.head? = some c → isDigit c = false) :
    takeDigits (ds ++ rest) = (ds, rest) := by
  induction ds with
  | nil =>
    cases rest with
    | nil => rfl
    | cons c t => simp [takeDigits, hr c rfl]
  | cons d ds ih =>
    have h1 : isDigit d = true ∧ ds.all isDigit = true := by simpa using hd
    simp [takeDigits, h1.1, ih h1.2]


/-! ## JSON numbers: `JSON.parse` reads back the text of an integer -/

theorem delimiter_not_digit (rest : JStr) (h : startsWithDelimiter rest = true) :
    ∀ c, rest.head? = some c → isDigit c = false := by
  intro c hc
  cases rest with
  | nil => simp at hc
  | cons d t =>
    have hd : d = c := by simpa using hc
    subst hd
    have : d = 44 ∨ d = 93 ∨ d = 125 := by
      simpa [startsWithDelimiter, or_assoc] using h
    simp only [isDigit, Bool.and_eq_false_iff, decide_eq_false_iff_not]
    omega

theorem parseFraction_delimiter (rest : JStr) (h : startsWithDelimiter rest = true) :
    parseFraction rest = some ([], rest) := by
  cases rest with
  | nil => rfl
  | cons d t =>
    have : d = 44 ∨ d = 93 ∨ d = 125 := by
      simpa [startsWithDelimiter, or_assoc] using h
    have hne : d ≠ 46 := by omega
    simp only [parseFraction, if_neg hne]

theorem parseExponent_delimiter (rest : JStr) (h : startsWithDelimiter rest = true) :
    parseExponent rest = some ([], rest) := by
  cases rest with
  | nil => rfl
  | cons d t =>
    have : d = 44 ∨ d = 93 ∨ d = 125 := by
      simpa [startsWithDelimiter, or_assoc] using h
    have hne : ¬ (d = 101 ∨ d = 69) := by omega
    simp only [parseExponent, if_neg hne]

theorem parseIntPart_decDigits (m : Nat) (rest : JStr) (h : startsWithDelimiter rest = true) :
    parseIntPart (decDigits m ++ rest) = some (decDigits m, rest) := by
  obtain ⟨_, h2, h3, h4⟩ := decDigits_spec m
  have ht := takeDigits_append (decDigits m) rest h2 (delimiter_not_digit rest h)
  unfold parseIntPart
  rw [ht]
  simp only
  rw [if_neg h3, if_neg]
  rintro ⟨ha, hb⟩
  rcases h4 with h4 | h4
  · exact h4 ha
  · exact hb h4

theorem decDigits_head (m : Nat) : ∃ d t, decDigits m = d :: t ∧ 48 ≤ d ∧ d ≤ 57 := by
  obtain ⟨_, h2, h3, _⟩ := decDigits_spec m
  cases hd : decDigits m with
  | nil => exact absurd hd h3
  | cons d t =>
    rw [hd] at h2
    have : isDigit d = true := by
      simp only [List.all_cons, Bool.and_eq_true] at h2
      exact h2.1
    refine ⟨d, t, rfl, ?_⟩
    simpa [isDigit] using this

/-- The text of a natural number up to 2^53 is read back as that number. -/
theorem parseNumber_decDigits (m : Nat) (hm : m ≤ 9007199254740992) (rest : JStr)
    (h : startsWithDelimiter rest = true) :
    parseNumber (decDigits m ++ rest) = some (Json.num (m : Int), rest) := by
  obtain ⟨d, t, hd, hd1, hd2⟩ := decDigits_head m
  obtain ⟨hv, _, _, _⟩ := decDigits_spec m
  have hneg : decide ((decDigits m ++ rest).head? = some 45) = false := by
    rw [hd]
    simp only [List.cons_append, List.head?_cons, Option.some.injEq, decide_eq_false_iff_not]
    omega
  unfold parseNumber
  simp only [hneg, Bool.false_eq_true, if_false, parseIntPart_decDigits m rest h,
    parseFraction_delimiter rest h, parseExponent_delimiter rest h, hv, true_and]
  rw [if_pos hm]

/-- The text of a negative integer down to -2^53 is read back as that number. -/
theorem parseNumber_neg (m : Nat) (hm : m ≤ 9007199254740992) (rest : JStr)
    (h : startsWithDelimiter rest = true) :
    parseNumber (45 :: (decDigits m ++ rest)) = some (Json.num (- (m : Int)), rest) := by
  obtain ⟨hv, _, _, _⟩ := decDigits_spec m
  unfold parseNumber
  simp only [List.head?_cons, decide_True, if_true, List.tail_cons,
    parseIntPart_decDigits m rest h,
    parseFraction_delimiter rest h, parseExponent_delimiter rest h, hv, true_and]
  rw [if_pos hm]

theorem intText_head (n : Int) : ∃ d t, intText n = d :: t ∧ (d = 45 ∨ (48 ≤ d ∧ d ≤ 57)) := by
  unfold intText
  by_cases hn : n < 0
  · rw [if_pos hn]; exact ⟨45, _, rfl, Or.inl rfl⟩
  · rw [if_neg hn]
    obtain ⟨d, t, hd, h1, h2⟩ := decDigits_head n.natAbs
    exact ⟨d, t, hd, Or.inr ⟨h1, h2⟩⟩

/-- The text of a safe integer is read back as that integer. -/
theorem parseNumber_intText (n : Int) (hn : n.natAbs ≤ 9007199254740992) (rest : JStr)
    (h : startsWithDelimiter rest = true) :
    parseNumber (intText n ++ rest) = some (Json.num n, rest) := by
  unfold intText
  by_cases h0 : n < 0
  · rw [if_pos h0, List.cons_append, parseNumber_neg n.natAbs hn rest h]
    have : - (n.natAbs : Int) = n := by omega
    rw [this]
  · rw [if_neg h0, parseNumber_decDigits n.natAbs hn rest h]
    have : (n.natAbs : Int) = n := by omega
    rw [this]

/-! ## Objects: setting the properties of a value in order rebuilds it -/

theorem propertyOrdered_cons_cons (a b : JStr × Json) (rest : List (JStr × Json)) :
    propertyOrdered (a :: b :: rest) =
      (keyOrderOk a.1 b.1 && !(b :: rest).any (fun kv => decide (kv.1 = a.1)) &&
        propertyOrdered (b :: rest)) := rfl

theorem propertyOrdered_tail (a : JStr × Json) (l : List (JStr × Json))
    (h : propertyOrdered (a :: l) = true) : propertyOrdered l = true := by
  cases l with
  | nil => rfl
  | cons b rest =>
    rw [propertyOrdered_cons_cons] at h
    simp only [Bool.and_eq_true] at h
    exact h.2

theorem propertyOrdered_head_fresh (a : JStr × Json) (l : List (JStr × Json))
    (h : propertyOrdered (a :: l) = true) : ∀ kv ∈ l, kv.1 ≠ a.1 := by
  cases l with
  | nil => intro kv hkv; simp at hkv
  | cons b rest =>
    rw [propertyOrdered_cons_cons] at h
    simp only [Bool.and_eq_true, Bool.not_eq_true', List.any_eq_false, decide_eq_true_eq] at h
    exact h.1.2

theorem propertyOrdered_prefix (l1 l2 : List (JStr × Json))
    (h : propertyOrdered (l1 ++ l2) = true) : propertyOrdered l1 = true := by
  induction l1 with
  | nil => rfl
  | cons a l1 ih =>
    cases l1 with
    | nil => rfl
    | cons b rest =>
      have ht := propertyOrdered_tail a _ h
      have hf := propertyOrdered_head_fresh a _ h
      have ih2 := ih ht
      simp only [List.cons_append] at h
      rw [propertyOrdered_cons_cons] at h ⊢
      simp only [Bool.and_eq_true] at h
      simp only [Bool.and_eq_true, Bool.not_eq_true', List.any_eq_false, decide_eq_true_eq]
      refine ⟨⟨h.1.1, ?_⟩, ih2⟩
      intro kv hkv
      exact hf kv (List.mem_append_left _ hkv)

theorem keyOrderOk_index (a b : JStr) (i : Nat) (h : keyOrderOk a b = true)
    (hb : arrayIndex b = some i) : ∃ j, arrayIndex a = some j ∧ j < i := by
  unfold keyOrderOk at h
  rw [hb] at h
  cases ha : arrayIndex a with
  | none => rw [ha] at h; simp at h
  | some j =>
    rw [ha] at h
    exact ⟨j, rfl, by simpa using h⟩

theorem propertyOrdered_index_before : ∀ (l : List (JStr × Json)) (a x : JStr × Json) (i : Nat),
    propertyOrdered (a :: l) = true → x ∈ l → arrayIndex x.1 = some i →
    ∃ j, arrayIndex a.1 = some j ∧ j < i
  | [], _, _, _, _, hx, _ => by simp at hx
  | b :: rest, a, x, i, h, hx, hi => by
    have ht := propertyOrdered_tail a _ h
    rw [propertyOrdered_cons_cons] at h
    simp only [Bool.and_eq_true] at h
    rcases List.mem_cons.mp hx with hxb | hxr
    · subst hxb
      exact keyOrderOk_index a.1 x.1 i h.1.1 hi
    · obtain ⟨j', hj', hlt⟩ := propertyOrdered_index_before rest b x i ht hxr hi
      obtain ⟨j, hj, hlt2⟩ := keyOrderOk_index a.1 b.1 j' h.1.1 hj'
      exact ⟨j, hj, by omega⟩

theorem insertIndexed_append (i : Nat) (k : JStr) (v : Json) (hk : arrayIndex k = some i) :
    ∀ (o : List (JStr × Json)), propertyOrdered (o ++ [(k, v)]) = true →
      insertIndexed i k v o = o ++ [(k, v)]
  | [], _ => rfl
  | a :: o, h => by
    obtain ⟨j, hj, hlt⟩ := propertyOrdered_index_before (o ++ [(k, v)]) a (k, v) i h
      (by simp) hk
    have ih := insertIndexed_append i k v hk o (propertyOrdered_tail a _ h)
    simp only [insertIndexed, hj, if_pos hlt, ih, List.cons_append]

theorem propertyOrdered_last_fresh : ∀ (o : List (JStr × Json)) (k : JStr) (v : Json),
    propertyOrdered (o ++ [(k, v)]) = true → o.any (fun kv => decide (kv.1 = k)) = false
  | [], _, _, _ => rfl
  | a :: o, k, v, h => by
    have hf := propertyOrdered_head_fresh a _ h (k, v) (by simp)
    have ih := propertyOrdered_last_fresh o k v (propertyOrdered_tail a _ h)
    simp only [List.any_cons, ih, Bool.or_false, decide_eq_false_iff_not]
    exact fun hc => hf hc.symm

/-- Setting a key that comes last in property order appends it. -/
theorem objSet_append_new (o : List (JStr × Json)) (k : JStr) (v : Json)
    (h : propertyOrdered (o ++ [(k, v)]) = true) : objSet o k v = o ++ [(k, v)] := by
  unfold objSet
  rw [propertyOrdered_last_fresh o k v h]
  simp only [Bool.false_eq_true, if_false]
  cases hk : arrayIndex k with
  | none => rfl
  | some i => exact insertIndexed_append i k v hk o h

/-- Setting the properties of an object in property order, one after the
other, gives the same property list. -/
theorem foldl_objSet (kvs : List (JStr × Json)) : ∀ (acc : List (JStr × Json)),
    propertyOrdered (acc ++ kvs) = true →
    kvs.foldl (fun o kv => objSet o kv.1 kv.2) acc = acc ++ kvs := by
  induction kvs with
  | nil => intro acc _; simp
  | cons kv rest ih =>
    intro acc h
    have h1 : propertyOrdered (acc ++ [(kv.1, kv.2)]) = true := by
      apply propertyOrdered_prefix _ rest
      simpa using h
    have h2 := objSet_append_new acc kv.1 kv.2 h1
    rw [List.foldl_cons, h2]
    have h3 : acc ++ [(kv.1, kv.2)] ++ rest = acc ++ kv :: rest := by simp
    rw [ih (acc ++ [(kv.1, kv.2)]) (by rw [h3]; exact h), h3]


/-! ## `JSON.parse` reads back what `JSON.stringify` writes -/

theorem parseValue_succ (fuel c : Nat) (tail : JStr) :
    parseValue (fuel + 1) (c :: tail) =
      if c = 110 then (dropPrefix [117, 108, 108] tail).map (fun r => (Json.null, r))
      else if c = 116 then (dropPrefix [114, 117, 101] tail).map (fun r => (Json.bool true, r))
      else if c = 102 then
        (dropPrefix [97, 108, 115, 101] tail).map (fun r => (Json.bool false, r))
      else if c = 34 then (parseStringChars tail).map (fun r => (Json.str r.1, r.2))
      else if c = 91 then
        match skipWs tail with
        | [] => none
        | d :: rest =>
          if d = 93 then some (Json.arr [], rest)
          else
            match parseValue fuel (d :: rest) with
            | none => none
            | some (v, r) => (parseElements fuel r).map (fun q => (Json.arr (v :: q.1), q.2))
      else if c = 123 then
        match skipWs tail with
        | [] => none
        | d :: rest =>
          if d = 125 then some (Json.obj [], rest)
          else (parseMembers fuel [] (44 :: d :: rest)).map (fun q => (Json.obj q.1, q.2))
      else parseNumber (c :: tail) := rfl

theorem parseElements_succ (fuel : Nat) (s : JStr) :
    parseElements (fuel + 1) s =
      match skipWs s with
      | [] => none
      | c :: tail =>
        if c = 93 then some ([], tail)
        else if c = 44 then
          match parseValue fuel (skipWs tail) with
          | none => none
          | some (v, r) => (parseElements fuel r).map (fun q => (v :: q.1, q.2))
        else none := rfl

theorem parseMembers_succ (fuel : Nat) (acc : List (JStr × Json)) (s : JStr) :
    parseMembers (fuel + 1) acc s =
      match skipWs s with
      | [] => none
      | c :: tail =>
        if c = 125 then some (acc, tail)
        else if c = 44 then
          match skipWs tail with
          | [] => none
          | q :: tail2 =>
            if q = 34 then
              match parseStringChars tail2 with
              | none => none
              | some (k, r) =>
                match skipWs r with
                | [] => none
                | colon :: r2 =>
                  if colon = 58 then
                    match parseValue fuel (skipWs r2) with
                    | none => none
                    | some (v, r3) => parseMembers fuel (objSet acc k v) r3
                  else none
            else none
        else none := rfl

theorem skipWs_cons (c : Nat) (tail : JStr) (h : ¬ (c = 9 ∨ c = 10 ∨ c = 13 ∨ c = 32)) :
    skipWs (c :: tail) = c :: tail := by
  simp only [skipWs, if_neg h]

/-- The text of a value starts with a character that is neither white space
nor a closing bracket. -/
theorem stringify_head (P : Platform) (x : Json) (hx : x.isValue = true) :
    ∃ c t, stringify P x = c :: t ∧ ¬ (c = 9 ∨ c = 10 ∨ c = 13 ∨ c = 32) ∧ c ≠ 93 ∧ c ≠ 125 := by
  cases x with
  | null => exact ⟨110, _, rfl, by decide, by decide, by decide⟩
  | bool b => cases b
              · exact ⟨102, _, rfl, by decide, by decide, by decide⟩
              · exact ⟨116, _, rfl, by decide, by decide, by decide⟩
  | num n =>
    obtain ⟨d, t, hd, h⟩ := intText_head n
    refine ⟨d, t, by simp only [stringify]; exact hd, ?_, ?_, ?_⟩ <;> omega
  | numLit lit => simp [Json.isValue] at hx
  | str s => exact ⟨34, _, rfl, by decide, by decide, by decide⟩
  | arr xs => cases xs
              · exact ⟨91, _, rfl, by decide, by decide, by decide⟩
              · exact ⟨91, _, rfl, by decide, by decide, by decide⟩
  | obj kvs =>
    match kvs with
    | [] => exact ⟨123, _, rfl, by decide, by decide, by decide⟩
    | (k, v) :: kvs => exact ⟨123, _, rfl, by decide, by decide, by decide⟩

theorem stringifyElems_delimiter (P : Platform) (xs : List Json) (rest : JStr) :
    startsWithDelimiter (stringifyElems P xs ++ rest) = true := by
  cases xs <;> rfl

theorem stringifyMembers_delimiter (P : Platform) (kvs : List (JStr × Json)) (rest : JStr) :
    startsWithDelimiter (stringifyMembers P kvs ++ rest) = true := by
  match kvs with
  | [] => rfl
  | (k, v) :: kvs => rfl

mutual
theorem parseValue_stringify (P : Platform) : ∀ (x : Json), x.isValue = true →
    ∀ (fuel : Nat) (rest : JStr), x.parseFuel ≤ fuel → startsWithDelimiter rest = true →
    parseValue fuel (stringify P x ++ rest) = some (x, rest)
  | .null, _, fuel, rest, hf, _ => by
    obtain ⟨f, rfl⟩ : ∃ f, fuel = f + 1 := ⟨fuel - 1, by simp [Json.parseFuel] at hf; omega⟩
    rfl
  | .bool true, _, fuel, rest, hf, _ => by
    obtain ⟨f, rfl⟩ : ∃ f, fuel = f + 1 := ⟨fuel - 1, by simp [Json.parseFuel] at hf; omega⟩
    rfl
  | .bool false, _, fuel, rest, hf, _ => by
    obtain ⟨f, rfl⟩ : ∃ f, fuel = f + 1 := ⟨fuel - 1, by simp [Json.parseFuel] at hf; omega⟩
    rfl
  | .num n, hx, fuel, rest, hf, hr => by
    obtain ⟨f, rfl⟩ : ∃ f, fuel = f + 1 := ⟨fuel - 1, by simp [Json.parseFuel] at hf; omega⟩
    have hn : n.natAbs ≤ 9007199254740992 := by simpa [Json.isValue] using hx
    obtain ⟨d, t, hd, h⟩ := intText_head n
    have hp := parseNumber_intText n hn rest hr
    simp only [stringify]
    rw [hd] at hp ⊢
    rw [List.cons_append, parseValue_succ, if_neg (by omega), if_neg (by omega),
      if_neg (by omega), if_neg (by omega), if_neg (by omega), if_neg (by omega)]
    exact hp
  | .numLit _, hx, _, _, _, _ => by simp [Json.isValue] at hx
  | .str s, _, fuel, rest, hf, _ => by
    obtain ⟨f, rfl⟩ : ∃ f, fuel = f + 1 := ⟨fuel - 1, by simp [Json.parseFuel] at hf; omega⟩
    have hq := parseStringChars_quote s rest
    simp only [stringify, quoteJSONString, List.cons_append, List.append_assoc,
      List.nil_append]
    rw [parseValue_succ, if_neg (by decide), if_neg (by decide), if_neg (by decide),
      if_pos rfl, hq]
    rfl
  | .arr [], _, fuel, rest, hf, _ => by
    obtain ⟨f, rfl⟩ : ∃ f, fuel = f + 1 := ⟨fuel - 1, by simp [Json.parseFuel] at hf; omega⟩
    rfl
  | .arr (x :: xs), hx, fuel, rest, hf, hr => by
    have hx2 : x.isValue = true ∧ Json.isValueList xs = true := by
      simpa [Json.isValue, Json.isValueList] using hx
    have hf2 : 1 + x.parseFuel + Json.parseFuelElems xs ≤ fuel := by
      simpa [Json.parseFuel] using hf
    obtain ⟨f, rfl⟩ : ∃ f, fuel = f + 1 := ⟨fuel - 1, by omega⟩
    obtain ⟨c, t, hc, hws, h93, _⟩ := stringify_head P x hx2.1
    have ihv := parseValue_stringify P x hx2.1 f (stringifyElems P xs ++ rest) (by omega)
      (stringifyElems_delimiter P xs rest)
    have ihe := parseElements_stringify P xs hx2.2 f rest (by omega) hr
    simp only [stringify, List.cons_append, List.append_assoc]
    rw [parseValue_succ, if_neg (by decide), if_neg (by decide), if_neg (by decide),
      if_neg (by decide), if_pos rfl]
    rw [hc] at ihv ⊢
    rw [List.cons_append] at ihv ⊢
    rw [skipWs_cons c _ hws]
    simp only [if_neg h93, ihv, ihe, Option.map_some']
  | .obj [], _, fuel, rest, hf, _ => by
    obtain ⟨f, rfl⟩ : ∃ f, fuel = f + 1 := ⟨fuel - 1, by simp [Json.parseFuel] at hf; omega⟩
    rfl
  | .obj ((k, v) :: kvs), hx, fuel, rest, hf, hr => by
    have hx2 : propertyOrdered ((k, v) :: kvs) = true ∧
        Json.isValueMembers ((k, v) :: kvs) = true := by
      simpa [Json.isValue] using hx
    have hf2 : 1 + Json.parseFuelMembers ((k, v) :: kvs) ≤ fuel := by
      simpa [Json.parseFuel] using hf
    obtain ⟨f, rfl⟩ : ∃ f, fuel = f + 1 := ⟨fuel - 1, by omega⟩
    have ihm := parseMembers_stringify P ((k, v) :: kvs) hx2.2 f [] rest (by omega) hr
    have hfold := foldl_objSet ((k, v) :: kvs) [] (by simpa using hx2.1)
    rw [hfold, List.nil_append] at ihm
    simp only [stringifyMembers, quoteJSONString, List.cons_append, List.append_assoc,
      List.nil_append] at ihm
    simp only [stringify, quoteJSONString, List.cons_append, List.append_assoc,
      List.nil_append]
    rw [parseValue_succ, if_neg (by decide), if_neg (by decide), if_neg (by decide),
      if_neg (by decide), if_neg (by decide), if_pos rfl, skipWs_cons 34 _ (by decide)]
    simp only [if_neg (show (34 : Nat) ≠ 125 by decide), ihm, Option.map_some']
theorem parseElements_stringify (P : Platform) : ∀ (xs : List Json),
    Json.isValueList xs = true →
    ∀ (fuel : Nat) (rest : JStr), Json.parseFuelElems xs ≤ fuel →
    startsWithDelimiter rest = true →
    parseElements fuel (stringifyElems P xs ++ rest) = some (xs, rest)
  | [], _, fuel, rest, hf, _ => by
    obtain ⟨f, rfl⟩ : ∃ f, fuel = f + 1 := ⟨fuel - 1, by simp [Json.parseFuelElems] at hf; omega⟩
    rfl
  | x :: xs, hx, fuel, rest, hf, hr => by
    have hx2 : x.isValue = true ∧ Json.isValueList xs = true := by
      simpa [Json.isValueList] using hx
    have hf2 : 1 + x.parseFuel + Json.parseFuelElems xs ≤ fuel := by
      simpa [Json.parseFuelElems] using hf
    obtain ⟨f, rfl⟩ : ∃ f, fuel = f + 1 := ⟨fuel - 1, by omega⟩
    obtain ⟨c, t, hc, hws, _, _⟩ := stringify_head P x hx2.1
    have ihv := parseValue_stringify P x hx2.1 f (stringifyElems P xs ++ rest) (by omega)
      (stringifyElems_delimiter P xs rest)
    have ihe := parseElements_stringify P xs hx2.2 f rest (by omega) hr
    simp only [stringifyElems, List.cons_append, List.append_assoc]
    rw [parseElements_succ, skipWs_cons 44 _ (by decide)]
    simp only [if_neg (show (44 : Nat) ≠ 93 by decide), if_true]
    rw [hc] at ihv ⊢
    rw [List.cons_append] at ihv ⊢
    rw [skipWs_cons c _ hws]
    simp only [ihv, ihe, Option.map_some']
theorem parseMembers_stringify (P : Platform) : ∀ (kvs : List (JStr × Json)),
    Json.isValueMembers kvs = true →
    ∀ (fuel : Nat) (acc : List (JStr × Json)) (rest : JStr), Json.parseFuelMembers kvs ≤ fuel →
    startsWithDelimiter rest = true →
    parseMembers fuel acc (stringifyMembers P kvs ++ rest) =
      some (kvs.foldl (fun o kv => objSet o kv.1 kv.2) acc, rest)
  | [], _, fuel, acc, rest, hf, _ => by
    obtain ⟨f, rfl⟩ : ∃ f, fuel = f + 1 :=
      ⟨fuel - 1, by simp [Json.parseFuelMembers] at hf; omega⟩
    rfl
  | (k, v) :: kvs, hx, fuel, acc, rest, hf, hr => by
    have hx2 : (isJStr k = true ∧ v.isValue = true) ∧ Json.isValueMembers kvs = true := by
      simpa [Json.isValueMembers] using hx
    have hf2 : 1 + v.parseFuel + Json.parseFuelMembers kvs ≤ fuel := by
      simpa [Json.parseFuelMembers] using hf
    obtain ⟨f, rfl⟩ : ∃ f, fuel = f + 1 := ⟨fuel - 1, by omega⟩
    obtain ⟨c, t, hc, hws, _, _⟩ := stringify_head P v hx2.1.2
    have ihv := parseValue_stringify P v hx2.1.2 f (stringifyMembers P kvs ++ rest) (by omega)
      (stringifyMembers_delimiter P kvs rest)
    have ihm := parseMembers_stringify P kvs hx2.2 f (objSet acc k v) rest (by omega) hr
    have hq := parseStringChars_quote k (58 :: (stringify P v ++ (stringifyMembers P kvs ++ rest)))
    simp only [stringifyMembers, quoteJSONString, List.cons_append, List.append_assoc,
      List.nil_append]
    rw [parseMembers_succ, skipWs_cons 44 _ (by decide)]
    simp only [if_neg (show (44 : Nat) ≠ 125 by decide), if_true]
    rw [skipWs_cons 34 _ (by decide)]
    simp only [if_true, hq]
    rw [skipWs_cons 58 _ (by decide)]
    simp only [if_true]
    rw [hc] at ihv ⊢
    rw [List.cons_append] at ihv ⊢
    rw [skipWs_cons c _ hws]
    simp only [ihv, ihm, List.foldl_cons]
end


/-! ## The text `JSON.stringify` writes has no unpaired surrogate -/

theorem isWellFormedUnicode_cons (c : Nat) (tail : JStr) :
    isWellFormedUnicode (c :: tail) =
      if isHighSurrogate c then
        match tail with
        | d :: rest => isLowSurrogate d && isWellFormedUnicode rest
        | [] => false
      else if isLowSurrogate c then false
      else isWellFormedUnicode tail := by
  cases tail <;> rfl

theorem isWellFormedUnicode_cons_plain (c : Nat) (s : JStr)
    (hc : c < 55296 ∨ 57343 < c) :
    isWellFormedUnicode (c :: s) = isWellFormedUnicode s := by
  have h1 : isHighSurrogate c = false := by
    simp only [isHighSurrogate, Bool.and_eq_false_iff, decide_eq_false_iff_not]; omega
  have h2 : isLowSurrogate c = false := by
    simp only [isLowSurrogate, Bool.and_eq_false_iff, decide_eq_false_iff_not]; omega
  rw [isWellFormedUnicode_cons, h1, h2]
  rfl

theorem isWellFormedUnicode_cons_pair (c d : Nat) (s : JStr)
    (hc : isHighSurrogate c = true) (hd : isLowSurrogate d = true) :
    isWellFormedUnicode (c :: d :: s) = isWellFormedUnicode s := by
  rw [isWellFormedUnicode_cons, hc]
  simp only [if_true, hd, Bool.true_and]

theorem isWellFormedUnicode_append : ∀ (a b : JStr), isWellFormedUnicode a = true →
    isWellFormedUnicode b = true → isWellFormedUnicode (a ++ b) = true
  | [], b, _, hb => hb
  | [c], b, ha, hb => by
    rw [isWellFormedUnicode_cons] at ha
    by_cases hh : isHighSurrogate c = true
    · rw [if_pos hh] at ha; simp at ha
    · rw [if_neg hh] at ha
      by_cases hl : isLowSurrogate c = true
      · rw [if_pos hl] at ha; simp at ha
      · show isWellFormedUnicode (c :: b) = true
        rw [isWellFormedUnicode_cons, if_neg hh, if_neg hl]
        exact hb
  | c :: d :: s, b, ha, hb => by
    rw [isWellFormedUnicode_cons] at ha
    by_cases hh : isHighSurrogate c = true
    · rw [if_pos hh] at ha
      have h2 : isLowSurrogate d = true ∧ isWellFormedUnicode s = true := by
        simpa using ha
      rw [List.cons_append, List.cons_append, isWellFormedUnicode_cons_pair c d _ hh h2.1]
      exact isWellFormedUnicode_append s b h2.2 hb
    · rw [if_neg hh] at ha
      by_cases hl : isLowSurrogate c = true
      · rw [if_pos hl] at ha; simp at ha
      · rw [if_neg hl] at ha
        have ih := isWellFormedUnicode_append (d :: s) b ha hb
        rw [List.cons_append, isWellFormedUnicode_cons, if_neg hh, if_neg hl]
        exact ih

/-- A text of 16-bit code units without unpaired surrogate. -/
theorem goodText_append (a b : JStr)
    (ha : isJStr a = true ∧ isWellFormedUnicode a = true)
    (hb : isJStr b = true ∧ isWellFormedUnicode b = true) :
    isJStr (a ++ b) = true ∧ isWellFormedUnicode (a ++ b) = true := by
  refine ⟨?_, isWellFormedUnicode_append a b ha.2 hb.2⟩
  simp only [isJStr, List.all_append, Bool.and_eq_true] at ha hb ⊢
  exact ⟨ha.1, hb.1⟩

theorem goodText_ascii (s : JStr) (h : ∀ c ∈ s, c < 128) :
    isJStr s = true ∧ isWellFormedUnicode s = true := by
  induction s with
  | nil => exact ⟨rfl, rfl⟩
  | cons c s ih =>
    have hc := h c (by simp)
    have ih2 := ih (fun x hx => h x (by simp [hx]))
    refine ⟨?_, ?_⟩
    · simp only [isJStr, List.all_cons, Bool.and_eq_true, decide_eq_true_eq] at ih2 ⊢
      exact ⟨by omega, ih2.1⟩
    · rw [isWellFormedUnicode_cons_plain c s (by omega)]
      exact ih2.2

theorem goodText_cons_plain (c : Nat) (s : JStr) (hc : c < 55296 ∨ (57343 < c ∧ c < 65536))
    (hs : isJStr s = true ∧ isWellFormedUnicode s = true) :
    isJStr (c :: s) = true ∧ isWellFormedUnicode (c :: s) = true := by
  refine ⟨?_, ?_⟩
  · simp only [isJStr, List.all_cons, Bool.and_eq_true, decide_eq_true_eq] at hs ⊢
    exact ⟨by omega, hs.1⟩
  · rw [isWellFormedUnicode_cons_plain c s (by omega)]
    exact hs.2

theorem hexLower_lt (n : Nat) (h : n < 16) : hexLower n < 128 := by
  unfold hexLower
  by_cases h10 : n < 10
  · rw [if_pos h10]; omega
  · rw [if_neg h10]; omega

theorem unicodeEscape_ascii (c : Nat) : ∀ x ∈ unicodeEscape c, x < 128 ∨ 65536 ≤ c := by
  intro x hx
  by_cases hc : c < 65536
  · left
    have h1 := hexLower_lt (c / 4096) (by omega)
    have h2 := hexLower_lt (c / 256 % 16) (by omega)
    have h3 := hexLower_lt (c / 16 % 16) (by omega)
    have h4 := hexLower_lt (c % 16) (by omega)
    simp only [unicodeEscape, List.mem_cons, List.mem_singleton, List.not_mem_nil,
      or_false] at hx
    rcases hx with hx | hx | hx | hx | hx | hx <;> omega
  · right; omega

theorem goodText_unicodeEscape (c : Nat) (hc : c < 65536) (s : JStr)
    (hs : isJStr s = true ∧ isWellFormedUnicode s = true) :
    isJStr (unicodeEscape c ++ s) = true ∧ isWellFormedUnicode (unicodeEscape c ++ s) = true := by
  apply goodText_append _ _ _ hs
  apply goodText_ascii
  intro x hx
  rcases unicodeEscape_ascii c x hx with h | h
  · exact h
  · omega

theorem isJStr_cons (c : Nat) (s : JStr) :
    isJStr (c :: s) = true ↔ c < 65536 ∧ isJStr s = true := by
  simp only [isJStr, List.all_cons, Bool.and_eq_true, decide_eq_true_eq]

theorem goodText_cons_ascii (c : Nat) (s : JStr) (hc : c < 128)
    (hs : isJStr s = true ∧ isWellFormedUnicode s = true) :
    isJStr (c :: s) = true ∧ isWellFormedUnicode (c :: s) = true :=
  goodText_cons_plain c s (by omega) hs

/-- QuoteJSONString escapes every unpaired surrogate: its output has none. -/
theorem goodText_quoteJSONLoop : ∀ (s : JStr), isJStr s = true →
    isJStr (quoteJSONLoop false s) = true ∧ isWellFormedUnicode (quoteJSONLoop false s) = true
  | [], _ => ⟨rfl, rfl⟩
  | [c], hs => by
    have hc : c < 65536 := ((isJStr_cons c []).mp hs).1
    have ih : isJStr (quoteJSONLoop false []) = true ∧
        isWellFormedUnicode (quoteJSONLoop false []) = true := ⟨rfl, rfl⟩
    rw [quoteJSONLoop_false_cons]
    by_cases h8 : c = 8
    · rw [if_pos h8]; exact goodText_cons_ascii _ _ (by omega) (goodText_cons_ascii _ _ (by omega) ih)
    rw [if_neg h8]
    by_cases h9 : c = 9
    · rw [if_pos h9]; exact goodText_cons_ascii _ _ (by omega) (goodText_cons_ascii _ _ (by omega) ih)
    rw [if_neg h9]
    by_cases h10 : c = 10
    · rw [if_pos h10]; exact goodText_cons_ascii _ _ (by omega) (goodText_cons_ascii _ _ (by omega) ih)
    rw [if_neg h10]
    by_cases h12 : c = 12
    · rw [if_pos h12]; exact goodText_cons_ascii _ _ (by omega) (goodText_cons_ascii _ _ (by omega) ih)
    rw [if_neg h12]
    by_cases h13 : c = 13
    · rw [if_pos h13]; exact goodText_cons_ascii _ _ (by omega) (goodText_cons_ascii _ _ (by omega) ih)
    rw [if_neg h13]
    by_cases h34 : c = 34
    · rw [if_pos h34]; exact goodText_cons_ascii _ _ (by omega) (goodText_cons_ascii _ _ (by omega) ih)
    rw [if_neg h34]
    by_cases h92 : c = 92
    · rw [if_pos h92]; exact goodText_cons_ascii _ _ (by omega) (goodText_cons_ascii _ _ (by omega) ih)
    rw [if_neg h92]
    by_cases h32 : c < 32
    · rw [if_pos h32]; exact goodText_unicodeEscape c hc _ ih
    rw [if_neg h32]
    by_cases hh : isHighSurrogate c = true
    · rw [if_pos hh, if_neg (by simp [startsWithLow])]
      exact goodText_unicodeEscape c hc _ ih
    rw [if_neg hh]
    by_cases hl : isLowSurrogate c = true
    · rw [if_pos hl]; exact goodText_unicodeEscape c hc _ ih
    rw [if_neg hl]
    have hh' : ¬ (55296 ≤ c ∧ c ≤ 56319) := by simpa [isHighSurrogate] using hh
    have hl' : ¬ (56320 ≤ c ∧ c ≤ 57343) := by simpa [isLowSurrogate] using hl
    exact goodText_cons_plain c _ (by omega) ih
  | c :: d :: tail, hs => by
    have hc : c < 65536 := ((isJStr_cons c _).mp hs).1
    have hs1 : isJStr (d :: tail) = true := ((isJStr_cons c _).mp hs).2
    have hd : d < 65536 := ((isJStr_cons d _).mp hs1).1
    have hs2 : isJStr tail = true := ((isJStr_cons d _).mp hs1).2
    have ih := goodText_quoteJSONLoop (d :: tail) hs1
    have ih2 := goodText_quoteJSONLoop tail hs2
    rw [quoteJSONLoop_false_cons]
    by_cases h8 : c = 8
    · rw [if_pos h8]; exact goodText_cons_ascii _ _ (by omega) (goodText_cons_ascii _ _ (by omega) ih)
    rw [if_neg h8]
    by_cases h9 : c = 9
    · rw [if_pos h9]; exact goodText_cons_ascii _ _ (by omega) (goodText_cons_ascii _ _ (by omega) ih)
    rw [if_neg h9]
    by_cases h10 : c = 10
    · rw [if_pos h10]; exact goodText_cons_ascii _ _ (by omega) (goodText_cons_ascii _ _ (by omega) ih)
    rw [if_neg h10]
    by_cases h12 : c = 12
    · rw [if_pos h12]; exact goodText_cons_ascii _ _ (by omega) (goodText_cons_ascii _ _ (by omega) ih)
    rw [if_neg h12]
    by_cases h13 : c = 13
    · rw [if_pos h13]; exact goodText_cons_ascii _ _ (by omega) (goodText_cons_ascii _ _ (by omega) ih)
    rw [if_neg h13]
    by_cases h34 : c = 34
    · rw [if_pos h34]; exact goodText_cons_ascii _ _ (by omega) (goodText_cons_ascii _ _ (by omega) ih)
    rw [if_neg h34]
    by_cases h92 : c = 92
    · rw [if_pos h92]; exact goodText_cons_ascii _ _ (by omega) (goodText_cons_ascii _ _ (by omega) ih)
    rw [if_neg h92]
    by_cases h32 : c < 32
    · rw [if_pos h32]; exact goodText_unicodeEscape c hc _ ih
    rw [if_neg h32]
    by_cases hh : isHighSurrogate c = true
    · rw [if_pos hh]
      by_cases hs : startsWithLow (d :: tail) = true
      · rw [if_pos hs, quoteJSONLoop_true_cons]
        have hdl : isLowSurrogate d = true := hs
        refine ⟨?_, ?_⟩
        · rw [isJStr_cons, isJStr_cons]; exact ⟨hc, hd, ih2.1⟩
        · rw [isWellFormedUnicode_cons_pair c d _ hh hdl]; exact ih2.2
      · rw [if_neg hs]; exact goodText_unicodeEscape c hc _ ih
    rw [if_neg hh]
    by_cases hl : isLowSurrogate c = true
    · rw [if_pos hl]; exact goodText_unicodeEscape c hc _ ih
    rw [if_neg hl]
    have hh' : ¬ (55296 ≤ c ∧ c ≤ 56319) := by simpa [isHighSurrogate] using hh
    have hl' : ¬ (56320 ≤ c ∧ c ≤ 57343) := by simpa [isLowSurrogate] using hl
    exact goodText_cons_plain c _ (by omega) ih

theorem goodText_quoteJSONString (s : JStr) (hs : isJStr s = true) :
    isJStr (quoteJSONString s) = true ∧ isWellFormedUnicode (quoteJSONString s) = true := by
  unfold quoteJSONString
  apply goodText_cons_ascii 34 _ (by omega)
  exact goodText_append _ _ (goodText_quoteJSONLoop s hs) (goodText_ascii [34] (by simp))

theorem decDigitsAux_ascii (fuel n : Nat) (acc : JStr) (h : ∀ c ∈ acc, c < 128) :
    ∀ c ∈ decDigitsAux fuel n acc, c < 128 := by
  induction fuel generalizing n acc with
  | zero => exact h
  | succ f ih =>
    intro c hc
    rw [decDigitsAux] at hc
    by_cases h10 : n < 10
    · rw [if_pos h10] at hc
      rcases List.mem_cons.mp hc with hc | hc
      · omega
      · exact h c hc
    · rw [if_neg h10] at hc
      refine ih (n / 10) ((48 + n % 10) :: acc) ?_ c hc
      intro x hx
      rcases List.mem_cons.mp hx with hx | hx
      · omega
      · exact h x hx

theorem intText_ascii (n : Int) : ∀ c ∈ intText n, c < 128 := by
  intro c hc
  unfold intText at hc
  have hd := decDigitsAux_ascii (n.natAbs + 1) n.natAbs [] (by simp)
  by_cases hn : n < 0
  · rw [if_pos hn] at hc
    rcases List.mem_cons.mp hc with hc | hc
    · omega
    · exact hd c hc
  · rw [if_neg hn] at hc
    exact hd c hc

mutual
theorem goodText_stringify (P : Platform) : ∀ (x : Json), x.unitsOk = true →
    isJStr (stringify P x) = true ∧ isWellFormedUnicode (stringify P x) = true
  | .null, _ => goodText_ascii [110, 117, 108, 108] (by decide)
  | .bool true, _ => goodText_ascii [116, 114, 117, 101] (by decide)
  | .bool false, _ => goodText_ascii [102, 97, 108, 115, 101] (by decide)
  | .num n, _ => goodText_ascii _ (intText_ascii n)
  | .numLit lit, _ => by
    apply goodText_ascii
    intro c hc
    simp only [stringify, List.mem_map] at hc
    obtain ⟨d, _, rfl⟩ := hc
    exact d.isLt
  | .str s, hx => goodText_quoteJSONString s (by simpa [Json.unitsOk] using hx)
  | .arr [], _ => goodText_ascii [91, 93] (by decide)
  | .arr (x :: xs), hx => by
    have hx2 : x.unitsOk = true ∧ Json.unitsOkList xs = true := by
      simpa [Json.unitsOk, Json.unitsOkList] using hx
    simp only [stringify]
    exact goodText_cons_ascii 91 _ (by omega)
      (goodText_append _ _ (goodText_stringify P x hx2.1) (goodText_stringifyElems P xs hx2.2))
  | .obj [], _ => goodText_ascii [123, 125] (by decide)
  | .obj ((k, v) :: kvs), hx => by
    have hx2 : (isJStr k = true ∧ v.unitsOk = true) ∧ Json.unitsOkMembers kvs = true := by
      simpa [Json.unitsOk, Json.unitsOkMembers] using hx
    simp only [stringify]
    exact goodText_cons_ascii 123 _ (by omega)
      (goodText_append _ _ (goodText_quoteJSONString k hx2.1.1)
        (goodText_cons_ascii 58 _ (by omega)
          (goodText_append _ _ (goodText_stringify P v hx2.1.2)
            (goodText_stringifyMembers P kvs hx2.2))))
theorem goodText_stringifyElems (P : Platform) : ∀ (xs : List Json),
    Json.unitsOkList xs = true →
    isJStr (stringifyElems P xs) = true ∧ isWellFormedUnicode (stringifyElems P xs) = true
  | [], _ => goodText_ascii [93] (by decide)
  | x :: xs, hx => by
    have hx2 : x.unitsOk = true ∧ Json.unitsOkList xs = true := by
      simpa [Json.unitsOkList] using hx
    simp only [stringifyElems]
    exact goodText_cons_ascii 44 _ (by omega)
      (goodText_append _ _ (goodText_stringify P x hx2.1) (goodText_stringifyElems P xs hx2.2))
theorem goodText_stringifyMembers (P : Platform) : ∀ (kvs : List (JStr × Json)),
    Json.unitsOkMembers kvs = true →
    isJStr (stringifyMembers P kvs) = true ∧
      isWellFormedUnicode (stringifyMembers P kvs) = true
  | [], _ => goodText_ascii [125] (by decide)
  | (k, v) :: kvs, hx => by
    have hx2 : (isJStr k = true ∧ v.unitsOk = true) ∧ Json.unitsOkMembers kvs = true := by
      simpa [Json.unitsOkMembers] using hx
    simp only [stringifyMembers]
    exact goodText_cons_ascii 44 _ (by omega)
      (goodText_append _ _ (goodText_quoteJSONString k hx2.1.1)
        (goodText_cons_ascii 58 _ (by omega)
          (goodText_append _ _ (goodText_stringify P v hx2.1.2)
            (goodText_stringifyMembers P kvs hx2.2))))
end


/-! ## The carrier codec -/

mutual
theorem isValue_unitsOk : ∀ (x : Json), x.isValue = true → x.unitsOk = true
  | .null, _ => rfl
  | .bool _, _ => rfl
  | .num _, _ => rfl
  | .numLit _, h => by simp [Json.isValue] at h
  | .str s, h => by simpa [Json.isValue, Json.unitsOk] using h
  | .arr xs, h => by
    have : Json.isValueList xs = true := by simpa [Json.isValue] using h
    simpa [Json.unitsOk] using isValueList_unitsOk xs this
  | .obj kvs, h => by
    have : propertyOrdered kvs = true ∧ Json.isValueMembers kvs = true := by
      simpa [Json.isValue] using h
    simpa [Json.unitsOk] using isValueMembers_unitsOk kvs this.2
theorem isValueList_unitsOk : ∀ (xs : List Json), Json.isValueList xs = true →
    Json.unitsOkList xs = true
  | [], _ => rfl
  | x :: xs, h => by
    have h2 : x.isValue = true ∧ Json.isValueList xs = true := by
      simpa [Json.isValueList] using h
    simp only [Json.unitsOkList, Bool.and_eq_true]
    exact ⟨isValue_unitsOk x h2.1, isValueList_unitsOk xs h2.2⟩
theorem isValueMembers_unitsOk : ∀ (kvs : List (JStr × Json)),
    Json.isValueMembers kvs = true → Json.unitsOkMembers kvs = true
  | [], _ => rfl
  | (k, v) :: kvs, h => by
    have h2 : (isJStr k = true ∧ v.isValue = true) ∧ Json.isValueMembers kvs = true := by
      simpa [Json.isValueMembers] using h
    simp only [Json.unitsOkMembers, Bool.and_eq_true]
    exact ⟨⟨h2.1.1, isValue_unitsOk v h2.1.2⟩, isValueMembers_unitsOk kvs h2.2⟩
end

theorem quoteJSONString_length (s : JStr) : 2 ≤ (quoteJSONString s).length := by
  simp [quoteJSONString]

mutual
theorem parseFuel_le (P : Platform) : ∀ (x : Json),
    x.parseFuel ≤ 2 * (stringify P x).length + 1
  | .null => by simp [Json.parseFuel]
  | .bool _ => by simp [Json.parseFuel]
  | .num _ => by simp [Json.parseFuel]
  | .numLit _ => by simp [Json.parseFuel]
  | .str _ => by simp [Json.parseFuel]
  | .arr [] => by simp [Json.parseFuel]
  | .arr (x :: xs) => by
    have h1 := parseFuel_le P x
    have h2 := parseFuelElems_le P xs
    simp only [Json.parseFuel, stringify, List.length_cons, List.length_append]
    omega
  | .obj [] => by simp [Json.parseFuel, Json.parseFuelMembers, stringify]
  | .obj ((k, v) :: kvs) => by
    have h1 := parseFuel_le P v
    have h2 := parseFuelMembers_le P kvs
    have h3 := quoteJSONString_length k
    simp only [Json.parseFuel, Json.parseFuelMembers, stringify, List.length_cons,
      List.length_append]
    omega
theorem parseFuelElems_le (P : Platform) : ∀ (xs : List Json),
    Json.parseFuelElems xs ≤ 2 * (stringifyElems P xs).length + 1
  | [] => by simp [Json.parseFuelElems, stringifyElems]
  | x :: xs => by
    have h1 := parseFuel_le P x
    have h2 := parseFuelElems_le P xs
    simp only [Json.parseFuelElems, stringifyElems, List.length_cons, List.length_append]
    omega
theorem parseFuelMembers_le (P : Platform) : ∀ (kvs : List (JStr × Json)),
    Json.parseFuelMembers kvs ≤ 2 * (stringifyMembers P kvs).length + 1
  | [] => by simp [Json.parseFuelMembers, stringifyMembers]
  | (k, v) :: kvs => by
    have h1 := parseFuel_le P v
    have h2 := parseFuelMembers_le P kvs
    have h3 := quoteJSONString_length k
    simp only [Json.parseFuelMembers, stringifyMembers, List.length_cons, List.length_append]
    omega
end

/-- The text `JSON.stringify` writes for a value is read back by `JSON.parse`
as that value. -/
theorem jsonParse_stringify (P : Platform) (x : Json) (hx : x.isValue = true) :
    jsonParse (stringify P x) = some x := by
  obtain ⟨c, t, hc, hws, _, _⟩ := stringify_head P x hx
  have hfuel := parseFuel_le P x
  have hp := parseValue_stringify P x hx (2 * (stringify P x).length + 2) [] (by omega) rfl
  rw [List.append_nil] at hp
  unfold jsonParse
  have hskip : skipWs (stringify P x) = stringify P x := by
    rw [hc]; exact skipWs_cons c t hws
  rw [hskip, hp]
  rfl

/-- The carrier is the base64 text of the UTF-8 octets of the JSON text; the
encoder does not throw. -/
theorem encodeCarrier_eq (P : Platform) (x : Json) (hx : x.unitsOk = true) :
    encodeCarrier P x = some (base64Encode (utf8Encode (stringify P x))) := by
  obtain ⟨hj, hw⟩ := goodText_stringify P x hx
  obtain ⟨e, he, hu, hlt⟩ := unescape_encodeURIComponent (stringify P x) hj hw
  unfold encodeCarrier
  rw [he]
  simp only [unescape, hu]
  exact btoa_eq _ hlt

/-- Decoding the carrier of a text gives the text back. -/
theorem decodeCarrierText_encode (s : JStr) (hj : isJStr s = true)
    (hw : isWellFormedUnicode s = true) :
    decodeCarrierText (base64Encode (utf8Encode s)) = some s := by
  obtain ⟨e, _, _, hlt⟩ := unescape_encodeURIComponent s hj hw
  unfold decodeCarrierText
  rw [atob_base64Encode _ hlt]
  exact decodeURIComponent_escape_utf8 s hj hw

/-- The carrier of a value is not empty. -/
theorem base64Encode_ne_nil_of_ne_nil (bs : List Nat) (h : bs ≠ []) : base64Encode bs ≠ [] :=
  fun hc => h ((base64Encode_eq_nil bs).mp hc)


/-! # Claims: codec and renderer -/

theorem utf8Octets_ne_nil (cp : Nat) : utf8Octets cp ≠ [] := by
  unfold utf8Octets
  by_cases h1 : cp < 128
  · rw [if_pos h1]; exact List.cons_ne_nil _ _
  · rw [if_neg h1]
    by_cases h2 : cp < 2048
    · rw [if_pos h2]; exact List.cons_ne_nil _ _
    · rw [if_neg h2]
      by_cases h3 : cp < 65536
      · rw [if_pos h3]; exact List.cons_ne_nil _ _
      · rw [if_neg h3]; exact List.cons_ne_nil _ _

theorem utf8Encode_ne_nil (s : JStr) (h : s ≠ []) : utf8Encode s ≠ [] := by
  match s, h with
  | [c], _ =>
    intro hc
    by_cases hh : isHighSurrogate c = true
    · simp only [utf8Encode, hh, if_true] at hc
      exact utf8Octets_ne_nil _ hc
    · simp only [utf8Encode, hh, if_false, List.append_nil] at hc
      exact utf8Octets_ne_nil _ hc
  | c :: d :: rest, _ =>
    intro hc
    by_cases hh : isHighSurrogate c = true
    · simp only [utf8Encode, hh, if_true] at hc
      exact utf8Octets_ne_nil _ (List.append_eq_nil.mp hc).1
    · simp only [utf8Encode, hh, if_false] at hc
      exact utf8Octets_ne_nil _ (List.append_eq_nil.mp hc).1

/-- The carrier of a value is a non-empty string. -/
theorem carrier_ne_nil (P : Platform) (x : Json) (hx : x.isValue = true) :
    base64Encode (utf8Encode (stringify P x)) ≠ [] := by
  obtain ⟨c, t, hc, _⟩ := stringify_head P x hx
  apply base64Encode_ne_nil_of_ne_nil
  apply utf8Encode_ne_nil
  rw [hc]; exact List.cons_ne_nil _ _

/-- The mounter's decoder gives back the value a carrier was built from. -/
theorem decodeCarrier_encode (P : Platform) (x : Json) (hx : x.isValue = true) :
    decodeCarrier (base64Encode (utf8Encode (stringify P x))) = some x := by
  obtain ⟨hj, hw⟩ := goodText_stringify P x (isValue_unitsOk x hx)
  unfold decodeCarrier
  rw [decodeCarrierText_encode _ hj hw]
  exact jsonParse_stringify P x hx

/-- C1 (codec round trip): for every JSON value `x` (object, array, string,
safe integer, boolean, null; strings of any 16-bit code units) the renderer's
encoder `btoa(unescape(encodeURIComponent(JSON.stringify(x))))` returns a
carrier, it is the base64 text of the UTF-8 octets of the JSON text, and the
mounter's decoder `JSON.parse(decodeURIComponent(escape(atob(carrier))))`
succeeds on it and returns `x`. -/
theorem C1_codec_round_trip (P : Platform) (x : Json) (hx : x.isValue = true) :
    ∃ carrier, encodeCarrier P x = some carrier ∧
      carrier = base64Encode (utf8Encode (stringify P x)) ∧
      decodeCarrier carrier = some x :=
  ⟨_, encodeCarrier_eq P x (isValue_unitsOk x hx), rfl, decodeCarrier_encode P x hx⟩

theorem C1_codec_round_trip_witness :
    exampleConfig.isValue = true ∧
    ∃ carrier, encodeCarrier refPlatform exampleConfig = some carrier ∧
      carrier = base64Encode (utf8Encode (stringify refPlatform exampleConfig)) ∧
      decodeCarrier carrier = some exampleConfig :=
  ⟨by decide, C1_codec_round_trip refPlatform exampleConfig (by decide)⟩

/-- The renderer on a fence it takes for a chart: the template with the carrier. -/
theorem code_chart (P : Platform) (o : ParseOptions) (body : JStr) (info : Option JStr)
    (v : Json) (hen : strictlyFalse o.chartEnabled = false)
    (htag : toLowerCase P (trim (info.getD [])) = js "echarts" ∨
      toLowerCase P (trim (info.getD [])) = js "chart")
    (hv : jsonParse (trim body) = some v) (hu : v.unitsOk = true) :
    code P o body info =
      some (if strictlyFalse o.chartRenderAsChart then
        pendingTemplate (base64Encode (utf8Encode (stringify P v)))
          (escapeText (stringifyPretty P [] v))
      else liveTemplate (base64Encode (utf8Encode (stringify P v)))) := by
  unfold code
  rw [hen]
  simp only [Bool.false_eq_true, if_false]
  rw [if_pos htag, hv]
  simp only
  rw [encodeCarrier_eq P v hu]
  simp only
  by_cases hr : strictlyFalse o.chartRenderAsChart = true
  · rw [if_pos hr, if_pos hr]
  · rw [if_neg hr, if_neg hr]

/-- C7 (chart node emission): for every fenced code block with a recognised
chart tag whose trimmed body is valid JSON with value `v`, and `chartEnabled`
not `false`, the renderer returns the markup of a Live chart node
(`div.yu-stream-editor-echarts-wrap`) when `chartRenderAsChart` is `true` and
of a Pending node (`pre.yu-stream-editor-echarts-pending`) when it is `false`;
in both the attribute `data-echarts-option` holds the same string
`base64(utf8(JSON.stringify(v)))`, which is what the encoder returns for `v`. -/
theorem C7_chart_node_emission (P : Platform) (chartEnabled : Option Json) (body : JStr)
    (info : Option JStr) (v : Json) (hen : strictlyFalse chartEnabled = false)
    (htag : toLowerCase P (trim (info.getD [])) = js "echarts" ∨
      toLowerCase P (trim (info.getD [])) = js "chart")
    (hv : jsonParse (trim body) = some v) (hu : v.unitsOk = true) :
    encodeCarrier P v = some (base64Encode (utf8Encode (stringify P v))) ∧
    code P { chartEnabled := chartEnabled, chartRenderAsChart := some (Json.bool true) }
        body info
      = some (liveTemplate (base64Encode (utf8Encode (stringify P v)))) ∧
    code P { chartEnabled := chartEnabled, chartRenderAsChart := some (Json.bool false) }
        body info
      = some (pendingTemplate (base64Encode (utf8Encode (stringify P v)))
          (escapeText (stringifyPretty P [] v))) :=
  ⟨encodeCarrier_eq P v hu,
   code_chart P _ body info v hen htag hv hu,
   code_chart P _ body info v hen htag hv hu⟩

theorem C7_chart_node_emission_witness :
    strictlyFalse (some (Json.bool true)) = false ∧
    (toLowerCase refPlatform (trim ((some (js " EChaRts ")).getD [])) = js "echarts" ∨
      toLowerCase refPlatform (trim ((some (js " EChaRts ")).getD [])) = js "chart") ∧
    jsonParse (trim exampleBody) = some exampleBodyValue ∧
    exampleBodyValue.unitsOk = true ∧
    (encodeCarrier refPlatform exampleBodyValue
      = some (base64Encode (utf8Encode (stringify refPlatform exampleBodyValue))) ∧
    code refPlatform
        { chartEnabled := some (Json.bool true), chartRenderAsChart := some (Json.bool true) }
        exampleBody (some (js " EChaRts "))
      = some (liveTemplate (base64Encode (utf8Encode (stringify refPlatform exampleBodyValue)))) ∧
    code refPlatform
        { chartEnabled := some (Json.bool true), chartRenderAsChart := some (Json.bool false) }
        exampleBody (some (js " EChaRts "))
      = some (pendingTemplate
          (base64Encode (utf8Encode (stringify refPlatform exampleBodyValue)))
          (escapeText (stringifyPretty refPlatform [] exampleBodyValue)))) :=
  ⟨rfl, Or.inl (by decide), by rfl, by decide,
    C7_chart_node_emission refPlatform (some (Json.bool true)) exampleBody
      (some (js " EChaRts ")) exampleBodyValue rfl (Or.inl (by decide)) (by rfl) (by decide)⟩

/-- C9 (malformed chart body): for every fenced block whose trimmed body is
not valid JSON (`JSON.parse` throws), whatever its tag and the options, the
renderer returns `false`: no chart markup and no carrier; the fence is left
to the default code-block rendering. -/
theorem C9_malformed_chart_body (P : Platform) (o : ParseOptions) (body : JStr)
    (info : Option JStr) (hv : jsonParse (trim body) = none) : code P o body info = none := by
  unfold code
  by_cases hen : strictlyFalse o.chartEnabled = true
  · rw [if_pos hen]
  · rw [if_neg hen]
    by_cases htag : toLowerCase P (trim (info.getD [])) = js "echarts" ∨
        toLowerCase P (trim (info.getD [])) = js "chart"
    · rw [if_pos htag, hv]
    · rw [if_neg htag]

theorem C9_malformed_chart_body_witness :
    jsonParse (trim malformedBody) = none ∧
    code refPlatform { chartEnabled := none, chartRenderAsChart := none } malformedBody
      (some (js "echarts")) = none :=
  ⟨by rfl, C9_malformed_chart_body refPlatform _ malformedBody (some (js "echarts"))
    (by rfl)⟩

/-- C10 (chartEnabled switch): the editor's `chartEnabled` is `false` exactly
when the constructor option `chartEnabled` is the boolean `false`, and `true`
for every other value; and whenever the parser option `chartEnabled` is
`false`, in particular on every parse of an editor whose `chartEnabled` is
`false`, the renderer returns `false` for every code and info string. -/
theorem C10_chartEnabled_switch :
    (∀ o : EditorOptions, ((construct o).chartEnabled = false ↔
        o.chartEnabled = some (Json.bool false)) ∧
      ((construct o).chartEnabled = true ↔ o.chartEnabled ≠ some (Json.bool false))) ∧
    (∀ (P : Platform) (o : ParseOptions) (body : JStr) (info : Option JStr),
      o.chartEnabled = some (Json.bool false) → code P o body info = none) ∧
    (∀ (P : Platform) (e : Editor) (live : Bool) (body : JStr) (info : Option JStr),
      e.chartEnabled = false → code P (e.parseOptions live) body info = none) := by
  have hsf : ∀ v : Option Json, strictlyFalse v = true ↔ v = some (Json.bool false) := by
    intro v
    constructor
    · intro h
      match v, h with
      | some (Json.bool false), _ => rfl
    · intro h; subst h; rfl
  refine ⟨?_, ?_, ?_⟩
  · intro o
    have hc : (construct o).chartEnabled = !strictlyFalse o.chartEnabled := rfl
    rw [hc]
    constructor
    · rw [← hsf]; simp
    · rw [Ne, ← hsf]; simp
  · intro P o body info h
    unfold code
    rw [if_pos ((hsf _).mpr h)]
  · intro P e live body info h
    unfold code
    have : strictlyFalse (e.parseOptions live).chartEnabled = true := by
      simp only [Editor.parseOptions, h]; rfl
    rw [if_pos this]

theorem C10_chartEnabled_switch_witness :
    code refPlatform { chartEnabled := some (Json.bool false), chartRenderAsChart := none }
      exampleBody (some (js "echarts")) = none :=
  C10_chartEnabled_switch.2.1 refPlatform
    { chartEnabled := some (Json.bool false), chartRenderAsChart := none }
    exampleBody (some (js "echarts")) rfl


/-! # Claims: stream assembler -/

theorem mountOne_fields (H : Host) (e : Editor) (t : MountTick) :
    (mountOne H e t).streamBuffer = e.streamBuffer ∧
    (mountOne H e t).hasEditor = e.hasEditor ∧
    (mountOne H e t).isReadonly = e.isReadonly ∧
    (mountOne H e t).chartEnabled = e.chartEnabled ∧
    (mountOne H e t).placeholder = e.placeholder ∧
    (mountOne H e t).gen = e.gen := by
  unfold mountOne
  by_cases h1 : t.wraps.length ≤ t.index
  · rw [if_pos h1]; exact ⟨rfl, rfl, rfl, rfl, rfl, rfl⟩
  · rw [if_neg h1]
    by_cases h2 : t.gen = e.gen <;> by_cases h3 : t.index + 1 < t.wraps.length <;>
      simp [h2, h3]

theorem mountEchartsInElement_fields (H : Host) (e : Editor) :
    (mountEchartsInElement H e).streamBuffer = e.streamBuffer ∧
    (mountEchartsInElement H e).hasEditor = e.hasEditor ∧
    (mountEchartsInElement H e).isReadonly = e.isReadonly ∧
    (mountEchartsInElement H e).chartEnabled = e.chartEnabled ∧
    (mountEchartsInElement H e).placeholder = e.placeholder ∧
    (mountEchartsInElement H e).gen = e.gen := by
  unfold mountEchartsInElement
  by_cases h : e.hasEditor = true
  · rw [if_pos h]; exact mountOne_fields H e _
  · rw [if_neg h]; exact ⟨rfl, rfl, rfl, rfl, rfl, rfl⟩

theorem updateAt_nil (f : Node → Node) (ns : List Node) : updateAt f [] ns = ns := by
  cases ns <;> rfl

/-- The content after `_mountEchartsInElement` returns depends on the content
before it only: the first chart wrap has been handed to `mountOne`. -/
theorem mountEchartsInElement_content (H : Host) (e : Editor) (h : e.hasEditor = true) :
    (mountEchartsInElement H e).content = mountFirstWrap H e.content := by
  unfold mountEchartsInElement mountOne mountFirstWrap
  rw [if_pos h]
  simp only
  by_cases h1 : (Node.pathsInList (Node.hasClass wrapClass) 0 e.content).length ≤ 0
  · rw [if_pos h1]
    have : Node.pathsInList (Node.hasClass wrapClass) 0 e.content = [] :=
      List.length_eq_zero.mp (Nat.le_zero.mp h1)
    rw [this]
    simp only [List.getD_nil, updateAt_nil]
  · rw [if_neg h1]
    by_cases h3 : 0 + 1 < (Node.pathsInList (Node.hasClass wrapClass) 0 e.content).length
    · simp only [h3, if_true]
    · simp only [h3, if_false, if_true]



theorem appendStreamChunk_fields (H : Host) (e : Editor) (chunk : Option Json) :
    (appendStreamChunk H e chunk).hasEditor = e.hasEditor ∧
    (appendStreamChunk H e chunk).isReadonly = e.isReadonly ∧
    (appendStreamChunk H e chunk).chartEnabled = e.chartEnabled := by
  unfold appendStreamChunk
  split
  · by_cases hm : e.hasEditor = true
    · rw [if_pos hm]
      split
      · exact ⟨rfl, rfl, rfl⟩
      · by_cases hr : e.isReadonly = true
        · rw [if_pos hr]; exact ⟨rfl, rfl, rfl⟩
        · rw [if_neg hr]
          exact ⟨(mountEchartsInElement_fields H _).2.1,
            (mountEchartsInElement_fields H _).2.2.1,
            (mountEchartsInElement_fields H _).2.2.2.1⟩
    · rw [if_neg hm]; exact ⟨rfl, rfl, rfl⟩
  · exact ⟨rfl, rfl, rfl⟩

theorem appendStreamChunk_buffer (H : Host) (e : Editor) (s : JStr) (hm : e.hasEditor = true) :
    (appendStreamChunk H e (some (Json.str s))).streamBuffer = e.streamBuffer ++ s := by
  simp only [appendStreamChunk, hm, if_true]
  split
  · rfl
  · by_cases hr : e.isReadonly = true
    · rw [if_pos hr]
    · rw [if_neg hr]
      exact (mountEchartsInElement_fields H _).1

theorem appendStreamChunk_nonstring (H : Host) (e : Editor) (chunk : Option Json)
    (h : ∀ s, chunk ≠ some (Json.str s)) : appendStreamChunk H e chunk = e := by
  unfold appendStreamChunk
  split
  · rename_i s
    exact absurd rfl (h s)
  · rfl

theorem setMarkdown_fields (H : Host) (e : Editor) (md : Option Json) :
    (setMarkdown H e md).hasEditor = e.hasEditor ∧
    (setMarkdown H e md).streamBuffer = e.streamBuffer := by
  unfold setMarkdown
  split
  · by_cases hm : e.hasEditor = true
    · rw [if_pos hm]
      split
      · exact ⟨rfl, rfl⟩
      · exact ⟨(mountEchartsInElement_fields H _).2.1, (mountEchartsInElement_fields H _).1⟩
    · rw [if_neg hm]; exact ⟨rfl, rfl⟩
  · exact ⟨rfl, rfl⟩

theorem setHtml_fields (H : Host) (e : Editor) (html : Option Json) :
    (setHtml H e html).hasEditor = e.hasEditor ∧
    (setHtml H e html).streamBuffer = e.streamBuffer := by
  unfold setHtml
  by_cases hm : e.hasEditor = true
  · rw [if_pos hm]
    split <;> exact ⟨rfl, rfl⟩
  · rw [if_neg hm]; exact ⟨rfl, rfl⟩

theorem setReadonly_fields (H : Host) (e : Editor) (r : Bool) :
    (setReadonly H e r).hasEditor = e.hasEditor ∧
    (setReadonly H e r).streamBuffer = e.streamBuffer := by
  unfold setReadonly
  cases r
  · have h := mountEchartsInElement_fields H
      { e with isReadonly := false, content := promoteList H e.content }
    exact ⟨h.2.1, h.1⟩
  · exact ⟨rfl, rfl⟩

theorem runTick_fields (H : Host) (e : Editor) :
    (runTick H e).hasEditor = e.hasEditor ∧ (runTick H e).streamBuffer = e.streamBuffer := by
  unfold runTick
  split
  · exact ⟨rfl, rfl⟩
  · rename_i t rest _
    have h := mountOne_fields H { e with ticks := rest } t
    exact ⟨h.2.1, h.1⟩

theorem clear_fields (e : Editor) :
    (clear e).hasEditor = e.hasEditor ∧ (clear e).streamBuffer = [] := by
  unfold clear
  by_cases hm : e.hasEditor = true
  · rw [if_pos hm]; exact ⟨rfl, rfl⟩
  · rw [if_neg hm]; exact ⟨rfl, rfl⟩

/-- One call keeps the editor mounted and changes the buffer as `chunkStep` says. -/
theorem applyOp_buffer (H : Host) (e : Editor) (op : Op) (acc : List JStr)
    (hm : e.hasEditor = true) (hb : e.streamBuffer = acc.flatten) :
    (applyOp H e op).hasEditor = true ∧
    (applyOp H e op).streamBuffer = (chunkStep acc op).flatten := by
  cases op with
  | appendStreamChunk chunk =>
    have hf := appendStreamChunk_fields H e chunk
    refine ⟨by rw [applyOp, hf.1, hm], ?_⟩
    match chunk with
    | some (Json.str s) =>
      rw [applyOp, appendStreamChunk_buffer H e s hm, hb]
      simp [chunkStep]
    | none => rw [applyOp, appendStreamChunk_nonstring H e none (by simp)]; exact hb
    | some Json.null =>
      rw [applyOp, appendStreamChunk_nonstring H e _ (by simp)]; exact hb
    | some (Json.bool _) =>
      rw [applyOp, appendStreamChunk_nonstring H e _ (by simp)]; exact hb
    | some (Json.num _) =>
      rw [applyOp, appendStreamChunk_nonstring H e _ (by simp)]; exact hb
    | some (Json.numLit _) =>
      rw [applyOp, appendStreamChunk_nonstring H e _ (by simp)]; exact hb
    | some (Json.arr _) =>
      rw [applyOp, appendStreamChunk_nonstring H e _ (by simp)]; exact hb
    | some (Json.obj _) =>
      rw [applyOp, appendStreamChunk_nonstring H e _ (by simp)]; exact hb
  | resetStream => exact ⟨hm, rfl⟩
  | clear =>
    have h := clear_fields e
    exact ⟨by rw [applyOp, h.1, hm], by rw [applyOp, h.2]; rfl⟩
  | setMarkdown md =>
    have h := setMarkdown_fields H e md
    exact ⟨by rw [applyOp, h.1, hm], by rw [applyOp, h.2]; exact hb⟩
  | setHtml html =>
    have h := setHtml_fields H e html
    exact ⟨by rw [applyOp, h.1, hm], by rw [applyOp, h.2]; exact hb⟩
  | setReadonly r =>
    have h := setReadonly_fields H e r
    exact ⟨by rw [applyOp, h.1, hm], by rw [applyOp, h.2]; exact hb⟩
  | getHtml => exact ⟨hm, hb⟩
  | getMarkdown => exact ⟨hm, hb⟩
  | frame =>
    have h := runTick_fields H e
    exact ⟨by rw [applyOp, h.1, hm], by rw [applyOp, h.2]; exact hb⟩

theorem runOps_buffer (H : Host) (ops : List Op) : ∀ (e : Editor) (acc : List JStr),
    e.hasEditor = true → e.streamBuffer = acc.flatten →
    (runOps H e ops).streamBuffer = (chunksSinceReset acc ops).flatten := by
  induction ops with
  | nil => intro e acc _ hb; exact hb
  | cons op rest ih =>
    intro e acc hm hb
    have h := applyOp_buffer H e op acc hm hb
    exact ih (applyOp H e op) (chunkStep acc op) h.1 h.2

/-- C6 (buffer invariant): for every sequence of calls of the public methods
on a mounted editor that starts with an empty stream buffer,
`getStreamBuffer()` returns the concatenation, in call order, of the string
chunks appended since the most recent `resetStream` or `clear` (the empty
string if there is none); `setMarkdown`, `setHtml`, `setReadonly`, `getHtml`,
`getMarkdown`, non-string chunks and animation frames leave the buffer as it
is. -/
theorem C6_buffer_invariant (H : Host) (e : Editor) (ops : List Op)
    (hm : e.hasEditor = true) (hb : e.streamBuffer = []) :
    getStreamBuffer (runOps H e ops) = (chunksSinceReset [] ops).flatten ∧
    (∀ (e' : Editor) (v : Option Json) (r : Bool),
      getStreamBuffer (setMarkdown H e' v) = getStreamBuffer e' ∧
      getStreamBuffer (setHtml H e' v) = getStreamBuffer e' ∧
      getStreamBuffer (setReadonly H e' r) = getStreamBuffer e' ∧
      getStreamBuffer (applyOp H e' Op.getHtml) = getStreamBuffer e' ∧
      getStreamBuffer (applyOp H e' Op.getMarkdown) = getStreamBuffer e' ∧
      getStreamBuffer (runTick H e') = getStreamBuffer e') :=
  ⟨runOps_buffer H ops e [] hm (by rw [hb]; rfl),
   fun e' v r => ⟨(setMarkdown_fields H e' v).2, (setHtml_fields H e' v).2,
     (setReadonly_fields H e' r).2, rfl, rfl, (runTick_fields H e').2⟩⟩

theorem C6_buffer_invariant_witness :
    freshEditor.hasEditor = true ∧ freshEditor.streamBuffer = [] ∧
    getStreamBuffer (runOps refHost freshEditor exampleSession)
      = js "```chart\n\x7b\"a\":1\x7d\n```" :=
  ⟨rfl, rfl, by
    rw [(C6_buffer_invariant refHost freshEditor exampleSession rfl rfl).1]
    decide⟩


/-! # Claims: streaming convergence and live export -/

theorem appendEachUnit_snoc (H : Host) (b : JStr) (c : Nat) : ∀ (e : Editor),
    appendEachUnit H e (b ++ [c]) =
      appendStreamChunk H (appendEachUnit H e b) (some (Json.str [c])) := by
  induction b with
  | nil => intro e; rfl
  | cons d b ih => intro e; exact ih _

theorem appendEachUnit_fields (H : Host) (b : JStr) : ∀ (e : Editor), e.hasEditor = true →
    (appendEachUnit H e b).hasEditor = true ∧
    (appendEachUnit H e b).isReadonly = e.isReadonly ∧
    (appendEachUnit H e b).chartEnabled = e.chartEnabled ∧
    (appendEachUnit H e b).streamBuffer = e.streamBuffer ++ b := by
  induction b with
  | nil => intro e hm; exact ⟨hm, rfl, rfl, by simp [appendEachUnit]⟩
  | cons d b ih =>
    intro e hm
    have hf := appendStreamChunk_fields H e (some (Json.str [d]))
    have hb := appendStreamChunk_buffer H e [d] hm
    have h := ih (appendStreamChunk H e (some (Json.str [d]))) (by rw [hf.1, hm])
    refine ⟨h.1, by rw [← hf.2.1]; exact h.2.1, by rw [← hf.2.2]; exact h.2.2.1, ?_⟩
    show (appendEachUnit H (appendStreamChunk H e (some (Json.str [d]))) b).streamBuffer = _
    rw [h.2.2.2, hb]
    simp

/-- The content after a string chunk whose parse returns markup, in edit mode. -/
theorem appendStreamChunk_content_live (H : Host) (e : Editor) (s html : JStr)
    (hm : e.hasEditor = true) (hr : e.isReadonly = false)
    (hp : H.markedParse (code H.platform (e.parseOptions true)) (e.streamBuffer ++ s)
      = some html) :
    (appendStreamChunk H e (some (Json.str s))).content = mountFirstWrap H (setInnerHTML H html) := by
  have hp' : H.markedParse (code H.platform (e.parseOptions (!e.isReadonly)))
      (e.streamBuffer ++ s) = some html := by rw [hr]; exact hp
  unfold appendStreamChunk
  simp only [hm, if_true]
  rw [hp']
  simp only [hr, Bool.false_eq_true, if_false]
  exact mountEchartsInElement_content H _ (by first | exact hm | rfl)

/-- The content after `setMarkdown` with a text whose parse returns markup. -/
theorem setMarkdown_content (H : Host) (e : Editor) (b html : JStr)
    (hm : e.hasEditor = true)
    (hp : H.markedParse (code H.platform (e.parseOptions true)) b = some html) :
    (setMarkdown H e (some (Json.str b))).content = mountFirstWrap H (setInnerHTML H html) := by
  unfold setMarkdown
  simp only [hm, if_true]
  rw [hp]
  exact mountEchartsInElement_content H _ (by first | exact hm | rfl)

/-- C4 (streaming convergence, amended): for every non-empty string `b` whose
parse returns markup, on a mounted editor in edit mode with an empty stream
buffer, calling `appendStreamChunk` once per code unit of `b` in order leaves
the editor content equal to the content a single `setMarkdown(b)` call
produces: the parse of `b` in live mode with the mounter started on it. -/
theorem C4_streaming_convergence_nonempty (H : Host) (e : Editor) (b html : JStr)
    (hm : e.hasEditor = true) (hr : e.isReadonly = false) (hb : e.streamBuffer = [])
    (hne : b ≠ [])
    (hp : H.markedParse (code H.platform
        { chartEnabled := some (Json.bool e.chartEnabled),
          chartRenderAsChart := some (Json.bool true) }) b = some html) :
    (appendEachUnit H e b).content = (setMarkdown H e (some (Json.str b))).content ∧
    (setMarkdown H e (some (Json.str b))).content = mountFirstWrap H (setInnerHTML H html) := by
  have hp0 : H.markedParse (code H.platform (e.parseOptions true)) b = some html := hp
  have hset := setMarkdown_content H e b html hm hp0
  refine ⟨?_, hset⟩
  rcases List.eq_nil_or_concat b with h | ⟨b', c, h⟩
  · exact absurd h hne
  · rw [List.concat_eq_append] at h
    subst h
    have hf := appendEachUnit_fields H b' e hm
    rw [hset, appendEachUnit_snoc]
    apply appendStreamChunk_content_live H _ [c] html hf.1 (by rw [hf.2.1, hr])
    have hopt : (appendEachUnit H e b').parseOptions true = e.parseOptions true := by
      simp only [Editor.parseOptions, hf.2.2.1]
    rw [hopt, hf.2.2.2, hb, List.nil_append]
    exact hp0

set_option maxRecDepth 100000 in
theorem C4_streaming_convergence_nonempty_witness :
    freshEditor.hasEditor = true ∧ freshEditor.isReadonly = false ∧
    freshEditor.streamBuffer = [] ∧ chartOnlyBufferA ≠ [] ∧
    refHost.markedParse (code refHost.platform
        { chartEnabled := some (Json.bool freshEditor.chartEnabled),
          chartRenderAsChart := some (Json.bool true) }) chartOnlyBufferA
      = some (liveTemplate (js "eyJhIjoxfQ==")) ∧
    (appendEachUnit refHost freshEditor chartOnlyBufferA).content
      = (setMarkdown refHost freshEditor (some (Json.str chartOnlyBufferA))).content :=
  ⟨rfl, rfl, rfl, by decide, by decide,
   (C4_streaming_convergence_nonempty refHost freshEditor chartOnlyBufferA
      (liveTemplate (js "eyJhIjoxfQ==")) rfl rfl rfl (by decide) (by decide)).1⟩

/-- C4, counterexample to the claim as stated: on a mounted editor in edit
mode with an empty stream buffer that shows the text `x`, streaming the empty
string (no call) leaves the text in place, while `setMarkdown("")` empties
the editor. -/
theorem C4_counterexample :
    editorWithText.hasEditor = true ∧ editorWithText.isReadonly = false ∧
    getStreamBuffer editorWithText = [] ∧
    (appendEachUnit refHost editorWithText []).content.length = 1 ∧
    (setMarkdown refHost editorWithText (some (Json.str []))).content.length = 0 ∧
    getHtml (appendEachUnit refHost editorWithText [])
      = surfaceOpenTag editorWithText ++ js "x</div>" ∧
    getHtml (setMarkdown refHost editorWithText (some (Json.str [])))
      = surfaceOpenTag editorWithText ++ js "</div>" := by
  decide


theorem mountWrap_shape (H : Host) (tag : JStr) (attrs : List (JStr × JStr))
    (children : List Node) (surface : Option Surface) :
    ∃ children2 surface2,
      mountWrap H (Node.element tag attrs children surface)
        = Node.element tag attrs children2 surface2 := by
  unfold mountWrap
  simp only
  split
  · exact ⟨_, _, rfl⟩
  · split
    · exact ⟨_, _, rfl⟩
    · split
      · exact ⟨_, _, rfl⟩
      · split
        · exact ⟨_, _, rfl⟩
        · split
          · exact ⟨_, _, rfl⟩
          · exact ⟨_, _, rfl⟩

theorem hasClass_attrs (cls tag : JStr) (attrs : List (JStr × JStr))
    (c1 c2 : List Node) (s1 s2 : Option Surface) :
    Node.hasClass cls (Node.element tag attrs c1 s1)
      = Node.hasClass cls (Node.element tag attrs c2 s2) := rfl

theorem liveTemplate_ne_nil (c : JStr) : liveTemplate c ≠ [] := by
  intro h
  have : (liveTemplate c).head? = some 60 := rfl
  rw [h] at this
  exact Option.noConfusion this

theorem liveWrap_paths (c : JStr) :
    Node.pathsInList (Node.hasClass wrapClass) 0 [liveWrapNode c] = [[0]] := rfl

theorem liveWrap_hasClass (c : JStr) :
    Node.hasClass wrapClass (liveWrapNode c) = true ∧
    Node.hasClass containerClass (liveWrapNode c) = false ∧
    Node.hasClass pendingClass (liveWrapNode c) = false ∧
    Node.hasTag (js "pre") (liveWrapNode c) = false := ⟨rfl, rfl, rfl, rfl⟩

theorem setMarkdown_frame (H : Host) (e : Editor) (md : Option Json) :
    (setMarkdown H e md).isReadonly = e.isReadonly ∧
    (setMarkdown H e md).placeholder = e.placeholder := by
  unfold setMarkdown
  split
  · by_cases hm : e.hasEditor = true
    · rw [if_pos hm]
      split
      · exact ⟨rfl, rfl⟩
      · exact ⟨(mountEchartsInElement_fields H _).2.2.1,
          (mountEchartsInElement_fields H _).2.2.2.2.1⟩
    · rw [if_neg hm]; exact ⟨rfl, rfl⟩
  · exact ⟨rfl, rfl⟩

theorem serialize_element (tag : JStr) (attrs : List (JStr × JStr)) (children : List Node)
    (surface : Option Surface) :
    serialize (Node.element tag attrs children surface) =
      if isChartWrap (Node.element tag attrs children surface) then
        chartImage (Node.element tag attrs children surface)
      else if voidTags.contains tag then 60 :: (tag ++ serializeAttrs attrs ++ [62])
      else
        60 :: (tag ++ serializeAttrs attrs ++ [62] ++ serializeChildren children ++
          (60 :: 47 :: tag) ++ [62]) := by
  rw [serialize]

/-- The serializer puts the chart image in place of a mounted live wrap. -/
theorem serialize_mounted_liveWrap (H : Host) (c : JStr) :
    serialize (mountWrap H (liveWrapNode c)) = chartImage (mountWrap H (liveWrapNode c)) ∧
    Node.hasClass containerClass (mountWrap H (liveWrapNode c)) = false ∧
    echartsPendingFilter (mountWrap H (liveWrapNode c)) = false := by
  obtain ⟨ch, sf, hw⟩ := mountWrap_shape H (js "div")
    [(js "class", wrapClass), (js "contenteditable", js "false"), (optionAttr, c)]
    [Node.element (js "span")
       [(js "class", dataClass), (js "style", js "display:none !important"),
        (optionAttr, c), (js "aria-hidden", js "true")] [] none,
     Node.element (js "div")
       [(js "class", containerClass), (js "style", js "width:100%;height:300px")] [] none]
    none
  have hw2 : mountWrap H (liveWrapNode c) = Node.element (js "div")
      [(js "class", wrapClass), (js "contenteditable", js "false"), (optionAttr, c)] ch sf := hw
  rw [hw2]
  refine ⟨?_, rfl, rfl⟩
  rw [serialize_element]
  have : isChartWrap (Node.element (js "div")
      [(js "class", wrapClass), (js "contenteditable", js "false"), (optionAttr, c)] ch sf)
      = true := by
    unfold isChartWrap
    simp only
    have hc : Node.hasClass wrapClass (Node.element (js "div")
      [(js "class", wrapClass), (js "contenteditable", js "false"), (optionAttr, c)] ch sf)
      = true := rfl
    rw [hc]; rfl
  rw [if_pos this]

/-- The markup `getHtml` returns when the content is one mounted live wrap. -/
theorem getHtml_single_wrap (H : Host) (e : Editor) (c : JStr) (hm : e.hasEditor = true)
    (hcontent : e.content = [mountWrap H (liveWrapNode c)]) :
    getHtml e = surfaceOpenTag e ++ chartImage (mountWrap H (liveWrapNode c)) ++ js "</div>" := by
  obtain ⟨hs, hcc, _⟩ := serialize_mounted_liveWrap H c
  unfold getHtml Editor.surfaceNode
  rw [if_pos hm, serialize_element, hcontent]
  have hnot : isChartWrap (Node.element (js "div")
      [(js "class", js "yu-stream-editor-editor"),
       (js "contenteditable", if e.isReadonly then js "false" else js "true"),
       (js "data-placeholder", e.placeholder)]
      [mountWrap H (liveWrapNode c)] none) = false := by
    unfold isChartWrap
    simp only [List.any_cons, List.any_nil, hcc, Bool.or_false, Bool.false_and, Bool.or_false]
    rfl
  rw [hnot]
  have hvoid : voidTags.contains (js "div") = false := by decide
  simp only [Bool.false_eq_true, if_false, hvoid, serializeChildren, hs, List.append_nil,
    surfaceOpenTag]
  have hclose : js "</div>" = 60 :: 47 :: js "div" ++ [62] := by decide
  rw [hclose]
  simp only [List.cons_append, List.append_assoc]

/-- An editor whose document is a single valid chart fence, set in live
mode: the content is one chart wrap, which the mounter has taken at once;
`getHtml` returns the surface element around the chart image, and
`getMarkdown` is the exporter's output for this markup. -/
theorem setMarkdown_chartOnly (H : Host)
    (turndown : (Node → Bool) → (Node → JStr) → JStr → Option JStr)
    (e : Editor) (b body : JStr) (info : Option JStr) (v : Json)
    (hm : e.hasEditor = true) (hce : e.chartEnabled = true)
    (htag : toLowerCase H.platform (trim (info.getD [])) = js "echarts" ∨
      toLowerCase H.platform (trim (info.getD [])) = js "chart")
    (hv : jsonParse (trim body) = some v) (hu : v.unitsOk = true)
    (hdoc : ∀ (hook : JStr → Option JStr → Option JStr) (html : JStr),
      hook body info = some html → H.markedParse hook b = some html)
    (hdom : H.parseFragment (liveTemplate (base64Encode (utf8Encode (stringify H.platform v))))
      = [liveWrapNode (base64Encode (utf8Encode (stringify H.platform v)))]) :
    (setMarkdown H e (some (Json.str b))).content
      = [mountWrap H (liveWrapNode (base64Encode (utf8Encode (stringify H.platform v))))] ∧
    echartsPendingFilter
      (mountWrap H (liveWrapNode (base64Encode (utf8Encode (stringify H.platform v))))) = false ∧
    getHtml (setMarkdown H e (some (Json.str b)))
      = surfaceOpenTag e ++
        chartImage (mountWrap H
          (liveWrapNode (base64Encode (utf8Encode (stringify H.platform v))))) ++
        js "</div>" ∧
    getMarkdown turndown (setMarkdown H e (some (Json.str b)))
      = (match turndown echartsPendingFilter echartsPendingReplacement
          (surfaceOpenTag e ++
            chartImage (mountWrap H
              (liveWrapNode (base64Encode (utf8Encode (stringify H.platform v))))) ++
            js "</div>") with
        | none => []
        | some md => trim md) := by
  have hcode : code H.platform (e.parseOptions true) body info
      = some (liveTemplate (base64Encode (utf8Encode (stringify H.platform v)))) := by
    have := code_chart H.platform (e.parseOptions true) body info v
      (by simp only [Editor.parseOptions, hce]; rfl) htag hv hu
    rw [this]; rfl
  have hparse := hdoc _ _ hcode
  have hcontent : (setMarkdown H e (some (Json.str b))).content
      = [mountWrap H (liveWrapNode (base64Encode (utf8Encode (stringify H.platform v))))] := by
    rw [setMarkdown_content H e b _ hm hparse]
    unfold setInnerHTML
    rw [if_neg (liveTemplate_ne_nil _), hdom]
    unfold mountFirstWrap
    rw [liveWrap_paths]
    rfl
  have hm2 : (setMarkdown H e (some (Json.str b))).hasEditor = true := by
    rw [(setMarkdown_fields H e _).1, hm]
  have hfr := setMarkdown_frame H e (some (Json.str b))
  have hopen : surfaceOpenTag (setMarkdown H e (some (Json.str b))) = surfaceOpenTag e := by
    unfold surfaceOpenTag
    rw [hfr.1, hfr.2]
  have hhtml := getHtml_single_wrap H (setMarkdown H e (some (Json.str b))) _ hm2 hcontent
  rw [hopen] at hhtml
  refine ⟨hcontent, (serialize_mounted_liveWrap H _).2.2, hhtml, ?_⟩
  have hser : serialize (setMarkdown H e (some (Json.str b))).surfaceNode
      = getHtml (setMarkdown H e (some (Json.str b))) := by
    unfold getHtml
    rw [if_pos hm2]
  unfold getMarkdown
  rw [if_pos hm2, hser, hhtml] <;> rfl

set_option maxRecDepth 100000 in
/-- C3, counterexample to the claim as stated: two documents that are each a
single valid chart fence, with the configurations `{"a":1}` and `{"a":2}`,
give the same markup in live mode, the surface element around the image of
the chart; no fence and no configuration is in it for the exporter to
reproduce. -/
theorem C3_counterexample :
    (splitFence chartOnlyBufferA).map (fun p => (trim p.1, (jsonParse (trim p.2)).map
        (stringify refPlatform)))
      = some (js "chart", some (js "\x7b\"a\":1\x7d")) ∧
    (splitFence chartOnlyBufferB).map (fun p => (trim p.1, (jsonParse (trim p.2)).map
        (stringify refPlatform)))
      = some (js "chart", some (js "\x7b\"a\":2\x7d")) ∧
    getHtml (setMarkdown refHost freshEditor (some (Json.str chartOnlyBufferA)))
      = surfaceOpenTag freshEditor ++
        js "<img src=\"data:image/png;base64,iVBORw0KGgo=\" alt=\"图表\" class=\"yu-stream-editor-echarts-export-img\">" ++
        js "</div>" ∧
    getHtml (setMarkdown refHost freshEditor (some (Json.str chartOnlyBufferB)))
      = getHtml (setMarkdown refHost freshEditor (some (Json.str chartOnlyBufferA))) := by
  decide

/-! ## The escaping of the serializer -/

/-- Replacing a character is done unit by unit. -/
theorem replaceAll_append (c : Nat) (r a b : JStr) :
    replaceAll c r (a ++ b) = replaceAll c r a ++ replaceAll c r b := by
  simp [replaceAll, List.flatMap_append]

/-- A string without the character is left as it is. -/
theorem replaceAll_not_mem (c : Nat) (r s : JStr) (h : c ∉ s) : replaceAll c r s = s := by
  induction s with
  | nil => rfl
  | cons x s ih =>
    have hx : x ≠ c := fun e => h (by simp [e])
    have hs : c ∉ s := fun e => h (by simp [e])
    have e1 : replaceAll c r (x :: s) = replaceAll c r [x] ++ replaceAll c r s :=
      replaceAll_append c r [x] s
    rw [e1, ih hs]
    simp [replaceAll, hx]

/-- Text escaping is done unit by unit. -/
theorem escapeText_cons (c : Nat) (s : JStr) :
    escapeText (c :: s) = escapeText [c] ++ escapeText s := by
  have e : c :: s = [c] ++ s := rfl
  rw [e]
  simp only [escapeText, replaceAll_append]

/-- Attribute escaping is done unit by unit. -/
theorem escapeAttr_cons (c : Nat) (s : JStr) :
    escapeAttr (c :: s) = escapeAttr [c] ++ escapeAttr s := by
  have e : c :: s = [c] ++ s := rfl
  rw [e]
  simp only [escapeAttr, replaceAll_append]

/-- Text escaping of one code unit. -/
theorem escapeText_unit (c : Nat) :
    escapeText [c] =
      if c = 38 then js "&amp;" else if c = 60 then js "&lt;"
      else if c = 62 then js "&gt;" else [c] := by
  by_cases h38 : c = 38
  · subst h38; rfl
  by_cases h60 : c = 60
  · subst h60; rfl
  by_cases h62 : c = 62
  · subst h62; rfl
  rw [if_neg h38, if_neg h60, if_neg h62]
  simp [escapeText, replaceAll, h38, h60, h62]

/-- Attribute escaping of one code unit. -/
theorem escapeAttr_unit (c : Nat) :
    escapeAttr [c] =
      if c = 38 then js "&amp;" else if c = 34 then js "&quot;"
      else if c = 60 then js "&lt;" else if c = 62 then js "&gt;" else [c] := by
  by_cases h38 : c = 38
  · subst h38; rfl
  by_cases h34 : c = 34
  · subst h34; rfl
  by_cases h60 : c = 60
  · subst h60; rfl
  by_cases h62 : c = 62
  · subst h62; rfl
  rw [if_neg h38, if_neg h34, if_neg h60, if_neg h62]
  simp [escapeAttr, replaceAll, h38, h34, h60, h62]

/-- A code unit that is no `&` is read as itself. -/
theorem decodeCharRefs_plain (c : Nat) (s : JStr) (h : c ≠ 38) :
    decodeCharRefs 0 (c :: s) = c :: decodeCharRefs 0 s := by
  rw [decodeCharRefs, if_neg h]

/-- Reading back the escaped form of one code unit gives the code unit. -/
theorem decodeCharRefs_escapeAttr_unit (c : Nat) (rest : JStr) :
    decodeCharRefs 0 (escapeAttr [c] ++ rest) = c :: decodeCharRefs 0 rest := by
  rw [escapeAttr_unit]
  by_cases h38 : c = 38
  · subst h38; rfl
  by_cases h34 : c = 34
  · subst h34; rfl
  by_cases h60 : c = 60
  · subst h60; rfl
  by_cases h62 : c = 62
  · subst h62; rfl
  rw [if_neg h38, if_neg h34, if_neg h60, if_neg h62]
  exact decodeCharRefs_plain c rest h38

/-- Reading back the escaped form of one code unit of text gives the code unit. -/
theorem decodeCharRefs_escapeText_unit (c : Nat) (rest : JStr) :
    decodeCharRefs 0 (escapeText [c] ++ rest) = c :: decodeCharRefs 0 rest := by
  rw [escapeText_unit]
  by_cases h38 : c = 38
  · subst h38; rfl
  by_cases h60 : c = 60
  · subst h60; rfl
  by_cases h62 : c = 62
  · subst h62; rfl
  rw [if_neg h38, if_neg h60, if_neg h62]
  exact decodeCharRefs_plain c rest h38

/-- Reading back escaped text gives the text. -/
theorem decodeCharRefs_escapeText (s : JStr) : decodeCharRefs 0 (escapeText s) = s := by
  induction s with
  | nil => rfl
  | cons c s ih => rw [escapeText_cons, decodeCharRefs_escapeText_unit, ih]

/-- Reading back an escaped attribute value gives the value. -/
theorem decodeCharRefs_escapeAttr (s : JStr) : decodeCharRefs 0 (escapeAttr s) = s := by
  induction s with
  | nil => rfl
  | cons c s ih => rw [escapeAttr_cons, decodeCharRefs_escapeAttr_unit, ih]

/-- Escaped text holds no `<`, no `>`. -/
theorem escapeText_no_angle (s : JStr) : 60 ∉ escapeText s ∧ 62 ∉ escapeText s := by
  induction s with
  | nil => exact ⟨by simp [escapeText, replaceAll], by simp [escapeText, replaceAll]⟩
  | cons c s ih =>
    rw [escapeText_cons, escapeText_unit]
    by_cases h38 : c = 38
    · rw [if_pos h38]
      exact ⟨by simp only [List.mem_append, not_or]; exact ⟨by decide, ih.1⟩,
             by simp only [List.mem_append, not_or]; exact ⟨by decide, ih.2⟩⟩
    by_cases h60 : c = 60
    · rw [if_neg h38, if_pos h60]
      exact ⟨by simp only [List.mem_append, not_or]; exact ⟨by decide, ih.1⟩,
             by simp only [List.mem_append, not_or]; exact ⟨by decide, ih.2⟩⟩
    by_cases h62 : c = 62
    · rw [if_neg h38, if_neg h60, if_pos h62]
      exact ⟨by simp only [List.mem_append, not_or]; exact ⟨by decide, ih.1⟩,
             by simp only [List.mem_append, not_or]; exact ⟨by decide, ih.2⟩⟩
    rw [if_neg h38, if_neg h60, if_neg h62]
    exact ⟨by simp only [List.mem_append, List.mem_singleton, not_or]; exact ⟨Ne.symm h60, ih.1⟩,
           by simp only [List.mem_append, List.mem_singleton, not_or]; exact ⟨Ne.symm h62, ih.2⟩⟩

/-- An escaped attribute value holds no `<`, no `>` and no `"`. -/
theorem escapeAttr_no_special (s : JStr) :
    60 ∉ escapeAttr s ∧ 62 ∉ escapeAttr s ∧ 34 ∉ escapeAttr s := by
  induction s with
  | nil => exact ⟨by simp [escapeAttr, replaceAll], by simp [escapeAttr, replaceAll],
      by simp [escapeAttr, replaceAll]⟩
  | cons c s ih =>
    rw [escapeAttr_cons, escapeAttr_unit]
    by_cases h38 : c = 38
    · rw [if_pos h38]
      exact ⟨by simp only [List.mem_append, not_or]; exact ⟨by decide, ih.1⟩,
             by simp only [List.mem_append, not_or]; exact ⟨by decide, ih.2.1⟩,
             by simp only [List.mem_append, not_or]; exact ⟨by decide, ih.2.2⟩⟩
    by_cases h34 : c = 34
    · rw [if_neg h38, if_pos h34]
      exact ⟨by simp only [List.mem_append, not_or]; exact ⟨by decide, ih.1⟩,
             by simp only [List.mem_append, not_or]; exact ⟨by decide, ih.2.1⟩,
             by simp only [List.mem_append, not_or]; exact ⟨by decide, ih.2.2⟩⟩
    by_cases h60 : c = 60
    · rw [if_neg h38, if_neg h34, if_pos h60]
      exact ⟨by simp only [List.mem_append, not_or]; exact ⟨by decide, ih.1⟩,
             by simp only [List.mem_append, not_or]; exact ⟨by decide, ih.2.1⟩,
             by simp only [List.mem_append, not_or]; exact ⟨by decide, ih.2.2⟩⟩
    by_cases h62 : c = 62
    · rw [if_neg h38, if_neg h34, if_neg h60, if_pos h62]
      exact ⟨by simp only [List.mem_append, not_or]; exact ⟨by decide, ih.1⟩,
             by simp only [List.mem_append, not_or]; exact ⟨by decide, ih.2.1⟩,
             by simp only [List.mem_append, not_or]; exact ⟨by decide, ih.2.2⟩⟩
    rw [if_neg h38, if_neg h34, if_neg h60, if_neg h62]
    exact ⟨by simp only [List.mem_append, List.mem_singleton, not_or]; exact ⟨Ne.symm h60, ih.1⟩,
           by simp only [List.mem_append, List.mem_singleton, not_or]; exact ⟨Ne.symm h62, ih.2.1⟩,
           by simp only [List.mem_append, List.mem_singleton, not_or]; exact ⟨Ne.symm h34, ih.2.2⟩⟩

/-- C19 (escaping is reversible): for every string `s`, the text escaping of
the serializer (`&`, then `<`, then `>`) gives output without a raw `<` or
`>`, its attribute escaping (with `"` as well) gives output without a raw
`<`, `>` or `"`, and decoding the character references of either output
gives exactly `s`; a text node serializes as its escaped data and an
attribute as its escaped value between quotes. -/
theorem C19_escaping_reversible (s : JStr) :
    (60 ∉ escapeText s ∧ 62 ∉ escapeText s) ∧
    (60 ∉ escapeAttr s ∧ 62 ∉ escapeAttr s ∧ 34 ∉ escapeAttr s) ∧
    decodeCharRefs 0 (escapeText s) = s ∧
    decodeCharRefs 0 (escapeAttr s) = s ∧
    serialize (Node.text s) = escapeText s ∧
    (∀ name : JStr, serializeAttrs [(name, s)] = 32 :: (name ++ 61 :: 34 :: (escapeAttr s ++ [34]))) :=
  ⟨escapeText_no_angle s, escapeAttr_no_special s, decodeCharRefs_escapeText s,
    decodeCharRefs_escapeAttr s, by rw [serialize], fun _ => rfl⟩

/-! ## The carrier in markup -/

/-- Every base64 digit is written with a character of the alphabet. -/
theorem isBase64Char_b64Char (n : Nat) : isBase64Char (b64Char n) = true := by
  unfold b64Char isBase64Char
  by_cases h1 : n < 26
  · rw [if_pos h1]; exact decide_eq_true (by omega)
  by_cases h2 : n < 52
  · rw [if_neg h1, if_pos h2]; exact decide_eq_true (by omega)
  by_cases h3 : n < 62
  · rw [if_neg h1, if_neg h2, if_pos h3]; exact decide_eq_true (by omega)
  by_cases h4 : n = 62
  · rw [if_neg h1, if_neg h2, if_neg h3, if_pos h4]; exact decide_eq_true (by omega)
  rw [if_neg h1, if_neg h2, if_neg h3, if_neg h4]; exact decide_eq_true (by omega)

/-- The output of `btoa` holds characters of the base64 alphabet and `=` only. -/
theorem base64Encode_chars (bs : List Nat) : ∀ c ∈ base64Encode bs, isBase64Char c = true := by
  induction bs using base64Encode.induct with
  | case1 => intro c hc; simp [base64Encode] at hc
  | case2 a =>
    intro c hc
    simp only [base64Encode, List.mem_cons, List.mem_singleton, List.not_mem_nil, or_false] at hc
    rcases hc with h | h | h | h <;> subst h <;> first | exact isBase64Char_b64Char _ | rfl
  | case3 a b =>
    intro c hc
    simp only [base64Encode, List.mem_cons, List.mem_singleton, List.not_mem_nil, or_false] at hc
    rcases hc with h | h | h | h <;> subst h <;> first | exact isBase64Char_b64Char _ | rfl
  | case4 a b c rest ih =>
    intro x hx
    simp only [base64Encode, List.mem_cons] at hx
    rcases hx with h | h | h | h | h
    · subst h; exact isBase64Char_b64Char _
    · subst h; exact isBase64Char_b64Char _
    · subst h; exact isBase64Char_b64Char _
    · subst h; exact isBase64Char_b64Char _
    · exact ih x h

/-- A base64 character is a printable ASCII character other than the quotes,
the ampersand and the angle brackets. -/
theorem isBase64Char_plain (c : Nat) (h : isBase64Char c = true) :
    32 < c ∧ c < 127 ∧ c ≠ 34 ∧ c ≠ 39 ∧ c ≠ 38 ∧ c ≠ 60 ∧ c ≠ 62 := by
  unfold isBase64Char at h
  have h1 := of_decide_eq_true h
  omega

/-- Attribute escaping leaves a string of base64 characters as it is. -/
theorem escapeAttr_base64 (s : JStr) (h : ∀ c ∈ s, isBase64Char c = true) : escapeAttr s = s := by
  have h38 : 38 ∉ s := fun hm => (isBase64Char_plain 38 (h 38 hm)).2.2.2.2.1 rfl
  have h34 : 34 ∉ s := fun hm => (isBase64Char_plain 34 (h 34 hm)).2.2.1 rfl
  have h60 : 60 ∉ s := fun hm => (isBase64Char_plain 60 (h 60 hm)).2.2.2.2.2.1 rfl
  have h62 : 62 ∉ s := fun hm => (isBase64Char_plain 62 (h 62 hm)).2.2.2.2.2.2 rfl
  unfold escapeAttr
  rw [replaceAll_not_mem 38 _ s h38, replaceAll_not_mem 34 _ s h34, replaceAll_not_mem 60 _ s h60,
    replaceAll_not_mem 62 _ s h62]

/-- Reading up to the closing quote gives the part before it. -/
theorem takeWhile_quote (s rest : JStr) (h : 34 ∉ s) :
    (s ++ 34 :: rest).takeWhile (fun c => decide (c ≠ 34)) = s := by
  induction s with
  | nil => simp [List.takeWhile]
  | cons x s ih =>
    have hx : x ≠ 34 := fun e => h (by simp [e])
    have hs : 34 ∉ s := fun e => h (by simp [e])
    rw [List.cons_append, List.takeWhile_cons, ih hs]
    simp [hx]

/-- An attribute value written by the serializer is read back as it was. -/
theorem readQuotedValue_escapeAttr (s rest : JStr) :
    readQuotedValue (escapeAttr s ++ 34 :: rest) = s := by
  unfold readQuotedValue
  rw [takeWhile_quote _ _ (escapeAttr_no_special s).2.2, decodeCharRefs_escapeAttr]

/-- The serializer writes a pending chart block as the renderer wrote it,
when the carrier holds base64 characters only. -/
theorem serialize_pendingNode (carrier codeText : JStr)
    (h : ∀ c ∈ carrier, isBase64Char c = true) :
    serialize (pendingNode carrier codeText) = pendingTemplate carrier (escapeText codeText) := by
  have hw : isChartWrap (pendingNode carrier codeText) = false := rfl
  have hv : voidTags.contains (js "pre") = false := by decide
  have hc : isChartWrap (Node.element (js "code") [] [Node.text codeText] none) = false := rfl
  have hvc : voidTags.contains (js "code") = false := by decide
  have e1 : escapeAttr pendingClass = pendingClass := by decide
  have e2 : escapeAttr (js "false") = js "false" := by decide
  unfold pendingNode at hw ⊢
  rw [serialize_element, hw, hv]
  simp only [Bool.false_eq_true, if_false, serializeChildren, serializeAttrs]
  rw [serialize_element, hc, hvc]
  simp only [Bool.false_eq_true, if_false, serializeChildren, serializeAttrs, serialize, e1, e2,
    escapeAttr_base64 carrier h, pendingTemplate]
  simp only [List.append_assoc, List.cons_append, List.nil_append, List.append_nil]
  rfl

/-- C11 (carrier safety): for every configuration value, the carrier the
renderer builds holds only the base64 characters `A-Z`, `a-z`, `0-9`, `+`,
`/`, `=` (so no control character, quote, ampersand or angle bracket), the
attribute escaping of the serializer maps it to itself, the serializer
writes a pending chart block with this carrier exactly as the renderer wrote
it, and the attribute value read back from the serialized markup is the
same carrier. -/
theorem C11_carrier_safety (P : Platform) (x : Json) (hx : x.unitsOk = true) :
    ∃ carrier, encodeCarrier P x = some carrier ∧
      (∀ c ∈ carrier, isBase64Char c = true) ∧
      (∀ c ∈ carrier, 32 < c ∧ c < 127 ∧ c ≠ 34 ∧ c ≠ 39 ∧ c ≠ 38 ∧ c ≠ 60 ∧ c ≠ 62) ∧
      escapeAttr carrier = carrier ∧
      serializeAttrs [(optionAttr, carrier)] = js " data-echarts-option=\"" ++ carrier ++ js "\"" ∧
      (∀ codeText, serialize (pendingNode carrier codeText)
        = pendingTemplate carrier (escapeText codeText)) ∧
      (∀ rest, readQuotedValue (escapeAttr carrier ++ 34 :: rest) = carrier) := by
  refine ⟨_, encodeCarrier_eq P x hx, base64Encode_chars _, ?_, ?_, ?_, ?_, ?_⟩
  · exact fun c hc => isBase64Char_plain c (base64Encode_chars _ c hc)
  · exact escapeAttr_base64 _ (base64Encode_chars _)
  · rw [serializeAttrs, serializeAttrs, escapeAttr_base64 _ (base64Encode_chars _)]
    rfl
  · exact fun t => serialize_pendingNode _ t (base64Encode_chars _)
  · exact fun rest => readQuotedValue_escapeAttr _ rest

theorem C11_carrier_safety_witness :
    exampleConfig.unitsOk = true ∧
    ∃ carrier, encodeCarrier refPlatform exampleConfig = some carrier ∧
      (∀ c ∈ carrier, isBase64Char c = true) ∧
      (∀ c ∈ carrier, 32 < c ∧ c < 127 ∧ c ≠ 34 ∧ c ≠ 39 ∧ c ≠ 38 ∧ c ≠ 60 ∧ c ≠ 62) ∧
      escapeAttr carrier = carrier ∧
      serializeAttrs [(optionAttr, carrier)] = js " data-echarts-option=\"" ++ carrier ++ js "\"" ∧
      (∀ codeText, serialize (pendingNode carrier codeText)
        = pendingTemplate carrier (escapeText codeText)) ∧
      (∀ rest, readQuotedValue (escapeAttr carrier ++ 34 :: rest) = carrier) :=
  ⟨by decide, C11_carrier_safety refPlatform exampleConfig (by decide)⟩

/-! ## Elements with and without a closing tag -/

/-- The serializations of the children are written one after the other. -/
theorem serializeChildren_eq (ns : List Node) :
    serializeChildren ns = (ns.map serialize).flatten := by
  induction ns with
  | nil => rw [serializeChildren]; rfl
  | cons n rest ih => rw [serializeChildren, ih]; rfl

/-- C20, the input on which the claim fails: an `img` element with the class
of a chart wrap is a void element, and the serializer writes the chart
placeholder, closing tag included, in place of its opening tag. -/
theorem C20_counterexample :
    voidTags.contains (js "img") = true ∧
    serialize voidChartWrap = js "<p>[图表未渲染]</p>" ∧
    serialize voidChartWrap ≠ js "<img class=\"yu-stream-editor-echarts-wrap\" src=\"a.png\">" := by
  decide

/-- C20 (void elements), as the code has it: for every element that the
serializer does not take for a chart wrap, a void tag gives only the opening
tag with the attributes, whatever the children are, and any other tag gives
the opening tag, the serialization of each child in order, and the matching
closing tag. -/
theorem C20_void_elements (tag : JStr) (attrs : List (JStr × JStr)) (children : List Node)
    (surface : Option Surface)
    (h : isChartWrap (Node.element tag attrs children surface) = false) :
    (voidTags.contains tag = true →
      serialize (Node.element tag attrs children surface)
        = 60 :: (tag ++ serializeAttrs attrs ++ [62])) ∧
    (voidTags.contains tag = false →
      serialize (Node.element tag attrs children surface)
        = 60 :: (tag ++ serializeAttrs attrs ++ [62]) ++ (children.map serialize).flatten ++
            (60 :: 47 :: (tag ++ [62]))) := by
  constructor
  · intro hv
    rw [serialize_element, h, hv]
    rfl
  · intro hv
    rw [serialize_element, h, hv, serializeChildren_eq]
    simp

theorem C20_void_elements_witness :
    isChartWrap (Node.element (js "br") [(js "class", js "a<b")] [Node.text (js "x")] none) = false ∧
    ((voidTags.contains (js "br") = true →
      serialize (Node.element (js "br") [(js "class", js "a<b")] [Node.text (js "x")] none)
        = 60 :: (js "br" ++ serializeAttrs [(js "class", js "a<b")] ++ [62])) ∧
    (voidTags.contains (js "br") = false →
      serialize (Node.element (js "br") [(js "class", js "a<b")] [Node.text (js "x")] none)
        = 60 :: (js "br" ++ serializeAttrs [(js "class", js "a<b")] ++ [62]) ++
            ([Node.text (js "x")].map serialize).flatten ++
            (60 :: 47 :: (js "br" ++ [62])))) :=
  ⟨by decide, C20_void_elements (js "br") [(js "class", js "a<b")] [Node.text (js "x")] none
    (by decide)⟩

/-! ## Chart wraps in the serializer -/

/-- An element with the wrap class is a chart wrap for the serializer. -/
theorem isChartWrap_of_hasClass (tag : JStr) (attrs : List (JStr × JStr)) (children : List Node)
    (surface : Option Surface)
    (h : Node.hasClass wrapClass (Node.element tag attrs children surface) = true) :
    isChartWrap (Node.element tag attrs children surface) = true := by
  unfold isChartWrap
  rw [h]
  rfl

/-- C18, the input on which the claim fails: a live chart wrap whose chart
instance gives no snapshot (an empty one, or the call throws) while the
canvas below its container gives one; the serializer writes the placeholder
and no image. -/
theorem C18_counterexample :
    Node.hasClass wrapClass (wrapWithInstance (some [])) = true ∧
    (match Node.findDescendant (Node.hasClass containerClass) (wrapWithInstance (some [])) with
     | none => none
     | some container =>
       (Node.findDescendant (Node.hasTag (js "canvas")) container).map Node.dataURL)
      = some refSnapshot ∧
    serialize (wrapWithInstance (some [])) = js "<p>[图表未渲染]</p>" ∧
    serialize (wrapWithInstance none) = js "<p>[图表未渲染]</p>" := by
  decide

/-- C18 (chart rasterization on serialize), as the code has it: for every
live chart wrap the serializer output is built from one URL only; this URL is
the snapshot of the chart instance when the wrap has one (empty when the call
throws), and when the wrap has no instance the snapshot of the first canvas
below the chart container (empty when there is none); an empty URL gives
exactly the placeholder, any other URL exactly one `img` element with the
URL as its `src`. -/
theorem C18_chart_rasterization (el : Node) (h : Node.hasClass wrapClass el = true) :
    serialize el = chartImage el ∧
    (∀ chart, el.surface = some chart → getChartDataUrl el = chart.dataURL.getD []) ∧
    (el.surface = none →
      getChartDataUrl el =
        match Node.findDescendant (Node.hasClass containerClass) el with
        | none => []
        | some container =>
          match Node.findDescendant (Node.hasTag (js "canvas")) container with
          | none => []
          | some canvas => canvas.dataURL) ∧
    (getChartDataUrl el = [] → serialize el = js "<p>[图表未渲染]</p>") ∧
    (getChartDataUrl el ≠ [] →
      serialize el = js "<img src=\"" ++ replaceAll 34 (js "&quot;") (getChartDataUrl el) ++
        js "\" alt=\"图表\" class=\"yu-stream-editor-echarts-export-img\">") := by
  cases el with
  | text data => exact absurd h (by simp [Node.hasClass, Node.getAttribute])
  | other => exact absurd h (by simp [Node.hasClass, Node.getAttribute])
  | element tag attrs children surface =>
    have hs : serialize (Node.element tag attrs children surface)
        = chartImage (Node.element tag attrs children surface) := by
      rw [serialize_element, isChartWrap_of_hasClass tag attrs children surface h]
      rfl
    refine ⟨hs, ?_, ?_, ?_, ?_⟩
    · intro chart hc
      have hc' : surface = some chart := hc
      subst hc'
      rfl
    · intro hc
      have hc' : surface = none := hc
      subst hc'
      rfl
    · intro hu
      rw [hs, chartImage, if_pos hu]
    · intro hu
      rw [hs, chartImage, if_neg hu]

set_option maxRecDepth 100000 in
theorem C18_chart_rasterization_witness :
    Node.hasClass wrapClass (wrapWithInstance (some refSnapshot)) = true ∧
    (serialize (wrapWithInstance (some refSnapshot))
        = chartImage (wrapWithInstance (some refSnapshot)) ∧
    (∀ chart, (wrapWithInstance (some refSnapshot)).surface = some chart →
      getChartDataUrl (wrapWithInstance (some refSnapshot)) = chart.dataURL.getD []) ∧
    ((wrapWithInstance (some refSnapshot)).surface = none →
      getChartDataUrl (wrapWithInstance (some refSnapshot)) =
        match Node.findDescendant (Node.hasClass containerClass)
            (wrapWithInstance (some refSnapshot)) with
        | none => []
        | some container =>
          match Node.findDescendant (Node.hasTag (js "canvas")) container with
          | none => []
          | some canvas => canvas.dataURL) ∧
    (getChartDataUrl (wrapWithInstance (some refSnapshot)) = [] →
      serialize (wrapWithInstance (some refSnapshot)) = js "<p>[图表未渲染]</p>") ∧
    (getChartDataUrl (wrapWithInstance (some refSnapshot)) ≠ [] →
      serialize (wrapWithInstance (some refSnapshot))
        = js "<img src=\"" ++
            replaceAll 34 (js "&quot;") (getChartDataUrl (wrapWithInstance (some refSnapshot))) ++
          js "\" alt=\"图表\" class=\"yu-stream-editor-echarts-export-img\">")) :=
  ⟨by decide, C18_chart_rasterization (wrapWithInstance (some refSnapshot)) (by decide)⟩

/-! ## Promotion of pending charts -/

/-- The promoter works on a list of siblings node by node. -/
theorem promoteList_eq_map (H : Host) (ns : List Node) : promoteList H ns = ns.map (promote H) := by
  induction ns with
  | nil => rw [promoteList]; rfl
  | cons n rest ih => rw [promoteList, ih]; rfl

/-- The promoter on an element. -/
theorem promote_element (H : Host) (tag : JStr) (attrs : List (JStr × JStr))
    (children : List Node) (surface : Option Surface) :
    promote H (Node.element tag attrs children surface) =
      if Node.hasClass pendingClass (Node.element tag attrs children surface) then
        match attrLookup optionAttr attrs with
        | some v =>
          if v = [] then Node.element tag attrs (promoteList H children) surface
          else promotedWrap H v
        | none => Node.element tag attrs (promoteList H children) surface
      else Node.element tag attrs (promoteList H children) surface := by
  rw [promote] <;> rfl

/-- A pending block with a carrier is replaced by a new wrap with this carrier. -/
theorem promote_promotable (H : Host) (tag : JStr) (attrs : List (JStr × JStr))
    (children : List Node) (surface : Option Surface)
    (h : isPromotable (Node.element tag attrs children surface) = true) :
    ∃ carrier, attrLookup optionAttr attrs = some carrier ∧ carrier ≠ [] ∧
      promote H (Node.element tag attrs children surface) = promotedWrap H carrier := by
  unfold isPromotable at h
  rw [Bool.and_eq_true] at h
  obtain ⟨h1, h2⟩ := h
  rw [promote_element, if_pos h1]
  have hg : (Node.element tag attrs children surface).getAttribute optionAttr
      = attrLookup optionAttr attrs := rfl
  rw [hg] at h2
  cases hv : attrLookup optionAttr attrs with
  | none => rw [hv] at h2; exact absurd h2 (by simp)
  | some v =>
    rw [hv] at h2
    have hne : v ≠ [] := by
      intro e
      rw [e] at h2
      exact absurd h2 (by simp)
    exact ⟨v, rfl, hne, by simp only [if_neg hne]⟩

/-- Any other element is kept, and the promoter goes on below it. -/
theorem promote_not_promotable (H : Host) (tag : JStr) (attrs : List (JStr × JStr))
    (children : List Node) (surface : Option Surface)
    (h : isPromotable (Node.element tag attrs children surface) = false) :
    promote H (Node.element tag attrs children surface)
      = Node.element tag attrs (promoteList H children) surface := by
  rw [promote_element]
  by_cases h1 : Node.hasClass pendingClass (Node.element tag attrs children surface) = true
  · rw [if_pos h1]
    unfold isPromotable at h
    rw [h1, Bool.true_and] at h
    have hg : (Node.element tag attrs children surface).getAttribute optionAttr
        = attrLookup optionAttr attrs := rfl
    rw [hg] at h
    cases hv : attrLookup optionAttr attrs with
    | none => rfl
    | some v =>
      rw [hv] at h
      have he : v = [] := by
        cases v with
        | nil => rfl
        | cons a b => exact absurd h (by simp)
      simp only [if_pos he]
  · rw [if_neg h1]

/-- The test for a pending block looks at the attributes only. -/
theorem isPromotable_attrs (tag : JStr) (attrs : List (JStr × JStr)) (c1 c2 : List Node)
    (s1 s2 : Option Surface) :
    isPromotable (Node.element tag attrs c1 s1) = isPromotable (Node.element tag attrs c2 s2) := rfl

/-- The paths of a list are empty when no node of it matches and no node has
a match below it. -/
theorem pathsInList_cons_nil (p : Node → Bool) (i : Nat) (n : Node) (rest : List Node)
    (h1 : p n = false) (h2 : Node.pathsBelow p n = [])
    (h3 : Node.pathsInList p (i + 1) rest = []) :
    Node.pathsInList p i (n :: rest) = [] := by
  rw [Node.pathsInList, h1, h2, h3]
  rfl

/-- Conversely, empty paths of a list say that no node of it matches. -/
theorem pathsInList_cons_nil_inv (p : Node → Bool) (i : Nat) (n : Node) (rest : List Node)
    (h : Node.pathsInList p i (n :: rest) = []) :
    p n = false ∧ Node.pathsBelow p n = [] ∧ Node.pathsInList p (i + 1) rest = [] := by
  rw [Node.pathsInList] at h
  have h1 := List.append_eq_nil.mp h
  have h2 := List.append_eq_nil.mp h1.1
  refine ⟨?_, ?_, h1.2⟩
  · cases hp : p n with
    | false => rfl
    | true => rw [hp] at h2; exact absurd h2.1 (by simp)
  · exact List.map_eq_nil_iff.mp h2.2

/-- Whether a list has a match does not depend on the index its paths start at. -/
theorem pathsInList_nil_index (p : Node → Bool) (ns : List Node) (i j : Nat)
    (h : Node.pathsInList p i ns = []) : Node.pathsInList p j ns = [] := by
  induction ns generalizing i j with
  | nil => rw [Node.pathsInList]
  | cons n rest ih =>
    obtain ⟨h1, h2, h3⟩ := pathsInList_cons_nil_inv p i n rest h
    exact pathsInList_cons_nil p j n rest h1 h2 (ih (i + 1) (j + 1) h3)

mutual
/-- After the promoter no pending block with a carrier is left at or below a node. -/
theorem promote_no_promotable (H : Host) : ∀ (n : Node),
    isPromotable (promote H n) = false ∧ Node.pathsBelow isPromotable (promote H n) = []
  | .text _ => ⟨rfl, rfl⟩
  | .other => ⟨rfl, rfl⟩
  | .element tag attrs children surface => by
    cases hp : isPromotable (Node.element tag attrs children surface) with
    | true =>
      obtain ⟨v, _, _, hv⟩ := promote_promotable H tag attrs children surface hp
      rw [hv]
      exact ⟨rfl, rfl⟩
    | false =>
      rw [promote_not_promotable H tag attrs children surface hp]
      refine ⟨?_, ?_⟩
      · rw [isPromotable_attrs tag attrs _ children surface surface]; exact hp
      · rw [Node.pathsBelow]
        exact promoteList_no_promotable H children 0
/-- After the promoter no pending block with a carrier is left in a list of siblings. -/
theorem promoteList_no_promotable (H : Host) : ∀ (ns : List Node) (i : Nat),
    Node.pathsInList isPromotable i (promoteList H ns) = []
  | [], _ => by rw [promoteList, Node.pathsInList]
  | n :: rest, i => by
    rw [promoteList]
    exact pathsInList_cons_nil _ i _ _ (promote_no_promotable H n).1 (promote_no_promotable H n).2
      (promoteList_no_promotable H rest (i + 1))
end

mutual
/-- In a tree where every pending block has a carrier, no pending block is
left at or below a node after the promoter. -/
theorem promote_no_pending (H : Host) : ∀ (n : Node),
    (Node.hasClass pendingClass n && !isPromotable n) = false →
    Node.pathsBelow (fun m => Node.hasClass pendingClass m && !isPromotable m) n = [] →
    Node.hasClass pendingClass (promote H n) = false ∧
      Node.pathsBelow (Node.hasClass pendingClass) (promote H n) = []
  | .text _, _, _ => ⟨rfl, rfl⟩
  | .other, _, _ => ⟨rfl, rfl⟩
  | .element tag attrs children surface, h1, h2 => by
    cases hp : isPromotable (Node.element tag attrs children surface) with
    | true =>
      obtain ⟨v, _, _, hv⟩ := promote_promotable H tag attrs children surface hp
      rw [hv]
      exact ⟨rfl, rfl⟩
    | false =>
      rw [promote_not_promotable H tag attrs children surface hp]
      rw [hp] at h1
      have hc : Node.hasClass pendingClass (Node.element tag attrs children surface) = false := by
        simpa using h1
      refine ⟨?_, ?_⟩
      · rw [hasClass_attrs pendingClass tag attrs _ children surface surface]; exact hc
      · rw [Node.pathsBelow]
        rw [Node.pathsBelow] at h2
        exact promoteList_no_pending H children 0 h2
/-- The same for a list of siblings. -/
theorem promoteList_no_pending (H : Host) : ∀ (ns : List Node) (i : Nat),
    Node.pathsInList (fun m => Node.hasClass pendingClass m && !isPromotable m) i ns = [] →
    Node.pathsInList (Node.hasClass pendingClass) i (promoteList H ns) = []
  | [], _, _ => by rw [promoteList, Node.pathsInList]
  | n :: rest, i, h => by
    obtain ⟨h1, h2, h3⟩ := pathsInList_cons_nil_inv _ i n rest h
    rw [promoteList]
    exact pathsInList_cons_nil _ i _ _ (promote_no_pending H n h1 h2).1
      (promote_no_pending H n h1 h2).2 (promoteList_no_pending H rest (i + 1) h3)
end

/-- C12, the input on which the claim fails: a block with the pending class
and no carrier attribute is still there, unchanged, after the promoter. -/
theorem C12_counterexample :
    Node.hasClass pendingClass pendingWithoutCarrier = true ∧
    Node.pathsInList (Node.hasClass pendingClass) 0
        (promoteList refHost [Node.text (js "a"), pendingWithoutCarrier]) = [[1]] ∧
    Node.pathsInList (Node.hasClass wrapClass) 0
        (promoteList refHost [Node.text (js "a"), pendingWithoutCarrier]) = [] ∧
    (promoteList refHost [Node.text (js "a"), pendingWithoutCarrier]).map serialize
      = [Node.text (js "a"), pendingWithoutCarrier].map serialize := by
  decide

/-- C12 (promotion), as the code has it: the promoter goes through a list of
siblings node by node, so positions and order are kept; an element with the
pending class and a non-empty carrier attribute is replaced by a new chart
wrap with the same carrier and no chart instance; every other element keeps
its name, attributes and instance, the promoter going on in its children (so
a pending-class element without carrier stays); text and other nodes are
unchanged; afterwards no pending element with a carrier is left, and when
every pending element of the tree had a carrier no pending element is left. -/
theorem C12_promotion (H : Host) (ns : List Node) :
    promoteList H ns = ns.map (promote H) ∧
    (∀ tag attrs children surface,
      isPromotable (Node.element tag attrs children surface) = true →
      ∃ carrier, attrLookup optionAttr attrs = some carrier ∧ carrier ≠ [] ∧
        promote H (Node.element tag attrs children surface) = promotedWrap H carrier ∧
        Node.hasClass wrapClass (promotedWrap H carrier) = true ∧
        (promotedWrap H carrier).getAttribute optionAttr = some carrier ∧
        carrierOf (promotedWrap H carrier) = some carrier ∧
        (promotedWrap H carrier).surface = none) ∧
    (∀ tag attrs children surface,
      isPromotable (Node.element tag attrs children surface) = false →
      promote H (Node.element tag attrs children surface)
        = Node.element tag attrs (promoteList H children) surface) ∧
    (∀ s, promote H (Node.text s) = Node.text s) ∧
    promote H Node.other = Node.other ∧
    Node.pathsInList isPromotable 0 (promoteList H ns) = [] ∧
    (Node.pathsInList (fun m => Node.hasClass pendingClass m && !isPromotable m) 0 ns = [] →
      Node.pathsInList (Node.hasClass pendingClass) 0 (promoteList H ns) = []) := by
  refine ⟨promoteList_eq_map H ns, ?_, promote_not_promotable H, fun _ => rfl, rfl,
    promoteList_no_promotable H ns 0, promoteList_no_pending H ns 0⟩
  intro tag attrs children surface h
  obtain ⟨v, h1, h2, h3⟩ := promote_promotable H tag attrs children surface h
  refine ⟨v, h1, h2, h3, rfl, rfl, ?_, rfl⟩
  unfold carrierOf
  have hg : (promotedWrap H v).getAttribute optionAttr = some v := rfl
  rw [hg]
  simp only [if_neg h2]

/-- A pending block as the renderer writes it is replaced by a wrap with its carrier. -/
theorem promote_pendingNode (H : Host) (carrier codeText : JStr) (h : carrier ≠ []) :
    promote H (pendingNode carrier codeText) = promotedWrap H carrier := by
  have hp : isPromotable (pendingNode carrier codeText) = true := by
    cases carrier with
    | nil => exact absurd rfl h
    | cons a b => rfl
  obtain ⟨v, h1, _, h3⟩ := promote_promotable H _ _ _ _ hp
  have h4 : attrLookup optionAttr
      [(js "class", pendingClass), (js "contenteditable", js "false"), (optionAttr, carrier)]
      = some carrier := rfl
  rw [h4] at h1
  rw [← Option.some.inj h1] at h3
  exact h3

/-! ## Mode calls -/

/-- The mode after `setReadonly` is the one asked for. -/
theorem setReadonly_isReadonly (H : Host) (e : Editor) (r : Bool) :
    (setReadonly H e r).isReadonly = r := by
  unfold setReadonly
  cases r
  · exact (mountEchartsInElement_fields H _).2.2.1
  · rfl

/-- The logged `setReadonly` changes the editor as `setReadonly` does. -/
theorem setReadonlyLogged_fst (H : Host) (s : Editor × List ModeStep) (r : Bool) :
    (setReadonlyLogged H s r).1 = setReadonly H s.1 r := by
  unfold setReadonlyLogged setReadonly
  cases r <;> rfl

/-- The logged `setReadonly` calls both helpers when the editor becomes
editable, and none when it becomes read-only. -/
theorem setReadonlyLogged_snd (H : Host) (s : Editor × List ModeStep) (r : Bool) :
    (setReadonlyLogged H s r).2 =
      s.2 ++ (if r then [] else [ModeStep.replacePendingCharts, ModeStep.mountEcharts]) := by
  unfold setReadonlyLogged
  cases r <;> simp

/-- A logged mode call changes the editor as the mode call does. -/
theorem applyModeCallLogged_fst (H : Host) (s : Editor × List ModeStep) (c : ModeCall) :
    (applyModeCallLogged H s c).1 = applyModeCall H s.1 c := by
  cases c with
  | setReadonly r => exact setReadonlyLogged_fst H s r
  | toggleReadonly => exact setReadonlyLogged_fst H s _
  | setMode mode =>
    cases mode with
    | none => exact setReadonlyLogged_fst H s false
    | some v => cases v <;> first | exact setReadonlyLogged_fst H s false
                                  | exact setReadonlyLogged_fst H s _

/-- A mode call logs both helpers when it leaves the editor editable, and
nothing when it leaves it read-only. -/
theorem applyModeCallLogged_snd (H : Host) (s : Editor × List ModeStep) (c : ModeCall) :
    (applyModeCallLogged H s c).2 =
      s.2 ++ (if (applyModeCall H s.1 c).isReadonly then []
              else [ModeStep.replacePendingCharts, ModeStep.mountEcharts]) := by
  cases c with
  | setReadonly r =>
    show (setReadonlyLogged H s r).2 = s.2 ++ (if (setReadonly H s.1 r).isReadonly then [] else _)
    rw [setReadonly_isReadonly, setReadonlyLogged_snd]
  | toggleReadonly =>
    show (setReadonlyLogged H s (!s.1.isReadonly)).2
      = s.2 ++ (if (setReadonly H s.1 (!s.1.isReadonly)).isReadonly then [] else _)
    rw [setReadonly_isReadonly, setReadonlyLogged_snd]
  | setMode mode =>
    cases mode with
    | none =>
      show (setReadonlyLogged H s false).2
        = s.2 ++ (if (setReadonly H s.1 false).isReadonly then [] else _)
      rw [setReadonly_isReadonly, setReadonlyLogged_snd]
    | some v =>
      cases v with
      | str m =>
        show (setReadonlyLogged H s (decide (m = js "readonly"))).2
          = s.2 ++ (if (setReadonly H s.1 (decide (m = js "readonly"))).isReadonly then []
                    else _)
        rw [setReadonly_isReadonly, setReadonlyLogged_snd]
      | null =>
        show (setReadonlyLogged H s false).2
          = s.2 ++ (if (setReadonly H s.1 false).isReadonly then [] else _)
        rw [setReadonly_isReadonly, setReadonlyLogged_snd]
      | bool b =>
        show (setReadonlyLogged H s false).2
          = s.2 ++ (if (setReadonly H s.1 false).isReadonly then [] else _)
        rw [setReadonly_isReadonly, setReadonlyLogged_snd]
      | num n =>
        show (setReadonlyLogged H s false).2
          = s.2 ++ (if (setReadonly H s.1 false).isReadonly then [] else _)
        rw [setReadonly_isReadonly, setReadonlyLogged_snd]
      | numLit l =>
        show (setReadonlyLogged H s false).2
          = s.2 ++ (if (setReadonly H s.1 false).isReadonly then [] else _)
        rw [setReadonly_isReadonly, setReadonlyLogged_snd]
      | arr xs =>
        show (setReadonlyLogged H s false).2
          = s.2 ++ (if (setReadonly H s.1 false).isReadonly then [] else _)
        rw [setReadonly_isReadonly, setReadonlyLogged_snd]
      | obj kvs =>
        show (setReadonlyLogged H s false).2
          = s.2 ++ (if (setReadonly H s.1 false).isReadonly then [] else _)
        rw [setReadonly_isReadonly, setReadonlyLogged_snd]

/-- The log after a sequence of mode calls: both helpers, once for every call
that leaves the editor editable. -/
theorem runModeCallsLogged_eq (H : Host) (calls : List ModeCall) :
    ∀ (s : Editor × List ModeStep),
    (runModeCallsLogged H s calls).1 = runModeCalls H s.1 calls ∧
    (runModeCallsLogged H s calls).2 =
      s.2 ++ (List.replicate (callsLeavingEditable H s.1 calls)
        [ModeStep.replacePendingCharts, ModeStep.mountEcharts]).flatten := by
  induction calls with
  | nil => intro s; exact ⟨rfl, by simp [runModeCallsLogged, callsLeavingEditable]⟩
  | cons c rest ih =>
    intro s
    have h := ih (applyModeCallLogged H s c)
    rw [applyModeCallLogged_fst, applyModeCallLogged_snd] at h
    refine ⟨h.1, ?_⟩
    show (runModeCallsLogged H (applyModeCallLogged H s c) rest).2 = _
    rw [h.2]
    show _ = s.2 ++ (List.replicate
      ((if (applyModeCall H s.1 c).isReadonly then 0 else 1) +
        callsLeavingEditable H (applyModeCall H s.1 c) rest) _).flatten
    cases (applyModeCall H s.1 c).isReadonly
    · simp [List.replicate_add, List.append_assoc]
    · simp

/-- Every transition from read-only to edit mode is a call that leaves the
editor editable. -/
theorem transitionsToEdit_le (H : Host) (calls : List ModeCall) :
    ∀ (e : Editor), transitionsToEdit H e calls ≤ callsLeavingEditable H e calls := by
  induction calls with
  | nil => intro e; exact Nat.le_refl _
  | cons c rest ih =>
    intro e
    have h := ih (applyModeCall H e c)
    show (if (e.isReadonly && !(applyModeCall H e c).isReadonly) = true then 1 else 0) +
        transitionsToEdit H (applyModeCall H e c) rest
      ≤ (if (applyModeCall H e c).isReadonly = true then 0 else 1) +
        callsLeavingEditable H (applyModeCall H e c) rest
    cases e.isReadonly <;> cases (applyModeCall H e c).isReadonly <;> simp <;> omega

/-- C13, the input on which the claim fails: a call `setReadonly(false)` on
an editor that is in edit mode does not change the mode, and it calls the
promoter and the mounter; in a sequence with two transitions from read-only
to edit mode the promoter is called three times. -/
theorem C13_counterexample :
    freshEditor.isReadonly = false ∧
    (applyModeCall refHost freshEditor (ModeCall.setReadonly false)).isReadonly = false ∧
    (applyModeCallLogged refHost (freshEditor, []) (ModeCall.setReadonly false)).2
      = [ModeStep.replacePendingCharts, ModeStep.mountEcharts] ∧
    transitionsToEdit refHost freshEditor
      [ModeCall.setReadonly true, ModeCall.setReadonly false,
       ModeCall.setMode (some (Json.str (js "edit"))), ModeCall.toggleReadonly,
       ModeCall.toggleReadonly] = 2 ∧
    (runModeCallsLogged refHost (freshEditor, [])
      [ModeCall.setReadonly true, ModeCall.setReadonly false,
       ModeCall.setMode (some (Json.str (js "edit"))), ModeCall.toggleReadonly,
       ModeCall.toggleReadonly]).2
      = [ModeStep.replacePendingCharts, ModeStep.mountEcharts,
         ModeStep.replacePendingCharts, ModeStep.mountEcharts,
         ModeStep.replacePendingCharts, ModeStep.mountEcharts] := by
  decide

/-- C13 (promotion trigger), as the code has it: over any sequence of
`setReadonly`, `setMode` and `toggleReadonly` calls, the promoter is called
exactly once, followed by the mounter, by every call that leaves the editor
in edit mode, whether or not the call changes the mode, and by no call that
leaves it in read-only mode; so it is called once for every transition from
read-only to edit mode, and once more for every call that asks for edit mode
while the editor is in edit mode. -/
theorem C13_promotion_trigger (H : Host) (e : Editor) (calls : List ModeCall) :
    (runModeCallsLogged H (e, []) calls).1 = runModeCalls H e calls ∧
    (runModeCallsLogged H (e, []) calls).2 =
      (List.replicate (callsLeavingEditable H e calls)
        [ModeStep.replacePendingCharts, ModeStep.mountEcharts]).flatten ∧
    transitionsToEdit H e calls ≤ callsLeavingEditable H e calls ∧
    (∀ (c : ModeCall) (log : List ModeStep),
      (applyModeCallLogged H (e, log) c).1 = applyModeCall H e c ∧
      (applyModeCallLogged H (e, log) c).2 =
        log ++ (if (applyModeCall H e c).isReadonly then []
                else [ModeStep.replacePendingCharts, ModeStep.mountEcharts])) ∧
    (∀ r, (applyModeCall H e (ModeCall.setReadonly r)).isReadonly = r) ∧
    (applyModeCall H e ModeCall.toggleReadonly).isReadonly = !e.isReadonly := by
  have h := runModeCallsLogged_eq H calls (e, [])
  refine ⟨h.1, ?_, transitionsToEdit_le H calls e, ?_, ?_, ?_⟩
  · rw [h.2]; rfl
  · exact fun c log => ⟨applyModeCallLogged_fst H (e, log) c, applyModeCallLogged_snd H (e, log) c⟩
  · exact fun r => setReadonly_isReadonly H e r
  · exact setReadonly_isReadonly H e _

/-! ## The mount schedule -/

/-- The callback `mountOne(index)` on the tree its wraps were collected from:
the wrap of this index goes through the mount, and the next index is
scheduled when there is one. -/
theorem mountOne_current (H : Host) (e : Editor) (t : MountTick) (hg : t.gen = e.gen)
    (hi : t.index < t.wraps.length) :
    mountOne H e t =
      { e with
        content := updateAt (mountWrap H) (t.wraps.getD t.index []) e.content,
        ticks := e.ticks ++
          (if t.index + 1 < t.wraps.length then [{ t with index := t.index + 1 }] else []) } := by
  unfold mountOne
  rw [if_neg (Nat.not_le.mpr hi)]
  simp only [hg, if_true]
  by_cases h : t.index + 1 < t.wraps.length
  · rw [if_pos h, if_pos h]
  · rw [if_neg h, if_neg h, List.append_nil]

/-- An animation frame with an empty queue changes nothing. -/
theorem runTick_idle (H : Host) (e : Editor) (h : e.ticks = []) : runTick H e = e := by
  unfold runTick
  rw [h]

/-- Frames with an empty queue change nothing. -/
theorem runFrames_idle (H : Host) (e : Editor) (h : e.ticks = []) (k : Nat) :
    runFrames H k e = e := by
  induction k with
  | zero => rfl
  | succ k ih => rw [runFrames, ih, runTick_idle H e h]

/-- Frames add up. -/
theorem runFrames_add (H : Host) (e : Editor) (j k : Nat) :
    runFrames H (j + k) e = runFrames H k (runFrames H j e) := by
  induction k with
  | zero => rfl
  | succ k ih =>
    show runTick H (runFrames H (j + k) e) = runTick H (runFrames H k (runFrames H j e))
    rw [ih]

/-- The state of a mount job `k` frames after `_mountEchartsInElement`
started it, while it is running: the wraps of indices `0` to `k` are
through, and the callback for index `k + 1` is the only one in the queue when
there is such a wrap. -/
theorem runFrames_mount (H : Host) (e : Editor) (he : e.hasEditor = true) (ht : e.ticks = [])
    (k : Nat) (hk : k < (wrapsOf e).length) :
    runFrames H k (mountEchartsInElement H e) =
      { e with
        content := mountedUpTo H (wrapsOf e) e.content (k + 1),
        ticks := if k + 1 < (wrapsOf e).length then
            [{ gen := e.gen, wraps := wrapsOf e, index := k + 1 }] else [] } := by
  induction k with
  | zero =>
    unfold mountEchartsInElement
    rw [if_pos he]
    show mountOne H e { gen := e.gen, wraps := wrapsOf e, index := 0 } = _
    rw [mountOne_current H e _ rfl hk, ht]
    rfl
  | succ k ih =>
    have hk' : k < (wrapsOf e).length := Nat.lt_of_succ_lt hk
    show runTick H (runFrames H k (mountEchartsInElement H e)) = _
    rw [ih hk', if_pos hk]
    unfold runTick
    simp only
    rw [mountOne_current H _ _ rfl hk]
    rfl

/-- The state of a mount job once its last wrap is through: the queue is
empty, and further frames change nothing. -/
theorem runFrames_mount_done (H : Host) (e : Editor) (he : e.hasEditor = true)
    (ht : e.ticks = []) (k : Nat) (hk : (wrapsOf e).length ≤ k + 1) :
    runFrames H k (mountEchartsInElement H e) =
      { e with content := mountedUpTo H (wrapsOf e) e.content (wrapsOf e).length } := by
  by_cases h0 : (wrapsOf e).length = 0
  · have hm : mountEchartsInElement H e = e := by
      unfold mountEchartsInElement mountOne
      rw [if_pos he]
      have : (Node.pathsInList (Node.hasClass wrapClass) 0 e.content).length ≤ 0 :=
        Nat.le_of_eq h0
      simp only [this, if_true]
    rw [hm, runFrames_idle H e ht, h0]
    rfl
  · have hlast : (wrapsOf e).length - 1 < (wrapsOf e).length := by omega
    have hsplit : k = ((wrapsOf e).length - 1) + (k - ((wrapsOf e).length - 1)) := by omega
    rw [hsplit, runFrames_add, runFrames_mount H e he ht _ hlast]
    have hno : ¬ ((wrapsOf e).length - 1 + 1 < (wrapsOf e).length) := by omega
    rw [if_neg hno, runFrames_idle H _ rfl]
    have hN : (wrapsOf e).length - 1 + 1 = (wrapsOf e).length := by omega
    rw [hN, ← ht]

/-! ## The order of the collected wraps -/

/-- Every collected path starts with the index of a sibling at or after the
first one of the list. -/
theorem pathsInList_head (p : Node → Bool) (ns : List Node) :
    ∀ (i : Nat) (q : List Nat), q ∈ Node.pathsInList p i ns → ∃ j rest, q = j :: rest ∧ i ≤ j := by
  induction ns with
  | nil => intro i q hq; rw [Node.pathsInList] at hq; exact absurd hq (List.not_mem_nil q)
  | cons n tl ih =>
    intro i q hq
    rw [Node.pathsInList, List.mem_append, List.mem_append] at hq
    rcases hq with (hq | hq) | hq
    · by_cases hp : p n = true
      · rw [if_pos hp, List.mem_singleton] at hq
        exact ⟨i, [], hq, Nat.le_refl i⟩
      · rw [if_neg hp] at hq
        exact absurd hq (List.not_mem_nil q)
    · obtain ⟨q2, _, hq2⟩ := List.mem_map.mp hq
      exact ⟨i, q2, hq2.symm, Nat.le_refl i⟩
    · obtain ⟨j, rest, h1, h2⟩ := ih (i + 1) q hq
      exact ⟨j, rest, h1, by omega⟩

/-- Paths under the same sibling are ordered as their remainders are. -/
theorem precedes_cons (i : Nat) (a b : List Nat) : precedes (i :: a) (i :: b) = precedes a b := by
  simp [precedes]

/-- A path comes before every path that starts with a later sibling. -/
theorem precedes_of_lt (i j : Nat) (a b : List Nat) (h : i < j) :
    precedes (i :: a) (j :: b) = true := by
  simp [precedes, h]

/-- Nothing is below a text node. -/
theorem pathsBelow_text (p : Node → Bool) (d : JStr) : Node.pathsBelow p (Node.text d) = [] := by
  simp [Node.pathsBelow]

/-- Nothing is below a node that is neither text nor element. -/
theorem pathsBelow_other (p : Node → Bool) : Node.pathsBelow p Node.other = [] := by
  simp [Node.pathsBelow]

mutual
/-- The matches below a node are collected in document order. -/
theorem pathsBelow_sorted (p : Node → Bool) : ∀ (n : Node),
    (Node.pathsBelow p n).Pairwise (fun a b => precedes a b = true)
  | .text _ => by rw [pathsBelow_text]; exact List.Pairwise.nil
  | .other => by rw [pathsBelow_other]; exact List.Pairwise.nil
  | .element _ _ children _ => by
    rw [Node.pathsBelow]
    exact pathsInList_sorted p children 0
/-- The matches in a list of siblings are collected in document order. -/
theorem pathsInList_sorted (p : Node → Bool) : ∀ (ns : List Node) (i : Nat),
    (Node.pathsInList p i ns).Pairwise (fun a b => precedes a b = true)
  | [], _ => by rw [Node.pathsInList]; exact List.Pairwise.nil
  | n :: tl, i => by
    rw [Node.pathsInList]
    have hB : ((Node.pathsBelow p n).map (fun q => i :: q)).Pairwise
        (fun a b => precedes a b = true) := by
      rw [List.pairwise_map]
      exact (pathsBelow_sorted p n).imp (fun h => by rw [precedes_cons]; exact h)
    have hBne : ∀ q ∈ Node.pathsBelow p n, ∃ j rest, q = j :: rest := by
      intro q hq
      cases n with
      | text _ => rw [pathsBelow_text] at hq; exact absurd hq (List.not_mem_nil q)
      | other => rw [pathsBelow_other] at hq; exact absurd hq (List.not_mem_nil q)
      | element tag attrs children surface =>
        rw [Node.pathsBelow] at hq
        obtain ⟨j, rest, h1, _⟩ := pathsInList_head p children 0 q hq
        exact ⟨j, rest, h1⟩
    have hC := pathsInList_sorted p tl (i + 1)
    have hAB : ((if p n = true then [[i]] else []) ++
        (Node.pathsBelow p n).map (fun q => i :: q)).Pairwise
        (fun a b => precedes a b = true) := by
      rw [List.pairwise_append]
      refine ⟨?_, hB, ?_⟩
      · by_cases hp : p n = true
        · rw [if_pos hp]; exact List.pairwise_singleton _ _
        · rw [if_neg hp]; exact List.Pairwise.nil
      · intro a ha b hb
        by_cases hp : p n = true
        · rw [if_pos hp, List.mem_singleton] at ha
          obtain ⟨q2, hq2, hb2⟩ := List.mem_map.mp hb
          obtain ⟨j, rest, hj⟩ := hBne q2 hq2
          rw [ha, ← hb2, hj]
          simp [precedes]
        · rw [if_neg hp] at ha
          exact absurd ha (List.not_mem_nil a)
    rw [List.pairwise_append]
    refine ⟨hAB, hC, ?_⟩
    intro a ha b hb
    obtain ⟨j, rest, hj1, hj2⟩ := pathsInList_head p tl (i + 1) b hb
    have ha2 : ∃ r, a = i :: r := by
      rw [List.mem_append] at ha
      rcases ha with ha | ha
      · by_cases hp : p n = true
        · rw [if_pos hp, List.mem_singleton] at ha
          exact ⟨[], ha⟩
        · rw [if_neg hp] at ha
          exact absurd ha (List.not_mem_nil a)
      · obtain ⟨q2, _, hq2⟩ := List.mem_map.mp ha
        exact ⟨q2, hq2.symm⟩
    obtain ⟨r, hr⟩ := ha2
    rw [hr, hj1]
    exact precedes_of_lt i j r rest (by omega)
end

/-- C14 (mount schedule): for every editor with an empty frame queue whose
content holds N chart wraps, `_mountEchartsInElement` collects the wraps in
document order and puts the wrap of index 0 through `mountOne` at once; `k`
frames later (`k < N`) exactly the wraps of indices 0 to `k` have gone
through it, one per frame and in this order, and the queue holds the callback
for index `k + 1` and nothing else, or nothing when `k + 1 = N`; from frame
`N - 1` on the queue is empty and nothing changes any more. -/
theorem C14_mount_schedule (H : Host) (e : Editor) (he : e.hasEditor = true)
    (ht : e.ticks = []) :
    (wrapsOf e).Pairwise (fun a b => precedes a b = true) ∧
    (∀ k, k < (wrapsOf e).length →
      runFrames H k (mountEchartsInElement H e) =
        { e with
          content := mountedUpTo H (wrapsOf e) e.content (k + 1),
          ticks := if k + 1 < (wrapsOf e).length then
              [{ gen := e.gen, wraps := wrapsOf e, index := k + 1 }] else [] }) ∧
    (∀ k, (wrapsOf e).length ≤ k + 1 →
      runFrames H k (mountEchartsInElement H e) =
        { e with content := mountedUpTo H (wrapsOf e) e.content (wrapsOf e).length } ∧
      (runFrames H k (mountEchartsInElement H e)).ticks = []) :=
  ⟨pathsInList_sorted _ e.content 0, runFrames_mount H e he ht,
    fun k hk => ⟨runFrames_mount_done H e he ht k hk, by
      rw [runFrames_mount_done H e he ht k hk]; exact ht⟩⟩

theorem C14_mount_schedule_witness :
    mixedChartsEditor.hasEditor = true ∧ mixedChartsEditor.ticks = [] ∧
    ((wrapsOf mixedChartsEditor).Pairwise (fun a b => precedes a b = true) ∧
    (∀ k, k < (wrapsOf mixedChartsEditor).length →
      runFrames refHost k (mountEchartsInElement refHost mixedChartsEditor) =
        { mixedChartsEditor with
          content := mountedUpTo refHost (wrapsOf mixedChartsEditor) mixedChartsEditor.content
            (k + 1),
          ticks := if k + 1 < (wrapsOf mixedChartsEditor).length then
              [{ gen := mixedChartsEditor.gen, wraps := wrapsOf mixedChartsEditor,
                 index := k + 1 }] else [] }) ∧
    (∀ k, (wrapsOf mixedChartsEditor).length ≤ k + 1 →
      runFrames refHost k (mountEchartsInElement refHost mixedChartsEditor) =
        { mixedChartsEditor with
          content := mountedUpTo refHost (wrapsOf mixedChartsEditor) mixedChartsEditor.content
            (wrapsOf mixedChartsEditor).length } ∧
      (runFrames refHost k (mountEchartsInElement refHost mixedChartsEditor)).ticks = [])) :=
  ⟨rfl, rfl, C14_mount_schedule refHost mixedChartsEditor rfl rfl⟩

/-! ## What the mount does to one wrap -/

/-- The mount of a wrap, by what `mountOne` hands to the engine. -/
theorem mountWrap_eq_target (H : Host) (tag : JStr) (attrs : List (JStr × JStr))
    (children : List Node) (surface : Option Surface) :
    mountWrap H (Node.element tag attrs children surface) =
      match mountTarget (Node.element tag attrs children surface) with
      | none => Node.element tag attrs children surface
      | some (q, chartEl, option) =>
        Node.element tag attrs (updateAt (fun _ => (H.echartsInit chartEl option).1) q children)
          (match (H.echartsInit chartEl option).2 with
           | some chart => some chart
           | none => surface) := by
  unfold mountWrap mountTarget
  simp only
  cases carrierOf (Node.element tag attrs children surface) with
  | none => rfl
  | some optBase64 =>
    simp only
    by_cases h1 : optBase64 = []
    · rw [if_pos h1, if_pos h1]
    · rw [if_neg h1, if_neg h1]
      cases decodeCarrier optBase64 with
      | none => rfl
      | some option =>
        simp only
        cases (Node.pathsBelow (Node.hasClass containerClass)
            (Node.element tag attrs children surface)).head? with
        | none => rfl
        | some q =>
          simp only
          cases getAt q children with
          | none => rfl
          | some chartEl => rfl

/-- What `mountOne` hands to the engine does not depend on the chart
instance the wrap has. -/
theorem mountTarget_surface (tag : JStr) (attrs : List (JStr × JStr)) (children : List Node)
    (s1 s2 : Option Surface) :
    mountTarget (Node.element tag attrs children s1)
      = mountTarget (Node.element tag attrs children s2) := rfl

/-- A wrap whose carrier gives no configuration is left as it is. -/
theorem mountTarget_undecodable (w : Node) (h : decodable w = false) : mountTarget w = none := by
  cases w with
  | text _ => rfl
  | other => rfl
  | element tag attrs children surface =>
    unfold decodable at h
    unfold mountTarget
    simp only
    cases hc : carrierOf (Node.element tag attrs children surface) with
    | none => rfl
    | some optBase64 =>
      rw [hc] at h
      simp only at h ⊢
      by_cases h1 : optBase64 = []
      · rw [if_pos h1]
      · rw [if_neg h1]
        have h2 : optBase64.isEmpty = false := by
          cases optBase64 with
          | nil => exact absurd rfl h1
          | cons a b => rfl
        rw [h2] at h
        cases hd : decodeCarrier optBase64 with
        | none => rfl
        | some option => rw [hd] at h; exact absurd h (by simp)

/-- A wrap whose carrier gives no configuration is left as it is. -/
theorem mountWrap_undecodable (H : Host) (w : Node) (h : decodable w = false) :
    mountWrap H w = w := by
  cases w with
  | text _ => rfl
  | other => rfl
  | element tag attrs children surface =>
    rw [mountWrap_eq_target, mountTarget_undecodable _ h]

/-- The four ways a carrier gives no configuration. -/
theorem decodable_false (w : Node)
    (h : carrierOf w = none ∨ carrierOf w = some [] ∨
      ∃ c, carrierOf w = some c ∧
        (atob c = none ∨
         (∃ bin, atob c = some bin ∧ decodeURIComponent (escape bin) = none) ∨
         (∃ optStr, decodeCarrierText c = some optStr ∧ jsonParse optStr = none))) :
    decodable w = false := by
  unfold decodable
  rcases h with h | h | ⟨c, h, h2⟩
  · rw [h]
  · rw [h]; rfl
  · rw [h]
    have hd : decodeCarrier c = none := by
      unfold decodeCarrier
      rcases h2 with h2 | ⟨bin, hb, h2⟩ | ⟨t, ht, h2⟩
      · have : decodeCarrierText c = none := by unfold decodeCarrierText; rw [h2]
        rw [this]
      · have : decodeCarrierText c = none := by unfold decodeCarrierText; rw [hb]; exact h2
        rw [this]
      · rw [ht]; exact h2
    simp only [hd, Option.isSome_none, Bool.and_false]

/-- The node at a path of a sibling list that starts one later. -/
theorem getAt_succ_cons (j : Nat) (rest : List Nat) (n : Node) (tl : List Node) :
    getAt ((j + 1) :: rest) (n :: tl) = getAt (j :: rest) tl := by
  cases rest <;> rfl

mutual
/-- Every collected path below a node leads to a node that matches. -/
theorem pathsBelow_getAt (p : Node → Bool) : ∀ (n : Node) (q : List Nat),
    q ∈ Node.pathsBelow p n → ∃ m, getAt q n.children = some m ∧ p m = true
  | .text _, q, hq => by rw [pathsBelow_text] at hq; exact absurd hq (List.not_mem_nil q)
  | .other, q, hq => by rw [pathsBelow_other] at hq; exact absurd hq (List.not_mem_nil q)
  | .element tag attrs children surface, q, hq => by
    rw [Node.pathsBelow] at hq
    obtain ⟨j, rest, m, h1, h2, h3⟩ := pathsInList_getAt p children 0 q hq
    rw [Nat.zero_add] at h1
    rw [h1]
    exact ⟨m, h2, h3⟩
/-- Every collected path of a sibling list leads to a node that matches. -/
theorem pathsInList_getAt (p : Node → Bool) : ∀ (ns : List Node) (i : Nat) (q : List Nat),
    q ∈ Node.pathsInList p i ns →
    ∃ j rest m, q = (i + j) :: rest ∧ getAt (j :: rest) ns = some m ∧ p m = true
  | [], _, q, hq => by rw [Node.pathsInList] at hq; exact absurd hq (List.not_mem_nil q)
  | n :: tl, i, q, hq => by
    rw [Node.pathsInList, List.mem_append, List.mem_append] at hq
    rcases hq with (hq | hq) | hq
    · by_cases hp : p n = true
      · rw [if_pos hp, List.mem_singleton] at hq
        exact ⟨0, [], n, hq, rfl, hp⟩
      · rw [if_neg hp] at hq
        exact absurd hq (List.not_mem_nil q)
    · obtain ⟨q2, hq2, hq3⟩ := List.mem_map.mp hq
      obtain ⟨m, hm1, hm2⟩ := pathsBelow_getAt p n q2 hq2
      cases q2 with
      | nil => exact absurd hm1 (by simp [getAt])
      | cons j2 r2 => exact ⟨0, j2 :: r2, m, hq3.symm, hm1, hm2⟩
    · obtain ⟨j, rest, m, h1, h2, h3⟩ := pathsInList_getAt p tl (i + 1) q hq
      refine ⟨j + 1, rest, m, ?_, ?_, h3⟩
      · rw [h1]; congr 1; omega
      · rw [getAt_succ_cons]; exact h2
end

/-- A wrap with a decodable carrier and a container goes to the engine, and
the container is an element. -/
theorem mountTarget_decodable (tag : JStr) (attrs : List (JStr × JStr)) (children : List Node)
    (surface : Option Surface)
    (hd : decodable (Node.element tag attrs children surface) = true)
    (hc : (Node.pathsBelow (Node.hasClass containerClass)
      (Node.element tag attrs children surface)).isEmpty = false) :
    ∃ q ctag cattrs cchildren csurface option,
      mountTarget (Node.element tag attrs children surface)
        = some (q, Node.element ctag cattrs cchildren csurface, option) := by
  unfold decodable at hd
  unfold mountTarget
  simp only
  cases hcar : carrierOf (Node.element tag attrs children surface) with
  | none => rw [hcar] at hd; exact absurd hd (by simp)
  | some optBase64 =>
    rw [hcar] at hd
    simp only [Bool.and_eq_true, Bool.not_eq_true'] at hd
    have h1 : optBase64 ≠ [] := by
      intro e
      rw [e] at hd
      exact absurd hd.1 (by simp)
    simp only [if_neg h1]
    cases hdec : decodeCarrier optBase64 with
    | none => rw [hdec] at hd; exact absurd hd.2 (by simp)
    | some option =>
      simp only
      cases hp : Node.pathsBelow (Node.hasClass containerClass)
          (Node.element tag attrs children surface) with
      | nil => rw [hp] at hc; exact absurd hc (by simp)
      | cons q qs =>
        have hq : q ∈ Node.pathsBelow (Node.hasClass containerClass)
            (Node.element tag attrs children surface) := by rw [hp]; exact List.mem_cons_self q qs
        obtain ⟨m, hm1, hm2⟩ := pathsBelow_getAt _ _ q hq
        have hm1' : getAt q children = some m := hm1
        simp only [List.head?_cons, hm1']
        cases m with
        | text _ => exact absurd hm2 (by simp [Node.hasClass, Node.getAttribute])
        | other => exact absurd hm2 (by simp [Node.hasClass, Node.getAttribute])
        | element ctag cattrs cchildren csurface =>
          exact ⟨q, ctag, cattrs, cchildren, csurface, option, rfl⟩

/-! ## A list of live charts -/

/-- The parts of `isUnmountedLiveChart`. -/
theorem isUnmountedLiveChart_parts (w : Node) (h : isUnmountedLiveChart w = true) :
    Node.hasClass wrapClass w = true ∧
    Node.pathsBelow (Node.hasClass wrapClass) w = [] ∧
    (Node.pathsBelow (Node.hasClass containerClass) w).isEmpty = false ∧
    w.surface = none := by
  unfold isUnmountedLiveChart at h
  simp only [Bool.and_eq_true, Bool.not_eq_true', List.isEmpty_iff, Option.isNone_iff_eq_none] at h
  exact ⟨h.1.1.1, h.1.1.2, h.1.2, h.2⟩

/-- The wraps collected from a list of live charts are the charts themselves. -/
theorem pathsInList_flat (ws : List Node)
    (h : ∀ w ∈ ws, Node.hasClass wrapClass w = true ∧
      Node.pathsBelow (Node.hasClass wrapClass) w = []) :
    ∀ i, Node.pathsInList (Node.hasClass wrapClass) i ws
      = (List.range ws.length).map (fun j => [i + j]) := by
  induction ws with
  | nil => intro i; rw [Node.pathsInList]; rfl
  | cons w tl ih =>
    intro i
    have hw := h w (List.mem_cons_self w tl)
    have htl : ∀ x ∈ tl, Node.hasClass wrapClass x = true ∧
        Node.pathsBelow (Node.hasClass wrapClass) x = [] :=
      fun x hx => h x (List.mem_cons_of_mem w hx)
    rw [Node.pathsInList, hw.1, hw.2, ih htl (i + 1), List.length_cons, List.range_succ_eq_map]
    simp only [if_true, List.map_nil, List.append_nil, List.singleton_append, List.map_cons,
      List.map_map, Nat.add_zero, List.cons.injEq, true_and]
    apply List.map_congr_left
    intro j _
    simp only [Function.comp, List.cons.injEq, and_true]
    omega

/-- One more chart of a list goes through the mount. -/
theorem modifyAt_take_drop (f : Node → Node) (ws : List Node) :
    ∀ k, k < ws.length →
      modifyAt f k ((ws.take k).map f ++ ws.drop k) = (ws.take (k + 1)).map f ++ ws.drop (k + 1) := by
  induction ws with
  | nil => intro k hk; exact absurd hk (Nat.not_lt_zero k)
  | cons a tl ih =>
    intro k hk
    cases k with
    | zero => rfl
    | succ k =>
      have hk' : k < tl.length := Nat.lt_of_succ_lt_succ hk
      show modifyAt f (k + 1) (f a :: ((tl.take k).map f ++ tl.drop k)) = _
      rw [modifyAt, ih k hk']
      rfl

/-- The content of a list of live charts while its mount job runs. -/
theorem mountedUpTo_flat (H : Host) (ws : List Node)
    (h : ∀ w ∈ ws, Node.hasClass wrapClass w = true ∧
      Node.pathsBelow (Node.hasClass wrapClass) w = []) :
    ∀ k, k ≤ ws.length →
      mountedUpTo H (Node.pathsInList (Node.hasClass wrapClass) 0 ws) ws k
        = (ws.take k).map (mountWrap H) ++ ws.drop k := by
  intro k
  induction k with
  | zero => intro _; rfl
  | succ k ih =>
    intro hk
    have hk' : k < ws.length := hk
    rw [mountedUpTo, ih (Nat.le_of_lt hk'), pathsInList_flat ws h 0]
    have hg : ((List.range ws.length).map (fun j => [0 + j])).getD k [] = [k] := by
      simp [List.getD, List.getElem?_map, List.getElem?_range hk']
    rw [hg]
    exact modifyAt_take_drop (mountWrap H) ws k hk'

/-- C16 (per-node decode failure): for every list of live chart nodes, none
of them mounted yet, the mount job runs to its end, its queue drained, and
every node of the list has gone through `mountOne`, whatever happened at the
nodes before it; a node whose carrier is missing, is empty, is not base64,
does not decode to UTF-8 or does not parse as JSON is left exactly as it was,
without a chart instance; and, the engine succeeding, exactly the nodes whose
carrier decodes have a chart instance at the end. -/
theorem C16_decode_failure (H : Host) (e : Editor) (he : e.hasEditor = true)
    (ht : e.ticks = []) (hlive : ∀ w ∈ e.content, isUnmountedLiveChart w = true)
    (hengine : ∀ tag attrs children surface option,
      (H.echartsInit (Node.element tag attrs children surface) option).2.isSome = true) :
    (runFrames H (e.content.length - 1) (mountEchartsInElement H e)).ticks = [] ∧
    (runFrames H (e.content.length - 1) (mountEchartsInElement H e)).content
      = e.content.map (mountWrap H) ∧
    (∀ w ∈ e.content, (mountWrap H w).surface.isSome = decodable w) ∧
    (∀ w : Node, decodable w = false → mountWrap H w = w) ∧
    (∀ w : Node,
      (carrierOf w = none ∨ carrierOf w = some [] ∨
        ∃ c, carrierOf w = some c ∧
          (atob c = none ∨
           (∃ bin, atob c = some bin ∧ decodeURIComponent (escape bin) = none) ∨
           (∃ optStr, decodeCarrierText c = some optStr ∧ jsonParse optStr = none))) →
      decodable w = false) := by
  have hflat : ∀ w ∈ e.content, Node.hasClass wrapClass w = true ∧
      Node.pathsBelow (Node.hasClass wrapClass) w = [] :=
    fun w hw => ⟨(isUnmountedLiveChart_parts w (hlive w hw)).1,
      (isUnmountedLiveChart_parts w (hlive w hw)).2.1⟩
  have hlen : (wrapsOf e).length = e.content.length := by
    unfold wrapsOf
    rw [pathsInList_flat e.content hflat 0, List.length_map, List.length_range]
  have hdone := runFrames_mount_done H e he ht (e.content.length - 1) (by rw [hlen]; omega)
  refine ⟨?_, ?_, ?_, mountWrap_undecodable H, decodable_false⟩
  · rw [hdone]; exact ht
  · rw [hdone]
    show mountedUpTo H (wrapsOf e) e.content (wrapsOf e).length = _
    rw [hlen]
    unfold wrapsOf
    rw [mountedUpTo_flat H e.content hflat e.content.length (Nat.le_refl _), List.take_length,
      List.drop_length, List.append_nil]
  · intro w hw
    obtain ⟨_, _, hc, hs⟩ := isUnmountedLiveChart_parts w (hlive w hw)
    cases hd : decodable w with
    | false =>
      rw [mountWrap_undecodable H w hd, hs]
      rfl
    | true =>
      cases w with
      | text _ => exact absurd hd (by simp [decodable, carrierOf, Node.getAttribute,
          Node.findDescendant])
      | other => exact absurd hd (by simp [decodable, carrierOf, Node.getAttribute,
          Node.findDescendant])
      | element tag attrs children surface =>
        obtain ⟨q, ctag, cattrs, cchildren, csurface, option, hm⟩ :=
          mountTarget_decodable tag attrs children surface hd hc
        rw [mountWrap_eq_target, hm]
        simp only [Node.surface]
        have hen := hengine ctag cattrs cchildren csurface option
        cases hr : (H.echartsInit (Node.element ctag cattrs cchildren csurface) option).2 with
        | none => rw [hr] at hen; exact absurd hen (by simp)
        | some chart => rfl

set_option maxRecDepth 100000 in
theorem C16_decode_failure_witness :
    mixedChartsEditor.hasEditor = true ∧ mixedChartsEditor.ticks = [] ∧
    (∀ w ∈ mixedChartsEditor.content, isUnmountedLiveChart w = true) ∧
    (∀ tag attrs children surface option,
      (refHost.echartsInit (Node.element tag attrs children surface) option).2.isSome = true) ∧
    ((runFrames refHost (mixedChartsEditor.content.length - 1)
        (mountEchartsInElement refHost mixedChartsEditor)).ticks = [] ∧
    (runFrames refHost (mixedChartsEditor.content.length - 1)
        (mountEchartsInElement refHost mixedChartsEditor)).content
      = mixedChartsEditor.content.map (mountWrap refHost) ∧
    (∀ w ∈ mixedChartsEditor.content, (mountWrap refHost w).surface.isSome = decodable w) ∧
    (∀ w : Node, decodable w = false → mountWrap refHost w = w) ∧
    (∀ w : Node,
      (carrierOf w = none ∨ carrierOf w = some [] ∨
        ∃ c, carrierOf w = some c ∧
          (atob c = none ∨
           (∃ bin, atob c = some bin ∧ decodeURIComponent (escape bin) = none) ∨
           (∃ optStr, decodeCarrierText c = some optStr ∧ jsonParse optStr = none))) →
      decodable w = false)) :=
  ⟨rfl, rfl, by decide, fun _ _ _ _ _ => rfl,
    C16_decode_failure refHost mixedChartsEditor rfl rfl (by decide) (fun _ _ _ _ _ => rfl)⟩

set_option maxRecDepth 100000 in
/-- The three charts of `mixedChartsEditor` after the mount job: only the one
with the carrier `carrierA` has a chart instance. -/
theorem mixedCharts_mounted :
    (runFrames refHost 2 (mountEchartsInElement refHost mixedChartsEditor)).content.map
        (fun w => (w.surface.isSome, decodable w))
      = [(false, false), (true, true), (false, false)] ∧
    (runFrames refHost 2 (mountEchartsInElement refHost mixedChartsEditor)).ticks.map
        (fun t => t.index) = [] ∧
    (runFrames refHost 1 (mountEchartsInElement refHost mixedChartsEditor)).ticks.map
        (fun t => t.index) = [2] ∧
    atob (js "%%%") = none ∧
    (atob (js "/w==")).map (fun bin => decodeURIComponent (escape bin)) = some none := by
  decide

/-! ## Wraps that have a chart instance already -/

set_option maxRecDepth 100000 in
/-- C15, the input on which the claim fails: a live chart wrap that has a
chart instance goes to the engine again when the mounter runs, and the
instance it has afterwards is the one the engine returned; the chart of a
document set by `setMarkdown` is such a wrap. -/
theorem C15_counterexample :
    (wrapWithInstance (some (js "data:,old"))).surface.map (fun s => s.dataURL)
      = some (some (js "data:,old")) ∧
    (mountTarget (wrapWithInstance (some (js "data:,old")))).isSome = true ∧
    (mountWrap refHost (wrapWithInstance (some (js "data:,old")))).surface.map
        (fun s => s.dataURL) = some (some refSnapshot) ∧
    (setMarkdown refHost freshEditor (some (Json.str chartOnlyBufferA))).content.map
        (fun w => (w.surface.isSome, (mountTarget w).isSome)) = [(true, true)] ∧
    (wrapsOf (setMarkdown refHost freshEditor (some (Json.str chartOnlyBufferA)))) = [[0]] := by
  decide

/-- C15 (mount only unmounted nodes), as the code has it: whether `mountOne`
calls the engine for a wrap, and with which container and configuration,
does not depend on the chart instance the wrap has; when it calls the engine
the wrap has afterwards the instance the engine returned, and keeps the one
it had only when the engine throws; when it does not call the engine (carrier
missing or not decodable, no container) the wrap is left as it is. -/
theorem C15_mount_ignores_instance (H : Host) (tag : JStr) (attrs : List (JStr × JStr))
    (children : List Node) (surface : Option Surface) :
    mountTarget (Node.element tag attrs children surface)
      = mountTarget (Node.element tag attrs children none) ∧
    (∀ q chartEl option,
      mountTarget (Node.element tag attrs children surface) = some (q, chartEl, option) →
      mountWrap H (Node.element tag attrs children surface)
        = Node.element tag attrs (updateAt (fun _ => (H.echartsInit chartEl option).1) q children)
            (match (H.echartsInit chartEl option).2 with
             | some chart => some chart
             | none => surface)) ∧
    (mountTarget (Node.element tag attrs children surface) = none →
      mountWrap H (Node.element tag attrs children surface)
        = Node.element tag attrs children surface) ∧
    (∀ (e : Editor) (t : MountTick), t.gen = e.gen → t.index < t.wraps.length →
      (mountOne H e t).content = updateAt (mountWrap H) (t.wraps.getD t.index []) e.content) := by
  refine ⟨rfl, ?_, ?_, ?_⟩
  · intro q chartEl option h
    rw [mountWrap_eq_target, h] <;> rfl
  · intro h
    rw [mountWrap_eq_target, h]
  · intro e t hg hi
    rw [mountOne_current H e t hg hi]

/-! ## Ticks of a replaced tree -/

/-- The callback `mountOne(index)` of a tick whose tree has been replaced:
the content is not touched, the next index is scheduled. -/
theorem mountOne_stale (H : Host) (e : Editor) (t : MountTick) (hg : t.gen ≠ e.gen) :
    mountOne H e t =
      { e with ticks := e.ticks ++
          (if t.index + 1 < t.wraps.length then [{ t with index := t.index + 1 }] else []) } := by
  unfold mountOne
  by_cases hi : t.wraps.length ≤ t.index
  · have hn : ¬ (t.index + 1 < t.wraps.length) := by omega
    rw [if_pos hi, if_neg hn, List.append_nil]
  · rw [if_neg hi]
    simp only [hg, if_false]
    by_cases hn : t.index + 1 < t.wraps.length
    · rw [if_pos hn, if_pos hn]
    · rw [if_neg hn, if_neg hn, List.append_nil]

/-- The callback `mountOne(index)` never takes a callback out of the queue. -/
theorem mountOne_ticks (H : Host) (e : Editor) (t : MountTick) :
    ∃ extra, (mountOne H e t).ticks = e.ticks ++ extra := by
  unfold mountOne
  by_cases hi : t.wraps.length ≤ t.index
  · rw [if_pos hi]; exact ⟨[], (List.append_nil _).symm⟩
  · rw [if_neg hi]
    by_cases hg : t.gen = e.gen <;> by_cases hn : t.index + 1 < t.wraps.length
    · simp only [hg, hn, if_true]; exact ⟨_, rfl⟩
    · simp only [hg, hn, if_true, if_false]; exact ⟨[], (List.append_nil _).symm⟩
    · simp only [hg, hn, if_true, if_false]; exact ⟨_, rfl⟩
    · simp only [hg, hn, if_false]; exact ⟨[], (List.append_nil _).symm⟩

/-- The mounter never takes a callback out of the queue. -/
theorem mountEchartsInElement_ticks (H : Host) (e : Editor) :
    ∃ extra, (mountEchartsInElement H e).ticks = e.ticks ++ extra := by
  unfold mountEchartsInElement
  by_cases he : e.hasEditor = true
  · rw [if_pos he]; exact mountOne_ticks H e _
  · rw [if_neg he]; exact ⟨[], (List.append_nil _).symm⟩

/-- The method `setHtml` leaves the queue as it is. -/
theorem setHtml_ticks (H : Host) (e : Editor) (html : Option Json) :
    (setHtml H e html).ticks = e.ticks := by
  unfold setHtml
  by_cases he : e.hasEditor = true
  · rw [if_pos he]
    split <;> rfl
  · rw [if_neg he]

/-- The method `clear` leaves the queue as it is. -/
theorem clear_ticks (e : Editor) : (clear e).ticks = e.ticks := by
  unfold clear
  by_cases he : e.hasEditor = true
  · rw [if_pos he]
  · rw [if_neg he]

/-- The method `setMarkdown` takes no callback out of the queue. -/
theorem setMarkdown_ticks (H : Host) (e : Editor) (md : Option Json) :
    ∃ extra, (setMarkdown H e md).ticks = e.ticks ++ extra := by
  unfold setMarkdown
  split
  · by_cases he : e.hasEditor = true
    · rw [if_pos he]
      split
      · exact ⟨[], (List.append_nil _).symm⟩
      · exact mountEchartsInElement_ticks H _
    · rw [if_neg he]; exact ⟨[], (List.append_nil _).symm⟩
  · exact ⟨[], (List.append_nil _).symm⟩

/-- The method `appendStreamChunk` takes no callback out of the queue. -/
theorem appendStreamChunk_ticks (H : Host) (e : Editor) (chunk : Option Json) :
    ∃ extra, (appendStreamChunk H e chunk).ticks = e.ticks ++ extra := by
  unfold appendStreamChunk
  split
  · by_cases he : e.hasEditor = true
    · rw [if_pos he]
      split
      · exact ⟨[], (List.append_nil _).symm⟩
      · by_cases hr : e.isReadonly = true
        · rw [if_pos hr]; exact ⟨[], (List.append_nil _).symm⟩
        · rw [if_neg hr]; exact mountEchartsInElement_ticks H _
    · rw [if_neg he]; exact ⟨[], (List.append_nil _).symm⟩
  · exact ⟨[], (List.append_nil _).symm⟩

set_option maxRecDepth 100000 in
/-- C17, the input on which the claim fails: a document with two charts is
replaced before the next animation frame; the callback for the second chart
is still in the queue afterwards, and what it does to the second chart of the
discarded tree is a mount: the engine is called for it and it gets a chart
instance. -/
theorem C17_counterexample :
    twoChartsEditor.gen = 1 ∧
    twoChartsEditor.content.map (fun w => w.surface.isSome) = [true, false] ∧
    twoChartsEditor.ticks.map (fun t => (t.gen, t.wraps, t.index)) = [(1, [[0], [1]], 1)] ∧
    replacedEditor.gen = 2 ∧
    replacedEditor.content.map serialize = [js "<p>other</p>", js "\n"] ∧
    replacedEditor.ticks.map (fun t => (t.gen, t.wraps, t.index)) = [(1, [[0], [1]], 1)] ∧
    (getAt [1] twoChartsEditor.content).map (fun w => (mountTarget w).isSome) = some true ∧
    replacedEditor.ticks.map
        (fun t => (mountOneOn twoChartsHost twoChartsEditor.content t).map
          (fun w => w.surface.isSome)) = [[true, true]] := by
  decide

/-- C17 (cancelled mounts), as the code has it: a mount callback whose tree
has been replaced is not dropped; it stays in the queue through `setHtml`,
`clear`, `setMarkdown` and `appendStreamChunk`, runs in its frame, and
schedules the callback for the next index while its job has wraps left; what
it does is the same `mountOne` as on a current tree, on the wrap of the
discarded tree; the content of the editor is not changed by it. -/
theorem C17_stale_ticks (H : Host) (e : Editor) (t : MountTick) (rest : List MountTick)
    (ht : e.ticks = t :: rest) (hg : t.gen ≠ e.gen) :
    (runTick H e).content = e.content ∧
    (runTick H e).gen = e.gen ∧
    (runTick H e).ticks =
      rest ++ (if t.index + 1 < t.wraps.length then [{ t with index := t.index + 1 }] else []) ∧
    (∀ e0 : Editor, t.gen = e0.gen → (mountOne H e0 t).content = mountOneOn H e0.content t) ∧
    (∀ html, (setHtml H e html).ticks = e.ticks) ∧
    (clear e).ticks = e.ticks ∧
    (∀ md, ∃ extra, (setMarkdown H e md).ticks = e.ticks ++ extra) ∧
    (∀ chunk, ∃ extra, (appendStreamChunk H e chunk).ticks = e.ticks ++ extra) := by
  have hr : runTick H e = mountOne H { e with ticks := rest } t := by
    unfold runTick
    rw [ht]
  have hs := mountOne_stale H { e with ticks := rest } t hg
  refine ⟨?_, ?_, ?_, ?_, setHtml_ticks H e, clear_ticks e, setMarkdown_ticks H e,
    appendStreamChunk_ticks H e⟩
  · rw [hr, hs]
  · rw [hr, hs]
  · rw [hr, hs]
  · intro e0 h0
    unfold mountOneOn
    by_cases hi : t.wraps.length ≤ t.index
    · unfold mountOne
      rw [if_pos hi, if_pos hi]
    · rw [if_neg hi, mountOne_current H e0 t h0 (Nat.lt_of_not_le hi)]

set_option maxRecDepth 100000 in
theorem C17_stale_ticks_witness :
    replacedEditor.ticks = [{ gen := 1, wraps := [[0], [1]], index := 1 }] ∧
    (1 : Nat) ≠ replacedEditor.gen ∧
    ((runTick twoChartsHost replacedEditor).content = replacedEditor.content ∧
    (runTick twoChartsHost replacedEditor).gen = replacedEditor.gen ∧
    (runTick twoChartsHost replacedEditor).ticks =
      [] ++ (if (1 : Nat) + 1 < ([[0], [1]] : List (List Nat)).length then
          [{ gen := 1, wraps := [[0], [1]], index := 1 + 1 }] else []) ∧
    (∀ e0 : Editor, 1 = e0.gen →
      (mountOne twoChartsHost e0 { gen := 1, wraps := [[0], [1]], index := 1 }).content
        = mountOneOn twoChartsHost e0.content { gen := 1, wraps := [[0], [1]], index := 1 }) ∧
    (∀ html, (setHtml twoChartsHost replacedEditor html).ticks = replacedEditor.ticks) ∧
    (clear replacedEditor).ticks = replacedEditor.ticks ∧
    (∀ md, ∃ extra, (setMarkdown twoChartsHost replacedEditor md).ticks
      = replacedEditor.ticks ++ extra) ∧
    (∀ chunk, ∃ extra, (appendStreamChunk twoChartsHost replacedEditor chunk).ticks
      = replacedEditor.ticks ++ extra)) :=
  ⟨by rfl, by decide,
    C17_stale_ticks twoChartsHost replacedEditor { gen := 1, wraps := [[0], [1]], index := 1 } []
      (by rfl) (by decide)⟩

/-! ## The serializer returns for every tree -/

/-- A snapshot call that throws gives the empty URL. -/
theorem getChartDataUrl_throws (w : Node) (h : snapshotThrows w = true) :
    getChartDataUrl w = [] := by
  cases w with
  | text d => exact absurd h (by simp [snapshotThrows, Node.findDescendant])
  | other => exact absurd h (by simp [snapshotThrows, Node.findDescendant])
  | element tag attrs children surface =>
    cases surface with
    | some chart =>
      have h1 : chart.dataURL.isNone = true := h
      have h2 : chart.dataURL = none := Option.isNone_iff_eq_none.mp h1
      show chart.dataURL.getD [] = []
      rw [h2]
      rfl
    | none =>
      unfold snapshotThrows at h
      unfold getChartDataUrl
      simp only at h ⊢
      cases hc : Node.findDescendant (Node.hasClass containerClass)
          (Node.element tag attrs children none) with
      | none => rfl
      | some container =>
        rw [hc] at h
        simp only at h ⊢
        cases hv : Node.findDescendant (Node.hasTag (js "canvas")) container with
        | none => rfl
        | some canvas =>
          rw [hv] at h
          simp only at h ⊢
          cases canvas with
          | text d => rfl
          | other => rfl
          | element ctag cattrs cchildren csurface =>
            cases csurface with
            | none => rfl
            | some s =>
              have h1 : s.dataURL.isNone = true := h
              have h2 : s.dataURL = none := Option.isNone_iff_eq_none.mp h1
              show s.dataURL.getD [] = []
              rw [h2]
              rfl

/-- The serialization of a list of siblings is put together from the
serializations of its parts. -/
theorem serializeChildren_append (a b : List Node) :
    serializeChildren (a ++ b) = serializeChildren a ++ serializeChildren b := by
  rw [serializeChildren_eq, serializeChildren_eq, serializeChildren_eq, List.map_append,
    List.flatten_append]

/-- C21 (serialization is total): the serializer is a total function, defined
by structural recursion on the tree, with a result for text nodes, for
elements and for every other kind of node; a chart wrap whose snapshot call
throws gives the placeholder, and the nodes before and after it, and the
element around them, are serialized as they are without it. -/
theorem C21_serialization_total (before after : List Node) (w : Node)
    (hw : Node.hasClass wrapClass w = true) (ht : snapshotThrows w = true) :
    serialize w = js "<p>[图表未渲染]</p>" ∧
    serializeChildren (before ++ w :: after)
      = serializeChildren before ++ js "<p>[图表未渲染]</p>" ++ serializeChildren after ∧
    (∀ tag attrs surface,
      isChartWrap (Node.element tag attrs (before ++ w :: after) surface) = false →
      voidTags.contains tag = false →
      serialize (Node.element tag attrs (before ++ w :: after) surface)
        = 60 :: (tag ++ serializeAttrs attrs ++ [62]) ++
            (serializeChildren before ++ js "<p>[图表未渲染]</p>" ++ serializeChildren after) ++
            (60 :: 47 :: (tag ++ [62]))) ∧
    (∀ data, serialize (Node.text data) = escapeText data) ∧
    serialize Node.other = [] ∧
    (∀ tag attrs children surface,
      serialize (Node.element tag attrs children surface) =
        if isChartWrap (Node.element tag attrs children surface) then
          chartImage (Node.element tag attrs children surface)
        else if voidTags.contains tag then 60 :: (tag ++ serializeAttrs attrs ++ [62])
        else
          60 :: (tag ++ serializeAttrs attrs ++ [62] ++ serializeChildren children ++
            (60 :: 47 :: tag) ++ [62])) := by
  have h1 : serialize w = js "<p>[图表未渲染]</p>" := by
    cases w with
    | text d => exact absurd hw (by simp [Node.hasClass, Node.getAttribute])
    | other => exact absurd hw (by simp [Node.hasClass, Node.getAttribute])
    | element tag attrs children surface =>
      rw [serialize_element, isChartWrap_of_hasClass tag attrs children surface hw]
      simp only [if_true]
      rw [chartImage, if_pos (getChartDataUrl_throws _ ht)]
  have h2 : serializeChildren (before ++ w :: after)
      = serializeChildren before ++ js "<p>[图表未渲染]</p>" ++ serializeChildren after := by
    rw [serializeChildren_append, serializeChildren, h1, List.append_assoc]
  refine ⟨h1, h2, ?_, ?_, ?_, serialize_element⟩
  · intro tag attrs surface hc hv
    rw [serialize_element, hc, hv, h2]
    simp
  · intro data
    rw [serialize]
  · rw [serialize]

set_option maxRecDepth 100000 in
theorem C21_serialization_total_witness :
    Node.hasClass wrapClass (wrapWithInstance none) = true ∧
    snapshotThrows (wrapWithInstance none) = true ∧
    snapshotThrows wrapWithThrowingCanvas = true ∧
    (serialize (wrapWithInstance none) = js "<p>[图表未渲染]</p>" ∧
    serializeChildren ([Node.text (js "a<b")] ++ wrapWithInstance none :: [Node.other])
      = serializeChildren [Node.text (js "a<b")] ++ js "<p>[图表未渲染]</p>" ++
          serializeChildren [Node.other] ∧
    (∀ tag attrs surface,
      isChartWrap (Node.element tag attrs
        ([Node.text (js "a<b")] ++ wrapWithInstance none :: [Node.other]) surface) = false →
      voidTags.contains tag = false →
      serialize (Node.element tag attrs
          ([Node.text (js "a<b")] ++ wrapWithInstance none :: [Node.other]) surface)
        = 60 :: (tag ++ serializeAttrs attrs ++ [62]) ++
            (serializeChildren [Node.text (js "a<b")] ++ js "<p>[图表未渲染]</p>" ++
              serializeChildren [Node.other]) ++
            (60 :: 47 :: (tag ++ [62]))) ∧
    (∀ data, serialize (Node.text data) = escapeText data) ∧
    serialize Node.other = [] ∧
    (∀ tag attrs children surface,
      serialize (Node.element tag attrs children surface) =
        if isChartWrap (Node.element tag attrs children surface) then
          chartImage (Node.element tag attrs children surface)
        else if voidTags.contains tag then 60 :: (tag ++ serializeAttrs attrs ++ [62])
        else
          60 :: (tag ++ serializeAttrs attrs ++ [62] ++ serializeChildren children ++
            (60 :: 47 :: tag) ++ [62]))) :=
  ⟨by decide, by decide, by decide,
    C21_serialization_total [Node.text (js "a<b")] [Node.other] (wrapWithInstance none)
      (by decide) (by decide)⟩

/-! ## Reading the content -/

/-- The output of `getHtml` depends on the content, the mode, the placeholder
and on whether the editor is mounted, and on nothing else. -/
theorem getHtml_congr (e1 e2 : Editor) (h1 : e2.hasEditor = e1.hasEditor)
    (h2 : e2.content = e1.content) (h3 : e2.isReadonly = e1.isReadonly)
    (h4 : e2.placeholder = e1.placeholder) : getHtml e2 = getHtml e1 := by
  unfold getHtml Editor.surfaceNode
  rw [h1, h2, h3, h4]

/-- Calls of `getHtml` and `getMarkdown` leave the editor as it is. -/
theorem runOps_reads (H : Host) (e : Editor) (ops : List Op)
    (h : ∀ op ∈ ops, op = Op.getHtml ∨ op = Op.getMarkdown) : runOps H e ops = e := by
  induction ops with
  | nil => rfl
  | cons op rest ih =>
    have hop := h op (List.mem_cons_self op rest)
    have hrest : ∀ o ∈ rest, o = Op.getHtml ∨ o = Op.getMarkdown :=
      fun o ho => h o (List.mem_cons_of_mem op ho)
    rcases hop with hop | hop
    · rw [hop]; exact ih hrest
    · rw [hop]; exact ih hrest

/-! ## Chunks that are ignored or fail to parse -/

/-- C25 (non-string append is ignored): for every chunk that is not a string
(a number, `null`, `undefined`, a boolean, an object, an array),
`appendStreamChunk` returns the editor as it was: the stream buffer, the
content, the mode and the frame queue are unchanged, and neither the parser
nor the chart engine of the host is asked for anything. -/
theorem C25_nonstring_append (H : Host) (e : Editor) (chunk : Option Json)
    (h : ∀ s, chunk ≠ some (Json.str s)) :
    appendStreamChunk H e chunk = e ∧
    (∀ H2 : Host, appendStreamChunk H2 e chunk = appendStreamChunk H e chunk) := by
  have h1 := appendStreamChunk_nonstring H e chunk h
  refine ⟨h1, fun H2 => ?_⟩
  rw [h1, appendStreamChunk_nonstring H2 e chunk h]

theorem C25_nonstring_append_witness :
    (∀ s, some (Json.arr [Json.str (js "x")]) ≠ some (Json.str s)) ∧
    (appendStreamChunk refHost streamingEditor (some (Json.arr [Json.str (js "x")]))
        = streamingEditor ∧
    (∀ H2 : Host, appendStreamChunk H2 streamingEditor (some (Json.arr [Json.str (js "x")]))
      = appendStreamChunk refHost streamingEditor (some (Json.arr [Json.str (js "x")])))) :=
  ⟨fun _ h => Json.noConfusion (Option.some.inj h),
    C25_nonstring_append refHost streamingEditor (some (Json.arr [Json.str (js "x")]))
      (fun _ h => Json.noConfusion (Option.some.inj h))⟩

/-- C29 (append is not atomic on parse failure): `appendStreamChunk` returns
for every string chunk, with the chunk appended to the stream buffer of a
mounted editor; when the parse of the new buffer throws, nothing else has
changed: content, mode and frame queue are as before the call; so when the
content was the parse of the buffer before the call, it is afterwards the
parse of a strict prefix of the buffer, whose own parse has failed. -/
theorem C29_append_parse_failure (H : Host) (e : Editor) (s : JStr) (he : e.hasEditor = true)
    (hfail : H.markedParse (code H.platform (e.parseOptions (!e.isReadonly)))
      (e.streamBuffer ++ s) = none) :
    appendStreamChunk H e (some (Json.str s)) = { e with streamBuffer := e.streamBuffer ++ s } ∧
    (∀ (H2 : Host) (s2 : JStr),
      (appendStreamChunk H2 e (some (Json.str s2))).streamBuffer = e.streamBuffer ++ s2) ∧
    (∀ html0,
      H.markedParse (code H.platform (e.parseOptions (!e.isReadonly))) e.streamBuffer
        = some html0 →
      e.content = setInnerHTML H html0 →
      s ≠ [] ∧
      (appendStreamChunk H e (some (Json.str s))).content = setInnerHTML H html0 ∧
      (appendStreamChunk H e (some (Json.str s))).streamBuffer = e.streamBuffer ++ s ∧
      H.markedParse (code H.platform (e.parseOptions (!e.isReadonly)))
        (appendStreamChunk H e (some (Json.str s))).streamBuffer = none) := by
  have h1 : appendStreamChunk H e (some (Json.str s))
      = { e with streamBuffer := e.streamBuffer ++ s } := by
    simp only [appendStreamChunk, he, if_true, hfail]
  refine ⟨h1, fun H2 s2 => appendStreamChunk_buffer H2 e s2 he, ?_⟩
  intro html0 h0 hc
  have hne : s ≠ [] := by
    intro hs
    rw [hs, List.append_nil, h0] at hfail
    exact Option.noConfusion hfail
  rw [h1]
  exact ⟨hne, hc, rfl, hfail⟩

set_option maxRecDepth 100000 in
theorem C29_append_parse_failure_witness :
    streamedEditor.hasEditor = true ∧
    throwingHost.markedParse
      (code throwingHost.platform (streamedEditor.parseOptions (!streamedEditor.isReadonly)))
      (streamedEditor.streamBuffer ++ [0]) = none ∧
    (appendStreamChunk throwingHost streamedEditor (some (Json.str [0]))
      = { streamedEditor with streamBuffer := streamedEditor.streamBuffer ++ [0] } ∧
    (∀ (H2 : Host) (s2 : JStr),
      (appendStreamChunk H2 streamedEditor (some (Json.str s2))).streamBuffer
        = streamedEditor.streamBuffer ++ s2) ∧
    (∀ html0,
      throwingHost.markedParse
        (code throwingHost.platform (streamedEditor.parseOptions (!streamedEditor.isReadonly)))
        streamedEditor.streamBuffer = some html0 →
      streamedEditor.content = setInnerHTML throwingHost html0 →
      ([0] : JStr) ≠ [] ∧
      (appendStreamChunk throwingHost streamedEditor (some (Json.str [0]))).content
        = setInnerHTML throwingHost html0 ∧
      (appendStreamChunk throwingHost streamedEditor (some (Json.str [0]))).streamBuffer
        = streamedEditor.streamBuffer ++ [0] ∧
      throwingHost.markedParse
        (code throwingHost.platform (streamedEditor.parseOptions (!streamedEditor.isReadonly)))
        (appendStreamChunk throwingHost streamedEditor (some (Json.str [0]))).streamBuffer
        = none)) :=
  ⟨by decide, by rfl,
    C29_append_parse_failure throwingHost streamedEditor [0] (by decide) (by rfl)⟩

set_option maxRecDepth 100000 in
/-- The content of `streamedEditor` is the parse of its stream buffer. -/
theorem streamedEditor_consistent :
    streamedEditor.streamBuffer = js "hi" ∧
    throwingHost.markedParse
      (code throwingHost.platform (streamedEditor.parseOptions (!streamedEditor.isReadonly)))
      streamedEditor.streamBuffer = some (js "<p>hi</p>\n") ∧
    streamedEditor.content.map serialize
      = (setInnerHTML throwingHost (js "<p>hi</p>\n")).map serialize := by
  decide

/-! ## The text of a value is one line -/

/-- The digits of a number are printable characters. -/
theorem decDigitsAux_printable (fuel n : Nat) (acc : JStr) (h : ∀ c ∈ acc, 32 ≤ c) :
    ∀ c ∈ decDigitsAux fuel n acc, 32 ≤ c := by
  induction fuel generalizing n acc with
  | zero => exact h
  | succ fuel ih =>
    rw [decDigitsAux]
    by_cases hn : n < 10
    · rw [if_pos hn]
      intro c hc
      rcases List.mem_cons.mp hc with hc | hc
      · omega
      · exact h c hc
    · rw [if_neg hn]
      apply ih
      intro c hc
      rcases List.mem_cons.mp hc with hc | hc
      · omega
      · exact h c hc

/-- The text of an integer holds printable characters only. -/
theorem intText_printable (n : Int) : ∀ c ∈ intText n, 32 ≤ c := by
  unfold intText decDigits
  by_cases hn : n < 0
  · rw [if_pos hn]
    intro c hc
    rcases List.mem_cons.mp hc with hc | hc
    · omega
    · exact decDigitsAux_printable _ _ [] (fun _ h => absurd h (List.not_mem_nil _)) c hc
  · rw [if_neg hn]
    exact decDigitsAux_printable _ _ [] (fun _ h => absurd h (List.not_mem_nil _))

/-- A hexadecimal digit is a printable character. -/
theorem hexLower_printable (n : Nat) : 32 ≤ hexLower n := by
  unfold hexLower
  by_cases h : n < 10
  · rw [if_pos h]; omega
  · rw [if_neg h]; omega

/-- An escape `\uXXXX` holds printable characters only. -/
theorem unicodeEscape_printable (c : Nat) : ∀ x ∈ unicodeEscape c, 32 ≤ x := by
  intro x hx
  unfold unicodeEscape at hx
  simp only [List.mem_cons, List.mem_singleton, List.not_mem_nil, or_false] at hx
  rcases hx with h | h | h | h | h | h
  · omega
  · omega
  · rw [h]; exact hexLower_printable _
  · rw [h]; exact hexLower_printable _
  · rw [h]; exact hexLower_printable _
  · rw [h]; exact hexLower_printable _

/-- Two printable characters before a printable text. -/
theorem printable_cons2 (a b : Nat) (s : JStr) (ha : 32 ≤ a) (hb : 32 ≤ b)
    (h : ∀ c ∈ s, 32 ≤ c) : ∀ c ∈ a :: b :: s, 32 ≤ c := by
  intro c hc
  rcases List.mem_cons.mp hc with hc | hc
  · omega
  rcases List.mem_cons.mp hc with hc | hc
  · omega
  · exact h c hc

/-- A printable text after a printable text. -/
theorem printable_append (a b : JStr) (ha : ∀ c ∈ a, 32 ≤ c) (hb : ∀ c ∈ b, 32 ≤ c) :
    ∀ c ∈ a ++ b, 32 ≤ c := by
  intro c hc
  rcases List.mem_append.mp hc with hc | hc
  · exact ha c hc
  · exact hb c hc

/-- A printable character before a printable text. -/
theorem printable_cons (a : Nat) (s : JStr) (ha : 32 ≤ a) (h : ∀ c ∈ s, 32 ≤ c) :
    ∀ c ∈ a :: s, 32 ≤ c := by
  intro c hc
  rcases List.mem_cons.mp hc with hc | hc
  · omega
  · exact h c hc

/-- QuoteJSONString escapes every control character. -/
theorem quoteJSONLoop_printable : ∀ (s : JStr) (paired : Bool),
    (paired = true → startsWithLow s = true) → ∀ c ∈ quoteJSONLoop paired s, 32 ≤ c
  | [], paired, _ => by
    rw [quoteJSONLoop_nil]
    exact fun _ h => absurd h (List.not_mem_nil _)
  | c :: tail, true, hp => by
    have hl : isLowSurrogate c = true := hp rfl
    have hc : 56320 ≤ c := by
      have := hl
      simp only [isLowSurrogate, Bool.and_eq_true, decide_eq_true_eq] at this
      exact this.1
    rw [quoteJSONLoop_true_cons]
    exact printable_cons c _ (by omega)
      (quoteJSONLoop_printable tail false (fun h => Bool.noConfusion h))
  | c :: tail, false, _ => by
    have ih := quoteJSONLoop_printable tail false (fun h => Bool.noConfusion h)
    rw [quoteJSONLoop_false_cons]
    by_cases h8 : c = 8
    · rw [if_pos h8]; exact printable_cons2 _ _ _ (by omega) (by omega) ih
    rw [if_neg h8]
    by_cases h9 : c = 9
    · rw [if_pos h9]; exact printable_cons2 _ _ _ (by omega) (by omega) ih
    rw [if_neg h9]
    by_cases h10 : c = 10
    · rw [if_pos h10]; exact printable_cons2 _ _ _ (by omega) (by omega) ih
    rw [if_neg h10]
    by_cases h12 : c = 12
    · rw [if_pos h12]; exact printable_cons2 _ _ _ (by omega) (by omega) ih
    rw [if_neg h12]
    by_cases h13 : c = 13
    · rw [if_pos h13]; exact printable_cons2 _ _ _ (by omega) (by omega) ih
    rw [if_neg h13]
    by_cases h34 : c = 34
    · rw [if_pos h34]; exact printable_cons2 _ _ _ (by omega) (by omega) ih
    rw [if_neg h34]
    by_cases h92 : c = 92
    · rw [if_pos h92]; exact printable_cons2 _ _ _ (by omega) (by omega) ih
    rw [if_neg h92]
    by_cases h32 : c < 32
    · rw [if_pos h32]; exact printable_append _ _ (unicodeEscape_printable c) ih
    rw [if_neg h32]
    by_cases hh : isHighSurrogate c = true
    · rw [if_pos hh]
      by_cases hs : startsWithLow tail = true
      · rw [if_pos hs]
        exact printable_cons c _ (by omega) (quoteJSONLoop_printable tail true (fun _ => hs))
      · rw [if_neg hs]; exact printable_append _ _ (unicodeEscape_printable c) ih
    rw [if_neg hh]
    by_cases hl : isLowSurrogate c = true
    · rw [if_pos hl]; exact printable_append _ _ (unicodeEscape_printable c) ih
    rw [if_neg hl]
    exact printable_cons c _ (by omega) ih

/-- A quoted string holds printable characters only. -/
theorem quoteJSONString_printable (s : JStr) : ∀ c ∈ quoteJSONString s, 32 ≤ c := by
  unfold quoteJSONString
  exact printable_cons 34 _ (by omega)
    (printable_append _ _ (quoteJSONLoop_printable s false (fun h => Bool.noConfusion h))
      (printable_cons 34 [] (by omega) (fun _ h => absurd h (List.not_mem_nil _))))

mutual
/-- The text `JSON.stringify` gives for a value holds no control character,
so no line break, when the texts of its number literals hold none. -/
theorem stringify_printable (P : Platform) : ∀ (x : Json),
    x.numLitsAll (fun lit => ∀ c ∈ stringify P (Json.numLit lit), 32 ≤ c) →
    ∀ c ∈ stringify P x, 32 ≤ c
  | .null, _ => by rw [stringify]; decide
  | .bool true, _ => by rw [stringify]; decide
  | .bool false, _ => by rw [stringify]; decide
  | .num n, _ => by rw [stringify]; exact intText_printable n
  | .numLit lit, h => h
  | .str s, _ => by rw [stringify]; exact quoteJSONString_printable s
  | .arr [], _ => by rw [stringify]; decide
  | .arr (x :: xs), h => by
    rw [stringify]
    exact printable_cons 91 _ (by omega)
      (printable_append _ _ (stringify_printable P x h.1) (stringifyElems_printable P xs h.2))
  | .obj [], _ => by rw [stringify]; decide
  | .obj ((k, v) :: kvs), h => by
    rw [stringify]
    exact printable_cons 123 _ (by omega)
      (printable_append _ _ (quoteJSONString_printable k)
        (printable_cons 58 _ (by omega)
          (printable_append _ _ (stringify_printable P v h.1)
            (stringifyMembers_printable P kvs h.2))))
/-- The same for the rest of an array. -/
theorem stringifyElems_printable (P : Platform) : ∀ (xs : List Json),
    Json.numLitsAllList (fun lit => ∀ c ∈ stringify P (Json.numLit lit), 32 ≤ c) xs →
    ∀ c ∈ stringifyElems P xs, 32 ≤ c
  | [], _ => by rw [stringifyElems]; decide
  | x :: xs, h => by
    rw [stringifyElems]
    exact printable_cons 44 _ (by omega)
      (printable_append _ _ (stringify_printable P x h.1) (stringifyElems_printable P xs h.2))
/-- The same for the rest of an object. -/
theorem stringifyMembers_printable (P : Platform) : ∀ (kvs : List (JStr × Json)),
    Json.numLitsAllMembers (fun lit => ∀ c ∈ stringify P (Json.numLit lit), 32 ≤ c) kvs →
    ∀ c ∈ stringifyMembers P kvs, 32 ≤ c
  | [], _ => by rw [stringifyMembers]; decide
  | (k, v) :: kvs, h => by
    rw [stringifyMembers]
    exact printable_cons 44 _ (by omega)
      (printable_append _ _ (quoteJSONString_printable k)
        (printable_cons 58 _ (by omega)
          (printable_append _ _ (stringify_printable P v h.1)
            (stringifyMembers_printable P kvs h.2))))
end

mutual
/-- A value without number literals satisfies every condition on them. -/
theorem numLitsAll_of_isValue (Q : JStr → Prop) : ∀ (x : Json), x.isValue = true →
    x.numLitsAll Q
  | .null, _ => trivial
  | .bool _, _ => trivial
  | .num _, _ => trivial
  | .numLit _, h => by simp [Json.isValue] at h
  | .str _, _ => trivial
  | .arr xs, h => by
    have : Json.isValueList xs = true := by simpa [Json.isValue] using h
    exact numLitsAllList_of_isValue Q xs this
  | .obj kvs, h => by
    have : propertyOrdered kvs = true ∧ Json.isValueMembers kvs = true := by
      simpa [Json.isValue] using h
    exact numLitsAllMembers_of_isValue Q kvs this.2
/-- The same for a list of elements. -/
theorem numLitsAllList_of_isValue (Q : JStr → Prop) : ∀ (xs : List Json),
    Json.isValueList xs = true → Json.numLitsAllList Q xs
  | [], _ => trivial
  | x :: xs, h => by
    have h2 : x.isValue = true ∧ Json.isValueList xs = true := by
      simpa [Json.isValueList] using h
    exact ⟨numLitsAll_of_isValue Q x h2.1, numLitsAllList_of_isValue Q xs h2.2⟩
/-- The same for a list of members. -/
theorem numLitsAllMembers_of_isValue (Q : JStr → Prop) : ∀ (kvs : List (JStr × Json)),
    Json.isValueMembers kvs = true → Json.numLitsAllMembers Q kvs
  | [], _ => trivial
  | (k, v) :: kvs, h => by
    have h2 : (isJStr k = true ∧ v.isValue = true) ∧ Json.isValueMembers kvs = true := by
      simpa [Json.isValueMembers] using h
    exact ⟨numLitsAll_of_isValue Q v h2.1.2, numLitsAllMembers_of_isValue Q kvs h2.2⟩
end

/-! ## The export rule for pending charts -/

/-- The export rule on a block whose carrier decodes to a text. -/
theorem echartsPendingReplacement_text (node : Node) (c text : JStr)
    (ha : node.getAttribute optionAttr = some c) (hc : c ≠ [])
    (ht : decodeCarrierText c = some text) :
    echartsPendingReplacement node = js "\n\n```echarts\n" ++ text ++ js "\n```\n\n" := by
  unfold echartsPendingReplacement
  rw [ha]
  simp only
  rw [if_neg hc, ht]

/-- The export rule on a block whose carrier does not decode to a text. -/
theorem echartsPendingReplacement_none (node : Node) (c : JStr)
    (ha : node.getAttribute optionAttr = some c) (ht : decodeCarrierText c = none) :
    echartsPendingReplacement node = [] := by
  unfold echartsPendingReplacement
  rw [ha]
  simp only
  by_cases hc : c = []
  · rw [if_pos hc]
  · rw [if_neg hc, ht]

set_option maxRecDepth 100000 in
/-- C23, the input on which the claim fails: for the pending chart of the
configuration with `a` equal to 1 the export rule writes a fence with the
language tag `echarts` and the one-line text of the configuration; a fence
with the tag `chart` and the indented text is another string. -/
theorem C23_counterexample :
    echartsPendingFilter
      (pendingNode carrierA (stringifyPretty refPlatform [] (Json.obj [(js "a", Json.num 1)])))
      = true ∧
    encodeCarrier refPlatform (Json.obj [(js "a", Json.num 1)]) = some carrierA ∧
    stringifyPretty refPlatform [] (Json.obj [(js "a", Json.num 1)])
      = js "\x7b\n  \"a\": 1\n\x7d" ∧
    echartsPendingReplacement
      (pendingNode carrierA (stringifyPretty refPlatform [] (Json.obj [(js "a", Json.num 1)])))
      = js "\n\n```echarts\n\x7b\"a\":1\x7d\n```\n\n" ∧
    echartsPendingReplacement
      (pendingNode carrierA (stringifyPretty refPlatform [] (Json.obj [(js "a", Json.num 1)])))
      ≠ js "\n\n```chart\n\x7b\n  \"a\": 1\n\x7d\n```\n\n" := by
  decide

set_option maxRecDepth 100000 in
/-- C24, the input on which the claim fails: the carrier of the text
`not json` decodes to this text, which is no JSON (the mounter gets no
configuration out of it), and the export rule writes a fence around it. -/
theorem C24_counterexample :
    echartsPendingFilter pendingNotJson = true ∧
    pendingNotJson.getAttribute optionAttr = some carrierNotJson ∧
    decodeCarrierText carrierNotJson = some (js "not json") ∧
    (jsonParse (js "not json")).isSome = false ∧
    decodable pendingNotJson = false ∧
    echartsPendingReplacement pendingNotJson = js "\n\n```echarts\nnot json\n```\n\n" ∧
    echartsPendingReplacement pendingNotJson ≠ [] := by
  decide

/-- C24 (export drops undecodable pending nodes), as the code has it: the
export rule returns the empty string for a pending chart node whose carrier
attribute is missing or empty, is not base64, or holds octets that are not
UTF-8; when the carrier decodes to a text the rule writes the fence with
this text, whether or not the text is JSON, which the rule never checks. -/
theorem C24_export_drops_undecodable (node : Node) :
    (node.getAttribute optionAttr = none → echartsPendingReplacement node = []) ∧
    (node.getAttribute optionAttr = some [] → echartsPendingReplacement node = []) ∧
    (∀ c, node.getAttribute optionAttr = some c → atob c = none →
      echartsPendingReplacement node = []) ∧
    (∀ c bin, node.getAttribute optionAttr = some c → atob c = some bin →
      decodeURIComponent (escape bin) = none → echartsPendingReplacement node = []) ∧
    (∀ c text, node.getAttribute optionAttr = some c → c ≠ [] →
      decodeCarrierText c = some text →
      echartsPendingReplacement node = js "\n\n```echarts\n" ++ text ++ js "\n```\n\n" ∧
      echartsPendingReplacement node ≠ []) := by
  refine ⟨?_, ?_, ?_, ?_, ?_⟩
  · intro h
    unfold echartsPendingReplacement
    rw [h]
  · intro h
    unfold echartsPendingReplacement
    rw [h]
    rfl
  · intro c ha hb
    apply echartsPendingReplacement_none node c ha
    unfold decodeCarrierText
    rw [hb]
  · intro c bin ha hb hd
    apply echartsPendingReplacement_none node c ha
    unfold decodeCarrierText
    rw [hb]
    exact hd
  · intro c text ha hc ht
    have h := echartsPendingReplacement_text node c text ha hc ht
    refine ⟨h, ?_⟩
    rw [h]
    intro he
    have : ((js "\n\n```echarts\n" ++ text ++ js "\n```\n\n") : JStr).length = 0 := by
      rw [he]; rfl
    simp only [List.length_append] at this
    have h2 : (js "\n\n```echarts\n").length = 13 := by decide
    omega

/-! ## The table of `insertTable` -/

/-- The loop that appends a piece `n` times. -/
theorem appendTimes_eq (n : Nat) (piece : JStr) :
    ∀ html, appendTimes n piece html = html ++ (List.replicate n piece).flatten := by
  induction n with
  | zero => intro html; simp [appendTimes]
  | succ n ih =>
    intro html
    rw [appendTimes, ih, List.replicate_succ, List.flatten_cons, List.append_assoc]

/-- The loop that appends `n` rows. -/
theorem appendRows_eq (n cols : Nat) :
    ∀ html, appendRows n cols html =
      html ++ (List.replicate n
        (js "<tr>" ++ (List.replicate cols (js "<td></td>")).flatten ++ js "</tr>")).flatten := by
  induction n with
  | zero => intro html; simp [appendRows]
  | succ n ih =>
    intro html
    rw [appendRows, ih, appendTimes_eq, List.replicate_succ, List.flatten_cons]
    simp only [List.append_assoc]

/-- The serialization of `n` copies of a node. -/
theorem serializeChildren_replicate (n : Nat) (x : Node) :
    serializeChildren (List.replicate n x) = (List.replicate n (serialize x)).flatten := by
  rw [serializeChildren_eq, List.map_replicate]

/-- An element without attributes and without a container child is no chart wrap. -/
theorem isChartWrap_plainElement (tag : JStr) (children : List Node)
    (h : children.any (fun c => c.hasClass containerClass) = false) :
    isChartWrap (plainElement tag children) = false := by
  unfold plainElement isChartWrap
  have h1 : Node.hasClass wrapClass (Node.element tag [] children none) = false := rfl
  simp only [h1, h, Bool.false_and, Bool.or_false]

/-- Copies of an element without attributes hold no container. -/
theorem any_container_replicate (n : Nat) (tag : JStr) (children : List Node) :
    (List.replicate n (plainElement tag children)).any (fun c => c.hasClass containerClass)
      = false := by
  rw [List.any_eq_false]
  intro x hx
  have hx2 : Node.hasClass containerClass (plainElement tag children) = false := rfl
  rw [List.eq_of_mem_replicate hx, hx2]
  simp

/-- The serialization of an element without attributes that is neither a
chart wrap nor void. -/
theorem serialize_plainElement (tag : JStr) (children : List Node)
    (h : children.any (fun c => c.hasClass containerClass) = false)
    (hv : voidTags.contains tag = false) :
    serialize (plainElement tag children)
      = 60 :: (tag ++ [62]) ++ serializeChildren children ++ (60 :: 47 :: (tag ++ [62])) := by
  have hc := isChartWrap_plainElement tag children h
  unfold plainElement at hc ⊢
  rw [serialize_element, hc, hv]
  simp [serializeAttrs]

/-- The cells of a row of `cols` cells of one kind. -/
theorem rowCells_replicate (cols : Nat) (tag : JStr) (h : tag = js "th" ∨ tag = js "td") :
    (rowCells (plainElement (js "tr") (List.replicate cols (plainElement tag [])))).length
      = cols := by
  have hf : (fun c : Node => c.hasTag (js "th") || c.hasTag (js "td")) (plainElement tag [])
      = true := by
    rcases h with h | h <;> subst h <;> rfl
  show ((List.replicate cols (plainElement tag [])).filter
    (fun c => c.hasTag (js "th") || c.hasTag (js "td"))).length = cols
  rw [List.filter_eq_self.mpr, List.length_replicate]
  intro x hx
  rw [List.eq_of_mem_replicate hx]
  exact hf

/-- The rows of the table of `insertTable`: the header row, then the body rows. -/
theorem tableRows_tableOf (rows cols : Nat) :
    tableRows (tableOf rows cols) =
      plainElement (js "tr") (List.replicate cols (plainElement (js "th") [])) ::
        List.replicate (rows - 1)
          (plainElement (js "tr") (List.replicate cols (plainElement (js "td") []))) := by
  have hf : ∀ n (x : Node), Node.hasTag (js "tr") x = true →
      (List.replicate n x).filter (Node.hasTag (js "tr")) = List.replicate n x := by
    intro n x hx
    rw [List.filter_eq_self]
    intro y hy
    rw [List.eq_of_mem_replicate hy]
    exact hx
  have hh : Node.hasTag (js "tr")
      (plainElement (js "tr") (List.replicate cols (plainElement (js "th") []))) = true := rfl
  unfold tableRows tableOf
  simp only [plainElement, Node.children, List.flatMap_cons, List.flatMap_nil, List.append_nil]
  simp only [plainElement] at hf hh
  rw [hf (rows - 1) (Node.element (js "tr") []
    (List.replicate cols (Node.element (js "td") [] [] none)) none) rfl, List.filter_cons, hh]
  rfl

/-- The string `insertTable` builds is the markup of the table. -/
theorem insertTableHtml_eq (rows cols : Nat) :
    insertTableHtml rows cols = serialize (tableOf rows cols) := by
  have hth : serialize (plainElement (js "th") []) = js "<th></th>" := by decide
  have htd : serialize (plainElement (js "td") []) = js "<td></td>" := by decide
  have hv : ∀ t : JStr, t = js "tr" ∨ t = js "thead" ∨ t = js "tbody" ∨ t = js "table" →
      voidTags.contains t = false := by
    intro t ht
    rcases ht with h | h | h | h <;> subst h <;> decide
  have hrow : ∀ (tag : JStr) (cell : JStr), serialize (plainElement tag []) = cell →
      serialize (plainElement (js "tr") (List.replicate cols (plainElement tag [])))
        = js "<tr>" ++ (List.replicate cols cell).flatten ++ js "</tr>" := by
    intro tag cell hcell
    rw [serialize_plainElement _ _ (any_container_replicate cols tag []) (hv _ (Or.inl rfl)),
      serializeChildren_replicate, hcell]
    rfl
  have hany1 : ([plainElement (js "tr") (List.replicate cols (plainElement (js "th") []))]).any
      (fun c => c.hasClass containerClass) = false := rfl
  have hany2 : ([plainElement (js "thead")
        [plainElement (js "tr") (List.replicate cols (plainElement (js "th") []))],
      plainElement (js "tbody")
        (List.replicate (rows - 1)
          (plainElement (js "tr") (List.replicate cols (plainElement (js "td") []))))]).any
      (fun c => c.hasClass containerClass) = false := rfl
  unfold insertTableHtml tableOf
  rw [serialize_plainElement _ _ hany2 (hv _ (Or.inr (Or.inr (Or.inr rfl))))]
  rw [serializeChildren, serializeChildren, serializeChildren]
  rw [serialize_plainElement _ _ hany1 (hv _ (Or.inr (Or.inl rfl)))]
  rw [serialize_plainElement _ _ (any_container_replicate (rows - 1) (js "tr") _)
    (hv _ (Or.inr (Or.inr (Or.inl rfl))))]
  rw [serializeChildren, serializeChildren, hrow _ _ hth, serializeChildren_replicate,
    hrow _ _ htd, appendRows_eq, appendTimes_eq]
  have e1 : js "<table><thead><tr>" = 60 :: (js "table" ++ [62]) ++ (60 :: (js "thead" ++ [62]) ++
      js "<tr>") := by decide
  have e2 : js "</tr></thead><tbody>" = js "</tr>" ++ (60 :: 47 :: (js "thead" ++ [62])) ++
      (60 :: (js "tbody" ++ [62])) := by decide
  have e3 : js "</tbody></table>" = (60 :: 47 :: (js "tbody" ++ [62])) ++
      (60 :: 47 :: (js "table" ++ [62])) := by decide
  rw [e1, e2, e3]
  simp only [List.append_assoc, List.append_nil, List.cons_append, List.nil_append]

/-- C26 (insertTable shape): for every positive number of rows, and every
number of columns, the string `insertTable(rows, cols)` builds is the markup
of a table with exactly `rows` rows of exactly `cols` cells each: one header
row of `cols` cells `th` in `thead`, and `rows - 1` rows of `cols` cells `td`
in `tbody`. -/
theorem C26_insertTable_shape (rows cols : Nat) (hr : 0 < rows) :
    insertTableHtml rows cols = serialize (tableOf rows cols) ∧
    (tableRows (tableOf rows cols)).length = rows ∧
    (∀ row ∈ tableRows (tableOf rows cols), (rowCells row).length = cols) ∧
    tableRows (tableOf rows cols) =
      plainElement (js "tr") (List.replicate cols (plainElement (js "th") [])) ::
        List.replicate (rows - 1)
          (plainElement (js "tr") (List.replicate cols (plainElement (js "td") []))) ∧
    insertTableHtml rows cols =
      js "<table><thead><tr>" ++ (List.replicate cols (js "<th></th>")).flatten ++
        js "</tr></thead><tbody>" ++
        (List.replicate (rows - 1)
          (js "<tr>" ++ (List.replicate cols (js "<td></td>")).flatten ++ js "</tr>")).flatten ++
        js "</tbody></table>" := by
  refine ⟨insertTableHtml_eq rows cols, ?_, ?_, tableRows_tableOf rows cols, ?_⟩
  · rw [tableRows_tableOf, List.length_cons, List.length_replicate]
    omega
  · intro row hrow
    rw [tableRows_tableOf] at hrow
    rcases List.mem_cons.mp hrow with h | h
    · rw [h]; exact rowCells_replicate cols _ (Or.inl rfl)
    · rw [List.eq_of_mem_replicate h]; exact rowCells_replicate cols _ (Or.inr rfl)
  · unfold insertTableHtml
    rw [appendRows_eq, appendTimes_eq]

theorem C26_insertTable_shape_witness :
    0 < 3 ∧
    (insertTableHtml 3 2 = serialize (tableOf 3 2) ∧
    (tableRows (tableOf 3 2)).length = 3 ∧
    (∀ row ∈ tableRows (tableOf 3 2), (rowCells row).length = 2) ∧
    tableRows (tableOf 3 2) =
      plainElement (js "tr") (List.replicate 2 (plainElement (js "th") [])) ::
        List.replicate (3 - 1)
          (plainElement (js "tr") (List.replicate 2 (plainElement (js "td") []))) ∧
    insertTableHtml 3 2 =
      js "<table><thead><tr>" ++ (List.replicate 2 (js "<th></th>")).flatten ++
        js "</tr></thead><tbody>" ++
        (List.replicate (3 - 1)
          (js "<tr>" ++ (List.replicate 2 (js "<td></td>")).flatten ++ js "</tr>")).flatten ++
        js "</tbody></table>") :=
  ⟨by decide, C26_insertTable_shape 3 2 (by decide)⟩

/-- The string `insertTable(3, 2)` builds. -/
theorem insertTableHtml_example :
    insertTableHtml 3 2 = js ("<table><thead><tr><th></th><th></th></tr></thead><tbody>" ++
      "<tr><td></td><td></td></tr><tr><td></td><td></td></tr></tbody></table>") := by
  decide

/-! ## The function `rgbToHex` -/

/-- White space before a text is skipped. -/
theorem trimStart_append (w s : JStr) (hw : ∀ c ∈ w, isTrimSpace c = true) :
    trimStart (w ++ s) = trimStart s := by
  induction w with
  | nil => rfl
  | cons c w ih =>
    have hc : isTrimSpace c = true := hw c (List.mem_cons_self c w)
    have hw2 : ∀ x ∈ w, isTrimSpace x = true := fun x hx => hw x (List.mem_cons_of_mem c hx)
    rw [List.cons_append, trimStart, if_pos hc, ih hw2]

/-- A text that starts with another character is left as it is. -/
theorem trimStart_cons (c : Nat) (s : JStr) (hc : isTrimSpace c = false) :
    trimStart (c :: s) = c :: s := by
  rw [trimStart, hc]
  rfl

/-- A digit is no white space. -/
theorem isTrimSpace_digit (c : Nat) (h : isDigit c = true) : isTrimSpace c = false := by
  simp only [isDigit, Bool.and_eq_true, decide_eq_true_eq] at h
  simp only [isTrimSpace, Bool.or_eq_false_iff, Bool.and_eq_false_iff, decide_eq_false_iff_not]
  omega

/-- White space is no digit. -/
theorem isDigit_space (c : Nat) (h : isTrimSpace c = true) : isDigit c = false := by
  cases hd : isDigit c with
  | false => rfl
  | true => rw [isTrimSpace_digit c hd] at h; exact Bool.noConfusion h

/-- One component of the pattern: white space, digits, white space and the
closing character. -/
theorem matchComponent_eq (close : Nat) (w1 d w2 rest : JStr)
    (hw1 : ∀ c ∈ w1, isTrimSpace c = true) (hw2 : ∀ c ∈ w2, isTrimSpace c = true)
    (hd : d.all isDigit = true) (hne : d ≠ [])
    (hc1 : isTrimSpace close = false) (hc2 : isDigit close = false) :
    matchComponent close (w1 ++ d ++ w2 ++ close :: rest) = some (d, rest) := by
  have h1 : trimStart (w1 ++ d ++ w2 ++ close :: rest) = d ++ (w2 ++ close :: rest) := by
    rw [List.append_assoc, List.append_assoc, trimStart_append _ _ hw1]
    cases d with
    | nil => exact absurd rfl hne
    | cons a t =>
      have ha : isDigit a = true := by
        have := hd
        simp only [List.all_cons, Bool.and_eq_true] at this
        exact this.1
      rw [List.cons_append, trimStart_cons a _ (isTrimSpace_digit a ha)]
  have h2 : takeDigits (d ++ (w2 ++ close :: rest)) = (d, w2 ++ close :: rest) := by
    apply takeDigits_append d _ hd
    intro c hc
    cases w2 with
    | nil =>
      have : close = c := by simpa using hc
      rw [← this]; exact hc2
    | cons a t =>
      have : a = c := by simpa using hc
      rw [← this]
      exact isDigit_space a (hw2 a (List.mem_cons_self a t))
  have h3 : trimStart (w2 ++ close :: rest) = close :: rest := by
    rw [trimStart_append _ _ hw2, trimStart_cons close rest hc1]
  unfold matchComponent
  rw [h1, h2]
  simp only [if_neg hne, h3, if_true]

/-- The pattern matches the text `rgb(r, g, b)` with white space around the
numbers, and its groups are the three runs of digits. -/
theorem matchRgb_rgbText (w0 w1 r w2 w3 g w4 w5 b w6 : JStr)
    (h0 : ∀ c ∈ w0, isTrimSpace c = true) (h1 : ∀ c ∈ w1, isTrimSpace c = true)
    (h2 : ∀ c ∈ w2, isTrimSpace c = true) (h3 : ∀ c ∈ w3, isTrimSpace c = true)
    (h4 : ∀ c ∈ w4, isTrimSpace c = true) (h5 : ∀ c ∈ w5, isTrimSpace c = true)
    (h6 : ∀ c ∈ w6, isTrimSpace c = true)
    (hr : r.all isDigit = true ∧ r ≠ []) (hg : g.all isDigit = true ∧ g ≠ [])
    (hb : b.all isDigit = true ∧ b ≠ []) :
    matchRgb (rgbText w0 w1 r w2 w3 g w4 w5 b w6) = some (r, g, b) := by
  have e0 : dropPrefix (js "rgb") (rgbText w0 w1 r w2 w3 g w4 w5 b w6)
      = some (w0 ++ 40 :: (w1 ++ r ++ w2 ++ 44 :: (w3 ++ g ++ w4 ++ 44 ::
          (w5 ++ b ++ w6 ++ [41])))) := rfl
  have e1 : trimStart (w0 ++ 40 :: (w1 ++ r ++ w2 ++ 44 :: (w3 ++ g ++ w4 ++ 44 ::
      (w5 ++ b ++ w6 ++ [41]))))
      = 40 :: (w1 ++ r ++ w2 ++ 44 :: (w3 ++ g ++ w4 ++ 44 :: (w5 ++ b ++ w6 ++ [41]))) := by
    rw [trimStart_append _ _ h0, trimStart_cons 40 _ (by decide)]
  unfold matchRgb
  rw [e0]
  simp only [e1, if_true]
  rw [matchComponent_eq 44 w1 r w2 _ h1 h2 hr.1 hr.2 (by decide) (by decide)]
  simp only
  rw [matchComponent_eq 44 w3 g w4 _ h3 h4 hg.1 hg.2 (by decide) (by decide)]
  simp only
  rw [matchComponent_eq 41 w5 b w6 _ h5 h6 hb.1 hb.2 (by decide) (by decide)]
  simp only [if_true]

/-- The helper `hex` on a run of digits with a value up to 255: two
hexadecimal digits. -/
theorem hexComponent_byte (bigHex : JStr → JStr) (d : JStr) (h : digitsValue 0 d ≤ 255) :
    hexComponent bigHex d
      = [hexLower (digitsValue 0 d / 16), hexLower (digitsValue 0 d % 16)] := by
  unfold hexComponent
  rw [if_pos (by omega)]
  generalize digitsValue 0 d = n at h ⊢
  by_cases h16 : n < 16
  · have e : hexDigits n = [hexLower n] := by
      unfold hexDigits
      rw [hexDigitsAux, if_pos h16]
    have e0 : n / 16 = 0 := by omega
    have e1 : n % 16 = n := by omega
    rw [e, e0, e1]
    rfl
  · have e : hexDigits n = [hexLower (n / 16), hexLower (n % 16)] := by
      unfold hexDigits
      rw [hexDigitsAux, if_neg h16]
      obtain ⟨m, hm⟩ : ∃ m, n = m + 1 := ⟨n - 1, by omega⟩
      rw [hm, hexDigitsAux, if_pos (by omega)]
    rw [e]
    rfl

/-- C30 (rgbToHex conversion): for all integers `r`, `g`, `b` from 0 to 255
written in decimal digits (also with leading zeros), with any amount of white
space around the numbers, `rgbToHex` returns `#` followed by exactly six
lower-case hexadecimal digits, whose three groups of two digits have the
values `r`, `g` and `b`. -/
theorem C30_rgbToHex (bigHex : JStr → JStr) (w0 w1 r w2 w3 g w4 w5 b w6 : JStr)
    (h0 : ∀ c ∈ w0, isTrimSpace c = true) (h1 : ∀ c ∈ w1, isTrimSpace c = true)
    (h2 : ∀ c ∈ w2, isTrimSpace c = true) (h3 : ∀ c ∈ w3, isTrimSpace c = true)
    (h4 : ∀ c ∈ w4, isTrimSpace c = true) (h5 : ∀ c ∈ w5, isTrimSpace c = true)
    (h6 : ∀ c ∈ w6, isTrimSpace c = true)
    (hr : r.all isDigit = true ∧ r ≠ [] ∧ digitsValue 0 r ≤ 255)
    (hg : g.all isDigit = true ∧ g ≠ [] ∧ digitsValue 0 g ≤ 255)
    (hb : b.all isDigit = true ∧ b ≠ [] ∧ digitsValue 0 b ≤ 255) :
    rgbToHex bigHex (rgbText w0 w1 r w2 w3 g w4 w5 b w6)
      = some [35, hexLower (digitsValue 0 r / 16), hexLower (digitsValue 0 r % 16),
          hexLower (digitsValue 0 g / 16), hexLower (digitsValue 0 g % 16),
          hexLower (digitsValue 0 b / 16), hexLower (digitsValue 0 b % 16)] ∧
    (∀ n, n ≤ 255 →
      hexVal (hexLower (n / 16)) = some (n / 16) ∧ hexVal (hexLower (n % 16)) = some (n % 16) ∧
      n / 16 * 16 + n % 16 = n ∧
      ((48 ≤ hexLower (n / 16) ∧ hexLower (n / 16) ≤ 57) ∨
        (97 ≤ hexLower (n / 16) ∧ hexLower (n / 16) ≤ 102)) ∧
      ((48 ≤ hexLower (n % 16) ∧ hexLower (n % 16) ≤ 57) ∨
        (97 ≤ hexLower (n % 16) ∧ hexLower (n % 16) ≤ 102))) ∧
    (∀ n, (decDigits n).all isDigit = true ∧ decDigits n ≠ [] ∧
      digitsValue 0 (decDigits n) = n) := by
  refine ⟨?_, ?_, ?_⟩
  · have hne : ¬ (rgbText w0 w1 r w2 w3 g w4 w5 b w6 = [] ∨
        (rgbText w0 w1 r w2 w3 g w4 w5 b w6).head? = some 35) := by
      have e : rgbText w0 w1 r w2 w3 g w4 w5 b w6 = 114 :: (103 :: 98 :: (w0 ++ 40 ::
          (w1 ++ r ++ w2 ++ 44 :: (w3 ++ g ++ w4 ++ 44 :: (w5 ++ b ++ w6 ++ [41]))))) := rfl
      rw [e]
      simp
    unfold rgbToHex
    rw [if_neg hne,
      matchRgb_rgbText w0 w1 r w2 w3 g w4 w5 b w6 h0 h1 h2 h3 h4 h5 h6 ⟨hr.1, hr.2.1⟩
        ⟨hg.1, hg.2.1⟩ ⟨hb.1, hb.2.1⟩]
    simp only
    rw [hexComponent_byte bigHex r hr.2.2, hexComponent_byte bigHex g hg.2.2,
      hexComponent_byte bigHex b hb.2.2]
    rfl
  · intro n hn
    have ha : n / 16 < 16 := by omega
    have hb2 : n % 16 < 16 := by omega
    refine ⟨hexVal_hexLower _ ha, hexVal_hexLower _ hb2, by omega, ?_, ?_⟩
    · unfold hexLower
      by_cases h : n / 16 < 10
      · rw [if_pos h]; omega
      · rw [if_neg h]; omega
    · unfold hexLower
      by_cases h : n % 16 < 10
      · rw [if_pos h]; omega
      · rw [if_neg h]; omega
  · intro n
    obtain ⟨a, b2, c, _⟩ := decDigits_spec n
    exact ⟨b2, c, a⟩

theorem C30_rgbToHex_witness :
    (∀ c ∈ ([] : JStr), isTrimSpace c = true) ∧ (∀ c ∈ js " ", isTrimSpace c = true) ∧
    (∀ c ∈ ([] : JStr), isTrimSpace c = true) ∧ (∀ c ∈ js " \t", isTrimSpace c = true) ∧
    (∀ c ∈ ([] : JStr), isTrimSpace c = true) ∧ (∀ c ∈ js " ", isTrimSpace c = true) ∧
    (∀ c ∈ js "\n", isTrimSpace c = true) ∧
    ((js "255").all isDigit = true ∧ js "255" ≠ [] ∧ digitsValue 0 (js "255") ≤ 255) ∧
    ((js "007").all isDigit = true ∧ js "007" ≠ [] ∧ digitsValue 0 (js "007") ≤ 255) ∧
    ((js "160").all isDigit = true ∧ js "160" ≠ [] ∧ digitsValue 0 (js "160") ≤ 255) ∧
    (rgbToHex (fun s => s)
        (rgbText [] (js " ") (js "255") [] (js " \t") (js "007") [] (js " ") (js "160") (js "\n"))
      = some [35, hexLower (digitsValue 0 (js "255") / 16),
          hexLower (digitsValue 0 (js "255") % 16),
          hexLower (digitsValue 0 (js "007") / 16), hexLower (digitsValue 0 (js "007") % 16),
          hexLower (digitsValue 0 (js "160") / 16), hexLower (digitsValue 0 (js "160") % 16)] ∧
    (∀ n, n ≤ 255 →
      hexVal (hexLower (n / 16)) = some (n / 16) ∧ hexVal (hexLower (n % 16)) = some (n % 16) ∧
      n / 16 * 16 + n % 16 = n ∧
      ((48 ≤ hexLower (n / 16) ∧ hexLower (n / 16) ≤ 57) ∨
        (97 ≤ hexLower (n / 16) ∧ hexLower (n / 16) ≤ 102)) ∧
      ((48 ≤ hexLower (n % 16) ∧ hexLower (n % 16) ≤ 57) ∨
        (97 ≤ hexLower (n % 16) ∧ hexLower (n % 16) ≤ 102))) ∧
    (∀ n, (decDigits n).all isDigit = true ∧ decDigits n ≠ [] ∧
      digitsValue 0 (decDigits n) = n)) :=
  ⟨by decide, by decide, by decide, by decide, by decide, by decide, by decide, by decide,
    by decide, by decide,
    C30_rgbToHex (fun s => s) [] (js " ") (js "255") [] (js " \t") (js "007") [] (js " ")
      (js "160") (js "\n") (by decide) (by decide) (by decide) (by decide) (by decide)
      (by decide) (by decide) (by decide) (by decide) (by decide)⟩

/-- The conversion of `rgb( 255 , 7,160 )` and of texts the pattern does not match. -/
theorem rgbToHex_examples :
    rgbToHex (fun s => s) (js "rgb( 255 , 7,160 )") = some (js "#ff07a0") ∧
    rgbToHex (fun s => s) (js "rgb(0, 0, 0)") = some (js "#000000") ∧
    rgbToHex (fun s => s) (js "#abc") = some (js "#abc") ∧
    rgbToHex (fun s => s) [] = some [] ∧
    rgbToHex (fun s => s) (js "rgba(1, 2, 3, 0.5)") = none ∧
    rgbToHex (fun s => s) (js "rgb(1, 2, 3) ") = none ∧
    rgbToHex (fun s => s) (js "rgb(256, 0, 0)") = some (js "#1000000") := by
  decide

/-! ## A promoted chart and a chart parsed in live mode -/

/-- Equality up to attribute order on two elements. -/
theorem equalUpToAttrOrder_element (t1 t2 : JStr) (a1 a2 : List (JStr × JStr))
    (c1 c2 : List Node) (s1 s2 : Option Surface) :
    equalUpToAttrOrder (Node.element t1 a1 c1 s1) (Node.element t2 a2 c2 s2) =
      (decide (t1 = t2) && decide (a1.Perm a2) && equalListUpToAttrOrder c1 c2 &&
        decide (s1.map (fun s => s.dataURL) = s2.map (fun s => s.dataURL))) := by
  rw [equalUpToAttrOrder]

/-- Equality up to attribute order on two lists that start with a node. -/
theorem equalListUpToAttrOrder_cons (a b : Node) (as bs : List Node) :
    equalListUpToAttrOrder (a :: as) (b :: bs) =
      (equalUpToAttrOrder a b && equalListUpToAttrOrder as bs) := by
  rw [equalListUpToAttrOrder]

/-- An element without children is equal to another one up to attribute
order when the names agree and the attributes are a rearrangement. -/
theorem equalUpToAttrOrder_leaf (t : JStr) (a1 a2 : List (JStr × JStr)) (h : a1.Perm a2) :
    equalUpToAttrOrder (Node.element t a1 [] none) (Node.element t a2 [] none) = true := by
  rw [equalUpToAttrOrder_element]
  have hl : equalListUpToAttrOrder [] [] = true := by rw [equalListUpToAttrOrder]
  simp only [hl, Bool.and_eq_true, decide_eq_true_eq, and_true, true_and]
  exact h

/-- The wrap the promoter creates has the attributes and children of the
wrap the HTML parser builds from the live template, the data span with two
attributes in the other order, and the two `style` attributes in the form
the style serializer writes them. -/
theorem promotedWrap_restyle (H : Host) (c : JStr) :
    equalUpToAttrOrder (promotedWrap H c) (restyle H (liveWrapNode c)) = true := by
  have e : restyle H (liveWrapNode c) =
      Node.element (js "div")
        [(js "class", wrapClass), (js "contenteditable", js "false"), (optionAttr, c)]
        [Node.element (js "span")
           [(js "class", dataClass), (js "style", H.cssText (js "display:none !important")),
            (optionAttr, c), (js "aria-hidden", js "true")] [] none,
         Node.element (js "div")
           [(js "class", containerClass), (js "style", H.cssText (js "width:100%;height:300px"))]
           [] none]
        none := rfl
  rw [e]
  unfold promotedWrap
  rw [equalUpToAttrOrder_element, equalListUpToAttrOrder_cons, equalListUpToAttrOrder_cons]
  have h1 := equalUpToAttrOrder_leaf (js "span")
    [(js "class", dataClass), (js "style", H.cssText (js "display:none !important")),
      (js "aria-hidden", js "true"), (optionAttr, c)]
    [(js "class", dataClass), (js "style", H.cssText (js "display:none !important")),
      (optionAttr, c), (js "aria-hidden", js "true")]
    (((List.Perm.swap _ _ []).cons _).cons _)
  have h2 := equalUpToAttrOrder_leaf (js "div")
    [(js "class", containerClass), (js "style", H.cssText (js "width:100%;height:300px"))]
    [(js "class", containerClass), (js "style", H.cssText (js "width:100%;height:300px"))]
    (List.Perm.refl _)
  have hl : equalListUpToAttrOrder [] [] = true := by rw [equalListUpToAttrOrder]
  rw [h1, h2, hl]
  simp only [Bool.and_eq_true, decide_eq_true_eq, and_true, true_and]
  exact List.Perm.refl _

/-- A style serializer that leaves the two style texts of the template as
they are makes the tree with rewritten styles the tree itself. -/
theorem restyle_liveWrapNode (H : Host) (c : JStr)
    (h1 : H.cssText (js "display:none !important") = js "display:none !important")
    (h2 : H.cssText (js "width:100%;height:300px") = js "width:100%;height:300px") :
    restyle H (liveWrapNode c) = liveWrapNode c := by
  have e : restyle H (liveWrapNode c) =
      Node.element (js "div")
        [(js "class", wrapClass), (js "contenteditable", js "false"), (optionAttr, c)]
        [Node.element (js "span")
           [(js "class", dataClass), (js "style", H.cssText (js "display:none !important")),
            (optionAttr, c), (js "aria-hidden", js "true")] [] none,
         Node.element (js "div")
           [(js "class", containerClass), (js "style", H.cssText (js "width:100%;height:300px"))]
           [] none]
        none := rfl
  rw [e, h1, h2]
  rfl

set_option maxRecDepth 100000 in
/-- C27, the input on which the claim fails: the pending chart of a stream
is promoted; the wrap has the style attributes `display: none !important;`
and `width: 100%; height: 300px;`, as the style serializer writes them,
where the wrap parsed from the live template has the texts of the template;
the two trees are not equal up to attribute order. -/
theorem C27_counterexample :
    equalListUpToAttrOrder
      (appendStreamChunk refHost streamingEditor (some (Json.str chartOnlyBufferA))).content
      [pendingNode carrierA (js "\x7b\n  \"a\": 1\n\x7d")] = true ∧
    equalListUpToAttrOrder
      (setMarkdown refHost freshEditor (some (Json.str chartOnlyBufferA))).content
      [mountWrap refHost (liveWrapNode carrierA)] = true ∧
    equalListUpToAttrOrder
      (promoteList refHost
        (appendStreamChunk refHost streamingEditor (some (Json.str chartOnlyBufferA))).content)
      [liveWrapNode carrierA] = false ∧
    attributeAt [0, 1] (js "style")
      (promoteList refHost
        (appendStreamChunk refHost streamingEditor (some (Json.str chartOnlyBufferA))).content)
      = some (js "width: 100%; height: 300px;") ∧
    attributeAt [0, 1] (js "style") [liveWrapNode carrierA]
      = some (js "width:100%;height:300px") ∧
    attributeAt [0, 0] (js "style")
      (promoteList refHost
        (appendStreamChunk refHost streamingEditor (some (Json.str chartOnlyBufferA))).content)
      = some (js "display: none !important;") ∧
    attributeAt [0, 0] (js "style") [liveWrapNode carrierA]
      = some (js "display:none !important") := by
  decide

/-- C27 (promotion agrees with a live parse), as the code has it: for every
configuration `x` the renderer writes the pending and the live template with
the same carrier, and the promoter turns the pending node into a wrap that
is equal, up to attribute order, to the live node with its two `style`
attributes rewritten by the style serializer of the browser: a `div` with
the wrap class, `contenteditable=false` and the carrier, holding a `span`
with the data class, the carrier and `aria-hidden=true`, then a `div` with
the container class; the style texts are those of the template only when
the style serializer leaves them as they are. -/
theorem C27_promotion_agrees_with_live (H : Host) (x : Json) (body codeText : JStr)
    (hv : jsonParse (trim body) = some x) (hu : x.unitsOk = true)
    (hne : stringify H.platform x ≠ []) :
    code H.platform
        { chartEnabled := some (Json.bool true), chartRenderAsChart := some (Json.bool false) }
        body (some (js "chart"))
      = some (pendingTemplate (base64Encode (utf8Encode (stringify H.platform x)))
          (escapeText (stringifyPretty H.platform [] x))) ∧
    code H.platform
        { chartEnabled := some (Json.bool true), chartRenderAsChart := some (Json.bool true) }
        body (some (js "chart"))
      = some (liveTemplate (base64Encode (utf8Encode (stringify H.platform x)))) ∧
    promote H (pendingNode (base64Encode (utf8Encode (stringify H.platform x))) codeText)
      = promotedWrap H (base64Encode (utf8Encode (stringify H.platform x))) ∧
    equalUpToAttrOrder (promotedWrap H (base64Encode (utf8Encode (stringify H.platform x))))
      (restyle H (liveWrapNode (base64Encode (utf8Encode (stringify H.platform x))))) = true ∧
    (H.cssText (js "display:none !important") = js "display:none !important" →
      H.cssText (js "width:100%;height:300px") = js "width:100%;height:300px" →
      equalUpToAttrOrder (promotedWrap H (base64Encode (utf8Encode (stringify H.platform x))))
        (liveWrapNode (base64Encode (utf8Encode (stringify H.platform x)))) = true) := by
  have htag : toLowerCase H.platform (trim ((some (js "chart")).getD [])) = js "echarts" ∨
      toLowerCase H.platform (trim ((some (js "chart")).getD [])) = js "chart" := Or.inr rfl
  have hc : base64Encode (utf8Encode (stringify H.platform x)) ≠ [] :=
    base64Encode_ne_nil_of_ne_nil _ (utf8Encode_ne_nil _ hne)
  refine ⟨?_, ?_, promote_pendingNode H _ codeText hc, promotedWrap_restyle H _, ?_⟩
  · rw [code_chart H.platform
      { chartEnabled := some (Json.bool true), chartRenderAsChart := some (Json.bool false) }
      body (some (js "chart")) x rfl htag hv hu]
    rfl
  · rw [code_chart H.platform
      { chartEnabled := some (Json.bool true), chartRenderAsChart := some (Json.bool true) }
      body (some (js "chart")) x rfl htag hv hu]
    rfl
  · intro h1 h2
    have h := promotedWrap_restyle H (base64Encode (utf8Encode (stringify H.platform x)))
    rw [restyle_liveWrapNode H _ h1 h2] at h
    exact h

set_option maxRecDepth 100000 in
theorem C27_promotion_agrees_with_live_witness :
    jsonParse (trim exampleBody) = some exampleBodyValue ∧
    exampleBodyValue.unitsOk = true ∧
    stringify refHost.platform exampleBodyValue ≠ [] ∧
    (code refHost.platform
        { chartEnabled := some (Json.bool true), chartRenderAsChart := some (Json.bool false) }
        exampleBody (some (js "chart"))
      = some (pendingTemplate
          (base64Encode (utf8Encode (stringify refHost.platform exampleBodyValue)))
          (escapeText (stringifyPretty refHost.platform [] exampleBodyValue))) ∧
    code refHost.platform
        { chartEnabled := some (Json.bool true), chartRenderAsChart := some (Json.bool true) }
        exampleBody (some (js "chart"))
      = some (liveTemplate
          (base64Encode (utf8Encode (stringify refHost.platform exampleBodyValue)))) ∧
    promote refHost
        (pendingNode (base64Encode (utf8Encode (stringify refHost.platform exampleBodyValue)))
          (js "shown text"))
      = promotedWrap refHost
          (base64Encode (utf8Encode (stringify refHost.platform exampleBodyValue))) ∧
    equalUpToAttrOrder
      (promotedWrap refHost
        (base64Encode (utf8Encode (stringify refHost.platform exampleBodyValue))))
      (restyle refHost
        (liveWrapNode (base64Encode (utf8Encode (stringify refHost.platform exampleBodyValue)))))
      = true ∧
    (refHost.cssText (js "display:none !important") = js "display:none !important" →
      refHost.cssText (js "width:100%;height:300px") = js "width:100%;height:300px" →
      equalUpToAttrOrder
        (promotedWrap refHost
          (base64Encode (utf8Encode (stringify refHost.platform exampleBodyValue))))
        (liveWrapNode (base64Encode (utf8Encode (stringify refHost.platform exampleBodyValue))))
        = true)) :=
  ⟨by rfl, by decide, by decide,
    C27_promotion_agrees_with_live refHost exampleBodyValue exampleBody (js "shown text")
      (by rfl) (by decide) (by decide)⟩

/-! ## What `JSON.parse` returns -/

/-- A text of code units, in two parts. -/
theorem isJStr_append (a b : JStr) : isJStr (a ++ b) = (isJStr a && isJStr b) := by
  unfold isJStr
  rw [List.all_append]

/-- What is left after a given start of a text. -/
theorem dropPrefix_eq : ∀ (p s r : JStr), dropPrefix p s = some r → s = p ++ r
  | [], s, r, h => by
    rw [dropPrefix] at h
    exact (Option.some.inj h) ▸ rfl
  | a :: p, [], r, h => by rw [dropPrefix] at h; exact Option.noConfusion h
  | a :: p, c :: s, r, h => by
    rw [dropPrefix] at h
    by_cases hac : a = c
    · rw [if_pos hac] at h
      rw [hac, dropPrefix_eq p s r h]
      rfl
    · rw [if_neg hac] at h; exact Option.noConfusion h

/-- What is left after a given start of a text of code units. -/
theorem dropPrefix_isJStr (p s r : JStr) (h : dropPrefix p s = some r) (hs : isJStr s = true) :
    isJStr r = true := by
  rw [dropPrefix_eq p s r h, isJStr_append, Bool.and_eq_true] at hs
  exact hs.2

/-- Skipping white space leaves a text of code units. -/
theorem skipWs_isJStr : ∀ (s : JStr), isJStr s = true → isJStr (skipWs s) = true
  | [], _ => rfl
  | c :: tail, h => by
    have h2 := (isJStr_cons c tail).mp h
    rw [skipWs]
    by_cases hc : c = 9 ∨ c = 10 ∨ c = 13 ∨ c = 32
    · rw [if_pos hc]; exact skipWs_isJStr tail h2.2
    · rw [if_neg hc]; exact h

/-- A text is the digits at its head and the rest. -/
theorem takeDigits_split : ∀ (s : JStr),
    s = (takeDigits s).1 ++ (takeDigits s).2 ∧ (takeDigits s).1.all isDigit = true
  | [] => ⟨rfl, rfl⟩
  | c :: tail => by
    have ih := takeDigits_split tail
    rw [takeDigits]
    by_cases hc : isDigit c = true
    · rw [if_pos hc]
      refine ⟨?_, ?_⟩
      · show c :: tail = c :: ((takeDigits tail).1 ++ (takeDigits tail).2)
        rw [← ih.1]
      · show (c :: (takeDigits tail).1).all isDigit = true
        rw [List.all_cons, hc, ih.2]
        rfl
    · rw [if_neg hc]
      exact ⟨rfl, rfl⟩

/-- The rest after the digits is a text of code units. -/
theorem takeDigits_isJStr (s : JStr) (h : isJStr s = true) : isJStr (takeDigits s).2 = true := by
  have h1 := (takeDigits_split s).1
  rw [h1, isJStr_append, Bool.and_eq_true] at h
  exact h.2

/-- The rest after the fraction is a text of code units. -/
theorem parseFraction_isJStr (s fr r : JStr) (h : parseFraction s = some (fr, r))
    (hs : isJStr s = true) : isJStr r = true := by
  cases s with
  | nil =>
    rw [parseFraction] at h
    have := Option.some.inj h
    rw [← (Prod.mk.inj this).2]
    rfl
  | cons c tail =>
    have h2 := (isJStr_cons c tail).mp hs
    rw [parseFraction] at h
    by_cases hc : c = 46
    · rw [if_pos hc] at h
      by_cases hd : (takeDigits tail).1 = []
      · rw [if_pos hd] at h; exact Option.noConfusion h
      · rw [if_neg hd] at h
        have := Option.some.inj h
        rw [← (Prod.mk.inj this).2]
        exact takeDigits_isJStr tail h2.2
    · rw [if_neg hc] at h
      have := Option.some.inj h
      rw [← (Prod.mk.inj this).2]
      exact hs

theorem parseExponent_cons (c : Nat) (tail : JStr) :
    parseExponent (c :: tail) =
      if c = 101 ∨ c = 69 then
        match tail with
        | sgn :: tail2 =>
          if sgn = 43 ∨ sgn = 45 then
            if (takeDigits tail2).1 = [] then none
            else some (c :: sgn :: (takeDigits tail2).1, (takeDigits tail2).2)
          else if (takeDigits tail).1 = [] then none
          else some (c :: (takeDigits tail).1, (takeDigits tail).2)
        | [] => none
      else some ([], c :: tail) := rfl

/-- The rest after the integer part is a text of code units. -/
theorem parseIntPart_isJStr (s ds r : JStr) (h : parseIntPart s = some (ds, r))
    (hs : isJStr s = true) : isJStr r = true := by
  unfold parseIntPart at h
  by_cases h1 : (takeDigits s).1 = []
  · rw [if_pos h1] at h; exact Option.noConfusion h
  · rw [if_neg h1] at h
    by_cases h2 : (takeDigits s).1.head? = some 48 ∧ (takeDigits s).1.length ≠ 1
    · rw [if_pos h2] at h; exact Option.noConfusion h
    · rw [if_neg h2] at h
      have e := Option.some.inj h
      have e2 : (takeDigits s).2 = r := by rw [e]
      rw [← e2]
      exact takeDigits_isJStr s hs

/-- The rest after the exponent is a text of code units. -/
theorem parseExponent_isJStr (s ex r : JStr) (h : parseExponent s = some (ex, r))
    (hs : isJStr s = true) : isJStr r = true := by
  cases s with
  | nil =>
    rw [parseExponent] at h
    have := Option.some.inj h
    rw [← (Prod.mk.inj this).2]
    rfl
  | cons c tail =>
    have h2 := (isJStr_cons c tail).mp hs
    rw [parseExponent_cons] at h
    by_cases hc : c = 101 ∨ c = 69
    · rw [if_pos hc] at h
      cases tail with
      | nil => exact Option.noConfusion h
      | cons sgn tail2 =>
        have h3 := (isJStr_cons sgn tail2).mp h2.2
        simp only at h
        by_cases hsg : sgn = 43 ∨ sgn = 45
        · rw [if_pos hsg] at h
          by_cases hd : (takeDigits tail2).1 = []
          · rw [if_pos hd] at h; exact Option.noConfusion h
          · rw [if_neg hd] at h
            have := Option.some.inj h
            rw [← (Prod.mk.inj this).2]
            exact takeDigits_isJStr tail2 h3.2
        · rw [if_neg hsg] at h
          by_cases hd : (takeDigits (sgn :: tail2)).1 = []
          · rw [if_pos hd] at h; exact Option.noConfusion h
          · rw [if_neg hd] at h
            have := Option.some.inj h
            rw [← (Prod.mk.inj this).2]
            exact takeDigits_isJStr (sgn :: tail2) h2.2
    · rw [if_neg hc] at h
      have := Option.some.inj h
      rw [← (Prod.mk.inj this).2]
      exact hs

/-- A number read from a text of code units: the value is one `JSON.parse`
returns, and the rest is a text of code units. -/
theorem parseNumber_isParsed (s : JStr) (v : Json) (r : JStr)
    (h : parseNumber s = some (v, r)) (hs : isJStr s = true) :
    v.isParsed = true ∧ isJStr r = true := by
  unfold parseNumber at h
  simp only at h
  have hs1 : isJStr (if decide (s.head? = some 45) = true then s.tail else s) = true := by
    by_cases hn : decide (s.head? = some 45) = true
    · rw [if_pos hn]
      cases s with
      | nil => rfl
      | cons c t => exact ((isJStr_cons c t).mp hs).2
    · rw [if_neg hn]; exact hs
  cases hi : parseIntPart (if decide (s.head? = some 45) = true then s.tail else s) with
  | none => rw [hi] at h; exact Option.noConfusion h
  | some p =>
    obtain ⟨ds, s2⟩ := p
    rw [hi] at h
    simp only at h
    have hs2 : isJStr s2 = true := parseIntPart_isJStr _ ds s2 hi hs1
    cases hf : parseFraction s2 with
    | none => rw [hf] at h; exact Option.noConfusion h
    | some p2 =>
      obtain ⟨fr, s3⟩ := p2
      rw [hf] at h
      simp only at h
      have hs3 := parseFraction_isJStr s2 fr s3 hf hs2
      cases he : parseExponent s3 with
      | none => rw [he] at h; exact Option.noConfusion h
      | some p3 =>
        obtain ⟨ex, s4⟩ := p3
        rw [he] at h
        simp only at h
        have hs4 := parseExponent_isJStr s3 ex s4 he hs3
        by_cases hc : fr = [] ∧ ex = [] ∧ digitsValue 0 ds ≤ 9007199254740992
        · rw [if_pos hc] at h
          have := Option.some.inj h
          have e1 := (Prod.mk.inj this).1
          have e2 := (Prod.mk.inj this).2
          rw [← e1, ← e2]
          refine ⟨?_, hs4⟩
          simp only [Json.isParsed, decide_eq_true_eq]
          have := hc.2.2
          split <;> omega
        · rw [if_neg hc] at h
          have := Option.some.inj h
          have e1 := (Prod.mk.inj this).1
          have e2 := (Prod.mk.inj this).2
          rw [← e1, ← e2]
          exact ⟨rfl, hs4⟩

/-! ## Strings that `JSON.parse` reads -/

theorem hexVal_lt (c a : Nat) (h : hexVal c = some a) : a < 16 := by
  unfold hexVal at h
  by_cases h1 : 48 ≤ c ∧ c ≤ 57
  · rw [if_pos h1] at h
    have := Option.some.inj h
    omega
  · rw [if_neg h1] at h
    by_cases h2 : 65 ≤ c ∧ c ≤ 70
    · rw [if_pos h2] at h
      have := Option.some.inj h
      omega
    · rw [if_neg h2] at h
      by_cases h3 : 97 ≤ c ∧ c ≤ 102
      · rw [if_pos h3] at h
        have := Option.some.inj h
        omega
      · rw [if_neg h3] at h
        exact Option.noConfusion h

theorem jsonEscapeAt_cons (e : Nat) (rest : JStr) :
    jsonEscapeAt (e :: rest) =
      if e = 117 then
        match rest with
        | h1 :: h2 :: h3 :: h4 :: _ =>
          match hexVal h1, hexVal h2, hexVal h3, hexVal h4 with
          | some a, some b, some c, some d => some (a * 4096 + b * 256 + c * 16 + d, 5)
          | _, _, _, _ => none
        | _ => none
      else if e = 34 then some (34, 1)
      else if e = 92 then some (92, 1)
      else if e = 47 then some (47, 1)
      else if e = 98 then some (8, 1)
      else if e = 102 then some (12, 1)
      else if e = 110 then some (10, 1)
      else if e = 114 then some (13, 1)
      else if e = 116 then some (9, 1)
      else none := rfl

/-- An escape of a JSON string denotes a code unit. -/
theorem jsonEscapeAt_lt (s : JStr) (u adv : Nat) (h : jsonEscapeAt s = some (u, adv)) :
    u < 65536 := by
  cases s with
  | nil => exact Option.noConfusion h
  | cons e rest =>
    rw [jsonEscapeAt_cons] at h
    by_cases he : e = 117
    · rw [if_pos he] at h
      split at h
      · split at h
        · rename_i a b c d ha hb hc hd
          have e1 := (Prod.mk.inj (Option.some.inj h)).1
          have := hexVal_lt _ _ ha
          have := hexVal_lt _ _ hb
          have := hexVal_lt _ _ hc
          have := hexVal_lt _ _ hd
          omega
        · exact Option.noConfusion h
      · exact Option.noConfusion h
    · rw [if_neg he] at h
      repeat' split at h
      all_goals first
        | exact Option.noConfusion h
        | (have e1 := (Prod.mk.inj (Option.some.inj h)).1; omega)

/-- A string read from a text of code units is a sequence of code units, and
so is the rest of the text. -/
theorem parseStringLoop_isJStr : ∀ (s : JStr) (skip : Nat) (out r : JStr),
    isJStr s = true → parseStringLoop skip s = some (out, r) →
    isJStr out = true ∧ isJStr r = true
  | [], skip, out, r, _, h => by
    cases skip <;> exact Option.noConfusion h
  | c :: tail, skip + 1, out, r, hs, h =>
    parseStringLoop_isJStr tail skip out r ((isJStr_cons c tail).mp hs).2 h
  | c :: tail, 0, out, r, hs, h => by
    have hs2 := (isJStr_cons c tail).mp hs
    rw [parseStringLoop_cons] at h
    by_cases h34 : c = 34
    · rw [if_pos h34] at h
      have e := Prod.mk.inj (Option.some.inj h)
      rw [← e.1, ← e.2]
      exact ⟨rfl, hs2.2⟩
    · rw [if_neg h34] at h
      by_cases h92 : c = 92
      · rw [if_pos h92] at h
        cases he : jsonEscapeAt tail with
        | none => rw [he] at h; exact Option.noConfusion h
        | some p =>
          obtain ⟨u, adv⟩ := p
          rw [he] at h
          simp only at h
          cases hl : parseStringLoop adv tail with
          | none => rw [hl] at h; exact Option.noConfusion h
          | some q =>
            obtain ⟨o2, r2⟩ := q
            rw [hl] at h
            have e := Prod.mk.inj (Option.some.inj h)
            have ih := parseStringLoop_isJStr tail adv o2 r2 hs2.2 hl
            rw [← e.1, ← e.2]
            exact ⟨(isJStr_cons u o2).mpr ⟨jsonEscapeAt_lt tail u adv he, ih.1⟩, ih.2⟩
      · rw [if_neg h92] at h
        by_cases h32 : c < 32
        · rw [if_pos h32] at h; exact Option.noConfusion h
        · rw [if_neg h32] at h
          cases hl : parseStringLoop 0 tail with
          | none => rw [hl] at h; exact Option.noConfusion h
          | some q =>
            obtain ⟨o2, r2⟩ := q
            rw [hl] at h
            have e := Prod.mk.inj (Option.some.inj h)
            have ih := parseStringLoop_isJStr tail 0 o2 r2 hs2.2 hl
            rw [← e.1, ← e.2]
            exact ⟨(isJStr_cons c o2).mpr ⟨hs2.1, ih.1⟩, ih.2⟩

/-! ## Property order is kept by `objSet` -/

theorem digitsValue_ge : ∀ (s : JStr) (acc : Nat), acc ≤ digitsValue acc s
  | [], _ => Nat.le_refl _
  | c :: t, acc => by
    have := digitsValue_ge t (acc * 10 + (c - 48))
    rw [digitsValue_cons]
    omega

theorem isDigit_iff (c : Nat) : isDigit c = true ↔ 48 ≤ c ∧ c ≤ 57 := by
  simp only [isDigit, Bool.and_eq_true, decide_eq_true_eq]

/-- A canonical run of digits is the decimal text of its value. -/
theorem canonical_eq_decDigits (k : JStr) : k.all isDigit = true → k ≠ [] →
    (k.head? ≠ some 48 ∨ k.length = 1) → k = decDigits (digitsValue 0 k) := by
  induction k using List.reverseRecOn with
  | nil => intro _ h _; exact absurd rfl h
  | append_singleton init d ih =>
    intro hall _ hcan
    rw [List.all_append, Bool.and_eq_true] at hall
    have hd : 48 ≤ d ∧ d ≤ 57 := by
      have := hall.2
      simp only [List.all_cons, List.all_nil, Bool.and_true] at this
      exact (isDigit_iff d).mp this
    rw [digitsValue_append, digitsValue_cons, digitsValue_nil]
    cases init with
    | nil =>
      rw [digitsValue_nil, decDigits_lt_ten _ (by omega)]
      have : 48 + (0 * 10 + (d - 48)) = d := by omega
      rw [this]
      rfl
    | cons c t =>
      have hc : 48 ≤ c ∧ c ≤ 57 := by
        have := hall.1
        simp only [List.all_cons, Bool.and_eq_true] at this
        exact (isDigit_iff c).mp this.1
      have hne : c ≠ 48 := by
        rcases hcan with h | h
        · intro h48
          apply h
          rw [h48]
          rfl
        · simp only [List.cons_append, List.length_cons, List.length_append,
            List.length_nil] at h
          omega
      have hih := ih hall.1 (List.cons_ne_nil _ _)
        (Or.inl (by
          intro h
          apply hne
          have := Option.some.inj h
          exact this))
      have hpos : 1 ≤ digitsValue 0 (c :: t) := by
        have := digitsValue_ge t (0 * 10 + (c - 48))
        rw [digitsValue_cons]
        omega
      rw [decDigits_step _ (by omega)]
      have h1 : (digitsValue 0 (c :: t) * 10 + (d - 48)) / 10 = digitsValue 0 (c :: t) := by
        omega
      have h2 : 48 + (digitsValue 0 (c :: t) * 10 + (d - 48)) % 10 = d := by omega
      rw [h1, h2, ← hih]

/-- Two keys that are the same array index are the same key. -/
theorem arrayIndex_inj (a b : JStr) (i : Nat) (ha : arrayIndex a = some i)
    (hb : arrayIndex b = some i) : a = b := by
  unfold arrayIndex at ha hb
  by_cases h1 : a.all isDigit ∧ a ≠ [] ∧ (a.head? ≠ some 48 ∨ a.length = 1) ∧
      digitsValue 0 a ≤ 4294967294
  · by_cases h2 : b.all isDigit ∧ b ≠ [] ∧ (b.head? ≠ some 48 ∨ b.length = 1) ∧
        digitsValue 0 b ≤ 4294967294
    · rw [if_pos h1] at ha
      rw [if_pos h2] at hb
      have ea := Option.some.inj ha
      have eb := Option.some.inj hb
      rw [canonical_eq_decDigits a h1.1 h1.2.1 h1.2.2.1,
        canonical_eq_decDigits b h2.1 h2.2.1 h2.2.2.1, ea, eb]
    · rw [if_neg h2] at hb; exact Option.noConfusion hb
  · rw [if_neg h1] at ha; exact Option.noConfusion ha

theorem keyOrderOk_trans (a b c : JStr) (h1 : keyOrderOk a b = true)
    (h2 : keyOrderOk b c = true) : keyOrderOk a c = true := by
  unfold keyOrderOk at h1 h2 ⊢
  cases ha : arrayIndex a <;> cases hb : arrayIndex b <;> cases hc : arrayIndex c <;>
    rw [ha, hb] at h1 <;> rw [hb, hc] at h2 <;> simp only at h1 h2 ⊢ <;>
    first
      | exact Bool.noConfusion h1
      | exact Bool.noConfusion h2
      | (simp only [decide_eq_true_eq] at h1 h2 ⊢; omega)

/-- Property order says that every key stands in order before every later
key and differs from it. -/
theorem propertyOrdered_iff_pairwise : ∀ (l : List (JStr × Json)),
    propertyOrdered l = true ↔
      l.Pairwise (fun a b => keyOrderOk a.1 b.1 = true ∧ a.1 ≠ b.1)
  | [] => ⟨fun _ => List.Pairwise.nil, fun _ => rfl⟩
  | [a] => ⟨fun _ => List.pairwise_singleton _ _, fun _ => rfl⟩
  | a :: b :: rest => by
    have ih := propertyOrdered_iff_pairwise (b :: rest)
    rw [propertyOrdered_cons_cons]
    simp only [Bool.and_eq_true, Bool.not_eq_true', List.any_eq_false, decide_eq_true_eq]
    constructor
    · intro h
      have hp := ih.mp h.2
      refine List.Pairwise.cons ?_ hp
      intro x hx
      refine ⟨?_, fun e => h.1.2 x hx e.symm⟩
      rcases List.mem_cons.mp hx with hxb | hxr
      · rw [hxb]; exact h.1.1
      · exact keyOrderOk_trans _ _ _ h.1.1 ((List.pairwise_cons.mp hp).1 x hxr).1
    · intro h
      have hc := List.pairwise_cons.mp h
      refine ⟨⟨(hc.1 b (List.mem_cons_self _ _)).1, ?_⟩, ih.mpr hc.2⟩
      intro x hx e
      exact (hc.1 x hx).2 e.symm

theorem mem_insertIndexed (i : Nat) (k : JStr) (v : Json) :
    ∀ (o : List (JStr × Json)) (x : JStr × Json),
      x ∈ insertIndexed i k v o → x = (k, v) ∨ x ∈ o
  | [], x, h => by
    rw [insertIndexed] at h
    exact Or.inl (List.mem_singleton.mp h)
  | kv :: rest, x, h => by
    rw [insertIndexed] at h
    cases hj : arrayIndex kv.1 with
    | none =>
      rw [hj] at h
      simp only at h
      rcases List.mem_cons.mp h with h1 | h1
      · exact Or.inl h1
      · exact Or.inr h1
    | some j =>
      rw [hj] at h
      simp only at h
      by_cases hlt : j < i
      · rw [if_pos hlt] at h
        rcases List.mem_cons.mp h with h1 | h1
        · exact Or.inr (by rw [h1]; exact List.mem_cons_self _ _)
        · rcases mem_insertIndexed i k v rest x h1 with h2 | h2
          · exact Or.inl h2
          · exact Or.inr (List.mem_cons_of_mem _ h2)
      · rw [if_neg hlt] at h
        rcases List.mem_cons.mp h with h1 | h1
        · exact Or.inl h1
        · exact Or.inr h1

/-- A new array index put at its place keeps the property order. -/
theorem insertIndexed_pairwise (i : Nat) (k : JStr) (v : Json) (hk : arrayIndex k = some i) :
    ∀ (o : List (JStr × Json)),
      o.Pairwise (fun a b => keyOrderOk a.1 b.1 = true ∧ a.1 ≠ b.1) →
      (∀ x ∈ o, x.1 ≠ k) →
      (insertIndexed i k v o).Pairwise (fun a b => keyOrderOk a.1 b.1 = true ∧ a.1 ≠ b.1)
  | [], _, _ => by
    rw [insertIndexed]
    exact List.pairwise_singleton _ _
  | kv :: rest, hp, hfresh => by
    have hc := List.pairwise_cons.mp hp
    rw [insertIndexed]
    cases hj : arrayIndex kv.1 with
    | none =>
      simp only
      refine List.Pairwise.cons ?_ hp
      intro x hx
      refine ⟨?_, fun e => hfresh x hx e.symm⟩
      have hxn : arrayIndex x.1 = none := by
        rcases List.mem_cons.mp hx with h1 | h1
        · rw [h1]; exact hj
        · have := (hc.1 x h1).1
          unfold keyOrderOk at this
          rw [hj] at this
          cases hx1 : arrayIndex x.1 with
          | none => rfl
          | some j => rw [hx1] at this; exact Bool.noConfusion this
      unfold keyOrderOk
      rw [hk, hxn]
    | some j =>
      simp only
      by_cases hlt : j < i
      · rw [if_pos hlt]
        refine List.Pairwise.cons ?_
          (insertIndexed_pairwise i k v hk rest hc.2
            (fun x hx => hfresh x (List.mem_cons_of_mem _ hx)))
        intro x hx
        rcases mem_insertIndexed i k v rest x hx with h1 | h1
        · rw [h1]
          refine ⟨?_, hfresh kv (List.mem_cons_self _ _)⟩
          unfold keyOrderOk
          rw [hj, hk]
          exact decide_eq_true hlt
        · exact hc.1 x h1
      · rw [if_neg hlt]
        refine List.Pairwise.cons ?_ hp
        intro x hx
        refine ⟨?_, fun e => hfresh x hx e.symm⟩
        have hne : j ≠ i := by
          intro e
          rw [e] at hj
          exact hfresh kv (List.mem_cons_self _ _) (arrayIndex_inj _ _ i hj hk)
        have hkv : keyOrderOk k kv.1 = true := by
          unfold keyOrderOk
          rw [hk, hj]
          exact decide_eq_true (by omega)
        rcases List.mem_cons.mp hx with h1 | h1
        · rw [h1]; exact hkv
        · exact keyOrderOk_trans _ _ _ hkv (hc.1 x h1).1

/-- The method `objSet` keeps the property order. -/
theorem objSet_propertyOrdered (o : List (JStr × Json)) (k : JStr) (v : Json)
    (h : propertyOrdered o = true) : propertyOrdered (objSet o k v) = true := by
  have hp := (propertyOrdered_iff_pairwise o).mp h
  apply (propertyOrdered_iff_pairwise _).mpr
  unfold objSet
  by_cases hany : o.any (fun kv => decide (kv.1 = k)) = true
  · rw [if_pos hany]
    rw [List.pairwise_map]
    refine List.Pairwise.imp ?_ hp
    intro a b hab
    have e : ∀ x : JStr × Json, (if x.1 = k then (k, v) else x).1 = x.1 := by
      intro x
      by_cases hx : x.1 = k
      · rw [if_pos hx]; exact hx.symm
      · rw [if_neg hx]
    rw [e a, e b]
    exact hab
  · rw [if_neg hany]
    have hfresh : ∀ x ∈ o, x.1 ≠ k := by
      intro x hx e
      apply hany
      exact List.any_eq_true.mpr ⟨x, hx, decide_eq_true e⟩
    cases hk : arrayIndex k with
    | some i => exact insertIndexed_pairwise i k v hk o hp hfresh
    | none =>
      simp only
      rw [List.pairwise_append]
      refine ⟨hp, List.pairwise_singleton _ _, ?_⟩
      intro a ha b hb
      rw [List.mem_singleton.mp hb]
      refine ⟨?_, hfresh a ha⟩
      unfold keyOrderOk
      rw [hk]
      cases arrayIndex a.1 <;> rfl

/-- Every property after `objSet` is the new one or was there before. -/
theorem mem_objSet (o : List (JStr × Json)) (k : JStr) (v : Json) (x : JStr × Json)
    (h : x ∈ objSet o k v) : x = (k, v) ∨ x ∈ o := by
  unfold objSet at h
  by_cases hany : o.any (fun kv => decide (kv.1 = k)) = true
  · rw [if_pos hany] at h
    obtain ⟨y, hy, e⟩ := List.mem_map.mp h
    by_cases hyk : y.1 = k
    · rw [if_pos hyk] at e; exact Or.inl e.symm
    · rw [if_neg hyk] at e; exact Or.inr (e ▸ hy)
  · rw [if_neg hany] at h
    cases hk : arrayIndex k with
    | some i =>
      rw [hk] at h
      exact mem_insertIndexed i k v o x h
    | none =>
      rw [hk] at h
      simp only at h
      rcases List.mem_append.mp h with h1 | h1
      · exact Or.inr h1
      · exact Or.inl (List.mem_singleton.mp h1)

theorem isParsedMembers_iff : ∀ (kvs : List (JStr × Json)),
    Json.isParsedMembers kvs = true ↔
      ∀ x ∈ kvs, isJStr x.1 = true ∧ Json.isParsed x.2 = true
  | [] => ⟨fun _ x hx => absurd hx (List.not_mem_nil x), fun _ => rfl⟩
  | (k, v) :: kvs => by
    have ih := isParsedMembers_iff kvs
    rw [Json.isParsedMembers]
    constructor
    · intro h x hx
      simp only [Bool.and_eq_true] at h
      rcases List.mem_cons.mp hx with h1 | h1
      · rw [h1]; exact h.1
      · exact ih.mp h.2 x h1
    · intro h
      simp only [Bool.and_eq_true]
      exact ⟨h (k, v) (List.mem_cons_self _ _),
        ih.mpr (fun x hx => h x (List.mem_cons_of_mem _ hx))⟩

/-- The method `objSet` with a key and a value that `JSON.parse` read. -/
theorem objSet_isParsedMembers (o : List (JStr × Json)) (k : JStr) (v : Json)
    (h : Json.isParsedMembers o = true) (hk : isJStr k = true) (hv : v.isParsed = true) :
    Json.isParsedMembers (objSet o k v) = true := by
  apply (isParsedMembers_iff _).mpr
  intro x hx
  rcases mem_objSet o k v x hx with h1 | h1
  · rw [h1]; exact ⟨hk, hv⟩
  · exact (isParsedMembers_iff o).mp h x h1

/-! ## What `JSON.parse` returns from a text of code units -/

theorem option_map_some {α β : Type} (f : α → β) (o : Option α) (b : β)
    (h : o.map f = some b) : ∃ a, o = some a ∧ f a = b := by
  cases o with
  | none => exact Option.noConfusion h
  | some a => exact ⟨a, rfl, Option.some.inj h⟩

/-- The parser on a text of code units: the value it returns is one that
`JSON.parse` returns, and the rest of the text is a text of code units. -/
theorem parse_isParsed : ∀ (fuel : Nat),
    (∀ (s : JStr) (v : Json) (r : JStr), isJStr s = true → parseValue fuel s = some (v, r) →
      v.isParsed = true ∧ isJStr r = true) ∧
    (∀ (s : JStr) (xs : List Json) (r : JStr), isJStr s = true →
      parseElements fuel s = some (xs, r) → Json.isParsedList xs = true ∧ isJStr r = true) ∧
    (∀ (acc : List (JStr × Json)) (s : JStr) (kvs : List (JStr × Json)) (r : JStr),
      isJStr s = true → propertyOrdered acc = true → Json.isParsedMembers acc = true →
      parseMembers fuel acc s = some (kvs, r) →
      propertyOrdered kvs = true ∧ Json.isParsedMembers kvs = true ∧ isJStr r = true)
  | 0 =>
    ⟨fun s _ _ _ h => by cases s <;> exact Option.noConfusion h,
     fun _ _ _ _ h => Option.noConfusion h,
     fun _ _ _ _ _ _ _ h => Option.noConfusion h⟩
  | fuel + 1 => by
    obtain ⟨ihv, ihe, ihm⟩ := parse_isParsed fuel
    refine ⟨?_, ?_, ?_⟩
    · intro s v r hs h
      cases s with
      | nil => exact Option.noConfusion h
      | cons c tail =>
        have hs2 := (isJStr_cons c tail).mp hs
        rw [parseValue_succ] at h
        by_cases h1 : c = 110
        · rw [if_pos h1] at h
          obtain ⟨a, ha, e⟩ := option_map_some _ _ _ h
          have e2 := Prod.mk.inj e
          rw [← e2.1, ← e2.2]
          exact ⟨rfl, dropPrefix_isJStr _ tail a ha hs2.2⟩
        rw [if_neg h1] at h
        by_cases h2 : c = 116
        · rw [if_pos h2] at h
          obtain ⟨a, ha, e⟩ := option_map_some _ _ _ h
          have e2 := Prod.mk.inj e
          rw [← e2.1, ← e2.2]
          exact ⟨rfl, dropPrefix_isJStr _ tail a ha hs2.2⟩
        rw [if_neg h2] at h
        by_cases h3 : c = 102
        · rw [if_pos h3] at h
          obtain ⟨a, ha, e⟩ := option_map_some _ _ _ h
          have e2 := Prod.mk.inj e
          rw [← e2.1, ← e2.2]
          exact ⟨rfl, dropPrefix_isJStr _ tail a ha hs2.2⟩
        rw [if_neg h3] at h
        by_cases h4 : c = 34
        · rw [if_pos h4] at h
          obtain ⟨a, ha, e⟩ := option_map_some _ _ _ h
          have e2 := Prod.mk.inj e
          have hl := parseStringLoop_isJStr tail 0 a.1 a.2 hs2.2 ha
          rw [← e2.1, ← e2.2]
          exact ⟨hl.1, hl.2⟩
        rw [if_neg h4] at h
        by_cases h5 : c = 91
        · rw [if_pos h5] at h
          have hsk := skipWs_isJStr tail hs2.2
          cases hw : skipWs tail with
          | nil => rw [hw] at h; exact Option.noConfusion h
          | cons d rest =>
            rw [hw] at h hsk
            simp only at h
            by_cases hd : d = 93
            · rw [if_pos hd] at h
              have e2 := Prod.mk.inj (Option.some.inj h)
              rw [← e2.1, ← e2.2]
              exact ⟨rfl, ((isJStr_cons d rest).mp hsk).2⟩
            · rw [if_neg hd] at h
              cases hp : parseValue fuel (d :: rest) with
              | none => rw [hp] at h; exact Option.noConfusion h
              | some p =>
                obtain ⟨v1, r1⟩ := p
                rw [hp] at h
                simp only at h
                have i1 := ihv (d :: rest) v1 r1 hsk hp
                obtain ⟨q, hq, e⟩ := option_map_some _ _ _ h
                have i2 := ihe r1 q.1 q.2 i1.2 hq
                have e2 := Prod.mk.inj e
                rw [← e2.1, ← e2.2]
                refine ⟨?_, i2.2⟩
                rw [Json.isParsed, Json.isParsedList, i1.1, i2.1]
                rfl
        rw [if_neg h5] at h
        by_cases h6 : c = 123
        · rw [if_pos h6] at h
          have hsk := skipWs_isJStr tail hs2.2
          cases hw : skipWs tail with
          | nil => rw [hw] at h; exact Option.noConfusion h
          | cons d rest =>
            rw [hw] at h hsk
            simp only at h
            by_cases hd : d = 125
            · rw [if_pos hd] at h
              have e2 := Prod.mk.inj (Option.some.inj h)
              rw [← e2.1, ← e2.2]
              exact ⟨rfl, ((isJStr_cons d rest).mp hsk).2⟩
            · rw [if_neg hd] at h
              obtain ⟨q, hq, e⟩ := option_map_some _ _ _ h
              have i2 := ihm [] (44 :: d :: rest) q.1 q.2
                ((isJStr_cons 44 _).mpr ⟨by decide, hsk⟩) rfl rfl hq
              have e2 := Prod.mk.inj e
              rw [← e2.1, ← e2.2]
              refine ⟨?_, i2.2.2⟩
              rw [Json.isParsed, i2.1, i2.2.1]
              rfl
        rw [if_neg h6] at h
        exact parseNumber_isParsed (c :: tail) v r h hs
    · intro s xs r hs h
      rw [parseElements_succ] at h
      have hsk := skipWs_isJStr s hs
      cases hw : skipWs s with
      | nil => rw [hw] at h; exact Option.noConfusion h
      | cons c tail =>
        rw [hw] at h hsk
        simp only at h
        have hs2 := (isJStr_cons c tail).mp hsk
        by_cases h1 : c = 93
        · rw [if_pos h1] at h
          have e2 := Prod.mk.inj (Option.some.inj h)
          rw [← e2.1, ← e2.2]
          exact ⟨rfl, hs2.2⟩
        rw [if_neg h1] at h
        by_cases h2 : c = 44
        · rw [if_pos h2] at h
          cases hp : parseValue fuel (skipWs tail) with
          | none => rw [hp] at h; exact Option.noConfusion h
          | some p =>
            obtain ⟨v1, r1⟩ := p
            rw [hp] at h
            simp only at h
            have i1 := ihv (skipWs tail) v1 r1 (skipWs_isJStr tail hs2.2) hp
            obtain ⟨q, hq, e⟩ := option_map_some _ _ _ h
            have i2 := ihe r1 q.1 q.2 i1.2 hq
            have e2 := Prod.mk.inj e
            rw [← e2.1, ← e2.2]
            refine ⟨?_, i2.2⟩
            rw [Json.isParsedList, i1.1, i2.1]
            rfl
        rw [if_neg h2] at h
        exact Option.noConfusion h
    · intro acc s kvs r hs hacc1 hacc2 h
      rw [parseMembers_succ] at h
      have hsk := skipWs_isJStr s hs
      cases hw : skipWs s with
      | nil => rw [hw] at h; exact Option.noConfusion h
      | cons c tail =>
        rw [hw] at h hsk
        simp only at h
        have hs2 := (isJStr_cons c tail).mp hsk
        by_cases h1 : c = 125
        · rw [if_pos h1] at h
          have e2 := Prod.mk.inj (Option.some.inj h)
          rw [← e2.1, ← e2.2]
          exact ⟨hacc1, hacc2, hs2.2⟩
        rw [if_neg h1] at h
        by_cases h2 : c = 44
        · rw [if_pos h2] at h
          have hsk2 := skipWs_isJStr tail hs2.2
          cases hw2 : skipWs tail with
          | nil => rw [hw2] at h; exact Option.noConfusion h
          | cons q tail2 =>
            rw [hw2] at h hsk2
            simp only at h
            have hs3 := (isJStr_cons q tail2).mp hsk2
            by_cases hq : q = 34
            · rw [if_pos hq] at h
              cases hk : parseStringChars tail2 with
              | none => rw [hk] at h; exact Option.noConfusion h
              | some p =>
                obtain ⟨k, r1⟩ := p
                rw [hk] at h
                simp only at h
                have ik := parseStringLoop_isJStr tail2 0 k r1 hs3.2 hk
                have hsk3 := skipWs_isJStr r1 ik.2
                cases hw3 : skipWs r1 with
                | nil => rw [hw3] at h; exact Option.noConfusion h
                | cons colon r2 =>
                  rw [hw3] at h hsk3
                  simp only at h
                  have hs4 := (isJStr_cons colon r2).mp hsk3
                  by_cases hc : colon = 58
                  · rw [if_pos hc] at h
                    cases hp : parseValue fuel (skipWs r2) with
                    | none => rw [hp] at h; exact Option.noConfusion h
                    | some p2 =>
                      obtain ⟨v1, r3⟩ := p2
                      rw [hp] at h
                      simp only at h
                      have i1 := ihv (skipWs r2) v1 r3 (skipWs_isJStr r2 hs4.2) hp
                      exact ihm (objSet acc k v1) r3 kvs r i1.2
                        (objSet_propertyOrdered acc k v1 hacc1)
                        (objSet_isParsedMembers acc k v1 hacc2 ik.1 i1.1) h
                  · rw [if_neg hc] at h; exact Option.noConfusion h
            · rw [if_neg hq] at h; exact Option.noConfusion h
        rw [if_neg h2] at h
        exact Option.noConfusion h

/-- A text of code units stays one under `trimStart`. -/
theorem trimStart_isJStr : ∀ (s : JStr), isJStr s = true → isJStr (trimStart s) = true
  | [], _ => rfl
  | c :: tail, h => by
    have h2 := (isJStr_cons c tail).mp h
    rw [trimStart]
    by_cases hc : isTrimSpace c = true
    · rw [if_pos hc]; exact trimStart_isJStr tail h2.2
    · rw [if_neg hc]; exact h

theorem isJStr_reverse (s : JStr) : isJStr s.reverse = isJStr s := by
  unfold isJStr
  exact List.all_reverse

/-- A text of code units stays one under `trim`. -/
theorem trim_isJStr (s : JStr) (h : isJStr s = true) : isJStr (trim s) = true := by
  unfold trim trimEnd
  rw [isJStr_reverse]
  apply trimStart_isJStr
  rw [isJStr_reverse]
  exact trimStart_isJStr s h

/-- The value that `JSON.parse` returns from a text of code units. -/
theorem jsonParse_isParsed (s : JStr) (v : Json) (hs : isJStr s = true)
    (h : jsonParse s = some v) : v.isParsed = true := by
  unfold jsonParse at h
  cases hp : parseValue (2 * s.length + 2) (skipWs s) with
  | none => rw [hp] at h; exact Option.noConfusion h
  | some p =>
    obtain ⟨v1, r⟩ := p
    rw [hp] at h
    simp only at h
    by_cases hr : skipWs r = []
    · rw [if_pos hr] at h
      rw [← Option.some.inj h]
      exact ((parse_isParsed _).1 (skipWs s) v1 r (skipWs_isJStr s hs) hp).1
    · rw [if_neg hr] at h; exact Option.noConfusion h

/-! ## Reading back the text of a value that `JSON.parse` returned -/

mutual
theorem isParsed_unitsOk : ∀ (x : Json), x.isParsed = true → x.unitsOk = true
  | .null, _ => rfl
  | .bool _, _ => rfl
  | .num _, _ => rfl
  | .numLit _, _ => rfl
  | .str s, h => by
    have : isJStr s = true := by simpa [Json.isParsed] using h
    simpa [Json.unitsOk] using this
  | .arr xs, h => by
    have : Json.isParsedList xs = true := by simpa [Json.isParsed] using h
    simpa [Json.unitsOk] using isParsedList_unitsOk xs this
  | .obj kvs, h => by
    have : propertyOrdered kvs = true ∧ Json.isParsedMembers kvs = true := by
      simpa [Json.isParsed] using h
    simpa [Json.unitsOk] using isParsedMembers_unitsOk kvs this.2
theorem isParsedList_unitsOk : ∀ (xs : List Json), Json.isParsedList xs = true →
    Json.unitsOkList xs = true
  | [], _ => rfl
  | x :: xs, h => by
    have h2 : x.isParsed = true ∧ Json.isParsedList xs = true := by
      simpa [Json.isParsedList] using h
    simp only [Json.unitsOkList, isParsed_unitsOk x h2.1, isParsedList_unitsOk xs h2.2,
      Bool.and_self]
theorem isParsedMembers_unitsOk : ∀ (kvs : List (JStr × Json)),
    Json.isParsedMembers kvs = true → Json.unitsOkMembers kvs = true
  | [], _ => rfl
  | (k, v) :: kvs, h => by
    have h2 : (isJStr k = true ∧ v.isParsed = true) ∧ Json.isParsedMembers kvs = true := by
      simpa [Json.isParsedMembers] using h
    simp only [Json.unitsOkMembers, h2.1.1, isParsed_unitsOk v h2.1.2,
      isParsedMembers_unitsOk kvs h2.2, Bool.and_self]
end

/-- The text the platform prints for a number is a text of code units. -/
theorem numberText_isJStr (P : Platform) (lit : JStr) :
    isJStr (stringify P (Json.numLit lit)) = true := by
  rw [stringify]
  unfold isJStr
  rw [List.all_eq_true]
  intro c hc
  obtain ⟨d, _, e⟩ := List.mem_map.mp hc
  rw [← e]
  exact decide_eq_true (by have := d.isLt; omega)

theorem numberText_lt (P : Platform) (lit : JStr) :
    ∀ c ∈ stringify P (Json.numLit lit), c < 128 := by
  rw [stringify]
  intro c hc
  obtain ⟨d, _, e⟩ := List.mem_map.mp hc
  rw [← e]
  exact d.isLt

/-- No value starts with a closing bracket. -/
theorem parseValue_head (fuel c : Nat) (tail : JStr) (p : Json × JStr)
    (h : parseValue (fuel + 1) (c :: tail) = some p) : c ≠ 93 ∧ c ≠ 125 := by
  constructor
  · intro e
    rw [e, parseValue_succ, if_neg (by decide), if_neg (by decide), if_neg (by decide),
      if_neg (by decide), if_neg (by decide), if_neg (by decide)] at h
    exact Option.noConfusion h
  · intro e
    rw [e, parseValue_succ, if_neg (by decide), if_neg (by decide), if_neg (by decide),
      if_neg (by decide), if_neg (by decide), if_neg (by decide)] at h
    exact Option.noConfusion h

/-- The text of a number that reads back starts with a character that is
more than a space and no closing bracket. -/
theorem numberText_head (P : Platform) (lit : JStr) (h : numberReadsBack P lit) :
    ∃ c t, stringify P (Json.numLit lit) = c :: t ∧ 32 < c ∧ c ≠ 93 ∧ c ≠ 125 := by
  obtain ⟨hc, v, _, hp⟩ := h
  have h0 := hp 0 [] rfl
  cases ht : stringify P (Json.numLit lit) with
  | nil => rw [ht] at h0; exact Option.noConfusion h0
  | cons c t =>
    rw [ht] at h0 hc
    rw [List.cons_append] at h0
    have := parseValue_head 0 c _ _ h0
    exact ⟨c, t, rfl, hc c (List.mem_cons_self _ _), this.1, this.2⟩

/-- The text of a value starts with a character that is neither white space
nor a closing bracket. -/
theorem stringify_head_parsed (P : Platform) (x : Json)
    (hn : x.numLitsAll (numberReadsBack P)) :
    ∃ c t, stringify P x = c :: t ∧ ¬ (c = 9 ∨ c = 10 ∨ c = 13 ∨ c = 32) ∧ c ≠ 93 ∧ c ≠ 125 ∧
      isTrimSpace c = false := by
  cases x with
  | null => exact ⟨110, _, rfl, by decide, by decide, by decide, by decide⟩
  | bool b => cases b
              · exact ⟨102, _, rfl, by decide, by decide, by decide, by decide⟩
              · exact ⟨116, _, rfl, by decide, by decide, by decide, by decide⟩
  | num n =>
    obtain ⟨d, t, hd, h⟩ := intText_head n
    refine ⟨d, t, by simp only [stringify]; exact hd, ?_, ?_, ?_, ?_⟩
    · omega
    · omega
    · omega
    · simp only [isTrimSpace, Bool.or_eq_false_iff, Bool.and_eq_false_iff,
        decide_eq_false_iff_not]
      omega
  | numLit lit =>
    have hq : numberReadsBack P lit := hn
    obtain ⟨c, t, hc, h32, h93, h125⟩ := numberText_head P lit hq
    have hlt := numberText_lt P lit c (by rw [hc]; exact List.mem_cons_self _ _)
    refine ⟨c, t, hc, by omega, h93, h125, ?_⟩
    simp only [isTrimSpace, Bool.or_eq_false_iff, Bool.and_eq_false_iff,
      decide_eq_false_iff_not]
    omega
  | str s => exact ⟨34, _, rfl, by decide, by decide, by decide, by decide⟩
  | arr xs => cases xs
              · exact ⟨91, _, rfl, by decide, by decide, by decide, by decide⟩
              · exact ⟨91, _, rfl, by decide, by decide, by decide, by decide⟩
  | obj kvs =>
    match kvs with
    | [] => exact ⟨123, _, rfl, by decide, by decide, by decide, by decide⟩
    | (k, v) :: kvs => exact ⟨123, _, rfl, by decide, by decide, by decide, by decide⟩

/-- Property order is a matter of the keys. -/
theorem propertyOrdered_congr_keys (l1 l2 : List (JStr × Json))
    (h : l1.map Prod.fst = l2.map Prod.fst) (h1 : propertyOrdered l1 = true) :
    propertyOrdered l2 = true := by
  have p1 := (propertyOrdered_iff_pairwise l1).mp h1
  apply (propertyOrdered_iff_pairwise l2).mpr
  have q1 : (l1.map Prod.fst).Pairwise (fun a b => keyOrderOk a b = true ∧ a ≠ b) :=
    List.pairwise_map.mpr p1
  rw [h] at q1
  exact List.pairwise_map.mp q1

theorem stringify_obj_cons (P : Platform) (kv : JStr × Json) (kvs : List (JStr × Json)) :
    stringify P (Json.obj (kv :: kvs)) = 123 :: (stringifyMembers P (kv :: kvs)).tail := by
  obtain ⟨k, v⟩ := kv
  rfl

/-- What `parseNumber` returns is a number. -/
theorem parseNumber_isNumber (s : JStr) (v : Json) (r : JStr)
    (h : parseNumber s = some (v, r)) : v.isNumber = true := by
  unfold parseNumber at h
  simp only at h
  cases hi : parseIntPart (if decide (s.head? = some 45) = true then s.tail else s) with
  | none => rw [hi] at h; exact Option.noConfusion h
  | some p =>
    obtain ⟨ds, s2⟩ := p
    rw [hi] at h
    simp only at h
    cases hf : parseFraction s2 with
    | none => rw [hf] at h; exact Option.noConfusion h
    | some p2 =>
      obtain ⟨fr, s3⟩ := p2
      rw [hf] at h
      simp only at h
      cases he : parseExponent s3 with
      | none => rw [he] at h; exact Option.noConfusion h
      | some p3 =>
        obtain ⟨ex, s4⟩ := p3
        rw [he] at h
        simp only at h
        by_cases hc : fr = [] ∧ ex = [] ∧ digitsValue 0 ds ≤ 9007199254740992
        · rw [if_pos hc] at h
          rw [← (Prod.mk.inj (Option.some.inj h)).1]
          rfl
        · rw [if_neg hc] at h
          rw [← (Prod.mk.inj (Option.some.inj h)).1]
          rfl

/-- A text that starts with a digit or a minus sign is read as a number. -/
theorem parseValue_isNumber (fuel c : Nat) (tail : JStr) (v : Json) (r : JStr)
    (hc : c = 45 ∨ isDigit c = true)
    (h : parseValue (fuel + 1) (c :: tail) = some (v, r)) : v.isNumber = true := by
  have hd : c = 45 ∨ (48 ≤ c ∧ c ≤ 57) := by
    rcases hc with h1 | h1
    · exact Or.inl h1
    · exact Or.inr ((isDigit_iff c).mp h1)
  rw [parseValue_succ, if_neg (by omega), if_neg (by omega), if_neg (by omega),
    if_neg (by omega), if_neg (by omega), if_neg (by omega)] at h
  exact parseNumber_isNumber _ v r h

mutual
/-- The text of a value that `JSON.parse` returned is read, whatever follows
it inside a JSON text, as a value with the same text. -/
theorem readBack_value (P : Platform) : ∀ (x : Json), x.isParsed = true →
    x.numLitsAll (numberReadsBack P) →
    ∃ y, y.unitsOk = true ∧ stringify P y = stringify P x ∧
      (x.numLitsAll (printsAsNumber P) → Json.sameValue P x y) ∧
      ∀ (fuel : Nat) (rest : JStr), x.parseFuel ≤ fuel → startsWithDelimiter rest = true →
        parseValue fuel (stringify P x ++ rest) = some (y, rest)
  | .null, _, _ => ⟨.null, rfl, rfl, fun _ => rfl, fun fuel rest hf _ => by
    obtain ⟨f, rfl⟩ : ∃ f, fuel = f + 1 := ⟨fuel - 1, by simp [Json.parseFuel] at hf; omega⟩
    rfl⟩
  | .bool true, _, _ => ⟨.bool true, rfl, rfl, fun _ => rfl, fun fuel rest hf _ => by
    obtain ⟨f, rfl⟩ : ∃ f, fuel = f + 1 := ⟨fuel - 1, by simp [Json.parseFuel] at hf; omega⟩
    rfl⟩
  | .bool false, _, _ => ⟨.bool false, rfl, rfl, fun _ => rfl, fun fuel rest hf _ => by
    obtain ⟨f, rfl⟩ : ∃ f, fuel = f + 1 := ⟨fuel - 1, by simp [Json.parseFuel] at hf; omega⟩
    rfl⟩
  | .num n, hx, _ => ⟨.num n, rfl, rfl, fun _ => rfl, fun fuel rest hf hr => by
    obtain ⟨f, rfl⟩ : ∃ f, fuel = f + 1 := ⟨fuel - 1, by simp [Json.parseFuel] at hf; omega⟩
    have hn : n.natAbs ≤ 9007199254740992 := by simpa [Json.isParsed] using hx
    obtain ⟨d, t, hd, h⟩ := intText_head n
    have hp := parseNumber_intText n hn rest hr
    simp only [stringify]
    rw [hd] at hp ⊢
    rw [List.cons_append, parseValue_succ, if_neg (by omega), if_neg (by omega),
      if_neg (by omega), if_neg (by omega), if_neg (by omega), if_neg (by omega)]
    exact hp⟩
  | .numLit lit, _, hn => by
    have hq : numberReadsBack P lit := hn
    obtain ⟨_, y, hst, hp⟩ := hq
    have h0 := hp 0 [] rfl
    have hj : isJStr (stringify P (Json.numLit lit) ++ []) = true := by
      rw [List.append_nil]; exact numberText_isJStr P lit
    have hy := ((parse_isParsed 1).1 _ y [] hj h0).1
    refine ⟨y, isParsed_unitsOk y hy, hst, ?_, ?_⟩
    · intro hnum
      have hnum2 : printsAsNumber P lit := hnum
      obtain ⟨c, t, hc, hd⟩ := hnum2
      rw [hc, List.cons_append] at h0
      exact ⟨parseValue_isNumber 0 c _ y [] hd h0, hst⟩
    intro fuel rest hf hr
    obtain ⟨f, rfl⟩ : ∃ f, fuel = f + 1 := ⟨fuel - 1, by simp [Json.parseFuel] at hf; omega⟩
    exact hp f rest hr
  | .str s, hx, _ => ⟨.str s, by
      have : isJStr s = true := by simpa [Json.isParsed] using hx
      simpa [Json.unitsOk] using this, rfl, fun _ => rfl, fun fuel rest hf _ => by
    obtain ⟨f, rfl⟩ : ∃ f, fuel = f + 1 := ⟨fuel - 1, by simp [Json.parseFuel] at hf; omega⟩
    have hq := parseStringChars_quote s rest
    simp only [stringify, quoteJSONString, List.cons_append, List.append_assoc,
      List.nil_append]
    rw [parseValue_succ, if_neg (by decide), if_neg (by decide), if_neg (by decide),
      if_pos rfl, hq]
    rfl⟩
  | .arr [], _, _ => ⟨.arr [], rfl, rfl, fun _ => ⟨[], rfl, rfl⟩, fun fuel rest hf _ => by
    obtain ⟨f, rfl⟩ : ∃ f, fuel = f + 1 := ⟨fuel - 1, by simp [Json.parseFuel] at hf; omega⟩
    rfl⟩
  | .arr (x :: xs), hx, hn => by
    have hx2 : x.isParsed = true ∧ Json.isParsedList xs = true := by
      simpa [Json.isParsed, Json.isParsedList] using hx
    have hn2 : x.numLitsAll (numberReadsBack P) ∧
        Json.numLitsAllList (numberReadsBack P) xs := hn
    obtain ⟨y, hy1, hy2, hy4, hy3⟩ := readBack_value P x hx2.1 hn2.1
    obtain ⟨ys, hys1, hys2, hys4, hys3⟩ := readBack_elems P xs hx2.2 hn2.2
    refine ⟨.arr (y :: ys), ?_, ?_, ?_, ?_⟩
    · simp only [Json.unitsOk, Json.unitsOkList, hy1, hys1, Bool.and_self]
    · simp only [stringify, hy2, hys2]
    · intro hnum
      have hnum2 : x.numLitsAll (printsAsNumber P) ∧
          Json.numLitsAllList (printsAsNumber P) xs := hnum
      exact ⟨y :: ys, rfl, y, ys, rfl, hy4 hnum2.1, hys4 hnum2.2⟩
    · intro fuel rest hf hr
      have hf2 : 1 + x.parseFuel + Json.parseFuelElems xs ≤ fuel := by
        simpa [Json.parseFuel] using hf
      obtain ⟨f, rfl⟩ : ∃ f, fuel = f + 1 := ⟨fuel - 1, by omega⟩
      obtain ⟨c, t, hc, hws, h93, _⟩ := stringify_head_parsed P x hn2.1
      have ihv := hy3 f (stringifyElems P xs ++ rest) (by omega)
        (stringifyElems_delimiter P xs rest)
      have ihe := hys3 f rest (by omega) hr
      simp only [stringify, List.cons_append, List.append_assoc]
      rw [parseValue_succ, if_neg (by decide), if_neg (by decide), if_neg (by decide),
        if_neg (by decide), if_pos rfl]
      rw [hc] at ihv ⊢
      rw [List.cons_append] at ihv ⊢
      rw [skipWs_cons c _ hws]
      simp only [if_neg h93, ihv, ihe, Option.map_some']
  | .obj [], _, _ => ⟨.obj [], rfl, rfl, fun _ => ⟨[], rfl, rfl⟩, fun fuel rest hf _ => by
    obtain ⟨f, rfl⟩ : ∃ f, fuel = f + 1 := ⟨fuel - 1, by simp [Json.parseFuel] at hf; omega⟩
    rfl⟩
  | .obj ((k, v) :: kvs), hx, hn => by
    have hx2 : propertyOrdered ((k, v) :: kvs) = true ∧
        Json.isParsedMembers ((k, v) :: kvs) = true := by
      simpa [Json.isParsed] using hx
    have hn2 : Json.numLitsAllMembers (numberReadsBack P) ((k, v) :: kvs) := hn
    obtain ⟨ms, hm1, hm2, hm3, hm5, hm4⟩ := readBack_members P ((k, v) :: kvs) hx2.2 hn2
    have hord : propertyOrdered ms = true :=
      propertyOrdered_congr_keys _ ms hm2.symm hx2.1
    cases ms with
    | nil => exact absurd hm2 (by simp)
    | cons m ms =>
      refine ⟨.obj (m :: ms), ?_, ?_, ?_, ?_⟩
      · simpa [Json.unitsOk] using hm1
      · rw [stringify_obj_cons, stringify_obj_cons, hm3]
      · intro hnum
        exact ⟨m :: ms, rfl, hm5 hnum⟩
      · intro fuel rest hf hr
        have hf2 : 1 + Json.parseFuelMembers ((k, v) :: kvs) ≤ fuel := by
          simpa [Json.parseFuel] using hf
        obtain ⟨f, rfl⟩ : ∃ f, fuel = f + 1 := ⟨fuel - 1, by omega⟩
        have ihm := hm4 f [] rest (by omega) hr
        have hfold := foldl_objSet (m :: ms) [] (by simpa using hord)
        rw [hfold, List.nil_append] at ihm
        simp only [stringifyMembers, quoteJSONString, List.cons_append, List.append_assoc,
          List.nil_append] at ihm
        simp only [stringify, quoteJSONString, List.cons_append, List.append_assoc,
          List.nil_append]
        rw [parseValue_succ, if_neg (by decide), if_neg (by decide), if_neg (by decide),
          if_neg (by decide), if_neg (by decide), if_pos rfl, skipWs_cons 34 _ (by decide)]
        simp only [if_neg (show (34 : Nat) ≠ 125 by decide), ihm, Option.map_some']
/-- The same for the rest of an array. -/
theorem readBack_elems (P : Platform) : ∀ (xs : List Json), Json.isParsedList xs = true →
    Json.numLitsAllList (numberReadsBack P) xs →
    ∃ ys, Json.unitsOkList ys = true ∧ stringifyElems P ys = stringifyElems P xs ∧
      (Json.numLitsAllList (printsAsNumber P) xs → Json.sameValueList P xs ys) ∧
      ∀ (fuel : Nat) (rest : JStr), Json.parseFuelElems xs ≤ fuel →
        startsWithDelimiter rest = true →
        parseElements fuel (stringifyElems P xs ++ rest) = some (ys, rest)
  | [], _, _ => ⟨[], rfl, rfl, fun _ => rfl, fun fuel rest hf _ => by
    obtain ⟨f, rfl⟩ : ∃ f, fuel = f + 1 := ⟨fuel - 1, by simp [Json.parseFuelElems] at hf; omega⟩
    rfl⟩
  | x :: xs, hx, hn => by
    have hx2 : x.isParsed = true ∧ Json.isParsedList xs = true := by
      simpa [Json.isParsedList] using hx
    have hn2 : x.numLitsAll (numberReadsBack P) ∧
        Json.numLitsAllList (numberReadsBack P) xs := hn
    obtain ⟨y, hy1, hy2, hy4, hy3⟩ := readBack_value P x hx2.1 hn2.1
    obtain ⟨ys, hys1, hys2, hys4, hys3⟩ := readBack_elems P xs hx2.2 hn2.2
    refine ⟨y :: ys, ?_, ?_, ?_, ?_⟩
    · simp only [Json.unitsOkList, hy1, hys1, Bool.and_self]
    · simp only [stringifyElems, hy2, hys2]
    · intro hnum
      have hnum2 : x.numLitsAll (printsAsNumber P) ∧
          Json.numLitsAllList (printsAsNumber P) xs := hnum
      exact ⟨y, ys, rfl, hy4 hnum2.1, hys4 hnum2.2⟩
    · intro fuel rest hf hr
      have hf2 : 1 + x.parseFuel + Json.parseFuelElems xs ≤ fuel := by
        simpa [Json.parseFuelElems] using hf
      obtain ⟨f, rfl⟩ : ∃ f, fuel = f + 1 := ⟨fuel - 1, by omega⟩
      obtain ⟨c, t, hc, hws, _, _⟩ := stringify_head_parsed P x hn2.1
      have ihv := hy3 f (stringifyElems P xs ++ rest) (by omega)
        (stringifyElems_delimiter P xs rest)
      have ihe := hys3 f rest (by omega) hr
      simp only [stringifyElems, List.cons_append, List.append_assoc]
      rw [parseElements_succ, skipWs_cons 44 _ (by decide)]
      simp only [if_neg (show (44 : Nat) ≠ 93 by decide), if_true]
      rw [hc] at ihv ⊢
      rw [List.cons_append] at ihv ⊢
      rw [skipWs_cons c _ hws]
      simp only [ihv, ihe, Option.map_some']
/-- The same for the rest of an object: the members read are set, one after
the other, on the object built so far. -/
theorem readBack_members (P : Platform) : ∀ (kvs : List (JStr × Json)),
    Json.isParsedMembers kvs = true → Json.numLitsAllMembers (numberReadsBack P) kvs →
    ∃ ms, Json.unitsOkMembers ms = true ∧ ms.map Prod.fst = kvs.map Prod.fst ∧
      stringifyMembers P ms = stringifyMembers P kvs ∧
      (Json.numLitsAllMembers (printsAsNumber P) kvs → Json.sameValueMembers P kvs ms) ∧
      ∀ (fuel : Nat) (acc : List (JStr × Json)) (rest : JStr),
        Json.parseFuelMembers kvs ≤ fuel → startsWithDelimiter rest = true →
        parseMembers fuel acc (stringifyMembers P kvs ++ rest) =
          some (ms.foldl (fun o kv => objSet o kv.1 kv.2) acc, rest)
  | [], _, _ => ⟨[], rfl, rfl, rfl, fun _ => rfl, fun fuel acc rest hf _ => by
    obtain ⟨f, rfl⟩ : ∃ f, fuel = f + 1 :=
      ⟨fuel - 1, by simp [Json.parseFuelMembers] at hf; omega⟩
    rfl⟩
  | (k, v) :: kvs, hx, hn => by
    have hx2 : (isJStr k = true ∧ v.isParsed = true) ∧ Json.isParsedMembers kvs = true := by
      simpa [Json.isParsedMembers] using hx
    have hn2 : v.numLitsAll (numberReadsBack P) ∧
        Json.numLitsAllMembers (numberReadsBack P) kvs := hn
    obtain ⟨y, hy1, hy2, hy4, hy3⟩ := readBack_value P v hx2.1.2 hn2.1
    obtain ⟨ms, hm1, hm2, hm3, hm5, hm4⟩ := readBack_members P kvs hx2.2 hn2.2
    refine ⟨(k, y) :: ms, ?_, ?_, ?_, ?_, ?_⟩
    · simp only [Json.unitsOkMembers, hx2.1.1, hy1, hm1, Bool.and_self]
    · simp only [List.map_cons, hm2]
    · simp only [stringifyMembers, hy2, hm3]
    · intro hnum
      have hnum2 : v.numLitsAll (printsAsNumber P) ∧
          Json.numLitsAllMembers (printsAsNumber P) kvs := hnum
      exact ⟨y, ms, rfl, hy4 hnum2.1, hm5 hnum2.2⟩
    · intro fuel acc rest hf hr
      have hf2 : 1 + v.parseFuel + Json.parseFuelMembers kvs ≤ fuel := by
        simpa [Json.parseFuelMembers] using hf
      obtain ⟨f, rfl⟩ : ∃ f, fuel = f + 1 := ⟨fuel - 1, by omega⟩
      obtain ⟨c, t, hc, hws, _, _⟩ := stringify_head_parsed P v hn2.1
      have ihv := hy3 f (stringifyMembers P kvs ++ rest) (by omega)
        (stringifyMembers_delimiter P kvs rest)
      have ihm := hm4 f (objSet acc k y) rest (by omega) hr
      have hq := parseStringChars_quote k
        (58 :: (stringify P v ++ (stringifyMembers P kvs ++ rest)))
      simp only [stringifyMembers, quoteJSONString, List.cons_append, List.append_assoc,
        List.nil_append]
      rw [parseMembers_succ, skipWs_cons 44 _ (by decide)]
      simp only [if_neg (show (44 : Nat) ≠ 125 by decide), if_true]
      rw [skipWs_cons 34 _ (by decide)]
      simp only [if_true, hq]
      rw [skipWs_cons 58 _ (by decide)]
      simp only [if_true]
      rw [hc] at ihv ⊢
      rw [List.cons_append] at ihv ⊢
      rw [skipWs_cons c _ hws]
      simp only [ihv, ihm, List.foldl_cons]
end

/-! ## Export, then the renderer again -/

theorem isTrimSpace_printable (c : Nat) (h1 : 32 < c) (h2 : c < 128) :
    isTrimSpace c = false := by
  simp only [isTrimSpace, Bool.or_eq_false_iff, Bool.and_eq_false_iff,
    decide_eq_false_iff_not]
  omega

theorem decDigits_last (n : Nat) : ∃ init d, decDigits n = init ++ [d] ∧ 48 ≤ d ∧ d ≤ 57 := by
  by_cases h : n < 10
  · exact ⟨[], 48 + n, by rw [decDigits_lt_ten n h]; rfl, by omega, by omega⟩
  · exact ⟨decDigits (n / 10), 48 + n % 10, decDigits_step n (by omega), by omega, by omega⟩

theorem intText_last (n : Int) : ∃ init d, intText n = init ++ [d] ∧ 48 ≤ d ∧ d ≤ 57 := by
  obtain ⟨init, d, e, h1, h2⟩ := decDigits_last n.natAbs
  unfold intText
  by_cases hn : n < 0
  · rw [if_pos hn, e]
    exact ⟨45 :: init, d, rfl, h1, h2⟩
  · rw [if_neg hn, e]
    exact ⟨init, d, rfl, h1, h2⟩

theorem stringifyElems_last (P : Platform) : ∀ (xs : List Json),
    ∃ init, stringifyElems P xs = init ++ [93]
  | [] => ⟨[], rfl⟩
  | x :: xs => by
    obtain ⟨init, e⟩ := stringifyElems_last P xs
    refine ⟨44 :: (stringify P x ++ init), ?_⟩
    rw [stringifyElems, e]
    simp only [List.cons_append, List.append_assoc]

theorem stringifyMembers_last (P : Platform) : ∀ (kvs : List (JStr × Json)),
    ∃ init, stringifyMembers P kvs = init ++ [125]
  | [] => ⟨[], rfl⟩
  | (k, v) :: kvs => by
    obtain ⟨init, e⟩ := stringifyMembers_last P kvs
    refine ⟨44 :: (quoteJSONString k ++ 58 :: (stringify P v ++ init)), ?_⟩
    rw [stringifyMembers, e]
    simp only [List.cons_append, List.append_assoc]

/-- The text of a value ends with a character that is no white space. -/
theorem stringify_last (P : Platform) (x : Json) (hn : x.numLitsAll (numberReadsBack P)) :
    ∃ init d, stringify P x = init ++ [d] ∧ isTrimSpace d = false := by
  cases x with
  | null => exact ⟨[110, 117, 108], 108, rfl, by decide⟩
  | bool b =>
    cases b
    · exact ⟨[102, 97, 108, 115], 101, rfl, by decide⟩
    · exact ⟨[116, 114, 117], 101, rfl, by decide⟩
  | num n =>
    obtain ⟨init, d, e, h1, h2⟩ := intText_last n
    exact ⟨init, d, by rw [stringify]; exact e,
      isTrimSpace_printable d (by omega) (by omega)⟩
  | numLit lit =>
    have hq : numberReadsBack P lit := hn
    obtain ⟨c, t, hc, _, _, _⟩ := numberText_head P lit hq
    rcases List.eq_nil_or_concat (stringify P (Json.numLit lit)) with h | ⟨init, d, h⟩
    · rw [hc] at h; exact List.noConfusion h
    · rw [List.concat_eq_append] at h
      have hm : d ∈ stringify P (Json.numLit lit) := by
        rw [h]; exact List.mem_append_right _ (List.mem_singleton_self d)
      exact ⟨init, d, h, isTrimSpace_printable d (hq.1 d hm) (numberText_lt P lit d hm)⟩
  | str s =>
    exact ⟨34 :: quoteJSONLoop false s, 34, rfl, by decide⟩
  | arr xs =>
    cases xs with
    | nil => exact ⟨[91], 93, rfl, by decide⟩
    | cons y ys =>
      obtain ⟨init, e⟩ := stringifyElems_last P ys
      refine ⟨91 :: (stringify P y ++ init), 93, ?_, by decide⟩
      rw [stringify, e]
      simp only [List.cons_append, List.append_assoc]
  | obj kvs =>
    match kvs with
    | [] => exact ⟨[123], 125, rfl, by decide⟩
    | (k, v) :: kvs =>
      obtain ⟨init, e⟩ := stringifyMembers_last P kvs
      refine ⟨123 :: (quoteJSONString k ++ 58 :: (stringify P v ++ init)), 125, ?_, by decide⟩
      rw [stringify, e]
      simp only [List.cons_append, List.append_assoc]

/-- The text of a value does not start with a backtick. -/
theorem stringify_not_backtick (P : Platform) (x : Json)
    (hn : x.numLitsAll (numberReadsBack P)) : (stringify P x).head? ≠ some 96 := by
  cases x with
  | null => rw [stringify]; decide
  | bool b => cases b <;> (rw [stringify]; decide)
  | num n =>
    obtain ⟨d, t, hd, h⟩ := intText_head n
    rw [stringify, hd]
    intro e
    have := Option.some.inj e
    omega
  | numLit lit =>
    have hq : numberReadsBack P lit := hn
    obtain ⟨_, y, _, hp⟩ := hq
    have h0 := hp 0 [] rfl
    cases ht : stringify P (Json.numLit lit) with
    | nil => intro e; exact Option.noConfusion e
    | cons c t =>
      intro e
      have hc : c = 96 := Option.some.inj e
      rw [ht, hc, List.cons_append, parseValue_succ, if_neg (by decide), if_neg (by decide),
        if_neg (by decide), if_neg (by decide), if_neg (by decide), if_neg (by decide)] at h0
      exact Option.noConfusion h0
  | str s => rw [stringify, quoteJSONString]; intro e; exact absurd (Option.some.inj e) (by decide)
  | arr xs =>
    cases xs <;> (rw [stringify]; intro e; exact absurd (Option.some.inj e) (by decide))
  | obj kvs =>
    match kvs with
    | [] => rw [stringify]; decide
    | (k, v) :: kvs => rw [stringify]; intro e; exact absurd (Option.some.inj e) (by decide)

/-- A text that neither starts nor ends with white space is left by `trim`. -/
theorem trim_eq_self (s : JStr) (c : Nat) (t : JStr) (h1 : s = c :: t)
    (hc : isTrimSpace c = false) (init : JStr) (d : Nat) (h2 : s = init ++ [d])
    (hd : isTrimSpace d = false) : trim s = s := by
  unfold trim trimEnd
  have e1 : trimStart s = s := by rw [h1]; exact trimStart_cons c t hc
  rw [e1]
  have e2 : s.reverse = d :: init.reverse := by rw [h2]; simp
  rw [e2, trimStart_cons d _ hd, ← e2, List.reverse_reverse]

mutual
theorem numLitsAll_mono (Q R : JStr → Prop) (hqr : ∀ lit, Q lit → R lit) :
    ∀ (x : Json), x.numLitsAll Q → x.numLitsAll R
  | .null, _ => trivial
  | .bool _, _ => trivial
  | .num _, _ => trivial
  | .numLit lit, h => hqr lit h
  | .str _, _ => trivial
  | .arr xs, h => numLitsAllList_mono Q R hqr xs h
  | .obj kvs, h => numLitsAllMembers_mono Q R hqr kvs h
theorem numLitsAllList_mono (Q R : JStr → Prop) (hqr : ∀ lit, Q lit → R lit) :
    ∀ (xs : List Json), Json.numLitsAllList Q xs → Json.numLitsAllList R xs
  | [], _ => trivial
  | x :: xs, h => ⟨numLitsAll_mono Q R hqr x h.1, numLitsAllList_mono Q R hqr xs h.2⟩
theorem numLitsAllMembers_mono (Q R : JStr → Prop) (hqr : ∀ lit, Q lit → R lit) :
    ∀ (kvs : List (JStr × Json)), Json.numLitsAllMembers Q kvs → Json.numLitsAllMembers R kvs
  | [], _ => trivial
  | (_, v) :: kvs, h =>
    ⟨numLitsAll_mono Q R hqr v h.1, numLitsAllMembers_mono Q R hqr kvs h.2⟩
end

/-- The text of a value that `JSON.parse` returned is read by `JSON.parse`,
after `trim`, as a value with the same text. -/
theorem jsonParse_trim_stringify (P : Platform) (x : Json) (hx : x.isParsed = true)
    (hn : x.numLitsAll (numberReadsBack P)) :
    ∃ y, y.unitsOk = true ∧ stringify P y = stringify P x ∧
      (x.numLitsAll (printsAsNumber P) → Json.sameValue P x y) ∧
      trim (stringify P x) = stringify P x ∧
      jsonParse (trim (stringify P x)) = some y := by
  obtain ⟨y, hy1, hy2, hy4, hy3⟩ := readBack_value P x hx hn
  obtain ⟨c, t, hc, hws, _, _, htrim⟩ := stringify_head_parsed P x hn
  obtain ⟨init, d, hd, hlast⟩ := stringify_last P x hn
  refine ⟨y, hy1, hy2, hy4, trim_eq_self _ c t hc htrim init d hd hlast, ?_⟩
  rw [trim_eq_self _ c t hc htrim init d hd hlast]
  have hfuel := parseFuel_le P x
  have hp := hy3 (2 * (stringify P x).length + 2) [] (by omega) rfl
  rw [List.append_nil] at hp
  unfold jsonParse
  have hskip : skipWs (stringify P x) = stringify P x := by
    rw [hc]; exact skipWs_cons c t hws
  rw [hskip, hp]
  rfl

/-- C28 (export, then the renderer again): let the renderer take a chart
fence whose body, a string, is valid JSON with value `v`, the numbers of `v`
being printed by the platform as texts that read back.  The renderer returns
the chart markup with the carrier `c = base64(utf8(JSON.stringify(v)))`.  For
a node that carries `c` the export rule writes a fence whose body is the
text `JSON.stringify(v)`; this body has no control character, so it is one
line, and does not start with a backtick.  The renderer takes this body as
the body of a chart fence: it is valid JSON, and the markup and the carrier
the renderer returns for it hold the same `c`. -/
theorem C28_export_reparse_fixed_point (P : Platform) (o : ParseOptions) (info : Option JStr)
    (body : JStr) (v : Json) (node : Node)
    (hen : strictlyFalse o.chartEnabled = false)
    (htag : toLowerCase P (trim (info.getD [])) = js "echarts" ∨
      toLowerCase P (trim (info.getD [])) = js "chart")
    (hb : isJStr body = true)
    (hv : jsonParse (trim body) = some v)
    (hn : v.numLitsAll (numberReadsBack P))
    (ha : node.getAttribute optionAttr = some (base64Encode (utf8Encode (stringify P v)))) :
    code P o body info =
      some (if strictlyFalse o.chartRenderAsChart then
        pendingTemplate (base64Encode (utf8Encode (stringify P v)))
          (escapeText (stringifyPretty P [] v))
      else liveTemplate (base64Encode (utf8Encode (stringify P v)))) ∧
    echartsPendingReplacement node
      = js "\n\n```echarts\n" ++ stringify P v ++ js "\n```\n\n" ∧
    (∀ ch ∈ stringify P v, 32 ≤ ch) ∧
    (stringify P v).head? ≠ some 96 ∧
    ∃ y, jsonParse (trim (stringify P v)) = some y ∧
      encodeCarrier P y = some (base64Encode (utf8Encode (stringify P v))) ∧
      code P o (stringify P v) info =
        some (if strictlyFalse o.chartRenderAsChart then
          pendingTemplate (base64Encode (utf8Encode (stringify P v)))
            (escapeText (stringifyPretty P [] y))
        else liveTemplate (base64Encode (utf8Encode (stringify P v)))) := by
  have hx := jsonParse_isParsed (trim body) v (trim_isJStr body hb) hv
  have hu := isParsed_unitsOk v hx
  obtain ⟨hj, hw⟩ := goodText_stringify P v hu
  obtain ⟨c, t, hc, _⟩ := stringify_head_parsed P v hn
  have hne : stringify P v ≠ [] := by rw [hc]; exact List.cons_ne_nil c t
  obtain ⟨y, hy1, hy2, _, _, hy3⟩ := jsonParse_trim_stringify P v hx hn
  have hp := stringify_printable P v
    (numLitsAll_mono _ _ (fun lit hq ch hch => Nat.le_of_lt (hq.1 ch hch)) v hn)
  refine ⟨code_chart P o body info v hen htag hv hu, ?_, hp, stringify_not_backtick P v hn,
    y, hy3, ?_, ?_⟩
  · exact echartsPendingReplacement_text node _ _ ha
      (base64Encode_ne_nil_of_ne_nil _ (utf8Encode_ne_nil _ hne))
      (decodeCarrierText_encode _ hj hw)
  · rw [← hy2]
    exact encodeCarrier_eq P y hy1
  · have h := code_chart P o (stringify P v) info y hen htag hy3 hy1
    rw [hy2] at h
    exact h

/-- The reference platform prints the number literal `1.50` as `1.5`, a text
that reads back. -/
theorem numberReadsBack_fraction : numberReadsBack refPlatform (js "1.50") := by
  refine ⟨by decide, Json.numLit (js "1.5"), by decide, ?_⟩
  intro fuel rest hr
  cases rest with
  | nil => rfl
  | cons c t =>
    simp only [startsWithDelimiter, Bool.or_eq_true, decide_eq_true_eq] at hr
    rcases hr with (h | h) | h <;> (rw [h]; rfl)

/-- The reference platform prints the number literal `-2e3` as `-2000`, a
text that reads back. -/
theorem numberReadsBack_exponent : numberReadsBack refPlatform (js "-2e3") := by
  refine ⟨by decide, Json.num (-2000), by decide, ?_⟩
  intro fuel rest hr
  cases rest with
  | nil => rfl
  | cons c t =>
    simp only [startsWithDelimiter, Bool.or_eq_true, decide_eq_true_eq] at hr
    rcases hr with (h | h) | h <;> (rw [h]; rfl)

set_option maxRecDepth 100000 in
theorem C28_export_reparse_fixed_point_witness :
    strictlyFalse (some (Json.bool true)) = false ∧
    (toLowerCase refPlatform (trim ((some (js "echarts")).getD [])) = js "echarts" ∨
      toLowerCase refPlatform (trim ((some (js "echarts")).getD [])) = js "chart") ∧
    isJStr fractionBody = true ∧
    jsonParse (trim fractionBody) = some fractionBodyValue ∧
    fractionBodyValue.numLitsAll (numberReadsBack refPlatform) ∧
    (pendingNode (base64Encode (utf8Encode (stringify refPlatform fractionBodyValue)))
        (js "shown text")).getAttribute optionAttr
      = some (base64Encode (utf8Encode (stringify refPlatform fractionBodyValue))) ∧
    (code refPlatform
        { chartEnabled := some (Json.bool true), chartRenderAsChart := some (Json.bool false) }
        fractionBody (some (js "echarts")) =
      some (if strictlyFalse (some (Json.bool false)) then
        pendingTemplate (base64Encode (utf8Encode (stringify refPlatform fractionBodyValue)))
          (escapeText (stringifyPretty refPlatform [] fractionBodyValue))
      else liveTemplate (base64Encode (utf8Encode (stringify refPlatform fractionBodyValue)))) ∧
    echartsPendingReplacement
        (pendingNode (base64Encode (utf8Encode (stringify refPlatform fractionBodyValue)))
          (js "shown text"))
      = js "\n\n```echarts\n" ++ stringify refPlatform fractionBodyValue ++ js "\n```\n\n" ∧
    (∀ ch ∈ stringify refPlatform fractionBodyValue, 32 ≤ ch) ∧
    (stringify refPlatform fractionBodyValue).head? ≠ some 96 ∧
    ∃ y, jsonParse (trim (stringify refPlatform fractionBodyValue)) = some y ∧
      encodeCarrier refPlatform y
        = some (base64Encode (utf8Encode (stringify refPlatform fractionBodyValue))) ∧
      code refPlatform
          { chartEnabled := some (Json.bool true), chartRenderAsChart := some (Json.bool false) }
          (stringify refPlatform fractionBodyValue) (some (js "echarts")) =
        some (if strictlyFalse (some (Json.bool false)) then
          pendingTemplate (base64Encode (utf8Encode (stringify refPlatform fractionBodyValue)))
            (escapeText (stringifyPretty refPlatform [] y))
        else liveTemplate
          (base64Encode (utf8Encode (stringify refPlatform fractionBodyValue))))) :=
  ⟨rfl, Or.inl (by decide), by decide, by rfl,
    ⟨trivial, trivial, ⟨numberReadsBack_fraction, numberReadsBack_exponent, trivial⟩, trivial⟩,
    by rfl,
    C28_export_reparse_fixed_point refPlatform
      { chartEnabled := some (Json.bool true), chartRenderAsChart := some (Json.bool false) }
      (some (js "echarts")) fractionBody fractionBodyValue
      (pendingNode (base64Encode (utf8Encode (stringify refPlatform fractionBodyValue)))
        (js "shown text"))
      rfl (Or.inl (by decide)) (by decide) (by rfl)
      ⟨trivial, trivial, ⟨numberReadsBack_fraction, numberReadsBack_exponent, trivial⟩, trivial⟩
      (by rfl)⟩

/-! # Claims: the export rule for pending charts, for every configuration -/

mutual
/-- A value without number literals, read again, is the value itself. -/
theorem sameValue_eq (P : Platform) : ∀ (x y : Json), x.isValue = true →
    Json.sameValue P x y → y = x
  | .null, _, _, h => h
  | .bool _, _, _, h => h
  | .num _, _, _, h => h
  | .numLit _, _, hx, _ => by simp [Json.isValue] at hx
  | .str _, _, _, h => h
  | .arr xs, y, hx, h => by
    have hx2 : Json.isValueList xs = true := by simpa [Json.isValue] using hx
    have h2 : ∃ ys, y = .arr ys ∧ Json.sameValueList P xs ys := h
    obtain ⟨ys, hy, hl⟩ := h2
    rw [hy, sameValueList_eq P xs ys hx2 hl]
  | .obj kvs, y, hx, h => by
    have hx2 : propertyOrdered kvs = true ∧ Json.isValueMembers kvs = true := by
      simpa [Json.isValue] using hx
    have h2 : ∃ ms, y = .obj ms ∧ Json.sameValueMembers P kvs ms := h
    obtain ⟨ms, hy, hl⟩ := h2
    rw [hy, sameValueMembers_eq P kvs ms hx2.2 hl]
/-- The same for lists of elements. -/
theorem sameValueList_eq (P : Platform) : ∀ (xs ys : List Json),
    Json.isValueList xs = true → Json.sameValueList P xs ys → ys = xs
  | [], _, _, h => h
  | x :: xs, ys, hx, h => by
    have hx2 : x.isValue = true ∧ Json.isValueList xs = true := by
      simpa [Json.isValueList] using hx
    have h2 : ∃ y rest, ys = y :: rest ∧ Json.sameValue P x y ∧
        Json.sameValueList P xs rest := h
    obtain ⟨y, rest, hy, h1, hl⟩ := h2
    rw [hy, sameValue_eq P x y hx2.1 h1, sameValueList_eq P xs rest hx2.2 hl]
/-- The same for lists of members. -/
theorem sameValueMembers_eq (P : Platform) : ∀ (kvs ms : List (JStr × Json)),
    Json.isValueMembers kvs = true → Json.sameValueMembers P kvs ms → ms = kvs
  | [], _, _, h => h
  | (k, v) :: kvs, ms, hx, h => by
    have hx2 : (isJStr k = true ∧ v.isValue = true) ∧ Json.isValueMembers kvs = true := by
      simpa [Json.isValueMembers] using hx
    have h2 : ∃ w rest, ms = (k, w) :: rest ∧ Json.sameValue P v w ∧
        Json.sameValueMembers P kvs rest := h
    obtain ⟨w, rest, hy, h1, hl⟩ := h2
    rw [hy, sameValue_eq P v w hx2.1.2 h1, sameValueMembers_eq P kvs rest hx2.2 hl]
end

set_option maxRecDepth 100000 in
/-- C2, the input on which the claim fails: the body of the fence holds the
number `1e999`, which `JSON.parse` reads as an infinite number and
`JSON.stringify` writes as `null`; the carrier the renderer builds holds the
text with `null`, the export rule writes this text, and `JSON.parse` reads it
as a configuration with `null` in place of the number. -/
theorem C2_counterexample :
    jsonParse (trim overflowBody) = some overflowBodyValue ∧
    encodeCarrier refPlatform overflowBodyValue = some carrierNull ∧
    code refPlatform
        { chartEnabled := some (Json.bool true), chartRenderAsChart := some (Json.bool false) }
        overflowBody (some (js "chart"))
      = some (pendingTemplate carrierNull (js "\x7b\n  \"a\": null\n\x7d")) ∧
    echartsPendingFilter (pendingNode carrierNull (js "\x7b\n  \"a\": null\n\x7d")) = true ∧
    echartsPendingReplacement (pendingNode carrierNull (js "\x7b\n  \"a\": null\n\x7d"))
      = js "\n\n```echarts\n\x7b\"a\":null\x7d\n```\n\n" ∧
    jsonParse (js "\x7b\"a\":null\x7d") = some (Json.obj [(js "a", Json.null)]) ∧
    Json.obj [(js "a", Json.null)] ≠ overflowBodyValue ∧
    ¬ Json.sameValue refPlatform overflowBodyValue (Json.obj [(js "a", Json.null)]) := by
  refine ⟨by rfl, by decide, by decide, by decide, by decide, by rfl, ?_, ?_⟩
  · intro h
    have h1 := Json.obj.inj h
    have h2 := (Prod.mk.inj (List.cons.inj h1).1).2
    exact Json.noConfusion h2
  · intro h
    have h1 : ∃ ms, Json.obj [(js "a", Json.null)] = Json.obj ms ∧
        Json.sameValueMembers refPlatform [(js "a", Json.numLit (js "1e999"))] ms := h
    obtain ⟨ms, he, hm⟩ := h1
    have h2 : ∃ w rest, ms = (js "a", w) :: rest ∧
        Json.sameValue refPlatform (Json.numLit (js "1e999")) w ∧
        Json.sameValueMembers refPlatform [] rest := hm
    obtain ⟨w, rest, hms, hw, _⟩ := h2
    rw [hms] at he
    have h3 := (Prod.mk.inj (List.cons.inj (Json.obj.inj he)).1).2
    have h4 : w.isNumber = true ∧ _ := hw
    rw [← h3] at h4
    exact Bool.noConfusion h4.1

/-- C2 (pending export round trip), for finite numbers: let `x` be the
configuration the renderer read from the body of a chart fence (any valid
JSON, fractions and exponents included, each number being one the platform
prints as a number text that reads back: a finite number), and let a pending
chart node carry the carrier the renderer built for `x`.  Whatever the node
shows as its children, the export rule `echartsPending` emits a fenced code
block whose body is the text `JSON.stringify(x)` held by the carrier;
`JSON.parse` reads this body as `x` again: as a value equal to `x` up to the
spelling of number literals, which stand for the same numbers, and as `x`
itself when the numbers of `x` are integers. -/
theorem C2_pending_export_round_trip (P : Platform) (fence : JStr) (x : Json) (node : Node)
    (carrier : JStr)
    (hb : isJStr fence = true) (hv : jsonParse (trim fence) = some x)
    (hn : x.numLitsAll (numberReadsBackAsNumber P))
    (_hf : echartsPendingFilter node = true)
    (hc : encodeCarrier P x = some carrier)
    (ha : node.getAttribute optionAttr = some carrier) :
    ∃ body y, echartsPendingReplacement node = js "\n\n```echarts\n" ++ body ++ js "\n```\n\n" ∧
      body = stringify P x ∧
      jsonParse body = some y ∧
      Json.sameValue P x y ∧
      (x.isValue = true → y = x) := by
  have hx := jsonParse_isParsed (trim fence) x (trim_isJStr fence hb) hv
  have hu := isParsed_unitsOk x hx
  have hn1 : x.numLitsAll (numberReadsBack P) :=
    numLitsAll_mono _ _ (fun _ h => h.1) x hn
  have hn2 : x.numLitsAll (printsAsNumber P) :=
    numLitsAll_mono _ _ (fun _ h => h.2) x hn
  obtain ⟨y, _, _, hy4, htrim, hy3⟩ := jsonParse_trim_stringify P x hx hn1
  rw [htrim] at hy3
  have hce := encodeCarrier_eq P x hu
  rw [hc] at hce
  have hcar : carrier = base64Encode (utf8Encode (stringify P x)) := Option.some.inj hce
  obtain ⟨hj, hw⟩ := goodText_stringify P x hu
  obtain ⟨c, t, hhead, _⟩ := stringify_head_parsed P x hn1
  have hne : stringify P x ≠ [] := by rw [hhead]; exact List.cons_ne_nil c t
  refine ⟨stringify P x, y, ?_, rfl, hy3, hy4 hn2, fun hi => sameValue_eq P x y hi (hy4 hn2)⟩
  rw [hcar] at ha
  exact echartsPendingReplacement_text node _ _ ha
    (base64Encode_ne_nil_of_ne_nil _ (utf8Encode_ne_nil _ hne))
    (decodeCarrierText_encode _ hj hw)

/-- The reference platform prints the number literal `0.50` as `0.5`, the
text of a number that reads back. -/
theorem numberReadsBackAsNumber_half : numberReadsBackAsNumber refPlatform (js "0.50") := by
  refine ⟨⟨by decide, Json.numLit (js "0.5"), by decide, ?_⟩, 48, js ".5", by decide,
    Or.inr (by decide)⟩
  intro fuel rest hr
  cases rest with
  | nil => rfl
  | cons c t =>
    simp only [startsWithDelimiter, Bool.or_eq_true, decide_eq_true_eq] at hr
    rcases hr with (h | h) | h <;> (rw [h]; rfl)

set_option maxRecDepth 100000 in
theorem C2_pending_export_round_trip_witness :
    isJStr opacityBody = true ∧
    jsonParse (trim opacityBody) = some opacityBodyValue ∧
    opacityBodyValue.numLitsAll (numberReadsBackAsNumber refPlatform) ∧
    echartsPendingFilter
      (pendingNode (base64Encode (utf8Encode (stringify refPlatform opacityBodyValue)))
        (js "shown text")) = true ∧
    encodeCarrier refPlatform opacityBodyValue
      = some (base64Encode (utf8Encode (stringify refPlatform opacityBodyValue))) ∧
    (pendingNode (base64Encode (utf8Encode (stringify refPlatform opacityBodyValue)))
        (js "shown text")).getAttribute optionAttr
      = some (base64Encode (utf8Encode (stringify refPlatform opacityBodyValue))) ∧
    stringify refPlatform opacityBodyValue = js "\x7b\"opacity\":0.5,\"size\":12\x7d" ∧
    ∃ body y,
      echartsPendingReplacement
          (pendingNode (base64Encode (utf8Encode (stringify refPlatform opacityBodyValue)))
            (js "shown text"))
        = js "\n\n```echarts\n" ++ body ++ js "\n```\n\n" ∧
      body = stringify refPlatform opacityBodyValue ∧
      jsonParse body = some y ∧
      Json.sameValue refPlatform opacityBodyValue y ∧
      (opacityBodyValue.isValue = true → y = opacityBodyValue) :=
  ⟨by decide, by rfl, ⟨numberReadsBackAsNumber_half, trivial, trivial⟩, by decide, by decide,
    by rfl, by decide,
    C2_pending_export_round_trip refPlatform opacityBody opacityBodyValue
      (pendingNode (base64Encode (utf8Encode (stringify refPlatform opacityBodyValue)))
        (js "shown text"))
      (base64Encode (utf8Encode (stringify refPlatform opacityBodyValue)))
      (by decide) (by rfl) ⟨numberReadsBackAsNumber_half, trivial, trivial⟩ (by decide)
      (by decide) (by rfl)⟩

/-- C23 (exported fence format), as the code has it: let `x` be the
configuration the renderer read from the body of a chart fence (any valid
JSON, the numbers of `x` being printed by the platform as texts that read
back).  For every node with the carrier of `x`, the block the export rule
writes is a fenced code block whose language tag is `echarts` and whose body
is the text `JSON.stringify(x)`: one line without indentation, which is not
the indented text of `x` when `x` is an array or object with an entry. -/
theorem C23_export_fence_format (P : Platform) (fence : JStr) (x : Json) (node : Node)
    (hb : isJStr fence = true) (hv : jsonParse (trim fence) = some x)
    (hn : x.numLitsAll (numberReadsBack P))
    (ha : node.getAttribute optionAttr = some (base64Encode (utf8Encode (stringify P x)))) :
    encodeCarrier P x = some (base64Encode (utf8Encode (stringify P x))) ∧
    echartsPendingReplacement node
      = js "\n\n```echarts\n" ++ stringify P x ++ js "\n```\n\n" ∧
    (∀ c ∈ stringify P x, 32 ≤ c) ∧
    10 ∉ stringify P x ∧
    (10 ∈ stringifyPretty P [] x → stringify P x ≠ stringifyPretty P [] x) ∧
    (∀ y ys, x = Json.arr (y :: ys) → 10 ∈ stringifyPretty P [] x) ∧
    (∀ kv kvs, x = Json.obj (kv :: kvs) → 10 ∈ stringifyPretty P [] x) := by
  have hx := jsonParse_isParsed (trim fence) x (trim_isJStr fence hb) hv
  have hu := isParsed_unitsOk x hx
  obtain ⟨hj, hw⟩ := goodText_stringify P x hu
  obtain ⟨c, t, hhead, _⟩ := stringify_head_parsed P x hn
  have hne : stringify P x ≠ [] := by rw [hhead]; exact List.cons_ne_nil c t
  have hp := stringify_printable P x
    (numLitsAll_mono _ _ (fun lit hq ch hch => Nat.le_of_lt (hq.1 ch hch)) x hn)
  have h10 : 10 ∉ stringify P x := fun hm => absurd (hp 10 hm) (by omega)
  refine ⟨encodeCarrier_eq P x hu, ?_, hp, h10, ?_, ?_, ?_⟩
  · exact echartsPendingReplacement_text node _ _ ha
      (base64Encode_ne_nil_of_ne_nil _ (utf8Encode_ne_nil _ hne))
      (decodeCarrierText_encode _ hj hw)
  · intro hm he
    rw [← he] at hm
    exact h10 hm
  · intro y ys hy
    rw [hy, stringifyPretty]
    simp
  · intro kv kvs hy
    obtain ⟨k, v⟩ := kv
    rw [hy, stringifyPretty]
    simp

set_option maxRecDepth 100000 in
theorem C23_export_fence_format_witness :
    isJStr opacityBody = true ∧
    jsonParse (trim opacityBody) = some opacityBodyValue ∧
    opacityBodyValue.numLitsAll (numberReadsBack refPlatform) ∧
    (pendingNode (base64Encode (utf8Encode (stringify refPlatform opacityBodyValue)))
        (js "shown text")).getAttribute optionAttr
      = some (base64Encode (utf8Encode (stringify refPlatform opacityBodyValue))) ∧
    stringify refPlatform opacityBodyValue = js "\x7b\"opacity\":0.5,\"size\":12\x7d" ∧
    stringifyPretty refPlatform [] opacityBodyValue
      = js "\x7b\n  \"opacity\": 0.5,\n  \"size\": 12\n\x7d" ∧
    (encodeCarrier refPlatform opacityBodyValue
      = some (base64Encode (utf8Encode (stringify refPlatform opacityBodyValue))) ∧
    echartsPendingReplacement
        (pendingNode (base64Encode (utf8Encode (stringify refPlatform opacityBodyValue)))
          (js "shown text"))
      = js "\n\n```echarts\n" ++ stringify refPlatform opacityBodyValue ++ js "\n```\n\n" ∧
    (∀ c ∈ stringify refPlatform opacityBodyValue, 32 ≤ c) ∧
    10 ∉ stringify refPlatform opacityBodyValue ∧
    (10 ∈ stringifyPretty refPlatform [] opacityBodyValue →
      stringify refPlatform opacityBodyValue ≠ stringifyPretty refPlatform [] opacityBodyValue) ∧
    (∀ y ys, opacityBodyValue = Json.arr (y :: ys) →
      10 ∈ stringifyPretty refPlatform [] opacityBodyValue) ∧
    (∀ kv kvs, opacityBodyValue = Json.obj (kv :: kvs) →
      10 ∈ stringifyPretty refPlatform [] opacityBodyValue)) :=
  ⟨by decide, by rfl, ⟨numberReadsBackAsNumber_half.1, trivial, trivial⟩, by rfl, by decide,
    by decide,
    C23_export_fence_format refPlatform opacityBody opacityBodyValue
      (pendingNode (base64Encode (utf8Encode (stringify refPlatform opacityBodyValue)))
        (js "shown text"))
      (by decide) (by rfl) ⟨numberReadsBackAsNumber_half.1, trivial, trivial⟩ (by rfl)⟩

/-! # Claims: the language tag of a chart fence -/

/-- What `trim` removes is the white space of ECMA-262. -/
theorem isTrimSpace_iff (c : Nat) : isTrimSpace c = true ↔ c ∈ whiteSpaceUnits := by
  simp only [isTrimSpace, whiteSpaceUnits, Bool.or_eq_true, Bool.and_eq_true,
    decide_eq_true_eq, List.mem_cons, List.mem_singleton, List.not_mem_nil, or_false]
  constructor <;> intro h <;> omega

/-- A text is the white space at its head and the rest. -/
theorem trimStart_split : ∀ (s : JStr),
    ∃ w, s = w ++ trimStart s ∧ ∀ c ∈ w, isTrimSpace c = true
  | [] => ⟨[], rfl, fun _ h => absurd h (List.not_mem_nil _)⟩
  | c :: tail => by
    obtain ⟨w, hw, hall⟩ := trimStart_split tail
    rw [trimStart]
    by_cases hc : isTrimSpace c = true
    · rw [if_pos hc]
      refine ⟨c :: w, by rw [List.cons_append, ← hw], ?_⟩
      intro x hx
      rcases List.mem_cons.mp hx with h | h
      · rw [h]; exact hc
      · exact hall x h
    · rw [if_neg hc]
      exact ⟨[], rfl, fun _ h => absurd h (List.not_mem_nil _)⟩

/-- A text is white space, the text `trim` leaves, and white space. -/
theorem trim_split (s : JStr) :
    ∃ w1 w2, s = w1 ++ trim s ++ w2 ∧ (∀ c ∈ w1, isTrimSpace c = true) ∧
      (∀ c ∈ w2, isTrimSpace c = true) := by
  obtain ⟨w1, h1, hw1⟩ := trimStart_split s
  obtain ⟨w2, h2, hw2⟩ := trimStart_split (trimStart s).reverse
  refine ⟨w1, w2.reverse, ?_, hw1, ?_⟩
  · have h3 : trimStart s = trim s ++ w2.reverse := by
      have := congrArg List.reverse h2
      rw [List.reverse_reverse, List.reverse_append] at this
      exact this
    rw [List.append_assoc, ← h3]
    exact h1
  · intro c hc
    exact hw2 c (List.mem_reverse.mp hc)

/-- White space around a text that neither starts nor ends with white space
is what `trim` removes. -/
theorem trim_of_split (w1 core w2 : JStr) (hw1 : ∀ c ∈ w1, isTrimSpace c = true)
    (hw2 : ∀ c ∈ w2, isTrimSpace c = true) (hne : core ≠ [])
    (hcore : ∀ c ∈ core, isTrimSpace c = false) : trim (w1 ++ core ++ w2) = core := by
  obtain ⟨c, t, hct⟩ : ∃ c t, core = c :: t := by
    cases core with
    | nil => exact absurd rfl hne
    | cons c t => exact ⟨c, t, rfl⟩
  rcases List.eq_nil_or_concat core with h | ⟨init, d, hd⟩
  · exact absurd h hne
  rw [List.concat_eq_append] at hd
  have hc : isTrimSpace c = false := hcore c (by rw [hct]; exact List.mem_cons_self _ _)
  have hdd : isTrimSpace d = false :=
    hcore d (by rw [hd]; exact List.mem_append_right _ (List.mem_singleton_self d))
  unfold trim trimEnd
  rw [List.append_assoc, trimStart_append w1 _ hw1]
  have e1 : trimStart (core ++ w2) = core ++ w2 := by
    rw [hct, List.cons_append]; exact trimStart_cons c _ hc
  rw [e1, List.reverse_append,
    trimStart_append w2.reverse _ (fun x hx => hw2 x (List.mem_reverse.mp hx))]
  have e2 : core.reverse = d :: init.reverse := by rw [hd]; simp
  rw [e2, trimStart_cons d _ hdd, ← e2, List.reverse_reverse]

/-- A case variant of a word of lower-case letters consists of ASCII letters
and is lower-cased to the word. -/
theorem isCaseVariant_lower : ∀ (word s : JStr), (∀ w ∈ word, 97 ≤ w ∧ w ≤ 122) →
    isCaseVariant word s = true →
    s.map lowerAscii = word ∧ (∀ c ∈ s, 65 ≤ c ∧ c ≤ 122) ∧ s.length = word.length
  | [], [], _, _ => ⟨rfl, fun _ h => absurd h (List.not_mem_nil _), rfl⟩
  | [], _ :: _, _, h => Bool.noConfusion (show false = true from h)
  | _ :: _, [], _, h => Bool.noConfusion (show false = true from h)
  | w :: word, c :: s, hw, h => by
    rw [isCaseVariant] at h
    simp only [Bool.and_eq_true, Bool.or_eq_true, decide_eq_true_eq] at h
    have hw0 := hw w (List.mem_cons_self _ _)
    obtain ⟨ih1, ih2, ih3⟩ := isCaseVariant_lower word s
      (fun x hx => hw x (List.mem_cons_of_mem _ hx)) h.2
    have hl : lowerAscii c = w := by
      unfold lowerAscii
      rcases h.1 with h1 | h1
      · rw [if_neg (by omega), h1]
      · rw [if_pos (by omega), h1]
    refine ⟨by rw [List.map_cons, hl, ih1], ?_, by rw [List.length_cons, List.length_cons, ih3]⟩
    intro x hx
    rcases List.mem_cons.mp hx with h1 | h1
    · rw [h1]
      rcases h.1 with h2 | h2 <;> omega
    · exact ih2 x h1

/-- An ASCII text that is lower-cased to a word of lower-case letters is a
case variant of the word. -/
theorem isCaseVariant_of_lower : ∀ (word s : JStr), (∀ w ∈ word, 97 ≤ w ∧ w ≤ 122) →
    s.map lowerAscii = word → isCaseVariant word s = true
  | [], [], _, _ => rfl
  | [], _ :: _, _, h => by exact List.noConfusion h
  | _ :: _, [], _, h => by exact List.noConfusion h
  | w :: word, c :: s, hw, h => by
    rw [List.map_cons] at h
    have h1 := (List.cons.inj h).1
    have h2 := (List.cons.inj h).2
    have hw0 := hw w (List.mem_cons_self _ _)
    rw [isCaseVariant]
    simp only [Bool.and_eq_true, Bool.or_eq_true, decide_eq_true_eq]
    refine ⟨?_, isCaseVariant_of_lower word s (fun x hx => hw x (List.mem_cons_of_mem _ hx)) h2⟩
    unfold lowerAscii at h1
    by_cases hc : 65 ≤ c ∧ c ≤ 90
    · rw [if_pos hc] at h1; exact Or.inr h1
    · rw [if_neg hc] at h1; exact Or.inl h1

theorem chart_letters : ∀ w ∈ js "chart", 97 ≤ w ∧ w ≤ 122 := by decide

theorem echarts_letters : ∀ w ∈ js "echarts", 97 ≤ w ∧ w ≤ 122 := by decide

/-- The renderer's test of the language tag, for a case variant of one of the
two words between white space. -/
theorem toLowerCase_trim_variant (P : Platform) (word w1 core w2 : JStr)
    (hword : ∀ w ∈ word, 97 ≤ w ∧ w ≤ 122) (hne : word ≠ [])
    (hw1 : ∀ c ∈ w1, isTrimSpace c = true) (hw2 : ∀ c ∈ w2, isTrimSpace c = true)
    (hv : isCaseVariant word core = true) :
    toLowerCase P (trim (w1 ++ core ++ w2)) = word := by
  obtain ⟨hl, hletters, hlen⟩ := isCaseVariant_lower word core hword hv
  have hcne : core ≠ [] := by
    intro h
    rw [h] at hlen
    exact hne (List.length_eq_zero.mp hlen.symm)
  have hcore : ∀ c ∈ core, isTrimSpace c = false := by
    intro c hc
    have := hletters c hc
    exact isTrimSpace_printable c (by omega) (by omega)
  rw [trim_of_split w1 core w2 hw1 hw2 hcne hcore]
  unfold toLowerCase
  have hall : core.all (fun c => decide (c < 128)) = true := by
    rw [List.all_eq_true]
    intro c hc
    have := hletters c hc
    exact decide_eq_true (by omega)
  rw [if_pos hall, hl]

/-- An info string that the renderer's test takes for one of the two words
names a chart. -/
theorem isChartInfo_of_test (P : Platform) (s word : JStr)
    (hword : ∀ w ∈ word, 97 ≤ w ∧ w ≤ 122)
    (hP : ∀ t : JStr, t.all (fun c => decide (c < 128)) = false → P.lowerUnicode t ≠ word)
    (h : toLowerCase P (trim s) = word) :
    ∃ w1 w2, s = w1 ++ trim s ++ w2 ∧ (∀ c ∈ w1, isTrimSpace c = true) ∧
      (∀ c ∈ w2, isTrimSpace c = true) ∧ isCaseVariant word (trim s) = true := by
  obtain ⟨w1, w2, hs, hw1, hw2⟩ := trim_split s
  refine ⟨w1, w2, hs, hw1, hw2, ?_⟩
  unfold toLowerCase at h
  by_cases hall : (trim s).all (fun c => decide (c < 128)) = true
  · rw [if_pos hall] at h
    exact isCaseVariant_of_lower word (trim s) hword h
  · rw [if_neg hall] at h
    have hf : (trim s).all (fun c => decide (c < 128)) = false := by
      cases hb : (trim s).all (fun c => decide (c < 128)) with
      | false => rfl
      | true => exact absurd hb hall
    exact absurd h (hP (trim s) hf)

/-- C8 (language tag recognition): for every info string `s` and valid JSON
body, with `chartEnabled` not `false`, the renderer returns chart markup if
and only if `s` names a chart: it is the word `chart` or `echarts`, each
letter in either case, with any white space before and after it (a missing
info string counts as the empty string); for every other info string the
renderer returns `false`.  The platform's lower-casing of a string that has
a character outside ASCII is taken never to give one of the two words. -/
theorem C8_language_tag_recognition (P : Platform) (o : ParseOptions) (body : JStr)
    (info : Option JStr) (v : Json) (hen : strictlyFalse o.chartEnabled = false)
    (hv : jsonParse (trim body) = some v) (hu : v.unitsOk = true)
    (hP : ∀ t : JStr, t.all (fun c => decide (c < 128)) = false →
      P.lowerUnicode t ≠ js "chart" ∧ P.lowerUnicode t ≠ js "echarts") :
    ((∃ html, code P o body info = some html) ↔ isChartInfo (info.getD [])) ∧
    (isChartInfo (info.getD []) →
      code P o body info =
        some (if strictlyFalse o.chartRenderAsChart then
          pendingTemplate (base64Encode (utf8Encode (stringify P v)))
            (escapeText (stringifyPretty P [] v))
        else liveTemplate (base64Encode (utf8Encode (stringify P v))))) ∧
    (¬ isChartInfo (info.getD []) → code P o body info = none) := by
  have hyes : isChartInfo (info.getD []) →
      (toLowerCase P (trim (info.getD [])) = js "echarts" ∨
        toLowerCase P (trim (info.getD [])) = js "chart") := by
    rintro ⟨w1, core, w2, hs, hu1, hu2, hcore⟩
    have hw1 : ∀ c ∈ w1, isTrimSpace c = true := fun c hc => (isTrimSpace_iff c).mpr (hu1 c hc)
    have hw2 : ∀ c ∈ w2, isTrimSpace c = true := fun c hc => (isTrimSpace_iff c).mpr (hu2 c hc)
    rw [hs]
    rcases hcore with h | h
    · exact Or.inr (toLowerCase_trim_variant P _ w1 core w2 chart_letters (by decide) hw1 hw2 h)
    · exact Or.inl (toLowerCase_trim_variant P _ w1 core w2 echarts_letters (by decide) hw1 hw2 h)
  have hno : (toLowerCase P (trim (info.getD [])) = js "echarts" ∨
        toLowerCase P (trim (info.getD [])) = js "chart") → isChartInfo (info.getD []) := by
    intro h
    rcases h with h | h
    · obtain ⟨w1, w2, hs, hw1, hw2, hc⟩ := isChartInfo_of_test P (info.getD []) _ echarts_letters
        (fun t ht => (hP t ht).2) h
      exact ⟨w1, trim (info.getD []), w2, hs, fun c h0 => (isTrimSpace_iff c).mp (hw1 c h0),
        fun c h0 => (isTrimSpace_iff c).mp (hw2 c h0), Or.inr hc⟩
    · obtain ⟨w1, w2, hs, hw1, hw2, hc⟩ := isChartInfo_of_test P (info.getD []) _ chart_letters
        (fun t ht => (hP t ht).1) h
      exact ⟨w1, trim (info.getD []), w2, hs, fun c h0 => (isTrimSpace_iff c).mp (hw1 c h0),
        fun c h0 => (isTrimSpace_iff c).mp (hw2 c h0), Or.inl hc⟩
  have hnone : ¬ isChartInfo (info.getD []) → code P o body info = none := by
    intro hn
    unfold code
    rw [hen]
    simp only [Bool.false_eq_true, if_false]
    rw [if_neg (fun h => hn (hno h))]
  have hsome : isChartInfo (info.getD []) →
      code P o body info =
        some (if strictlyFalse o.chartRenderAsChart then
          pendingTemplate (base64Encode (utf8Encode (stringify P v)))
            (escapeText (stringifyPretty P [] v))
        else liveTemplate (base64Encode (utf8Encode (stringify P v)))) :=
    fun h => code_chart P o body info v hen (hyes h) hv hu
  refine ⟨⟨?_, fun h => ⟨_, hsome h⟩⟩, hsome, hnone⟩
  rintro ⟨html, hh⟩
  by_contra hn
  rw [hnone hn] at hh
  exact Option.noConfusion hh

/-- The info string with a tab before and a space after `Chart` names a
chart; so does `ECHARTS`. -/
theorem isChartInfo_examples :
    isChartInfo (js "\tChart ") ∧ isChartInfo (js "ECHARTS") :=
  ⟨⟨js "\t", js "Chart", js " ", by decide, by decide, by decide, Or.inl (by decide)⟩,
   ⟨[], js "ECHARTS", [], by decide, by decide, by decide, Or.inr (by decide)⟩⟩

set_option maxRecDepth 100000 in
theorem C8_language_tag_recognition_witness :
    strictlyFalse (none : Option Json) = false ∧
    jsonParse (trim exampleBody) = some exampleBodyValue ∧
    exampleBodyValue.unitsOk = true ∧
    (∀ t : JStr, t.all (fun c => decide (c < 128)) = false →
      refPlatform.lowerUnicode t ≠ js "chart" ∧ refPlatform.lowerUnicode t ≠ js "echarts") ∧
    isChartInfo ((some (js "\tChart ")).getD []) ∧
    code refPlatform { chartEnabled := none, chartRenderAsChart := none }
        exampleBody (some (js "\tChart "))
      = some (liveTemplate (base64Encode (utf8Encode (stringify refPlatform exampleBodyValue)))) ∧
    code refPlatform { chartEnabled := none, chartRenderAsChart := none }
        exampleBody (some (js "charts")) = none ∧
    code refPlatform { chartEnabled := none, chartRenderAsChart := none }
        exampleBody none = none ∧
    (((∃ html, code refPlatform { chartEnabled := none, chartRenderAsChart := none }
          exampleBody (some (js "\tChart ")) = some html) ↔
      isChartInfo ((some (js "\tChart ")).getD [])) ∧
    (isChartInfo ((some (js "\tChart ")).getD []) →
      code refPlatform { chartEnabled := none, chartRenderAsChart := none }
          exampleBody (some (js "\tChart ")) =
        some (if strictlyFalse (none : Option Json) then
          pendingTemplate (base64Encode (utf8Encode (stringify refPlatform exampleBodyValue)))
            (escapeText (stringifyPretty refPlatform [] exampleBodyValue))
        else liveTemplate (base64Encode (utf8Encode (stringify refPlatform exampleBodyValue))))) ∧
    (¬ isChartInfo ((some (js "\tChart ")).getD []) →
      code refPlatform { chartEnabled := none, chartRenderAsChart := none }
          exampleBody (some (js "\tChart ")) = none)) :=
  ⟨rfl, by rfl, by decide,
    fun t ht => ⟨fun h => by rw [show refPlatform.lowerUnicode t = t from rfl] at h
                             rw [h] at ht
                             exact absurd ht (by decide),
                 fun h => by rw [show refPlatform.lowerUnicode t = t from rfl] at h
                             rw [h] at ht
                             exact absurd ht (by decide)⟩,
    isChartInfo_examples.1, by decide, by decide, by decide,
    C8_language_tag_recognition refPlatform { chartEnabled := none, chartRenderAsChart := none }
      exampleBody (some (js "\tChart ")) exampleBodyValue rfl (by rfl) (by decide)
      (fun t ht => ⟨fun h => by rw [show refPlatform.lowerUnicode t = t from rfl] at h
                                rw [h] at ht
                                exact absurd ht (by decide),
                    fun h => by rw [show refPlatform.lowerUnicode t = t from rfl] at h
                                rw [h] at ht
                                exact absurd ht (by decide)⟩)⟩

/-! # Claims: what an append leaves in the editor -/

set_option maxRecDepth 100000 in
/-- C5, the inputs on which the claim fails.  In edit mode a chunk that is
one chart fence is appended to an empty buffer: the parse of the buffer is
the live template, whose wrap has no chart instance, while the wrap in the
editor has one, since the append has also run the mounter; the content is not
the parse.  And when the parse of the new buffer throws, the content is still
the parse of the old buffer. -/
theorem C5_counterexample :
    freshEditor.hasEditor = true ∧ freshEditor.isReadonly = false ∧
    getStreamBuffer (appendStreamChunk refHost freshEditor (some (Json.str chartOnlyBufferA)))
      = chartOnlyBufferA ∧
    refHost.markedParse
        (code refHost.platform
          { chartEnabled := some (Json.bool freshEditor.chartEnabled),
            chartRenderAsChart := some (Json.bool (!freshEditor.isReadonly)) })
        chartOnlyBufferA
      = some (liveTemplate carrierA) ∧
    (setInnerHTML refHost (liveTemplate carrierA)).map (fun n => n.surface.isSome) = [false] ∧
    (appendStreamChunk refHost freshEditor (some (Json.str chartOnlyBufferA))).content.map
        (fun n => n.surface.isSome) = [true] ∧
    equalListUpToAttrOrder
      (appendStreamChunk refHost freshEditor (some (Json.str chartOnlyBufferA))).content
      (setInnerHTML refHost (liveTemplate carrierA)) = false ∧
    equalListUpToAttrOrder
      (appendStreamChunk refHost freshEditor (some (Json.str chartOnlyBufferA))).content
      [mountWrap refHost (liveWrapNode carrierA)] = true ∧
    streamedEditor.hasEditor = true ∧
    getStreamBuffer (appendStreamChunk throwingHost streamedEditor (some (Json.str [0])))
      = js "hi" ++ [0] ∧
    throwingHost.markedParse
        (code throwingHost.platform
          { chartEnabled := some (Json.bool streamedEditor.chartEnabled),
            chartRenderAsChart := some (Json.bool (!streamedEditor.isReadonly)) })
        (js "hi" ++ [0]) = none ∧
    throwingHost.markedParse
        (code throwingHost.platform
          { chartEnabled := some (Json.bool streamedEditor.chartEnabled),
            chartRenderAsChart := some (Json.bool (!streamedEditor.isReadonly)) })
        (js "hi") = some (js "<p>hi</p>\n") ∧
    equalListUpToAttrOrder
      (appendStreamChunk throwingHost streamedEditor (some (Json.str [0]))).content
      (setInnerHTML throwingHost (js "<p>hi</p>\n")) = true := by
  decide

/-- C5 (wholesale re-parse), as the code has it: after `appendStreamChunk`
with a string chunk on a mounted editor the stream buffer is the old buffer
followed by the chunk.  When the parse of the whole buffer with the options
`chartEnabled: this.chartEnabled, chartRenderAsChart: mode is not readonly`
returns markup, the tree is replaced wholesale by the nodes of this markup:
in read-only (streaming) mode the content is exactly these nodes and no
mounting is started; in edit mode the mounter is then run on the new tree,
and the content is these nodes with the first chart wrap gone through
`mountOne`.  When the parse throws, content and frame queue are as before
the call.  In read-only mode with charts enabled the renderer returns the
Pending template for every valid chart fence, and a buffer that the library
hands to the renderer as one such fence shows one Pending node. -/
theorem C5_wholesale_reparse (H : Host) (e : Editor) (s : JStr) (hm : e.hasEditor = true) :
    getStreamBuffer (appendStreamChunk H e (some (Json.str s))) = e.streamBuffer ++ s ∧
    (∀ html,
      H.markedParse (code H.platform
        { chartEnabled := some (Json.bool e.chartEnabled),
          chartRenderAsChart := some (Json.bool (!e.isReadonly)) })
        (e.streamBuffer ++ s) = some html →
      (e.isReadonly = true →
        (appendStreamChunk H e (some (Json.str s))).content = setInnerHTML H html ∧
        (appendStreamChunk H e (some (Json.str s))).ticks = e.ticks) ∧
      (e.isReadonly = false →
        appendStreamChunk H e (some (Json.str s)) =
          mountEchartsInElement H
            { e with streamBuffer := e.streamBuffer ++ s,
                     content := setInnerHTML H html, gen := e.gen + 1 } ∧
        (appendStreamChunk H e (some (Json.str s))).content
          = mountFirstWrap H (setInnerHTML H html))) ∧
    (H.markedParse (code H.platform
        { chartEnabled := some (Json.bool e.chartEnabled),
          chartRenderAsChart := some (Json.bool (!e.isReadonly)) })
        (e.streamBuffer ++ s) = none →
      (appendStreamChunk H e (some (Json.str s))).content = e.content ∧
      (appendStreamChunk H e (some (Json.str s))).ticks = e.ticks) ∧
    (e.isReadonly = true → e.chartEnabled = true →
      ∀ (body : JStr) (info : Option JStr) (v : Json),
        (toLowerCase H.platform (trim (info.getD [])) = js "echarts" ∨
          toLowerCase H.platform (trim (info.getD [])) = js "chart") →
        jsonParse (trim body) = some v → v.unitsOk = true →
        code H.platform
            { chartEnabled := some (Json.bool e.chartEnabled),
              chartRenderAsChart := some (Json.bool (!e.isReadonly)) } body info
          = some (pendingTemplate (base64Encode (utf8Encode (stringify H.platform v)))
              (escapeText (stringifyPretty H.platform [] v))) ∧
        ((∀ (hook : JStr → Option JStr → Option JStr) (html : JStr),
            hook body info = some html → H.markedParse hook (e.streamBuffer ++ s) = some html) →
          H.parseFragment (pendingTemplate (base64Encode (utf8Encode (stringify H.platform v)))
              (escapeText (stringifyPretty H.platform [] v)))
            = [pendingNode (base64Encode (utf8Encode (stringify H.platform v)))
                (stringifyPretty H.platform [] v)] →
          (appendStreamChunk H e (some (Json.str s))).content
            = [pendingNode (base64Encode (utf8Encode (stringify H.platform v)))
                (stringifyPretty H.platform [] v)] ∧
          (appendStreamChunk H e (some (Json.str s))).ticks = e.ticks)) := by
  have hsome : ∀ html,
      H.markedParse (code H.platform (e.parseOptions (!e.isReadonly)))
        (e.streamBuffer ++ s) = some html →
      appendStreamChunk H e (some (Json.str s)) =
        if e.isReadonly then
          { e with streamBuffer := e.streamBuffer ++ s,
                   content := setInnerHTML H html, gen := e.gen + 1 }
        else
          mountEchartsInElement H
            { e with streamBuffer := e.streamBuffer ++ s,
                     content := setInnerHTML H html, gen := e.gen + 1 } := by
    intro html hp
    simp only [appendStreamChunk, hm, if_true, hp]
  have hro : ∀ html,
      H.markedParse (code H.platform (e.parseOptions (!e.isReadonly)))
        (e.streamBuffer ++ s) = some html → e.isReadonly = true →
      (appendStreamChunk H e (some (Json.str s))).content = setInnerHTML H html ∧
      (appendStreamChunk H e (some (Json.str s))).ticks = e.ticks := by
    intro html hp hr
    rw [hsome html hp, if_pos hr]
    exact ⟨rfl, rfl⟩
  refine ⟨appendStreamChunk_buffer H e s hm, ?_, ?_, ?_⟩
  · intro html hp
    refine ⟨hro html hp, ?_⟩
    intro hr
    have hr' : ¬ e.isReadonly = true := by simp [hr]
    rw [hsome html hp, if_neg hr']
    exact ⟨rfl, mountEchartsInElement_content H _ hm⟩
  · intro hp
    have hp' : H.markedParse (code H.platform (e.parseOptions (!e.isReadonly)))
        (e.streamBuffer ++ s) = none := hp
    have : appendStreamChunk H e (some (Json.str s))
        = { e with streamBuffer := e.streamBuffer ++ s } := by
      simp only [appendStreamChunk, hm, if_true, hp']
    rw [this]
    exact ⟨rfl, rfl⟩
  · intro hr hce body info v htag hv hu
    have hcode : code H.platform
        { chartEnabled := some (Json.bool e.chartEnabled),
          chartRenderAsChart := some (Json.bool (!e.isReadonly)) } body info
        = some (pendingTemplate (base64Encode (utf8Encode (stringify H.platform v)))
            (escapeText (stringifyPretty H.platform [] v))) := by
      have := code_chart H.platform
        { chartEnabled := some (Json.bool e.chartEnabled),
          chartRenderAsChart := some (Json.bool (!e.isReadonly)) } body info v
        (by simp only [hce]; rfl) htag hv hu
      rw [this]
      simp only [hr]
      rfl
    refine ⟨hcode, ?_⟩
    intro hdoc hdom
    have hp := hdoc _ _ hcode
    have h1 := hro _ hp hr
    rw [h1.1]
    refine ⟨?_, h1.2⟩
    unfold setInnerHTML
    have hne : pendingTemplate (base64Encode (utf8Encode (stringify H.platform v)))
        (escapeText (stringifyPretty H.platform [] v)) ≠ [] := by
      unfold pendingTemplate
      intro h
      have := congrArg List.length h
      simp only [List.length_append, List.length_nil] at this
      have hl : 0 < (js "<pre class=\"yu-stream-editor-echarts-pending\" contenteditable=\"false\" data-echarts-option=\"").length := by
        decide
      omega
    rw [if_neg hne, hdom]

set_option maxRecDepth 100000 in
theorem C5_wholesale_reparse_witness :
    streamingEditor.hasEditor = true ∧
    streamingEditor.isReadonly = true ∧
    refHost.markedParse (code refHost.platform
        { chartEnabled := some (Json.bool streamingEditor.chartEnabled),
          chartRenderAsChart := some (Json.bool (!streamingEditor.isReadonly)) })
        (streamingEditor.streamBuffer ++ chartOnlyBufferA) = some pendingMarkupA ∧
    (appendStreamChunk refHost streamingEditor (some (Json.str chartOnlyBufferA))).content
      = setInnerHTML refHost pendingMarkupA ∧
    (appendStreamChunk refHost streamingEditor (some (Json.str chartOnlyBufferA))).content
      = [pendingNode (base64Encode (utf8Encode
            (stringify refHost.platform (Json.obj [(js "a", Json.num 1)]))))
          (stringifyPretty refHost.platform [] (Json.obj [(js "a", Json.num 1)]))] ∧
    (appendStreamChunk refHost streamingEditor (some (Json.str chartOnlyBufferA))).ticks.map
        (fun t => t.index) = [] ∧
    getStreamBuffer (appendStreamChunk refHost streamingEditor (some (Json.str chartOnlyBufferA)))
      = streamingEditor.streamBuffer ++ chartOnlyBufferA :=
  ⟨rfl, rfl, by decide,
   (((C5_wholesale_reparse refHost streamingEditor chartOnlyBufferA rfl).2.1
      pendingMarkupA (by decide)).1 rfl).1,
   ((((C5_wholesale_reparse refHost streamingEditor chartOnlyBufferA rfl).2.2.2 rfl rfl
      (js "\x7b\"a\":1\x7d") (some (js "chart")) (Json.obj [(js "a", Json.num 1)])
      (Or.inr (by decide)) (by rfl) (by decide)).2
      (by
        intro hook html hh
        show refMarkedParse hook chartOnlyBufferA = some html
        have h1 : refMarkedParse hook chartOnlyBufferA =
            (match hook (js "\x7b\"a\":1\x7d") (some (js "chart")) with
             | some html => some html
             | none => some (js "<pre><code>" ++ escapeText (js "\x7b\"a\":1\x7d") ++
                 js "\n</code></pre>\n")) := by rfl
        rw [h1, hh])
      (by rfl))).1,
   by decide,
   (C5_wholesale_reparse refHost streamingEditor chartOnlyBufferA rfl).1⟩

/-! # Claims: the export of a live chart -/

theorem dropPrefix_append : ∀ (p r : JStr), dropPrefix p (p ++ r) = some r
  | [], _ => by rw [List.nil_append, dropPrefix]
  | a :: p, r => by
    rw [List.cons_append, dropPrefix, if_pos rfl]
    exact dropPrefix_append p r

theorem dropWhile_until (x : Nat) : ∀ (a b : JStr), x ∉ a →
    (a ++ x :: b).dropWhile (fun c => decide (c ≠ x)) = x :: b
  | [], b, _ => by
    rw [List.nil_append, List.dropWhile_cons]
    simp
  | y :: a, b, h => by
    have hy : y ≠ x := fun e => h (by rw [e]; exact List.mem_cons_self _ _)
    have ha : x ∉ a := fun e => h (List.mem_cons_of_mem _ e)
    rw [List.cons_append, List.dropWhile_cons]
    simp only [hy, ne_eq, not_false_eq_true, decide_True, if_true]
    exact dropWhile_until x a b ha

theorem takeWhile_until (x : Nat) : ∀ (a b : JStr), x ∉ a →
    (a ++ x :: b).takeWhile (fun c => decide (c ≠ x)) = a
  | [], b, _ => by
    rw [List.nil_append, List.takeWhile_cons]
    simp
  | y :: a, b, h => by
    have hy : y ≠ x := fun e => h (by rw [e]; exact List.mem_cons_self _ _)
    have ha : x ∉ a := fun e => h (List.mem_cons_of_mem _ e)
    rw [List.cons_append, List.takeWhile_cons]
    simp only [hy, ne_eq, not_false_eq_true, decide_True, if_true]
    rw [takeWhile_until x a b ha]

/-- The attributes of an opening tag hold no `>` when their names hold none. -/
theorem serializeAttrs_no_gt : ∀ (attrs : List (JStr × JStr)), (∀ a ∈ attrs, 62 ∉ a.1) →
    62 ∉ serializeAttrs attrs
  | [], _ => by rw [serializeAttrs]; exact List.not_mem_nil _
  | a :: rest, h => by
    have ih := serializeAttrs_no_gt rest (fun x hx => h x (List.mem_cons_of_mem _ hx))
    have ha := h a (List.mem_cons_self _ _)
    have he := (escapeAttr_no_special a.2).2.1
    rw [serializeAttrs]
    intro hm
    rcases List.mem_cons.mp hm with h1 | h1
    · exact absurd h1 (by decide)
    rcases List.mem_append.mp h1 with h2 | h2
    · exact ha h2
    rcases List.mem_cons.mp h2 with h3 | h3
    · exact absurd h3 (by decide)
    rcases List.mem_cons.mp h3 with h4 | h4
    · exact absurd h4 (by decide)
    rcases List.mem_append.mp h4 with h5 | h5
    · exact he h5
    rcases List.mem_cons.mp h5 with h6 | h6
    · exact absurd h6 (by decide)
    · exact ih h6

/-- A data URL holds no quotation mark. -/
theorem dataUrl_no_quote (url : JStr) (h : url.all isDataUrlChar = true) : 34 ∉ url := by
  intro hm
  have := List.all_eq_true.mp h 34 hm
  exact absurd this (by decide)

/-- The exporter of the reference host follows the image rule. -/
theorem refTurndown_image : followsImageRule refTurndown := by
  intro e url _ hurl
  have hq := dataUrl_no_quote url hurl
  have hgt : 62 ∉ serializeAttrs
      [(js "class", js "yu-stream-editor-editor"),
       (js "contenteditable", if e.isReadonly then js "false" else js "true"),
       (js "data-placeholder", e.placeholder)] := by
    apply serializeAttrs_no_gt
    intro a ha
    simp only [List.mem_cons, List.mem_singleton, List.not_mem_nil, or_false] at ha
    rcases ha with h | h | h
    · rw [h]; show 62 ∉ js "class"; decide
    · rw [h]; show 62 ∉ js "contenteditable"; decide
    · rw [h]; show 62 ∉ js "data-placeholder"; decide
  have hshape : chartOnlyMarkup e url =
      js "<div" ++ (serializeAttrs
        [(js "class", js "yu-stream-editor-editor"),
         (js "contenteditable", if e.isReadonly then js "false" else js "true"),
         (js "data-placeholder", e.placeholder)] ++
        62 :: (js "<img src=\"" ++ (url ++
          34 :: js " alt=\"图表\" class=\"yu-stream-editor-echarts-export-img\"></div>"))) := by
    unfold chartOnlyMarkup surfaceOpenTag
    have h1 : js "\" alt=\"图表\" class=\"yu-stream-editor-echarts-export-img\">" ++ js "</div>"
        = 34 :: js " alt=\"图表\" class=\"yu-stream-editor-echarts-export-img\"></div>" := by
      decide
    have h2 : (60 : Nat) :: (js "div" ++ serializeAttrs
        [(js "class", js "yu-stream-editor-editor"),
         (js "contenteditable", if e.isReadonly then js "false" else js "true"),
         (js "data-placeholder", e.placeholder)] ++ [62])
        = js "<div" ++ (serializeAttrs
        [(js "class", js "yu-stream-editor-editor"),
         (js "contenteditable", if e.isReadonly then js "false" else js "true"),
         (js "data-placeholder", e.placeholder)] ++ [62]) := by
      have h3 : js "<div" = 60 :: js "div" := by decide
      rw [h3]
      simp only [List.cons_append, List.append_assoc]
    rw [h2, ← h1]
    simp only [List.append_assoc, List.cons_append, List.nil_append]
  have hclose : (34 : Nat) :: js " alt=\"图表\" class=\"yu-stream-editor-echarts-export-img\"></div>"
      = js "\" alt=\"图表\" class=\"yu-stream-editor-echarts-export-img\"></div>" := by decide
  rw [hshape]
  unfold refTurndown
  rw [dropPrefix_append]
  simp only
  rw [dropWhile_until 62 _ _ hgt, List.drop_one, List.tail_cons, dropPrefix_append]
  simp only
  rw [dropWhile_until 34 _ _ hq, takeWhile_until 34 _ _ hq, if_pos hclose]

/-- The chart image for a snapshot that is a data URL. -/
theorem chartImage_dataUrl (el : Node) (h1 : getChartDataUrl el ≠ [])
    (h2 : (getChartDataUrl el).all isDataUrlChar = true) :
    chartImage el = js "<img src=\"" ++ getChartDataUrl el ++
      js "\" alt=\"图表\" class=\"yu-stream-editor-echarts-export-img\">" := by
  unfold chartImage
  rw [if_neg h1, replaceAll_not_mem 34 _ _ (dataUrl_no_quote _ h2)]

/-- The image line is left by `trim`. -/
theorem trim_imageLine (url : JStr) :
    trim (js "![图表](" ++ url ++ js ")") = js "![图表](" ++ url ++ js ")" := by
  have e1 : js "![图表](" ++ url ++ js ")" = 33 :: (js "[图表](" ++ url ++ js ")") := by
    have : js "![图表](" = 33 :: js "[图表](" := by decide
    rw [this]
    simp only [List.cons_append]
  have e2 : js "![图表](" ++ url ++ js ")" = (js "![图表](" ++ url) ++ [41] := by
    have : js ")" = [41] := by decide
    rw [this]
  exact trim_eq_self _ 33 _ e1 (by decide) _ 41 e2 (by decide)

/-- C3 (live chart-only export), as the code has it: for every buffer that
is a single valid chart fence, parsing it in live mode gives one chart wrap,
which the mounter takes at once; the export rule for pending charts does not
apply to it, and `getHtml` serializes it as the surface element around the
chart image.  When the chart gives a snapshot, a data URL, the markup is the
surface element around one `img` with this source, and `getMarkdown`, with an
exporter that follows the image rule of Turndown, returns the image line
`![图表](snapshot)`, which is no fence; when the chart gives no snapshot the
markup is the surface element around the paragraph `[图表未渲染]`.  In both
cases markup and exported text are the same for every other chart fence
whose chart gives the same snapshot, whatever the exporter: the
configuration is not in them. -/
theorem C3_live_export_is_image (H : Host)
    (turndown : (Node → Bool) → (Node → JStr) → JStr → Option JStr)
    (e : Editor) (b body : JStr) (info : Option JStr) (v : Json)
    (hm : e.hasEditor = true) (hce : e.chartEnabled = true)
    (htag : toLowerCase H.platform (trim (info.getD [])) = js "echarts" ∨
      toLowerCase H.platform (trim (info.getD [])) = js "chart")
    (hv : jsonParse (trim body) = some v) (hu : v.unitsOk = true)
    (hdoc : ∀ (hook : JStr → Option JStr → Option JStr) (html : JStr),
      hook body info = some html → H.markedParse hook b = some html)
    (hdom : H.parseFragment (liveTemplate (base64Encode (utf8Encode (stringify H.platform v))))
      = [liveWrapNode (base64Encode (utf8Encode (stringify H.platform v)))])
    (hrule : followsImageRule turndown) :
    (setMarkdown H e (some (Json.str b))).content
      = [mountWrap H (liveWrapNode (base64Encode (utf8Encode (stringify H.platform v))))] ∧
    echartsPendingFilter
      (mountWrap H (liveWrapNode (base64Encode (utf8Encode (stringify H.platform v))))) = false ∧
    getHtml (setMarkdown H e (some (Json.str b)))
      = surfaceOpenTag e ++
        chartImage (mountWrap H
          (liveWrapNode (base64Encode (utf8Encode (stringify H.platform v))))) ++
        js "</div>" ∧
    (getChartDataUrl (mountWrap H
          (liveWrapNode (base64Encode (utf8Encode (stringify H.platform v))))) ≠ [] →
      (getChartDataUrl (mountWrap H
          (liveWrapNode (base64Encode (utf8Encode (stringify H.platform v)))))).all
        isDataUrlChar = true →
      getHtml (setMarkdown H e (some (Json.str b)))
        = chartOnlyMarkup e (getChartDataUrl (mountWrap H
            (liveWrapNode (base64Encode (utf8Encode (stringify H.platform v)))))) ∧
      getMarkdown turndown (setMarkdown H e (some (Json.str b)))
        = js "![图表](" ++ getChartDataUrl (mountWrap H
            (liveWrapNode (base64Encode (utf8Encode (stringify H.platform v))))) ++ js ")" ∧
      (getMarkdown turndown (setMarkdown H e (some (Json.str b)))).head? = some 33) ∧
    (getChartDataUrl (mountWrap H
          (liveWrapNode (base64Encode (utf8Encode (stringify H.platform v))))) = [] →
      getHtml (setMarkdown H e (some (Json.str b)))
        = surfaceOpenTag e ++ js "<p>[图表未渲染]</p>" ++ js "</div>") ∧
    (∀ (anyExporter : (Node → Bool) → (Node → JStr) → JStr → Option JStr)
        (b2 body2 : JStr) (info2 : Option JStr) (v2 : Json),
      (toLowerCase H.platform (trim (info2.getD [])) = js "echarts" ∨
        toLowerCase H.platform (trim (info2.getD [])) = js "chart") →
      jsonParse (trim body2) = some v2 → v2.unitsOk = true →
      (∀ (hook : JStr → Option JStr → Option JStr) (html : JStr),
        hook body2 info2 = some html → H.markedParse hook b2 = some html) →
      H.parseFragment (liveTemplate (base64Encode (utf8Encode (stringify H.platform v2))))
        = [liveWrapNode (base64Encode (utf8Encode (stringify H.platform v2)))] →
      getChartDataUrl (mountWrap H
          (liveWrapNode (base64Encode (utf8Encode (stringify H.platform v2)))))
        = getChartDataUrl (mountWrap H
          (liveWrapNode (base64Encode (utf8Encode (stringify H.platform v))))) →
      getHtml (setMarkdown H e (some (Json.str b2)))
        = getHtml (setMarkdown H e (some (Json.str b))) ∧
      getMarkdown anyExporter (setMarkdown H e (some (Json.str b2)))
        = getMarkdown anyExporter (setMarkdown H e (some (Json.str b)))) := by
  obtain ⟨h1, h2, h3, h4⟩ := setMarkdown_chartOnly H turndown e b body info v hm hce htag hv hu
    hdoc hdom
  refine ⟨h1, h2, h3, ?_, ?_, ?_⟩
  · intro hs hd
    have himg := chartImage_dataUrl _ hs hd
    have hhtml : getHtml (setMarkdown H e (some (Json.str b)))
        = chartOnlyMarkup e (getChartDataUrl (mountWrap H
            (liveWrapNode (base64Encode (utf8Encode (stringify H.platform v)))))) := by
      rw [h3, himg]
      rfl
    have hmd : getMarkdown turndown (setMarkdown H e (some (Json.str b)))
        = js "![图表](" ++ getChartDataUrl (mountWrap H
            (liveWrapNode (base64Encode (utf8Encode (stringify H.platform v))))) ++ js ")" := by
      rw [h4, himg]
      have hr := hrule e _ hs hd
      unfold chartOnlyMarkup at hr
      rw [hr]
      exact trim_imageLine _
    refine ⟨hhtml, hmd, ?_⟩
    rw [hmd]
    rfl
  · intro hs
    rw [h3]
    unfold chartImage
    rw [if_pos hs]
  · intro anyExporter b2 body2 info2 v2 htag2 hv2 hu2 hdoc2 hdom2 hsame
    obtain ⟨_, _, g3, g4⟩ := setMarkdown_chartOnly H anyExporter e b2 body2 info2 v2 hm hce
      htag2 hv2 hu2 hdoc2 hdom2
    obtain ⟨_, _, _, k4⟩ := setMarkdown_chartOnly H anyExporter e b body info v hm hce htag hv hu
      hdoc hdom
    have hci : chartImage (mountWrap H
          (liveWrapNode (base64Encode (utf8Encode (stringify H.platform v2)))))
        = chartImage (mountWrap H
          (liveWrapNode (base64Encode (utf8Encode (stringify H.platform v))))) := by
      unfold chartImage
      rw [hsame]
    exact ⟨by rw [g3, h3, hci], by rw [g4, k4, hci]⟩

set_option maxRecDepth 100000 in
theorem C3_live_export_is_image_witness :
    freshEditor.hasEditor = true ∧ freshEditor.chartEnabled = true ∧
    jsonParse (trim (js "\x7b\"a\":1\x7d")) = some (Json.obj [(js "a", Json.num 1)]) ∧
    followsImageRule refTurndown ∧
    getChartDataUrl (mountWrap refHost (liveWrapNode (base64Encode (utf8Encode
        (stringify refHost.platform (Json.obj [(js "a", Json.num 1)])))))) = refSnapshot ∧
    getHtml (setMarkdown refHost freshEditor (some (Json.str chartOnlyBufferA)))
      = chartOnlyMarkup freshEditor refSnapshot ∧
    getMarkdown refTurndown (setMarkdown refHost freshEditor (some (Json.str chartOnlyBufferA)))
      = js "![图表](data:image/png;base64,iVBORw0KGgo=)" ∧
    getMarkdown refTurndown (setMarkdown refHost freshEditor (some (Json.str chartOnlyBufferB)))
      = js "![图表](data:image/png;base64,iVBORw0KGgo=)" ∧
    (getChartDataUrl (mountWrap refHost (liveWrapNode (base64Encode (utf8Encode
          (stringify refHost.platform (Json.obj [(js "a", Json.num 1)])))))) ≠ [] →
      (getChartDataUrl (mountWrap refHost (liveWrapNode (base64Encode (utf8Encode
          (stringify refHost.platform (Json.obj [(js "a", Json.num 1)]))))))).all
        isDataUrlChar = true →
      getHtml (setMarkdown refHost freshEditor (some (Json.str chartOnlyBufferA)))
        = chartOnlyMarkup freshEditor (getChartDataUrl (mountWrap refHost
            (liveWrapNode (base64Encode (utf8Encode
              (stringify refHost.platform (Json.obj [(js "a", Json.num 1)]))))))) ∧
      getMarkdown refTurndown (setMarkdown refHost freshEditor (some (Json.str chartOnlyBufferA)))
        = js "![图表](" ++ getChartDataUrl (mountWrap refHost
            (liveWrapNode (base64Encode (utf8Encode
              (stringify refHost.platform (Json.obj [(js "a", Json.num 1)])))))) ++ js ")" ∧
      (getMarkdown refTurndown
        (setMarkdown refHost freshEditor (some (Json.str chartOnlyBufferA)))).head? = some 33) :=
  ⟨rfl, rfl, by rfl, refTurndown_image, by decide, by decide, by decide, by decide,
   (C3_live_export_is_image refHost refTurndown freshEditor chartOnlyBufferA
      (js "\x7b\"a\":1\x7d") (some (js "chart")) (Json.obj [(js "a", Json.num 1)])
      rfl rfl (Or.inr (by decide)) (by rfl) (by decide)
      (by
        intro hook html hh
        show refMarkedParse hook chartOnlyBufferA = some html
        have h1 : refMarkedParse hook chartOnlyBufferA =
            (match hook (js "\x7b\"a\":1\x7d") (some (js "chart")) with
             | some html => some html
             | none => some (js "<pre><code>" ++ escapeText (js "\x7b\"a\":1\x7d") ++
                 js "\n</code></pre>\n")) := by rfl
        rw [h1, hh])
      (by rfl) refTurndown_image).2.2.2.1⟩

/-! # Claims: `getHtml` as a run over the page -/

theorem serializeRun_element {W : Type} (E : Engine W) (tag : JStr)
    (attrs : List (JStr × JStr)) (children : List Node) (surface : Option Surface)
    (p : Page W) :
    serializeRun E (Node.element tag attrs children surface) p =
      if isChartWrap (Node.element tag attrs children surface) then
        chartImageRun E (Node.element tag attrs children surface) p
      else if voidTags.contains tag then (60 :: (tag ++ serializeAttrs attrs ++ [62]), p)
      else
        (60 :: (tag ++ serializeAttrs attrs ++ [62] ++ (serializeChildrenRun E children p).1 ++
            (60 :: 47 :: tag) ++ [62]),
          (serializeChildrenRun E children p).2) := by
  rw [serializeRun]

theorem serializeChildrenRun_cons {W : Type} (E : Engine W) (n : Node) (rest : List Node)
    (p : Page W) :
    serializeChildrenRun E (n :: rest) p =
      ((serializeRun E n p).1 ++ (serializeChildrenRun E rest (serializeRun E n p).2).1,
        (serializeChildrenRun E rest (serializeRun E n p).2).2) := by
  rw [serializeChildrenRun]

/-- The call `_getChartDataUrl` leaves the editor as it is. -/
theorem getChartDataUrlRun_editor {W : Type} (E : Engine W) (wrap : Node) (p : Page W) :
    (getChartDataUrlRun E wrap p).2.editor = p.editor := by
  unfold getChartDataUrlRun
  split
  · rfl
  · split
    · rfl
    · split
      · rfl
      · split <;> rfl

/-- The call `_getChartDataUrl` with an engine that answers with the data URL
a surface holds. -/
theorem getChartDataUrlRun_held {W : Type} (E : Engine W)
    (h : ∀ w s, (E.snapshot w s).1 = s.dataURL) (wrap : Node) (p : Page W) :
    (getChartDataUrlRun E wrap p).1 = getChartDataUrl wrap := by
  have inner : ∀ (wrap : Node),
      (match Node.findDescendant (Node.hasClass containerClass) wrap with
       | none => (([] : JStr), p)
       | some container =>
         match Node.findDescendant (Node.hasTag (js "canvas")) container with
         | none => ([], p)
         | some canvas =>
           match canvas with
           | .element _ _ _ (some s) =>
             ((E.snapshot p.engine s).1.getD [],
               { p with engine := (E.snapshot p.engine s).2 })
           | _ => ([], p)).1
      = (match Node.findDescendant (Node.hasClass containerClass) wrap with
         | none => []
         | some container =>
           match Node.findDescendant (Node.hasTag (js "canvas")) container with
           | none => []
           | some canvas => canvas.dataURL) := by
    intro wrap
    cases Node.findDescendant (Node.hasClass containerClass) wrap with
    | none => rfl
    | some container =>
      simp only
      cases Node.findDescendant (Node.hasTag (js "canvas")) container with
      | none => rfl
      | some canvas =>
        simp only
        cases canvas with
        | text d => rfl
        | other => rfl
        | element t a c s =>
          cases s with
          | none => rfl
          | some s => simp only [Node.dataURL, h]
  cases wrap with
  | text d => exact inner (Node.text d)
  | other => exact inner Node.other
  | element t a c s =>
    cases s with
    | none => exact inner (Node.element t a c none)
    | some chart =>
      show (E.snapshot p.engine chart).1.getD [] = chart.dataURL.getD []
      rw [h]

/-- The call `_getChartDataUrl` with an engine whose answers do not depend on
its state. -/
theorem getChartDataUrlRun_same {W : Type} (E : Engine W)
    (h : ∀ (w w2 : W) (s : Surface), (E.snapshot w s).1 = (E.snapshot w2 s).1)
    (wrap : Node) (p q : Page W) :
    (getChartDataUrlRun E wrap p).1 = (getChartDataUrlRun E wrap q).1 := by
  unfold getChartDataUrlRun
  split
  · simp only [h p.engine q.engine]
  · split
    · rfl
    · split
      · rfl
      · split
        · simp only [h p.engine q.engine]
        · rfl

theorem chartImageRun_editor {W : Type} (E : Engine W) (el : Node) (p : Page W) :
    (chartImageRun E el p).2.editor = p.editor := by
  unfold chartImageRun
  exact getChartDataUrlRun_editor E el p

theorem chartImageRun_held {W : Type} (E : Engine W)
    (h : ∀ w s, (E.snapshot w s).1 = s.dataURL) (el : Node) (p : Page W) :
    (chartImageRun E el p).1 = chartImage el := by
  unfold chartImageRun chartImage
  simp only [getChartDataUrlRun_held E h el p]

theorem chartImageRun_same {W : Type} (E : Engine W)
    (h : ∀ (w w2 : W) (s : Surface), (E.snapshot w s).1 = (E.snapshot w2 s).1)
    (el : Node) (p q : Page W) :
    (chartImageRun E el p).1 = (chartImageRun E el q).1 := by
  unfold chartImageRun
  simp only [getChartDataUrlRun_same E h el p q]

mutual
/-- The serializer leaves the editor as it is. -/
theorem serializeRun_editor {W : Type} (E : Engine W) : ∀ (n : Node) (p : Page W),
    (serializeRun E n p).2.editor = p.editor
  | .text _, _ => by rw [serializeRun]
  | .other, _ => by rw [serializeRun]
  | .element tag attrs children surface, p => by
    rw [serializeRun_element]
    by_cases h1 : isChartWrap (Node.element tag attrs children surface) = true
    · rw [if_pos h1]; exact chartImageRun_editor E _ p
    · rw [if_neg h1]
      by_cases h2 : voidTags.contains tag = true
      · rw [if_pos h2]
      · rw [if_neg h2]
        exact serializeChildrenRun_editor E children p
/-- The loop over the child nodes leaves the editor as it is. -/
theorem serializeChildrenRun_editor {W : Type} (E : Engine W) :
    ∀ (ns : List Node) (p : Page W), (serializeChildrenRun E ns p).2.editor = p.editor
  | [], _ => by rw [serializeChildrenRun]
  | n :: rest, p => by
    rw [serializeChildrenRun_cons]
    show (serializeChildrenRun E rest (serializeRun E n p).2).2.editor = p.editor
    rw [serializeChildrenRun_editor E rest, serializeRun_editor E n p]
end

mutual
/-- With an engine that answers with the data URL a surface holds, the run
of the serializer returns the string `serialize` gives. -/
theorem serializeRun_held {W : Type} (E : Engine W)
    (h : ∀ w s, (E.snapshot w s).1 = s.dataURL) : ∀ (n : Node) (p : Page W),
    (serializeRun E n p).1 = serialize n
  | .text _, _ => by rw [serializeRun, serialize]
  | .other, _ => by rw [serializeRun, serialize]
  | .element tag attrs children surface, p => by
    rw [serializeRun_element, serialize_element]
    by_cases h1 : isChartWrap (Node.element tag attrs children surface) = true
    · rw [if_pos h1, if_pos h1]; exact chartImageRun_held E h _ p
    · rw [if_neg h1, if_neg h1]
      by_cases h2 : voidTags.contains tag = true
      · rw [if_pos h2, if_pos h2]
      · rw [if_neg h2, if_neg h2]
        show 60 :: (tag ++ serializeAttrs attrs ++ [62] ++ (serializeChildrenRun E children p).1 ++
            (60 :: 47 :: tag) ++ [62]) = _
        rw [serializeChildrenRun_held E h children p]
/-- The same for the loop over the child nodes. -/
theorem serializeChildrenRun_held {W : Type} (E : Engine W)
    (h : ∀ w s, (E.snapshot w s).1 = s.dataURL) : ∀ (ns : List Node) (p : Page W),
    (serializeChildrenRun E ns p).1 = serializeChildren ns
  | [], _ => by rw [serializeChildrenRun, serializeChildren]
  | n :: rest, p => by
    rw [serializeChildrenRun_cons, serializeChildren]
    show (serializeRun E n p).1 ++ (serializeChildrenRun E rest (serializeRun E n p).2).1 = _
    rw [serializeRun_held E h n p, serializeChildrenRun_held E h rest]
end

mutual
/-- With an engine whose answers do not depend on its state, the string the
serializer returns does not depend on the page it starts on. -/
theorem serializeRun_same {W : Type} (E : Engine W)
    (h : ∀ (w w2 : W) (s : Surface), (E.snapshot w s).1 = (E.snapshot w2 s).1) :
    ∀ (n : Node) (p q : Page W), (serializeRun E n p).1 = (serializeRun E n q).1
  | .text _, _, _ => by rw [serializeRun, serializeRun]
  | .other, _, _ => by rw [serializeRun, serializeRun]
  | .element tag attrs children surface, p, q => by
    rw [serializeRun_element, serializeRun_element]
    by_cases h1 : isChartWrap (Node.element tag attrs children surface) = true
    · rw [if_pos h1, if_pos h1]; exact chartImageRun_same E h _ p q
    · rw [if_neg h1, if_neg h1]
      by_cases h2 : voidTags.contains tag = true
      · rw [if_pos h2, if_pos h2]
      · rw [if_neg h2, if_neg h2]
        show 60 :: (tag ++ serializeAttrs attrs ++ [62] ++ (serializeChildrenRun E children p).1 ++
            (60 :: 47 :: tag) ++ [62]) =
          60 :: (tag ++ serializeAttrs attrs ++ [62] ++ (serializeChildrenRun E children q).1 ++
            (60 :: 47 :: tag) ++ [62])
        rw [serializeChildrenRun_same E h children p q]
/-- The same for the loop over the child nodes. -/
theorem serializeChildrenRun_same {W : Type} (E : Engine W)
    (h : ∀ (w w2 : W) (s : Surface), (E.snapshot w s).1 = (E.snapshot w2 s).1) :
    ∀ (ns : List Node) (p q : Page W),
      (serializeChildrenRun E ns p).1 = (serializeChildrenRun E ns q).1
  | [], _, _ => by rw [serializeChildrenRun, serializeChildrenRun]
  | n :: rest, p, q => by
    rw [serializeChildrenRun_cons, serializeChildrenRun_cons]
    show (serializeRun E n p).1 ++ (serializeChildrenRun E rest (serializeRun E n p).2).1 =
      (serializeRun E n q).1 ++ (serializeChildrenRun E rest (serializeRun E n q).2).1
    rw [serializeRun_same E h n p q,
      serializeChildrenRun_same E h rest (serializeRun E n p).2 (serializeRun E n q).2]
end

/-- C22 (serialize idempotence): `getHtml`, run on a page that holds the
editor and the chart engine, leaves the editor as it is (the tree, the stream
buffer, the mode and all else of its state), whatever the snapshot calls do
to the engine; this is the state the operation `getHtml` has in a sequence of
calls.  When the answers of the engine to the snapshot calls do not depend on
the state the engine is in (the same snapshot results), a second call, on the
page the first one left, returns the same string as the first; and when the
engine answers with the data URL each surface holds, this string is the one
the function `getHtml` gives for the editor. -/
theorem C22_getHtml_idempotent {W : Type} (E : Engine W) (p : Page W)
    (hsame : ∀ (w w2 : W) (s : Surface), (E.snapshot w s).1 = (E.snapshot w2 s).1) :
    (getHtmlRun E p).2.editor = p.editor ∧
    (getHtmlRun E (getHtmlRun E p).2).2.editor = p.editor ∧
    (getHtmlRun E (getHtmlRun E p).2).1 = (getHtmlRun E p).1 ∧
    (∀ H : Host, applyOp H p.editor Op.getHtml = (getHtmlRun E p).2.editor) ∧
    ((∀ w s, (E.snapshot w s).1 = s.dataURL) → (getHtmlRun E p).1 = getHtml p.editor) := by
  have h1 : ∀ q : Page W, (getHtmlRun E q).2.editor = q.editor := by
    intro q
    unfold getHtmlRun
    by_cases hm : q.editor.hasEditor = true
    · rw [if_pos hm]; exact serializeRun_editor E _ q
    · rw [if_neg hm]
  have h2 : (getHtmlRun E (getHtmlRun E p).2).1 = (getHtmlRun E p).1 := by
    have he := h1 p
    unfold getHtmlRun at he ⊢
    by_cases hm : p.editor.hasEditor = true
    · rw [if_pos hm] at he ⊢
      rw [he, if_pos hm]
      exact serializeRun_same E hsame _ _ _
    · rw [if_neg hm]
      simp only [hm, if_false]
      rfl
  refine ⟨h1 p, by rw [h1, h1], h2, fun H => (h1 p).symm, ?_⟩
  intro hheld
  unfold getHtmlRun getHtml
  by_cases hm : p.editor.hasEditor = true
  · rw [if_pos hm, if_pos hm]; exact serializeRun_held E hheld _ p
  · rw [if_neg hm, if_neg hm]

set_option maxRecDepth 100000 in
/-- Without the same snapshot results two calls differ: the page holds an
engine whose first snapshot call answers and whose later calls throw; the
first call of `getHtml` returns the chart image, the second the placeholder;
the editor is as it was after both. -/
theorem getHtmlRun_failingEngine :
    (getHtmlRun failingEngine { editor := chartAndTextEditor, engine := 0 }).1
      = surfaceOpenTag chartAndTextEditor ++ js "<p>a&lt;b</p>" ++
        js "<img src=\"data:image/png;base64,iVBORw0KGgo=\" alt=\"图表\" class=\"yu-stream-editor-echarts-export-img\">" ++
        js "</div>" ∧
    (getHtmlRun failingEngine
        (getHtmlRun failingEngine { editor := chartAndTextEditor, engine := 0 }).2).1
      = surfaceOpenTag chartAndTextEditor ++ js "<p>a&lt;b</p>" ++ js "<p>[图表未渲染]</p>" ++
        js "</div>" ∧
    (getHtmlRun failingEngine
        (getHtmlRun failingEngine { editor := chartAndTextEditor, engine := 0 }).2).2.engine
      = 2 := by
  decide

set_option maxRecDepth 100000 in
theorem C22_getHtml_idempotent_witness :
    (∀ (w w2 : Nat) (s : Surface),
      (countingEngine.snapshot w s).1 = (countingEngine.snapshot w2 s).1) ∧
    (getHtmlRun countingEngine { editor := chartAndTextEditor, engine := 0 }).1
      = surfaceOpenTag chartAndTextEditor ++ js "<p>a&lt;b</p>" ++
        js "<img src=\"data:image/png;base64,iVBORw0KGgo=\" alt=\"图表\" class=\"yu-stream-editor-echarts-export-img\">" ++
        js "</div>" ∧
    (getHtmlRun countingEngine { editor := chartAndTextEditor, engine := 0 }).2.engine = 1 ∧
    ((getHtmlRun countingEngine { editor := chartAndTextEditor, engine := 0 }).2.editor
      = chartAndTextEditor ∧
    (getHtmlRun countingEngine
        (getHtmlRun countingEngine { editor := chartAndTextEditor, engine := 0 }).2).2.editor
      = chartAndTextEditor ∧
    (getHtmlRun countingEngine
        (getHtmlRun countingEngine { editor := chartAndTextEditor, engine := 0 }).2).1
      = (getHtmlRun countingEngine { editor := chartAndTextEditor, engine := 0 }).1 ∧
    (∀ H : Host, applyOp H chartAndTextEditor Op.getHtml
      = (getHtmlRun countingEngine { editor := chartAndTextEditor, engine := 0 }).2.editor) ∧
    ((∀ w s, (countingEngine.snapshot w s).1 = s.dataURL) →
      (getHtmlRun countingEngine { editor := chartAndTextEditor, engine := 0 }).1
        = getHtml chartAndTextEditor)) :=
  ⟨fun _ _ _ => rfl, by decide, by decide,
    C22_getHtml_idempotent countingEngine { editor := chartAndTextEditor, engine := 0 }
      (fun _ _ _ => rfl)⟩

end YuStreamEditor
